import Mathlib

/-! # Nexus order book: the matching engine

A shallow embedding of `backend/internal/domain/order.go`,
`backend/internal/orderbook/heap.go` and `backend/internal/orderbook/engine.go`,
together with the parts of the Go standard library they call
(`container/heap`, `math/big`), and of `backend/pkg/eip712`.

Conventions of the embedding.

* A Go pointer is an address (a `Nat`); the objects it points to live in the
  memories `OrderBook.orders` (the `domain.Order` objects) and
  `OrderBook.entries` (the `OrderEntry` objects).  Mutation through a pointer
  is an update of the memory at that address.
* `*big.Int` is `Int`.  `big.Int.Div` is Euclidean division, which is `/` on
  `Int`; a zero divisor makes it panic.
* A `float64` that is not NaN is represented by its IEEE-754 bit pattern read
  as a sign-magnitude integer (`F64`).  On such codes `<`, `>` and `!=` of
  floats are `<`, `>` and `≠` of integers (the two zeros share the code `0`).
* A Go panic, and nothing else, is `none`.  The loops of the source are
  unbounded `for` loops; here they recurse on a fuel argument and running out
  of fuel is `none` as well, so that a result `some r` is always the result of
  the complete Go execution.
* `time.Time` is an integer instant, `Before` is `<`.
* `sync.RWMutex` is not modelled: every operation runs alone.
-/

namespace Nexus

/-! ## `domain/order.go` -/

abbrev Side := String

def SideBuy : Side := "buy"
def SideSell : Side := "sell"

abbrev OrderStatus := String

def OrderStatusOpen : OrderStatus := "open"
def OrderStatusPartiallyFilled : OrderStatus := "partially_filled"
def OrderStatusFilled : OrderStatus := "filled"
def OrderStatusCancelled : OrderStatus := "cancelled"

/-- The struct `domain.Order`. -/
structure Order where
  ID : String := ""
  Maker : String := ""
  TokenSell : String := ""
  TokenBuy : String := ""
  AmountSell : Int
  AmountBuy : Int
  Expiry : Nat := 0
  Nonce : Nat := 0
  Salt : Int := 0
  Signature : String := ""
  Side : Side
  Status : OrderStatus := OrderStatusOpen
  FilledBase : Int := 0
  Pair : String := ""
  CreatedAt : Int := 0
  UpdatedAt : Int := 0
  deriving DecidableEq, Inhabited

/-- Code of a non-NaN `float64`: the IEEE-754 bit pattern without its sign bit,
negated for a negative float. -/
abbrev F64 := Int

/-- Code of `+Inf`. -/
def F64.inf : F64 := 2047 * 2 ^ 52

/-- Helper of `bitLen`. -/
def bitLenAux : Nat → Nat → Nat
  | 0, _ => 0
  | fuel + 1, n => if n = 0 then 0 else bitLenAux fuel (n / 2) + 1

/-- `big.Int.BitLen` of a magnitude. -/
def bitLen (n : Nat) : Nat := bitLenAux n n

/-- Nearest integer to `n / d`, ties to the even one. -/
def roundHalfEven (n d : Nat) : Nat :=
  let q := n / d
  let r := n % d
  if 2 * r < d then q else if d < 2 * r then q + 1 else if q % 2 = 0 then q else q + 1

/-- The integer `e` with `2 ^ e ≤ a / b < 2 ^ (e + 1)`, for positive `a` and `b`. -/
def floorLog2 (a b : Nat) : Int :=
  let e : Int := (bitLen a : Int) - (bitLen b : Int)
  if 0 ≤ e then (if b * 2 ^ e.toNat ≤ a then e else e - 1)
  else (if b ≤ a * 2 ^ (-e).toNat then e else e - 1)

/-- Nearest integer (ties to even) to `(a / b) * 2 ^ s`. -/
def roundScaled (a b : Nat) (s : Int) : Nat :=
  if 0 ≤ s then roundHalfEven (a * 2 ^ s.toNat) b else roundHalfEven a (b * 2 ^ (-s).toNat)

/-- The value of `new(big.Float).Quo(x, y)` for `x = SetInt(a)`, `y = SetInt(b)` with
`a, b > 0`: the quotient rounded (to nearest, ties to even) to the precision
`max(64, BitLen(a), BitLen(b))` that `SetInt` and `Quo` choose.  The result `(m, x)`
stands for `m * 2 ^ x`. -/
def bigFloatQuo (a b : Nat) : Nat × Int :=
  let prec := max 64 (max (bitLen a) (bitLen b))
  let s : Int := (prec : Int) - 1 - floorLog2 a b
  (roundScaled a b s, -s)

/-- `(*big.Float).Float64` of the positive value `m * 2 ^ x`: IEEE-754 rounding to
nearest even, with gradual underflow and overflow to `+Inf`. -/
def bigFloatFloat64 (m : Nat) (x : Int) : F64 :=
  let a := if 0 ≤ x then m * 2 ^ x.toNat else m
  let b := if 0 ≤ x then 1 else 2 ^ (-x).toNat
  let e := max (floorLog2 a b) (-1022)
  let code : Int := (e + 1022) * 2 ^ 52 + (roundScaled a b (52 - e) : Int)
  min code F64.inf

/-- The expression `new(big.Float).Quo(SetInt(num), SetInt(den)).Float64()`.
`Quo` panics on `0 / 0`. -/
def quoFloat64 (num den : Int) : Option F64 :=
  if num = 0 then (if den = 0 then none else some 0)
  else if den = 0 then some (Int.sign num * F64.inf)
  else
    let r := bigFloatQuo num.natAbs den.natAbs
    some (Int.sign num * Int.sign den * bigFloatFloat64 r.1 r.2)

/-- `Order.Price`. -/
def Order.Price (o : Order) : Option F64 :=
  if o.Side = SideBuy then quoFloat64 o.AmountSell o.AmountBuy
  else quoFloat64 o.AmountBuy o.AmountSell

/-- `Order.RemainingBase`. -/
def Order.RemainingBase (o : Order) : Int :=
  if o.Side = SideBuy then o.AmountBuy - o.FilledBase
  else o.AmountSell - o.FilledBase

/-! ## `orderbook/heap.go` -/

/-- The struct `OrderEntry`; `Order` is a pointer into the order memory. -/
structure OrderEntry where
  Order : Nat
  Index : Int
  deriving DecidableEq, Inhabited

/-- What the methods of `BuyHeap` and `SellHeap` work on: the slice `h` of
`*OrderEntry` and the memory of the `OrderEntry` objects. -/
structure HeapMem where
  entries : Nat → OrderEntry
  h : List Nat

/-- `BuyHeap.Less`: higher price first, then earlier `CreatedAt`. -/
def BuyHeap.Less (orders : Nat → Order) (hm : HeapMem) (i j : Nat) : Option Bool :=
  match hm.h[i]?, hm.h[j]? with
  | some ei, some ej =>
    match (orders (hm.entries ei).Order).Price, (orders (hm.entries ej).Order).Price with
    | some pi, some pj =>
      if pi ≠ pj then some (decide (pi > pj))
      else some (decide ((orders (hm.entries ei).Order).CreatedAt
        < (orders (hm.entries ej).Order).CreatedAt))
    | _, _ => none
  | _, _ => none

/-- `SellHeap.Less`: lower price first, then earlier `CreatedAt`. -/
def SellHeap.Less (orders : Nat → Order) (hm : HeapMem) (i j : Nat) : Option Bool :=
  match hm.h[i]?, hm.h[j]? with
  | some ei, some ej =>
    match (orders (hm.entries ei).Order).Price, (orders (hm.entries ej).Order).Price with
    | some pi, some pj =>
      if pi ≠ pj then some (decide (pi < pj))
      else some (decide ((orders (hm.entries ei).Order).CreatedAt
        < (orders (hm.entries ej).Order).CreatedAt))
    | _, _ => none
  | _, _ => none

/-- `BuyHeap.Swap` and `SellHeap.Swap` (the same code). -/
def HeapMem.Swap (hm : HeapMem) (i j : Nat) : Option HeapMem :=
  match hm.h[i]?, hm.h[j]? with
  | some ei, some ej =>
    let h1 := (hm.h.set i ej).set j ei
    let en1 := Function.update hm.entries ej { hm.entries ej with Index := (i : Int) }
    let en2 := Function.update en1 ei { en1 ei with Index := (j : Int) }
    some { entries := en2, h := h1 }
  | _, _ => none

/-- `BuyHeap.Push` and `SellHeap.Push` (the same code). -/
def HeapMem.Push (hm : HeapMem) (entry : Nat) : HeapMem :=
  { entries := Function.update hm.entries entry
      { hm.entries entry with Index := (hm.h.length : Int) },
    h := hm.h ++ [entry] }

/-- `BuyHeap.Pop` and `SellHeap.Pop` (the same code): the popped entry comes second. -/
def HeapMem.Pop (hm : HeapMem) : Option (HeapMem × Nat) :=
  match hm.h.getLast? with
  | none => none
  | some entry =>
    some ({ entries := Function.update hm.entries entry { hm.entries entry with Index := -1 },
            h := hm.h.dropLast }, entry)

/-! ## `container/heap` -/

/-- `heap.up`; `fuel` bounds the iterations of its `for` loop. -/
def heapUp (less : HeapMem → Nat → Nat → Option Bool) : Nat → HeapMem → Nat → Option HeapMem
  | 0, _, _ => none
  | fuel + 1, hm, j =>
    let i := (j - 1) / 2
    if i = j then some hm
    else
      match less hm j i with
      | none => none
      | some false => some hm
      | some true =>
        match hm.Swap i j with
        | none => none
        | some hm1 => heapUp less fuel hm1 i

/-- The loop of `heap.down`; the result carries the final value of `i`. -/
def heapDownLoop (less : HeapMem → Nat → Nat → Option Bool) :
    Nat → HeapMem → Nat → Nat → Option (HeapMem × Nat)
  | 0, _, _, _ => none
  | fuel + 1, hm, i, n =>
    let j1 := 2 * i + 1
    if n ≤ j1 then some (hm, i)
    else
      match (if j1 + 1 < n then less hm (j1 + 1) j1 else some false) with
      | none => none
      | some b =>
        let j := if b then j1 + 1 else j1
        match less hm j i with
        | none => none
        | some false => some (hm, i)
        | some true =>
          match hm.Swap i j with
          | none => none
          | some hm1 => heapDownLoop less fuel hm1 j n

/-- `heap.down`: reports whether the element moved. -/
def heapDown (less : HeapMem → Nat → Nat → Option Bool) (hm : HeapMem) (i0 n : Nat) :
    Option (HeapMem × Bool) :=
  match heapDownLoop less (n + 1) hm i0 n with
  | none => none
  | some (hm1, i) => some (hm1, decide (i0 < i))

/-- `heap.Push`. -/
def heapPush (less : HeapMem → Nat → Nat → Option Bool) (hm : HeapMem) (x : Nat) :
    Option HeapMem :=
  let hm1 := hm.Push x
  heapUp less (hm1.h.length + 1) hm1 (hm1.h.length - 1)

/-- `heap.Pop`; on an empty heap `Swap(0, -1)` panics. -/
def heapPop (less : HeapMem → Nat → Nat → Option Bool) (hm : HeapMem) :
    Option (HeapMem × Nat) :=
  if hm.h.length = 0 then none
  else
    let n := hm.h.length - 1
    match hm.Swap 0 n with
    | none => none
    | some hm1 =>
      match heapDown less hm1 0 n with
      | none => none
      | some (hm2, _) => hm2.Pop

/-- `heap.Remove`; the index is a Go `int`. -/
def heapRemove (less : HeapMem → Nat → Nat → Option Bool) (hm : HeapMem) (i : Int) :
    Option (HeapMem × Nat) :=
  let n : Int := (hm.h.length : Int) - 1
  if n ≠ i then
    if i < 0 ∨ n < 0 then none
    else
      match hm.Swap i.toNat n.toNat with
      | none => none
      | some hm1 =>
        match heapDown less hm1 i.toNat n.toNat with
        | none => none
        | some (hm2, true) => hm2.Pop
        | some (hm2, false) =>
          match heapUp less (i.toNat + 1) hm2 i.toNat with
          | none => none
          | some hm3 => hm3.Pop
  else hm.Pop

/-! ## `orderbook/engine.go` -/

/-- The struct `MatchResult`; the two orders are pointers. -/
structure MatchResult where
  BuyOrder : Nat
  SellOrder : Nat
  FillAmount : Int
  QuoteAmount : Int
  Price : F64
  deriving DecidableEq, Inhabited

/-- The struct `PriceLevel`. -/
structure PriceLevel where
  Price : F64
  Amount : Int
  Count : Int
  deriving DecidableEq, Inhabited

/-- The struct `OrderBook` (`buys`, `sells`, `orderMap`) together with the two
memories its pointers lead into.  The `domain.Order` objects are shared with the
callers, the `OrderEntry` objects never leave the book.  A Go map is an
association list with at most one pair per key. -/
structure OrderBook where
  orders : Nat → Order
  entries : Nat → OrderEntry
  buys : List Nat
  sells : List Nat
  orderMap : List (String × Nat)

/-- `NewOrderBook`; `heap.Init` of an empty heap does nothing. -/
def NewOrderBook (orders : Nat → Order) : OrderBook :=
  { orders := orders, entries := fun _ => ⟨0, 0⟩, buys := [], sells := [], orderMap := [] }

/-- Map lookup `m[k]`. -/
def mapGet (m : List (String × Nat)) (k : String) : Option Nat := m.lookup k

/-- Map deletion `delete(m, k)`. -/
def mapDelete (m : List (String × Nat)) (k : String) : List (String × Nat) :=
  m.filter (fun kv => kv.1 ≠ k)

/-- Map assignment `m[k] = v`. -/
def mapSet (m : List (String × Nat)) (k : String) (v : Nat) : List (String × Nat) :=
  (k, v) :: mapDelete m k

/-- The address `&OrderEntry{...}` evaluates to: one that no heap slot and no map
value of the book holds.  Entries never leave the book, so such an address cannot be
told apart from newly allocated memory. -/
def OrderBook.newEntry (ob : OrderBook) : Nat :=
  (ob.buys ++ ob.sells ++ ob.orderMap.map Prod.snd).foldr max 0 + 1

/-- The buy heap of the book as the heap methods see it. -/
def OrderBook.buyHeap (ob : OrderBook) : HeapMem := { entries := ob.entries, h := ob.buys }

/-- The sell heap of the book as the heap methods see it. -/
def OrderBook.sellHeap (ob : OrderBook) : HeapMem := { entries := ob.entries, h := ob.sells }

/-- `updateOrderStatus`, on the order object itself. -/
def updateOrderStatus (o : Order) : Order :=
  if o.RemainingBase ≤ 0 then { o with Status := OrderStatusFilled }
  else if 0 < o.FilledBase then { o with Status := OrderStatusPartiallyFilled }
  else o

/-- `minBigInt`. -/
def minBigInt (a b : Int) : Int := if a < b then a else b

/-- The assignment `o.FilledBase = new(big.Int).Add(o.FilledBase, fillAmount)` through
the pointer `p`. -/
def addFilled (orders : Nat → Order) (p : Nat) (fillAmount : Int) : Nat → Order :=
  Function.update orders p { orders p with FilledBase := (orders p).FilledBase + fillAmount }

/-- The call `updateOrderStatus(p)` through the pointer `p`. -/
def updateStatusAt (orders : Nat → Order) (p : Nat) : Nat → Order :=
  Function.update orders p (updateOrderStatus (orders p))

/-- The four statements of a matching loop that apply a fill: `FilledBase` of the
incoming order, `FilledBase` of the resting order, then `updateOrderStatus` of the
incoming and of the resting order. -/
def applyFill (orders : Nat → Order) (taker maker : Nat) (fillAmount : Int) : Nat → Order :=
  updateStatusAt (updateStatusAt (addFilled (addFilled orders taker fillAmount) maker fillAmount)
    taker) maker

/-- What one evaluation of a matching loop does. -/
inductive LoopStep where
  | exit : LoopStep
  | fill : OrderBook → MatchResult → LoopStep

/-- One iteration of the `for` loop of `matchBuy`, its condition included. -/
def matchBuyStep (ob : OrderBook) (buyOrder : Nat) (buyPrice : F64) : Option LoopStep :=
  match ob.sells with
  | [] => some .exit
  | top :: _ =>
    if ¬ 0 < (ob.orders buyOrder).RemainingBase then some .exit
    else
      let bestSell := ob.entries top
      match (ob.orders bestSell.Order).Price with
      | none => none
      | some sellPrice =>
        if buyPrice < sellPrice then some .exit
        else
          let fillAmount := minBigInt (ob.orders buyOrder).RemainingBase
            (ob.orders bestSell.Order).RemainingBase
          if fillAmount ≤ 0 then some .exit
          else if (ob.orders bestSell.Order).AmountSell = 0 then none
          else
            let quoteAmount := fillAmount * (ob.orders bestSell.Order).AmountBuy
              / (ob.orders bestSell.Order).AmountSell
            let m : MatchResult :=
              { BuyOrder := buyOrder, SellOrder := bestSell.Order, FillAmount := fillAmount,
                QuoteAmount := quoteAmount, Price := sellPrice }
            let o4 := applyFill ob.orders buyOrder bestSell.Order fillAmount
            let ob1 := { ob with orders := o4 }
            if (o4 bestSell.Order).Status = OrderStatusFilled then
              match heapPop (SellHeap.Less o4) ob1.sellHeap with
              | none => none
              | some (hm, _) =>
                some (.fill { ob1 with entries := hm.entries, sells := hm.h,
                                       orderMap := mapDelete ob1.orderMap (o4 bestSell.Order).ID } m)
            else some (.fill ob1 m)

/-- One iteration of the `for` loop of `matchSell`, its condition included. -/
def matchSellStep (ob : OrderBook) (sellOrder : Nat) (sellPrice : F64) : Option LoopStep :=
  match ob.buys with
  | [] => some .exit
  | top :: _ =>
    if ¬ 0 < (ob.orders sellOrder).RemainingBase then some .exit
    else
      let bestBuy := ob.entries top
      match (ob.orders bestBuy.Order).Price with
      | none => none
      | some buyPrice =>
        if buyPrice < sellPrice then some .exit
        else
          let fillAmount := minBigInt (ob.orders sellOrder).RemainingBase
            (ob.orders bestBuy.Order).RemainingBase
          if fillAmount ≤ 0 then some .exit
          else if (ob.orders sellOrder).AmountSell = 0 then none
          else
            let quoteAmount := fillAmount * (ob.orders sellOrder).AmountBuy
              / (ob.orders sellOrder).AmountSell
            let m : MatchResult :=
              { BuyOrder := bestBuy.Order, SellOrder := sellOrder, FillAmount := fillAmount,
                QuoteAmount := quoteAmount, Price := buyPrice }
            let o4 := applyFill ob.orders sellOrder bestBuy.Order fillAmount
            let ob1 := { ob with orders := o4 }
            if (o4 bestBuy.Order).Status = OrderStatusFilled then
              match heapPop (BuyHeap.Less o4) ob1.buyHeap with
              | none => none
              | some (hm, _) =>
                some (.fill { ob1 with entries := hm.entries, buys := hm.h,
                                       orderMap := mapDelete ob1.orderMap (o4 bestBuy.Order).ID } m)
            else some (.fill ob1 m)

/-- The `for` loop of `matchBuy` and of `matchSell`: `step` is one iteration, the
matches are appended in the order they are made. -/
def matchLoop (step : OrderBook → Option LoopStep) :
    Nat → OrderBook → List MatchResult → Option (OrderBook × List MatchResult)
  | 0, _, _ => none
  | fuel + 1, ob, ms =>
    match step ob with
    | none => none
    | some .exit => some (ob, ms)
    | some (.fill ob1 m) => matchLoop step fuel ob1 (ms ++ [m])

/-- `OrderBook.matchBuy`.  Every iteration but the last removes a resting sell, so
`len(sells) + 1` iterations are enough. -/
def matchBuy (ob : OrderBook) (buyOrder : Nat) : Option (OrderBook × List MatchResult) :=
  match (ob.orders buyOrder).Price with
  | none => none
  | some buyPrice =>
    matchLoop (fun b => matchBuyStep b buyOrder buyPrice) (ob.sells.length + 1) ob []

/-- `OrderBook.matchSell`. -/
def matchSell (ob : OrderBook) (sellOrder : Nat) : Option (OrderBook × List MatchResult) :=
  match (ob.orders sellOrder).Price with
  | none => none
  | some sellPrice =>
    matchLoop (fun b => matchSellStep b sellOrder sellPrice) (ob.buys.length + 1) ob []

/-- The tail of `OrderBook.AddOrder`: the order rests when something remains. -/
def restOrder (ob : OrderBook) (order : Nat) : Option OrderBook :=
  if 0 < (ob.orders order).RemainingBase ∧ (ob.orders order).Status ≠ OrderStatusFilled then
    let entry := ob.newEntry
    let ob1 := { ob with
      entries := Function.update ob.entries entry { Order := order, Index := 0 },
      orderMap := mapSet ob.orderMap (ob.orders order).ID entry }
    if (ob.orders order).Side = SideBuy then
      match heapPush (BuyHeap.Less ob1.orders) ob1.buyHeap entry with
      | none => none
      | some hm => some { ob1 with entries := hm.entries, buys := hm.h }
    else
      match heapPush (SellHeap.Less ob1.orders) ob1.sellHeap entry with
      | none => none
      | some hm => some { ob1 with entries := hm.entries, sells := hm.h }
  else some ob

/-- `OrderBook.AddOrder`. -/
def AddOrder (ob : OrderBook) (order : Nat) : Option (OrderBook × List MatchResult) :=
  match (if (ob.orders order).Side = SideBuy then matchBuy ob order else matchSell ob order) with
  | none => none
  | some (ob1, ms) =>
    match restOrder ob1 order with
    | none => none
    | some ob2 => some (ob2, ms)

/-- `OrderBook.CancelOrder`; the Go result `(nil, false)` is `none` inside. -/
def CancelOrder (ob : OrderBook) (orderID : String) : Option (OrderBook × Option Nat) :=
  match mapGet ob.orderMap orderID with
  | none => some (ob, none)
  | some entry =>
    let order := (ob.entries entry).Order
    let o1 := Function.update ob.orders order
      { ob.orders order with Status := OrderStatusCancelled }
    let ob1 := { ob with orders := o1, orderMap := mapDelete ob.orderMap orderID }
    if (o1 order).Side = SideBuy then
      match heapRemove (BuyHeap.Less o1) ob1.buyHeap (ob1.entries entry).Index with
      | none => none
      | some (hm, _) => some ({ ob1 with entries := hm.entries, buys := hm.h }, some order)
    else
      match heapRemove (SellHeap.Less o1) ob1.sellHeap (ob1.entries entry).Index with
      | none => none
      | some (hm, _) => some ({ ob1 with entries := hm.entries, sells := hm.h }, some order)

/-! ## Sequences of calls

The callers of the book create every order they add as a new object.  A `World`
is a book together with the number of orders created so far (which is the address
of the next one) and the matches returned so far. -/

/-- A call of the book: `AddOrder` of a newly created order, or `CancelOrder`. -/
inductive Call where
  | add : Order → Call
  | cancel : String → Call

/-- A book, the number of orders created, and all matches returned up to now. -/
structure World where
  ob : OrderBook
  next : Nat
  trades : List MatchResult

/-- The world of `NewOrderBook`: nothing created, nothing matched. -/
def World.init (orders : Nat → Order) : World :=
  { ob := NewOrderBook orders, next := 0, trades := [] }

/-- One call that returns. -/
def World.step (w : World) : Call → Option World
  | .add o =>
    match AddOrder { w.ob with orders := Function.update w.ob.orders w.next o } w.next with
    | none => none
    | some (ob1, ms) => some { ob := ob1, next := w.next + 1, trades := w.trades ++ ms }
  | .cancel id =>
    match CancelOrder w.ob id with
    | none => none
    | some (ob1, _) => some { w with ob := ob1 }

/-- A sequence of calls, each of which returns. -/
def World.run (w : World) : List Call → Option World
  | [] => some w
  | c :: cs =>
    match w.step c with
    | none => none
    | some w1 => w1.run cs

/-- `MatchRun step ob tr ob1`: iterating the loop body `step` from `ob` makes the fills
`tr`, in this order and each paired with the book it was made in, and then leaves the
loop in `ob1`. -/
inductive MatchRun (step : OrderBook → Option LoopStep) :
    OrderBook → List (OrderBook × MatchResult) → OrderBook → Prop where
  | exit {ob : OrderBook} : step ob = some .exit → MatchRun step ob [] ob
  | fill {ob ob1 ob2 : OrderBook} {m : MatchResult} {tr : List (OrderBook × MatchResult)} :
      step ob = some (.fill ob1 m) → MatchRun step ob1 tr ob2 →
      MatchRun step ob ((ob, m) :: tr) ob2

/-- The loop body of `matchBuy` (when `buy`) or of `matchSell`, for the incoming order
at `order` with the price `price`. -/
def sideStep (buy : Bool) (order : Nat) (price : F64) : OrderBook → Option LoopStep :=
  fun b => if buy then matchBuyStep b order price else matchSellStep b order price

/-- The base amount of an order: `AmountBuy` of a buy, `AmountSell` of a sell. -/
def Order.totalBase (o : Order) : Int :=
  if o.Side = SideBuy then o.AmountBuy else o.AmountSell

/-! ## Vocabulary of the proofs -/

/-- What a matching loop does to the heap of the resting side after a fill: `heap.Pop`
when the resting order got filled, nothing otherwise. -/
def PopOrKeep (less : HeapMem → Nat → Nat → Option Bool) (filled : Prop)
    (hm hm1 : HeapMem) : Prop :=
  (filled ∧ ∃ e, heapPop less hm = some (hm1, e)) ∨ (¬ filled ∧ hm1 = hm)

/-- The executions of the loop of `heap.up`, without the fuel. -/
inductive UpRun (less : HeapMem → Nat → Nat → Option Bool) : HeapMem → Nat → HeapMem → Prop where
  | root {hm : HeapMem} {j : Nat} : (j - 1) / 2 = j → UpRun less hm j hm
  | stop {hm : HeapMem} {j : Nat} : (j - 1) / 2 ≠ j → less hm j ((j - 1) / 2) = some false →
      UpRun less hm j hm
  | swap {hm hm1 hm2 : HeapMem} {j : Nat} : (j - 1) / 2 ≠ j →
      less hm j ((j - 1) / 2) = some true → hm.Swap ((j - 1) / 2) j = some hm1 →
      UpRun less hm1 ((j - 1) / 2) hm2 → UpRun less hm j hm2

/-- The smaller child, as the loop of `heap.down` chooses it. -/
def downChild (less : HeapMem → Nat → Nat → Option Bool) (hm : HeapMem) (i n : Nat) :
    Option Nat :=
  match (if 2 * i + 1 + 1 < n then less hm (2 * i + 1 + 1) (2 * i + 1) else some false) with
  | none => none
  | some b => some (if b then 2 * i + 1 + 1 else 2 * i + 1)

/-- The executions of the loop of `heap.down`, without the fuel; the last argument is
the final position. -/
inductive DownRun (less : HeapMem → Nat → Nat → Option Bool) (n : Nat) :
    HeapMem → Nat → HeapMem → Nat → Prop where
  | leaf {hm : HeapMem} {i : Nat} : n ≤ 2 * i + 1 → DownRun less n hm i hm i
  | stop {hm : HeapMem} {i j : Nat} : 2 * i + 1 < n → downChild less hm i n = some j →
      less hm j i = some false → DownRun less n hm i hm i
  | swap {hm hm1 hm2 : HeapMem} {i j k : Nat} : 2 * i + 1 < n →
      downChild less hm i n = some j → less hm j i = some true →
      hm.Swap i j = some hm1 → DownRun less n hm1 j hm2 k → DownRun less n hm i hm2 k

/-- What every heap operation keeps: the `Order` pointer of every entry, the slots from
`n` on, and the contents of the slice up to their order. -/
structure HeapKeep (n : Nat) (hm hm1 : HeapMem) : Prop where
  order : ∀ a, (hm1.entries a).Order = (hm.entries a).Order
  perm : hm1.h.Perm hm.h
  rest : ∀ x, n ≤ x → hm1.h[x]? = hm.h[x]?

/-- The fields of an order that the book never writes. -/
def Order.frozen (o : Order) : Order := { o with Status := "", FilledBase := 0 }

/-- The heap an incoming order is matched against: the sells for a buy. -/
def OrderBook.opp (ob : OrderBook) (buy : Bool) : List Nat := if buy then ob.sells else ob.buys

/-- The heap an incoming order rests in: the buys for a buy. -/
def OrderBook.own (ob : OrderBook) (buy : Bool) : List Nat := if buy then ob.buys else ob.sells

/-- The `Less` of the heap an incoming order is matched against. -/
def oppLess (buy : Bool) (orders : Nat → Order) : HeapMem → Nat → Nat → Option Bool :=
  if buy then SellHeap.Less orders else BuyHeap.Less orders

/-- The `Less` of the heap an incoming order rests in. -/
def ownLess (buy : Bool) (orders : Nat → Order) : HeapMem → Nat → Nat → Option Bool :=
  if buy then BuyHeap.Less orders else SellHeap.Less orders

/-- What one fill of a matching loop does: `taker` is the incoming order, `maker` the
resting one, `buy` tells whether the incoming order is a buy. -/
structure FillFacts (ob : OrderBook) (buy : Bool) (taker : Nat) (ob1 : OrderBook)
    (m : MatchResult) (maker : Nat) : Prop where
  rem_pos : 0 < (ob.orders taker).RemainingBase
  fill_eq : m.FillAmount = minBigInt (ob.orders taker).RemainingBase
    (ob.orders maker).RemainingBase
  fill_pos : 0 < m.FillAmount
  price : (ob.orders maker).Price = some m.Price
  buyRef : m.BuyOrder = if buy then taker else maker
  sellRef : m.SellOrder = if buy then maker else taker
  orders : ob1.orders = applyFill ob.orders taker maker m.FillAmount
  top : ∃ top rest, ob.opp buy = top :: rest ∧ (ob.entries top).Order = maker
  own : ob1.own buy = ob.own buy
  pop : PopOrKeep (oppLess buy ob1.orders) ((ob1.orders maker).Status = OrderStatusFilled)
    { entries := ob.entries, h := ob.opp buy } { entries := ob1.entries, h := ob1.opp buy }
  map : ob1.orderMap = if (ob1.orders maker).Status = OrderStatusFilled
    then mapDelete ob.orderMap (ob1.orders maker).ID else ob.orderMap

/-- What no call of the book undoes while it matches: entries keep their `Order`
pointer, orders keep their frozen fields, and heaps and map only lose elements. -/
structure BookShrink (ob ob1 : OrderBook) : Prop where
  order : ∀ a, (ob1.entries a).Order = (ob.entries a).Order
  frozen : ∀ a, (ob1.orders a).frozen = (ob.orders a).frozen
  buys : ob1.buys.Subperm ob.buys
  sells : ob1.sells.Subperm ob.sells
  map : ob1.orderMap.Sublist ob.orderMap

/-- The heap `hm1` holds the entries of `hm`, in some order, with the same `Order`
pointers. -/
def HeapSame (hm hm1 : HeapMem) : Prop :=
  (∀ a, (hm1.entries a).Order = (hm.entries a).Order) ∧ hm1.h.Perm hm.h

/-- `less` does not panic on the heap, however its entries are arranged. -/
def LessTotal (less : HeapMem → Nat → Nat → Option Bool) (hm : HeapMem) : Prop :=
  ∀ hm1, HeapSame hm hm1 → ∀ i j, i < hm1.h.length → j < hm1.h.length →
    ∃ b, less hm1 i j = some b

/-- Every order of the heap has a price (none has both amounts zero). -/
def PricedHeap (orders : Nat → Order) (hm : HeapMem) : Prop :=
  ∀ e ∈ hm.h, ∃ p, (orders (hm.entries e).Order).Price = some p

/-- The key of the entry in slot `i` of the slice `h`. -/
def kAt {κ : Type} (k : Nat → κ) (h : List Nat) (i : Nat) : κ := k (h.getD i 0)

/-- The first `n` slots of `h` are a heap for the keys `k`: no slot is below its parent
slot `(j - 1) / 2`. -/
def HeapOrderedN {κ : Type} [LinearOrder κ] (k : Nat → κ) (h : List Nat) (n : Nat) : Prop :=
  ∀ j, 0 < j → j < n → kAt k h ((j - 1) / 2) ≤ kAt k h j

/-- `less` compares the keys `k` of the slots, however the entries are arranged. -/
def LessBy {κ : Type} [LinearOrder κ] (less : HeapMem → Nat → Nat → Option Bool) (k : Nat → κ)
    (hm0 : HeapMem) : Prop :=
  ∀ hm, HeapSame hm0 hm → ∀ i j b, less hm i j = some b →
    (b = true ↔ kAt k hm.h i < kAt k hm.h j)

/-- The first `n` slots are a heap except that slot `j` may be below its parent. -/
def UpInv {κ : Type} [LinearOrder κ] (k : Nat → κ) (h : List Nat) (n j : Nat) : Prop :=
  (∀ x, 0 < x → x < n → x ≠ j → kAt k h ((x - 1) / 2) ≤ kAt k h x) ∧
  (∀ c, 0 < c → c < n → (c - 1) / 2 = j → 0 < j → kAt k h ((j - 1) / 2) ≤ kAt k h c)

/-- The first `n` slots are a heap except that slot `i` may be above its children. -/
def DownInv {κ : Type} [LinearOrder κ] (k : Nat → κ) (h : List Nat) (n i : Nat) : Prop :=
  (∀ x, 0 < x → x < n → (x - 1) / 2 ≠ i → kAt k h ((x - 1) / 2) ≤ kAt k h x) ∧
  (∀ c, 0 < c → c < n → (c - 1) / 2 = i → 0 < i → kAt k h ((i - 1) / 2) ≤ kAt k h c)

/-- Every entry of the slice records its own slot in its `Index` field. -/
def IndexOK (hm : HeapMem) : Prop :=
  ∀ (i e : Nat), hm.h[i]? = some e → (hm.entries e).Index = (i : Int)

/-- The entries outside the slice are untouched. -/
def FrameOK (hm hm1 : HeapMem) : Prop :=
  ∀ a, a ∉ hm.h → hm1.entries a = hm.entries a

/-- The price of an order, `0` when `Price` panics. -/
def Order.priceD (o : Order) : F64 := o.Price.getD 0

/-- The key that `BuyHeap.Less` (when `isBuy`) or `SellHeap.Less` orders by: the price,
negated for a buy, then `CreatedAt`, compared lexicographically. -/
def heapKey (isBuy : Bool) (o : Order) : ℤ ×ₗ ℤ :=
  toLex (if isBuy then -o.priceD else o.priceD, o.CreatedAt)

/-- The key of the order of an entry. -/
def entryKey (isBuy : Bool) (orders : Nat → Order) (entries : Nat → OrderEntry) (e : Nat) :
    ℤ ×ₗ ℤ :=
  heapKey isBuy (orders (entries e).Order)

/-- The invariant of one heap of a book whose orders have addresses below `N`: its
entries are distinct and point to distinct orders of the side of the heap, which have
a price; the slice is a heap for `Less`; every entry records its slot. -/
structure HeapInv (orders : Nat → Order) (isBuy : Bool) (hm : HeapMem) (N : Nat) : Prop where
  bound : ∀ e ∈ hm.h, (hm.entries e).Order < N
  nodup : hm.h.Nodup
  inj : ∀ e1 ∈ hm.h, ∀ e2 ∈ hm.h, (hm.entries e1).Order = (hm.entries e2).Order → e1 = e2
  side : ∀ e ∈ hm.h, ((orders (hm.entries e).Order).Side = SideBuy ↔ isBuy = true)
  priced : PricedHeap orders hm
  ordered : HeapOrderedN (entryKey isBuy orders hm.entries) hm.h hm.h.length
  idx : IndexOK hm

/-- The invariant of a book whose orders have addresses below `N`: both heaps satisfy
`HeapInv`, every resting order has something remaining and is not `Filled`, and the map
sends the `ID` of a resting order to a resting entry. -/
structure BookInv (ob : OrderBook) (N : Nat) : Prop where
  buys : HeapInv ob.orders true ob.buyHeap N
  sells : HeapInv ob.orders false ob.sellHeap N
  live : ∀ e ∈ ob.buys ++ ob.sells, 0 < (ob.orders (ob.entries e).Order).RemainingBase ∧
    (ob.orders (ob.entries e).Order).Status ≠ OrderStatusFilled
  mapIn : ∀ kv ∈ ob.orderMap, kv.2 ∈ ob.buys ++ ob.sells
  mapKey : ∀ kv ∈ ob.orderMap, kv.1 = (ob.orders (ob.entries kv.2).Order).ID

/-- What the match `m` fills of the order at `a`: its `FillAmount` when it references
the order, as buy or as sell order. -/
def fillOf (a : Nat) (m : MatchResult) : Int :=
  if m.BuyOrder = a ∨ m.SellOrder = a then m.FillAmount else 0

/-- The sum of `FillAmount` over the matches of `trades` that reference the order at `a`. -/
def filledSum (trades : List MatchResult) (a : Nat) : Int := (trades.map (fillOf a)).sum

/-- The invariants of section 3 of the specification for one order: `status = Filled`
exactly when nothing remains, and a `PartiallyFilled` order is filled strictly between
zero and its base amount; with a nonnegative `FilledBase`. -/
def ConsOrder (o : Order) : Prop :=
  0 ≤ o.FilledBase ∧ (o.Status = OrderStatusFilled ↔ o.RemainingBase = 0) ∧
    (o.Status = OrderStatusPartiallyFilled → 0 < o.FilledBase ∧ o.FilledBase < o.totalBase)

/-- The order at `order` rests in the book: the map sends its `ID` to an entry of the heap
of its side that points to it. -/
def Resting (ob : OrderBook) (order : Nat) : Prop :=
  ∃ e, mapGet ob.orderMap (ob.orders order).ID = some e ∧ (ob.entries e).Order = order ∧
    e ∈ ob.own (decide ((ob.orders order).Side = SideBuy))

/-- Price-time priority between two orders of one heap: `a` is served no later than `b`.
In the buy heap (`isBuy`) the higher price goes first, in the sell heap the lower price;
at equal prices the earlier `CreatedAt`. -/
def PriceTimeLE (isBuy : Bool) (a b : Order) : Prop :=
  ∃ pa pb, a.Price = some pa ∧ b.Price = some pb ∧
    ((if isBuy then pb < pa else pa < pb) ∨ (pa = pb ∧ a.CreatedAt ≤ b.CreatedAt))

/-- The resting order of a match of an incoming buy (`buy`) or sell. -/
def MatchResult.maker (m : MatchResult) (buy : Bool) : Nat :=
  if buy then m.SellOrder else m.BuyOrder

/-- Every entry of a heap is what the by-id map holds under the id of its order. -/
def HeapInMap (ob : OrderBook) : Prop :=
  ∀ e ∈ ob.buys ++ ob.sells, mapGet ob.orderMap (ob.orders (ob.entries e).Order).ID = some e

/-- The ids of the orders that a sequence of calls adds, in the order of the calls. -/
def addIds : List Call → List String
  | [] => []
  | .add o :: cs => o.ID :: addIds cs
  | .cancel _ :: cs => addIds cs

/-! ## `orderbook/engine.go`: the snapshot -/

/-- The struct `Snapshot`. -/
structure Snapshot where
  Bids : List PriceLevel
  Asks : List PriceLevel
  deriving DecidableEq, Inhabited

/-- Lookup `levels[p]` in the map `levels` of `aggregateLevels`; the map is the list of
its keys, each with the `PriceLevel` its pointer points to. -/
def levelGet (levels : List (F64 × PriceLevel)) (p : F64) : Option PriceLevel := levels.lookup p

/-- Assignment `levels[p] = lvl`, and a write through the pointer `levels[p]`. -/
def levelSet (levels : List (F64 × PriceLevel)) (p : F64) (lvl : PriceLevel) :
    List (F64 × PriceLevel) :=
  (p, lvl) :: levels.filter (fun kv => kv.1 ≠ p)

/-- The loop `for _, entry := range *h` of `aggregateLevels` and of
`aggregateSellLevels` (the same code).  `Count++` is on a Go `int`; it stays below the
length of the slice, so it does not wrap. -/
def aggregateLoop (orders : Nat → Order) (entries : Nat → OrderEntry) :
    List Nat → List (F64 × PriceLevel) → List F64 → Option (List (F64 × PriceLevel) × List F64)
  | [], levels, prices => some (levels, prices)
  | entry :: rest, levels, prices =>
    match (orders (entries entry).Order).Price with
    | none => none
    | some p =>
      match levelGet levels p with
      | some lvl =>
        aggregateLoop orders entries rest
          (levelSet levels p { lvl with
            Amount := lvl.Amount + (orders (entries entry).Order).RemainingBase,
            Count := lvl.Count + 1 }) prices
      | none =>
        aggregateLoop orders entries rest
          (levelSet levels p
            { Price := p, Amount := (orders (entries entry).Order).RemainingBase, Count := 1 })
          (prices ++ [p])

/-- The inner loop `for j := i; j > 0 && s[j] > s[j-1]; j--` of `sortDesc` (with `<`: of
`sortAsc`), started at `j`; `before a b` is the comparison `a > b` (`a < b`). -/
def sortInner (before : F64 → F64 → Bool) : Nat → List F64 → List F64
  | 0, s => s
  | j + 1, s =>
    if before (s.getD (j + 1) 0) (s.getD j 0) then
      sortInner before j ((s.set (j + 1) (s.getD j 0)).set j (s.getD (j + 1) 0))
    else s

/-- The outer loop `for i := 1; i < len(s); i++`, from `i` on. -/
def sortOuter (before : F64 → F64 → Bool) : Nat → Nat → List F64 → Option (List F64)
  | 0, i, s => if i < s.length then none else some s
  | fuel + 1, i, s =>
    if i < s.length then sortOuter before fuel (i + 1) (sortInner before i s) else some s

/-- `sortDesc`. -/
def sortDesc (s : List F64) : Option (List F64) :=
  sortOuter (fun a b => decide (a > b)) s.length 1 s

/-- `sortAsc`. -/
def sortAsc (s : List F64) : Option (List F64) :=
  sortOuter (fun a b => decide (a < b)) s.length 1 s

/-- The loop `for _, p := range prices { result = append(result, *levels[p]) }`. -/
def resultLoop (levels : List (F64 × PriceLevel)) : List F64 → Option (List PriceLevel)
  | [] => some []
  | p :: ps =>
    match levelGet levels p with
    | none => none
    | some lvl =>
      match resultLoop levels ps with
      | none => none
      | some r => some (lvl :: r)

/-- The body that `aggregateLevels` and `aggregateSellLevels` share; `sort` is `sortDesc`
or `sortAsc`. -/
def aggregateWith (sort : List F64 → Option (List F64)) (orders : Nat → Order) (hm : HeapMem) :
    Option (List PriceLevel) :=
  match aggregateLoop orders hm.entries hm.h [] [] with
  | none => none
  | some (levels, prices) =>
    match sort prices with
    | none => none
    | some sorted => resultLoop levels sorted

/-- `aggregateLevels`. -/
def aggregateLevels (orders : Nat → Order) (h : HeapMem) : Option (List PriceLevel) :=
  aggregateWith sortDesc orders h

/-- `aggregateSellLevels`. -/
def aggregateSellLevels (orders : Nat → Order) (h : HeapMem) : Option (List PriceLevel) :=
  aggregateWith sortAsc orders h

/-- `OrderBook.GetSnapshot`. -/
def GetSnapshot (ob : OrderBook) : Option Snapshot :=
  match aggregateLevels ob.orders ob.buyHeap with
  | none => none
  | some bids =>
    match aggregateSellLevels ob.orders ob.sellHeap with
    | none => none
    | some asks => some { Bids := bids, Asks := asks }

/-! ## Vocabulary of the snapshot proofs -/

/-- The sum of `RemainingBase` over the entries of `h` whose order has the price `p`. -/
def levelAmount (orders : Nat → Order) (entries : Nat → OrderEntry) (h : List Nat) (p : F64) :
    Int :=
  ((h.filter fun e => (orders (entries e).Order).Price = some p).map
    fun e => (orders (entries e).Order).RemainingBase).sum

/-- The number of entries of `h` whose order has the price `p`. -/
def levelCount (orders : Nat → Order) (entries : Nat → OrderEntry) (h : List Nat) (p : F64) :
    Int :=
  ((h.filter fun e => (orders (entries e).Order).Price = some p).length : Int)

/-- The level of the price `p` for the entries `h`. -/
def levelOf (orders : Nat → Order) (entries : Nat → OrderEntry) (h : List Nat) (p : F64) :
    PriceLevel :=
  { Price := p, Amount := levelAmount orders entries h p, Count := levelCount orders entries h p }

/-- The state of the loop of `aggregateLevels` after the entries `done`: `prices` holds
each of their prices once, and `levels` holds the level of each of these prices and
nothing else. -/
def LevelsOK (orders : Nat → Order) (entries : Nat → OrderEntry) (done : List Nat)
    (levels : List (F64 × PriceLevel)) (prices : List F64) : Prop :=
  prices.Nodup ∧
  (∀ p, p ∈ prices ↔ ∃ e ∈ done, (orders (entries e).Order).Price = some p) ∧
  ∀ p, levelGet levels p = if p ∈ prices then some (levelOf orders entries done p) else none

/-- What the snapshot reads of a heap: the price and the `RemainingBase` of the order of
each entry, slot by slot. -/
def heapView (orders : Nat → Order) (entries : Nat → OrderEntry) (h : List Nat) :
    List (Option F64 × Int) :=
  h.map fun e => ((orders (entries e).Order).Price, (orders (entries e).Order).RemainingBase)

/-! ## `pkg/eip712`

Byte slices are lists of numbers below 256.  `common.Address` (`[20]byte`) and
`common.Hash` (`[32]byte`) are the numbers their bytes spell, big end first.  The
functions of `go-ethereum/crypto` that the package calls (Keccak-256 and the secp256k1
operations) are parameters of the model, collected in `Crypto`. -/

/-- The type `common.Address`. -/
abbrev Address := Fin (2 ^ 160)

/-- The type `common.Hash`. -/
abbrev Hash := Fin (2 ^ 256)

/-- The `w` bytes of `n`, big end first (of `n` modulo `256 ^ w`). -/
def fixedBytes (w n : Nat) : List Nat :=
  (List.range w).map fun i => n / 256 ^ (w - 1 - i) % 256

/-- `Address.Bytes`. -/
def Address.Bytes (a : Address) : List Nat := fixedBytes 20 a.val

/-- `Hash.Bytes`. -/
def Hash.Bytes (h : Hash) : List Nat := fixedBytes 32 h.val

/-- Helper of `natBytes`: the bytes of `n` in front of `acc`. -/
def natBytesAux : Nat → Nat → List Nat → List Nat
  | 0, _, acc => acc
  | fuel + 1, n, acc => if n = 0 then acc else natBytesAux fuel (n / 256) (n % 256 :: acc)

/-- The bytes of `n`, big end first, without leading zeros (none for 0). -/
def natBytes (n : Nat) : List Nat := natBytesAux n n []

/-- `(*big.Int).Bytes`: the bytes of the absolute value. -/
def bigIntBytes (x : Int) : List Nat := natBytes x.natAbs

/-- `common.LeftPadBytes`. -/
def LeftPadBytes (slice : List Nat) (l : Nat) : List Nat :=
  if l ≤ slice.length then slice
  else List.replicate (l - slice.length) 0 ++ slice

/-- The conversion `[]byte(s)` of a string: its UTF-8 bytes. -/
def strBytes (s : String) : List Nat := (s.toList.flatMap String.utf8EncodeChar).map UInt8.toNat

/-- The built-in `copy(dst, src)`: the new content of `dst`. -/
def copyBytes (dst src : List Nat) : List Nat :=
  src.take (min dst.length src.length) ++ dst.drop (min dst.length src.length)

/-- The struct `ecdsa.PublicKey` (on the curve secp256k1). -/
structure PublicKey where
  X : Int
  Y : Int
  deriving DecidableEq, Inhabited

/-- The struct `ecdsa.PrivateKey`. -/
structure PrivateKey where
  PublicKey : PublicKey
  D : Int
  deriving DecidableEq, Inhabited

/-- The functions of `go-ethereum/crypto` that the package calls; an `error` of the
library is its message. -/
structure Crypto where
  /-- `crypto.Keccak256Hash` of one byte slice. -/
  Keccak256 : List Nat → Hash
  /-- `crypto.Ecrecover(hash, sig)`. -/
  Ecrecover : List Nat → List Nat → Except String (List Nat)
  /-- `crypto.UnmarshalPubkey`. -/
  UnmarshalPubkey : List Nat → Except String PublicKey
  /-- `crypto.PubkeyToAddress`. -/
  PubkeyToAddress : PublicKey → Address
  /-- `crypto.Sign(digestHash, prv)`. -/
  Sign : List Nat → PrivateKey → Except String (List Nat)

/-- `crypto.Keccak256Hash(data...)`: the hash of the concatenation of its arguments. -/
def Crypto.Keccak256Hash (c : Crypto) (data : List (List Nat)) : Hash := c.Keccak256 data.flatten

/-- The variable `OrderTypeHash`. -/
def OrderTypeHash (c : Crypto) : Hash :=
  c.Keccak256Hash [strBytes
    "Order(address maker,address tokenSell,address tokenBuy,uint256 amountSell,uint256 amountBuy,uint256 expiry,uint256 nonce,uint256 salt)"]

/-- The struct `DomainSeparator`. -/
structure DomainSeparator where
  Name : String
  Version : String
  ChainID : Int
  VerifyingContract : Address

/-- `NewDomainSeparator`. -/
def NewDomainSeparator (chainID : Int) (contractAddr : Address) : DomainSeparator :=
  { Name := "NexusOrderBook", Version := "1", ChainID := chainID,
    VerifyingContract := contractAddr }

/-- `DomainSeparator.Hash`. -/
def DomainSeparator.Hash (c : Crypto) (d : DomainSeparator) : Hash :=
  let typeHash := c.Keccak256Hash [strBytes
    "EIP712Domain(string name,string version,uint256 chainId,address verifyingContract)"]
  c.Keccak256Hash [
    typeHash.Bytes,
    (c.Keccak256Hash [strBytes d.Name]).Bytes,
    (c.Keccak256Hash [strBytes d.Version]).Bytes,
    LeftPadBytes (bigIntBytes d.ChainID) 32,
    LeftPadBytes d.VerifyingContract.Bytes 32]

/-- The struct `OrderData`. -/
structure OrderData where
  Maker : Address
  TokenSell : Address
  TokenBuy : Address
  AmountSell : Int
  AmountBuy : Int
  Expiry : Int
  Nonce : Int
  Salt : Int
  deriving DecidableEq

/-- The byte slices that `HashOrder` passes to `crypto.Keccak256Hash`. -/
def orderPreimage (c : Crypto) (order : OrderData) : List (List Nat) :=
  [ (OrderTypeHash c).Bytes,
    LeftPadBytes order.Maker.Bytes 32,
    LeftPadBytes order.TokenSell.Bytes 32,
    LeftPadBytes order.TokenBuy.Bytes 32,
    LeftPadBytes (bigIntBytes order.AmountSell) 32,
    LeftPadBytes (bigIntBytes order.AmountBuy) 32,
    LeftPadBytes (bigIntBytes order.Expiry) 32,
    LeftPadBytes (bigIntBytes order.Nonce) 32,
    LeftPadBytes (bigIntBytes order.Salt) 32 ]

/-- `HashOrder`. -/
def HashOrder (c : Crypto) (order : OrderData) : Hash := c.Keccak256Hash (orderPreimage c order)

/-- `HashTypedData`; `[]byte("\x19\x01")` is the two bytes `0x19 0x01`. -/
def HashTypedData (c : Crypto) (domainSep structHash : Hash) : Hash :=
  c.Keccak256Hash [[25, 1], domainSep.Bytes, structHash.Bytes]

/-- The errors that `VerifyOrderSignature` makes with `fmt.Errorf`: the length it
formats, or the library error it wraps. -/
inductive VerifyError where
  | invalidSignatureLength : Nat → VerifyError
  | ecrecoverFailed : String → VerifyError
  | unmarshalPubkeyFailed : String → VerifyError
  deriving DecidableEq

/-- The byte slices of the program: a slice is an address, which is a position of the
list, and the list gives the content of each slice that has been made.  `make` appends
a slice; an address that is not in use reads as the empty slice. -/
abbrev SliceMem := List (List Nat)

/-- `VerifyOrderSignature`; `signature` is the caller's slice.  The result is the memory
after the call and the pair `(bool, error)`, a nil error being `none`. -/
def VerifyOrderSignature (c : Crypto) (domain : DomainSeparator) (order : OrderData)
    (mem : SliceMem) (signature : Nat) : SliceMem × Bool × Option VerifyError :=
  if (mem.getD signature []).length ≠ 65 then
    (mem, false, some (.invalidSignatureLength (mem.getD signature []).length))
  else
    let structHash := HashOrder c order
    let digest := HashTypedData c (domain.Hash c) structHash
    -- sig := make([]byte, 65)
    let sig := mem.length
    let mem1 : SliceMem := mem ++ [List.replicate 65 0]
    -- copy(sig, signature)
    let mem2 : SliceMem := mem1.set sig (copyBytes (mem1.getD sig []) (mem1.getD signature []))
    -- if sig[64] >= 27 { sig[64] -= 27 }
    let mem3 : SliceMem :=
      if 27 ≤ (mem2.getD sig []).getD 64 0 then
        mem2.set sig ((mem2.getD sig []).set 64 (((mem2.getD sig []).getD 64 0 + 256 - 27) % 256))
      else mem2
    match c.Ecrecover digest.Bytes (mem3.getD sig []) with
    | .error err => (mem3, false, some (.ecrecoverFailed err))
    | .ok pubKey =>
      match c.UnmarshalPubkey pubKey with
      | .error err => (mem3, false, some (.unmarshalPubkeyFailed err))
      | .ok recoveredPub =>
        let recoveredAddr := c.PubkeyToAddress recoveredPub
        (mem3, decide (recoveredAddr = order.Maker), none)

/-! ## Vocabulary of the statements about `VerifyOrderSignature` -/

/-- The digest that is signed and verified for an order: `HashTypedData(domain.Hash(),
HashOrder(order)).Bytes()`. -/
def orderDigest (c : Crypto) (domain : DomainSeparator) (order : OrderData) : List Nat :=
  (HashTypedData c (domain.Hash c) (HashOrder c order)).Bytes

/-- A signature with its last byte lowered by 27 when it is 27 or more. -/
def recoveryInput (s : List Nat) : List Nat :=
  if 27 ≤ s.getD 64 0 then s.set 64 ((s.getD 64 0 + 256 - 27) % 256) else s

/-- What the package relies on of `crypto.Sign`: a signature it returns has 65 bytes, the
last one a recovery id below 27, and `crypto.Ecrecover` gets from it and the digest a
public key that `crypto.UnmarshalPubkey` reads as the key of the signer. -/
def SignLaw (c : Crypto) : Prop :=
  ∀ (d : List Nat) (k : PrivateKey) (sig : List Nat), c.Sign d k = .ok sig →
    sig.length = 65 ∧ sig.getD 64 0 < 27 ∧
    ∃ pb, c.Ecrecover d sig = .ok pb ∧ c.UnmarshalPubkey pb = .ok k.PublicKey

/-- The order with the five integer fields replaced by their absolute values. -/
def OrderData.magnitudes (o : OrderData) : OrderData :=
  { o with AmountSell := |o.AmountSell|, AmountBuy := |o.AmountBuy|, Expiry := |o.Expiry|,
           Nonce := |o.Nonce|, Salt := |o.Salt| }

/-! ## A small stand-in for the library, to evaluate the statements on -/

/-- A stand-in for the library with one-byte keys: the hash is a polynomial in the
bytes, a signature carries `X` shifted by the sum of the digest in byte 31, `Y` in
byte 63 and a recovery id in byte 64. -/
def toyCrypto : Crypto where
  Keccak256 := fun bs =>
    Fin.ofNat (bs.foldl (fun h b => (h * 257 + b + 1) % 2 ^ 256) 7)
  Ecrecover := fun d sig =>
    if sig.length = 65 ∧ sig.getD 64 0 < 4 then
      .ok [4, (sig.getD 31 0 + 256 - d.sum % 256) % 256, sig.getD 63 0]
    else .error "invalid signature recovery id"
  UnmarshalPubkey := fun pb =>
    if pb.length = 3 ∧ pb.getD 0 0 = 4 then .ok { X := (pb.getD 1 0 : Nat), Y := (pb.getD 2 0 : Nat) }
    else .error "invalid public key"
  PubkeyToAddress := fun pk => Fin.ofNat (pk.X.natAbs * 256 + pk.Y.natAbs)
  Sign := fun d k =>
    if 0 ≤ k.PublicKey.X ∧ k.PublicKey.X < 256 ∧ 0 ≤ k.PublicKey.Y ∧ k.PublicKey.Y < 256 then
      .ok (List.replicate 31 0 ++ [(k.PublicKey.X.toNat + d.sum) % 256] ++ List.replicate 31 0 ++
        [k.PublicKey.Y.toNat] ++ [(k.PublicKey.X.toNat + k.PublicKey.Y.toNat) % 2])
    else .error "invalid private key"

/-! ## Vocabulary of the statements about the hashed bytes -/

/-- The number that a byte slice spells, big end first. -/
def beValue (bs : List Nat) : Nat := bs.foldl (fun a b => 256 * a + b) 0

/-! ## Vocabulary of the statements about sequences of calls -/

/-- No resting buy reaches the price of a resting sell. -/
def Uncrossed (ob : OrderBook) : Prop :=
  ∀ b ∈ ob.buys, ∀ s ∈ ob.sells,
    (ob.orders (ob.entries b).Order).priceD < (ob.orders (ob.entries s).Order).priceD

/-- The price test that ends a matching loop: the incoming order, a buy when `buy`, does
not reach the resting order. -/
def outOfReach (buy : Bool) (taker maker : F64) : Prop :=
  if buy then taker < maker else maker < taker

/-- No resting order is `Cancelled`. -/
def NoneCancelled (ob : OrderBook) : Prop :=
  ∀ e ∈ ob.buys ++ ob.sells, (ob.orders (ob.entries e).Order).Status ≠ OrderStatusCancelled

/-! ## `math/big` and `encoding/hex`: numbers and bytes as text

A Go string is read here character by character.  A character outside ASCII is no
decimal digit, as none of its bytes is one. -/

/-- The value of a decimal digit. -/
def digitValue (c : Char) : Option Nat :=
  if 48 ≤ c.toNat ∧ c.toNat ≤ 57 then some (c.toNat - 48) else none

/-- The digits of a decimal number, read from the left; `acc` is the value so far. -/
def scanDigits : List Char → Nat → Option Nat
  | [], acc => some acc
  | c :: cs, acc =>
    match digitValue c with
    | none => none
    | some d => scanDigits cs (10 * acc + d)

/-- `(*big.Int).SetString(s, 10)`, `none` when it reports failure: an optional sign, then
one decimal digit or more, and nothing else. -/
def SetString10 (s : String) : Option Int :=
  let neg := decide (s.toList.head? = some '-')
  let body := if s.toList.head? = some '-' ∨ s.toList.head? = some '+' then s.toList.tail
    else s.toList
  if body = [] then none
  else
    match scanDigits body 0 with
    | none => none
    | some n => some (if neg then -(n : Int) else (n : Int))

/-- Helper of `natString`: the digits of `n` in front of `acc`. -/
def decimalDigits : Nat → Nat → List Char → List Char
  | 0, _, acc => acc
  | fuel + 1, n, acc =>
    if n = 0 then acc else decimalDigits fuel (n / 10) (Char.ofNat (48 + n % 10) :: acc)

/-- The decimal digits of a natural number. -/
def natString (n : Nat) : List Char := if n = 0 then ['0'] else decimalDigits n n []

/-- `(*big.Int).String`: the decimal text, with `-` in front of a negative number. -/
def bigIntString (x : Int) : String :=
  String.mk (if x < 0 then '-' :: natString x.natAbs else natString x.natAbs)

/-- `strings.TrimPrefix`. -/
def TrimPrefix (s pre : String) : String :=
  if pre.toList.isPrefixOf s.toList then String.mk (s.toList.drop pre.length) else s

/-- The errors of `encoding/hex`: `InvalidByteError` and `ErrLength`. -/
inductive HexError where
  | invalidByte : Nat → HexError
  | length : HexError
  deriving DecidableEq

/-- The value of a hexadecimal digit, given as a byte. -/
def fromHexChar (b : Nat) : Option Nat :=
  if 48 ≤ b ∧ b ≤ 57 then some (b - 48)
  else if 97 ≤ b ∧ b ≤ 102 then some (b - 97 + 10)
  else if 65 ≤ b ∧ b ≤ 70 then some (b - 65 + 10)
  else none

/-- `hex.DecodeString` on the bytes of its argument: pairs of digits from the left; a
last single byte is reported as invalid if it is no digit, as bad length otherwise. -/
def hexDecode : List Nat → Except HexError (List Nat)
  | [] => .ok []
  | [p] =>
    match fromHexChar p with
    | none => .error (.invalidByte p)
    | some _ => .error .length
  | p :: q :: rest =>
    match fromHexChar p with
    | none => .error (.invalidByte p)
    | some a =>
      match fromHexChar q with
      | none => .error (.invalidByte q)
      | some b =>
        match hexDecode rest with
        | .error e => .error e
        | .ok bs => .ok ((a * 16 + b) :: bs)

/-- `hexToBytes` of `service/order_service.go`. -/
def hexToBytes (h : String) : Except HexError (List Nat) :=
  hexDecode (strBytes (TrimPrefix h "0x"))

/-! ## `repository/postgres`: the rows of the table `orders` -/

/-- The struct `orderRow`; a `time.Time` is an integer instant. -/
structure orderRow where
  ID : String
  Maker : String
  TokenSell : String
  TokenBuy : String
  AmountSell : String
  AmountBuy : String
  Expiry : Int
  Nonce : Int
  Salt : String
  Signature : String
  Side : String
  Status : String
  FilledBase : String
  Pair : String
  CreatedAt : Int
  UpdatedAt : Int
  deriving DecidableEq, Inhabited

/-- `parseBigInt` of `repository/postgres/util.go`; the Go result `(n, false)` is `none`. -/
def parseBigInt (s : String) : Option Int := SetString10 s

/-- `rowToOrder`; the conversion `uint64(row.Expiry)` of an `int64` keeps the value
modulo `2 ^ 64`. -/
def rowToOrder (row : orderRow) : Except String Order :=
  match parseBigInt row.AmountSell with
  | none => .error ("invalid amount_sell: " ++ row.AmountSell)
  | some amountSell =>
    match parseBigInt row.AmountBuy with
    | none => .error ("invalid amount_buy: " ++ row.AmountBuy)
    | some amountBuy =>
      match parseBigInt row.Salt with
      | none => .error ("invalid salt: " ++ row.Salt)
      | some salt =>
        match parseBigInt row.FilledBase with
        | none => .error ("invalid filled_base: " ++ row.FilledBase)
        | some filledBase =>
          .ok { ID := row.ID, Maker := row.Maker, TokenSell := row.TokenSell,
                TokenBuy := row.TokenBuy, AmountSell := amountSell, AmountBuy := amountBuy,
                Expiry := (row.Expiry % 2 ^ 64).toNat, Nonce := (row.Nonce % 2 ^ 64).toNat,
                Salt := salt, Signature := row.Signature, Side := row.Side,
                Status := row.Status, FilledBase := filledBase, Pair := row.Pair,
                CreatedAt := row.CreatedAt, UpdatedAt := row.UpdatedAt }

/-- The row of an order that holds `expiry` and `nonce` in its two `int64` columns: the
big integers as decimal text, the side and the status as text. -/
def Order.toRow (order : Order) (expiry nonce : Int) : orderRow :=
  { ID := order.ID, Maker := order.Maker, TokenSell := order.TokenSell,
    TokenBuy := order.TokenBuy, AmountSell := bigIntString order.AmountSell,
    AmountBuy := bigIntString order.AmountBuy, Expiry := expiry, Nonce := nonce,
    Salt := bigIntString order.Salt, Signature := order.Signature, Side := order.Side,
    Status := order.Status, FilledBase := bigIntString order.FilledBase, Pair := order.Pair,
    CreatedAt := order.CreatedAt, UpdatedAt := order.UpdatedAt }

/-- The values that `OrderRepo.Create` passes to `ExecContext`, as the row they make.
`Expiry` and `Nonce` are passed as `uint64`; `database/sql` converts such an argument to
`int64` and refuses one with the high bit set. -/
def orderRowOf (order : Order) : Except String orderRow :=
  if 2 ^ 63 ≤ order.Expiry then
    .error "sql: converting argument $7 type: uint64 values with high bit set are not supported"
  else if 2 ^ 63 ≤ order.Nonce then
    .error "sql: converting argument $8 type: uint64 values with high bit set are not supported"
  else .ok (order.toRow (order.Expiry : Int) (order.Nonce : Int))

/-- The struct `tradeRow`. -/
structure tradeRow where
  ID : String
  BuyOrderID : String
  SellOrderID : String
  Buyer : String
  Seller : String
  Pair : String
  BaseAmount : String
  QuoteAmount : String
  Price : F64
  TxHash : String
  SettledOnChain : Bool
  CreatedAt : Int
  deriving DecidableEq, Inhabited

/-! ## `domain`, `blockchain` and `repository/redis`: the data of the service -/

/-- The struct `domain.OrderSubmission`. -/
structure OrderSubmission where
  Maker : String
  TokenSell : String
  TokenBuy : String
  AmountSell : String
  AmountBuy : String
  Expiry : Nat
  Nonce : Nat
  Salt : String
  Signature : String
  Side : Side
  Pair : String
  deriving DecidableEq

/-- The struct `domain.Trade`. -/
structure Trade where
  ID : String := ""
  BuyOrderID : String
  SellOrderID : String
  Buyer : String
  Seller : String
  Pair : String
  BaseAmount : Int
  QuoteAmount : Int
  Price : F64
  TxHash : String := ""
  SettledOnChain : Bool := false
  CreatedAt : Int := 0
  deriving DecidableEq

/-- The struct `blockchain.SettleJob`; `Result` is the channel, named by a number. -/
structure SettleJob where
  Match : MatchResult
  TradeID : String
  Result : Nat
  deriving DecidableEq

/-- The struct `redis.PriceLevelData`. -/
structure PriceLevelData where
  Price : F64
  Amount : String
  Count : Int
  deriving DecidableEq

/-! ## `service/order_service.go`

The database, the cache, the clock and the generator of ids are outside the program.
`Outside` is the script they follow: what the `n`-th request of each kind answers.  The
state `Service` holds the two tables, the keys of the cache, what has been published and
sent, the books, and how far each script has been read.

The `domain.Order` objects of a book live in the memory of that book; an order is only
reached through the book of its pair.  The goroutine that `SubmitOrder` starts for every
job, to wait for the result of the settlement, is not part of the model. -/

/-- The behaviour of what the service calls outside the program. -/
structure Outside where
  /-- The functions of `go-ethereum/crypto`. -/
  crypto : Crypto
  /-- `common.HexToAddress`. -/
  HexToAddress : String → Address
  /-- The `n`-th result of `uuid.New().String()`. -/
  uuid : Nat → String
  /-- The `n`-th reading of a clock (`time.Now()`, or `NOW()` in a statement). -/
  now : Nat → Int
  /-- The error of the `n`-th statement sent to the database, if it fails. -/
  dbError : Nat → Option String
  /-- The error of the `n`-th command sent to the cache, if it fails. -/
  cacheError : Nat → Option String

/-- The struct `OrderService` with the tables and keys behind its repositories. -/
structure Service where
  /-- The table `orders`. -/
  orderRows : List orderRow
  /-- The table `trades`. -/
  tradeRows : List tradeRow
  /-- The keys `ob:<pair>:bids` and `ob:<pair>:asks` of the cache, by pair. -/
  cached : List (String × List PriceLevelData × List PriceLevelData)
  /-- The messages published on `ob:updates:<pair>`. -/
  published : List (String × List PriceLevelData × List PriceLevelData)
  /-- The map `orderbooks`. -/
  orderbooks : List (String × OrderBook)
  /-- The number of `domain.Order` objects that `SubmitOrder` has created. -/
  next : Nat
  /-- The field `domain`. -/
  domain : DomainSeparator
  /-- The jobs sent on `settleCh`, oldest first. -/
  settleCh : List SettleJob
  /-- The number of result channels made. -/
  chans : Nat
  /-- The number of ids generated. -/
  uuids : Nat
  /-- The number of clock readings. -/
  clock : Nat
  /-- The number of statements sent to the database. -/
  dbCalls : Nat
  /-- The number of commands sent to the cache. -/
  cacheCalls : Nat

/-- `NewOrderService` with empty tables and an empty cache. -/
def NewOrderService (chainID : Int) (contractAddr : Address) : Service :=
  { orderRows := [], tradeRows := [], cached := [], published := [], orderbooks := [],
    next := 0, domain := NewDomainSeparator chainID contractAddr, settleCh := [], chans := 0,
    uuids := 0, clock := 0, dbCalls := 0, cacheCalls := 0 }

/-- `OrderRepo.Create`: the order object after the call comes second, the error last. -/
def OrderRepo.Create (out : Outside) (s : Service) (order : Order) :
    Service × Order × Option String :=
  let order1 := if order.ID = "" then { order with ID := out.uuid s.uuids } else order
  let s1 := if order.ID = "" then { s with uuids := s.uuids + 1 } else s
  let order2 := { order1 with CreatedAt := out.now s1.clock, UpdatedAt := out.now s1.clock }
  let s2 := { s1 with clock := s1.clock + 1 }
  match orderRowOf order2 with
  | .error err => (s2, order2, some err)
  | .ok row =>
    match out.dbError s2.dbCalls with
    | some err => ({ s2 with dbCalls := s2.dbCalls + 1 }, order2, some err)
    | none =>
      ({ s2 with dbCalls := s2.dbCalls + 1, orderRows := s2.orderRows ++ [row] }, order2, none)

/-- `OrderRepo.GetByID`: the first row with the id, read by `rowToOrder`. -/
def OrderRepo.GetByID (out : Outside) (s : Service) (id : String) :
    Service × Except String Order :=
  match out.dbError s.dbCalls with
  | some err => ({ s with dbCalls := s.dbCalls + 1 }, .error err)
  | none =>
    match s.orderRows.find? (fun row => row.ID = id) with
    | none => ({ s with dbCalls := s.dbCalls + 1 }, .error "sql: no rows in result set")
    | some row => ({ s with dbCalls := s.dbCalls + 1 }, rowToOrder row)

/-- `OrderRepo.UpdateStatus`: the statement writes every row with the id. -/
def OrderRepo.UpdateStatus (out : Outside) (s : Service) (id : String) (status : OrderStatus)
    (filledBase : String) : Service × Option String :=
  match out.dbError s.dbCalls with
  | some err => ({ s with dbCalls := s.dbCalls + 1 }, some err)
  | none =>
    ({ s with
        dbCalls := s.dbCalls + 1, clock := s.clock + 1,
        orderRows := s.orderRows.map fun row =>
          if row.ID = id then
            { row with Status := status, FilledBase := filledBase, UpdatedAt := out.now s.clock }
          else row },
      none)

/-- `TradeRepo.Create`: the trade object after the call comes second, the error last. -/
def TradeRepo.Create (out : Outside) (s : Service) (trade : Trade) :
    Service × Trade × Option String :=
  let trade1 := if trade.ID = "" then { trade with ID := out.uuid s.uuids } else trade
  let s1 := if trade.ID = "" then { s with uuids := s.uuids + 1 } else s
  let trade2 := { trade1 with CreatedAt := out.now s1.clock }
  let s2 := { s1 with clock := s1.clock + 1 }
  match out.dbError s2.dbCalls with
  | some err => ({ s2 with dbCalls := s2.dbCalls + 1 }, trade2, some err)
  | none =>
    ({ s2 with
        dbCalls := s2.dbCalls + 1,
        tradeRows := s2.tradeRows ++
          [{ ID := trade2.ID, BuyOrderID := trade2.BuyOrderID, SellOrderID := trade2.SellOrderID,
             Buyer := trade2.Buyer, Seller := trade2.Seller, Pair := trade2.Pair,
             BaseAmount := bigIntString trade2.BaseAmount,
             QuoteAmount := bigIntString trade2.QuoteAmount, Price := trade2.Price,
             TxHash := trade2.TxHash, SettledOnChain := trade2.SettledOnChain,
             CreatedAt := trade2.CreatedAt }] },
      trade2, none)

/-- Whether `json.Marshal` accepts the levels: it refuses an infinite `float64`. -/
def marshalOK (levels : List PriceLevelData) : Bool :=
  levels.all fun l => decide (-F64.inf < l.Price ∧ l.Price < F64.inf)

/-- `OrderbookCache.SetSnapshot`: both keys are written by one pipeline. -/
def OrderbookCache.SetSnapshot (out : Outside) (s : Service) (pair : String)
    (bids asks : List PriceLevelData) : Service × Option String :=
  if ¬ (marshalOK bids ∧ marshalOK asks) then (s, some "json: unsupported value")
  else
    match out.cacheError s.cacheCalls with
    | some err => ({ s with cacheCalls := s.cacheCalls + 1 }, some err)
    | none =>
      ({ s with cacheCalls := s.cacheCalls + 1,
                cached := (pair, bids, asks) :: s.cached.filter (fun kv => kv.1 ≠ pair) }, none)

/-- `OrderbookCache.PublishUpdate` of a message of type `orderbook`. -/
def OrderbookCache.PublishUpdate (out : Outside) (s : Service) (pair : String)
    (bids asks : List PriceLevelData) : Service × Option String :=
  if ¬ (marshalOK bids ∧ marshalOK asks) then (s, some "json: unsupported value")
  else
    match out.cacheError s.cacheCalls with
    | some err => ({ s with cacheCalls := s.cacheCalls + 1 }, some err)
    | none =>
      ({ s with cacheCalls := s.cacheCalls + 1,
                published := s.published ++ [(pair, bids, asks)] }, none)

/-- `OrderService.GetOrCreateOrderBook`: the state after the call and the book. -/
def OrderService.GetOrCreateOrderBook (s : Service) (pair : String) : Service × OrderBook :=
  match s.orderbooks.lookup pair with
  | some book => (s, book)
  | none =>
    ({ s with orderbooks := (pair, NewOrderBook fun _ => default) :: s.orderbooks },
      NewOrderBook fun _ => default)

/-- What a call of a method of the book at `s.orderbooks[pair]` leaves in the map. -/
def Service.setBook (s : Service) (pair : String) (book : OrderBook) : Service :=
  { s with orderbooks := (pair, book) :: s.orderbooks.filter (fun kv => kv.1 ≠ pair) }

/-- `OrderService.updateCache`; the errors of the cache are logged or dropped. -/
def OrderService.updateCache (out : Outside) (s : Service) (pair : String) (book : OrderBook) :
    Option Service :=
  match GetSnapshot book with
  | none => none
  | some snapshot =>
    let bids : List PriceLevelData := snapshot.Bids.map fun b =>
      { Price := b.Price, Amount := bigIntString b.Amount, Count := b.Count }
    let asks : List PriceLevelData := snapshot.Asks.map fun a =>
      { Price := a.Price, Amount := bigIntString a.Amount, Count := a.Count }
    let s1 := (OrderbookCache.SetSnapshot out s pair bids asks).1
    some (OrderbookCache.PublishUpdate out s1 pair bids asks).1

/-- The errors that `SubmitOrder` makes with `fmt.Errorf`, with the error they wrap. -/
inductive SubmitError where
  | invalidAmountSell : SubmitError
  | invalidAmountBuy : SubmitError
  | invalidSalt : SubmitError
  | invalidSignatureHex : HexError → SubmitError
  | verificationFailed : VerifyError → SubmitError
  | signerMismatch : SubmitError
  | persistFailed : String → SubmitError
  deriving DecidableEq

/-- The literal `eip712.OrderData{...}` of `SubmitOrder`. -/
def submittedData (out : Outside) (sub : OrderSubmission) (amountSell amountBuy salt : Int) :
    OrderData :=
  { Maker := out.HexToAddress sub.Maker, TokenSell := out.HexToAddress sub.TokenSell,
    TokenBuy := out.HexToAddress sub.TokenBuy, AmountSell := amountSell,
    AmountBuy := amountBuy, Expiry := (sub.Expiry : Int), Nonce := (sub.Nonce : Int),
    Salt := salt }

/-- The literal `&domain.Order{...}` of `SubmitOrder`. -/
def submittedOrder (sub : OrderSubmission) (amountSell amountBuy salt : Int) : Order :=
  { Maker := sub.Maker, TokenSell := sub.TokenSell, TokenBuy := sub.TokenBuy,
    AmountSell := amountSell, AmountBuy := amountBuy, Expiry := sub.Expiry,
    Nonce := sub.Nonce, Salt := salt, Signature := sub.Signature, Side := sub.Side,
    Status := OrderStatusOpen, FilledBase := 0, Pair := sub.Pair }

/-- The literal `&domain.Trade{...}` of the loop of `SubmitOrder`; `book` is the book
after `AddOrder`, whose memory holds the two orders of the match. -/
def matchTrade (book : OrderBook) (pair : String) (m : MatchResult) : Trade :=
  { BuyOrderID := (book.orders m.BuyOrder).ID, SellOrderID := (book.orders m.SellOrder).ID,
    Buyer := (book.orders m.BuyOrder).Maker, Seller := (book.orders m.SellOrder).Maker,
    Pair := pair, BaseAmount := m.FillAmount, QuoteAmount := m.QuoteAmount,
    Price := m.Price }

/-- The body of the loop `for _, match := range matches` of `SubmitOrder`. -/
def processMatch (out : Outside) (book : OrderBook) (pair : String) (s : Service)
    (m : MatchResult) : Service :=
  match TradeRepo.Create out s (matchTrade book pair m) with
  | (s1, _, some _) => s1
  | (s1, trade1, none) =>
    let s2 := (OrderRepo.UpdateStatus out s1 (book.orders m.BuyOrder).ID
      (book.orders m.BuyOrder).Status (bigIntString (book.orders m.BuyOrder).FilledBase)).1
    let s3 := (OrderRepo.UpdateStatus out s2 (book.orders m.SellOrder).ID
      (book.orders m.SellOrder).Status (bigIntString (book.orders m.SellOrder).FilledBase)).1
    { s3 with
        settleCh := s3.settleCh ++ [{ Match := m, TradeID := trade1.ID, Result := s3.chans }],
        chans := s3.chans + 1 }

/-- The part of `SubmitOrder` after the signature has been verified: persist the order,
add it to the book of its pair, process the matches, update the cache.  The order
object gets the address `s.next` in the memory of the book. -/
def submitVerified (out : Outside) (s : Service) (order : Order) :
    Option (Service × Except SubmitError (Nat × List MatchResult)) :=
  match OrderRepo.Create out s order with
  | (s1, _, some err) => some (s1, .error (.persistFailed err))
  | (s1, order1, none) =>
    match OrderService.GetOrCreateOrderBook s1 order1.Pair with
    | (s2, book) =>
      match AddOrder { book with orders := Function.update book.orders s2.next order1 }
          s2.next with
      | none => none
      | some (book1, ms) =>
        let s3 := { s2.setBook order1.Pair book1 with next := s2.next + 1 }
        let s4 := ms.foldl (processMatch out book1 order1.Pair) s3
        match OrderService.updateCache out s4 order1.Pair book1 with
        | none => none
        | some s5 => some (s5, .ok (s2.next, ms))

/-- `OrderService.SubmitOrder`.  The result is `none` when the call panics; otherwise it
is the state after the call and either the error or the order (its address in the memory
of the book of its pair) with the matches. -/
def OrderService.SubmitOrder (out : Outside) (s : Service) (sub : OrderSubmission) :
    Option (Service × Except SubmitError (Nat × List MatchResult)) :=
  match SetString10 sub.AmountSell with
  | none => some (s, .error .invalidAmountSell)
  | some amountSell =>
    match SetString10 sub.AmountBuy with
    | none => some (s, .error .invalidAmountBuy)
    | some amountBuy =>
      match SetString10 sub.Salt with
      | none => some (s, .error .invalidSalt)
      | some salt =>
        match hexToBytes sub.Signature with
        | .error err => some (s, .error (.invalidSignatureHex err))
        | .ok sigBytes =>
          match (VerifyOrderSignature out.crypto s.domain
              (submittedData out sub amountSell amountBuy salt) [sigBytes] 0).2 with
          | (_, some err) => some (s, .error (.verificationFailed err))
          | (false, none) => some (s, .error .signerMismatch)
          | (true, none) => submitVerified out s (submittedOrder sub amountSell amountBuy salt)

/-- The errors that `OrderService.CancelOrder` makes with `fmt.Errorf`. -/
inductive CancelError where
  | notFound : String → CancelError
  | updateFailed : String → CancelError
  deriving DecidableEq

/-- `OrderService.CancelOrder`; `none` when the call panics, otherwise the state after
the call and the error, if any. -/
def OrderService.CancelOrder (out : Outside) (s : Service) (orderID : String) :
    Option (Service × Option CancelError) :=
  match OrderRepo.GetByID out s orderID with
  | (s1, .error err) => some (s1, some (.notFound err))
  | (s1, .ok order) =>
    match OrderService.GetOrCreateOrderBook s1 order.Pair with
    | (s2, book) =>
      match Nexus.CancelOrder book orderID with
      | none => none
      | some (book1, _) =>
        match OrderRepo.UpdateStatus out (s2.setBook order.Pair book1) orderID
            OrderStatusCancelled (bigIntString order.FilledBase) with
        | (s3, some err) => some (s3, some (.updateFailed err))
        | (s3, none) =>
          match OrderService.updateCache out s3 order.Pair book1 with
          | none => none
          | some s4 => some (s4, none)

/-! ## Vocabulary of the statements about the service -/

/-- The book of a pair as `GetOrCreateOrderBook` returns it: the one in the map, or a new
one. -/
def Service.bookOf (s : Service) (pair : String) : OrderBook :=
  (s.orderbooks.lookup pair).getD (NewOrderBook fun _ => default)

/-- The book with the order object `o` at the address `p` of its memory. -/
def OrderBook.withOrder (ob : OrderBook) (p : Nat) (o : Order) : OrderBook :=
  { ob with orders := Function.update ob.orders p o }

/-- A well-formed base-10 integer string: an optional sign and then one decimal digit
or more. -/
def DecimalString (s : String) : Prop :=
  ∃ sign digits : List Char, s.toList = sign ++ digits ∧
    (sign = [] ∨ sign = ['-'] ∨ sign = ['+']) ∧ digits ≠ [] ∧
    ∀ c ∈ digits, 48 ≤ c.toNat ∧ c.toNat ≤ 57

/-- A byte that is a hexadecimal digit: `0`-`9`, `a`-`f` or `A`-`F`. -/
def isHexDigit (b : Nat) : Prop :=
  (48 ≤ b ∧ b ≤ 57) ∨ (97 ≤ b ∧ b ≤ 102) ∨ (65 ≤ b ∧ b ≤ 70)

/-- Valid hex, as `hexToBytes` takes it: after an optional `0x`, an even number of bytes,
all hexadecimal digits. -/
def HexString (s : String) : Prop :=
  (strBytes (TrimPrefix s "0x")).length % 2 = 0 ∧
    ∀ b ∈ strBytes (TrimPrefix s "0x"), isHexDigit b

/-! ## A stand-in for the outside, to evaluate the statements on -/

/-- The number that hexadecimal digits spell, digits that are none skipped. -/
def hexValue (bs : List Nat) : Nat :=
  bs.foldl (fun a b => match fromHexChar b with | some d => 16 * a + d | none => a) 0

/-- The hexadecimal digit of a number below 16. -/
def hexDigit (d : Nat) : Char := if d < 10 then Char.ofNat (48 + d) else Char.ofNat (87 + d)

/-- The text of a byte slice: `0x` and two hexadecimal digits for every byte. -/
def hexText (bs : List Nat) : String :=
  String.mk ('0' :: 'x' :: bs.flatMap fun b => [hexDigit (b / 16 % 16), hexDigit (b % 16)])

/-- An outside in which nothing fails: the library is `toyCrypto`, an address is the
number its text spells, the `n`-th id is `id-n` and the `n`-th instant is `n`. -/
def toyOutside : Outside where
  crypto := toyCrypto
  HexToAddress := fun s => Fin.ofNat (hexValue (strBytes (TrimPrefix s "0x")))
  uuid := fun n => "id-" ++ String.mk (natString n)
  now := fun n => (n : Int)
  dbError := fun _ => none
  cacheError := fun _ => none

/-! ## `blockchain/settlement.go`

The node, the ABI encoder and the signer of transactions are outside the program.
`Chain` is what they answer during one call of `settle`; each of them is called at most
once in a call.  The transcript of a call lists the requests in the order they are made.
The worker runs alone: `nonceMu` is not modelled, and a send on a result channel, which
`SubmitOrder` makes with room for one result, completes. -/

/-- The struct `abiOrder`. -/
structure abiOrder where
  Maker : Address
  TokenSell : Address
  TokenBuy : Address
  AmountSell : Int
  AmountBuy : Int
  Expiry : Int
  Nonce : Int
  Salt : Int
  deriving DecidableEq

/-- The arguments of `types.NewTransaction`. -/
structure Transaction where
  nonce : Nat
  recipient : Address
  amount : Int
  gasLimit : Nat
  gasPrice : Int
  data : List Nat
  deriving DecidableEq

/-- A signed transaction, as its bytes. -/
abbrev SignedTx := List Nat

/-- The struct `types.Receipt`, as far as `settle` reads it. -/
structure Receipt where
  Status : Nat
  deriving DecidableEq

/-- The constant `types.ReceiptStatusSuccessful`. -/
def ReceiptStatusSuccessful : Nat := 1

/-- The struct `Client`, as far as `settle` reads it. -/
structure Client where
  Address : Nexus.Address
  Contract : Nexus.Address
  ChainID : Int
  PrivateKey : PrivateKey

/-- What the libraries and the node answer during one call of `settle`; an `error` is
its message. -/
structure Chain where
  /-- `common.HexToAddress`. -/
  HexToAddress : String → Address
  /-- `common.FromHex`. -/
  FromHex : String → List Nat
  /-- `parsedABI.Pack("settleMatch", ...)`. -/
  Pack : abiOrder → List Nat → abiOrder → List Nat → Int → Except String (List Nat)
  /-- `EthClient.PendingNonceAt`. -/
  PendingNonceAt : Address → Except String Nat
  /-- `EthClient.SuggestGasPrice`. -/
  SuggestGasPrice : Except String Int
  /-- `types.SignTx` with the EIP-155 signer of the chain id. -/
  SignTx : Transaction → Int → PrivateKey → Except String SignedTx
  /-- `EthClient.SendTransaction`: the error, if any. -/
  SendTransaction : SignedTx → Option String
  /-- `bind.WaitMined`. -/
  WaitMined : SignedTx → Except String Receipt
  /-- `signedTx.Hash().Hex()`. -/
  HashHex : SignedTx → String

/-- The errors that `settle` makes with `fmt.Errorf`, with what they wrap. -/
inductive SettleError where
  | packFailed : String → SettleError
  | nonceFailed : String → SettleError
  | gasPriceFailed : String → SettleError
  | signFailed : String → SettleError
  | sendFailed : String → SettleError
  | waitMinedFailed : String → SettleError
  | txReverted : String → SettleError
  deriving DecidableEq

/-- The struct `SettleResult`; a nil `Err` is `none`. -/
structure SettleResult where
  TxHash : String := ""
  Err : Option SettleError := none
  deriving DecidableEq

/-- The requests that `settle` makes. -/
inductive SettleStep where
  | pack : SettleStep
  | nonce : SettleStep
  | gasPrice : SettleStep
  | sign : SettleStep
  | send : SettleStep
  | waitMined : SettleStep
  deriving DecidableEq

/-- `tuplifyOrder`. -/
def tuplifyOrder (chain : Chain) (o : Order) : abiOrder :=
  { Maker := chain.HexToAddress o.Maker, TokenSell := chain.HexToAddress o.TokenSell,
    TokenBuy := chain.HexToAddress o.TokenBuy, AmountSell := o.AmountSell,
    AmountBuy := o.AmountBuy, Expiry := (o.Expiry : Int), Nonce := (o.Nonce : Int),
    Salt := o.Salt }

/-- `SettlementWorker.settle`: the transcript of the requests made, and the result.
`orders` is the memory that holds the two orders of the match. -/
def settle (chain : Chain) (client : Client) (orders : Nat → Order) (m : MatchResult) :
    List SettleStep × SettleResult :=
  let buyOrder := tuplifyOrder chain (orders m.BuyOrder)
  let sellOrder := tuplifyOrder chain (orders m.SellOrder)
  let buySig := chain.FromHex (orders m.BuyOrder).Signature
  let sellSig := chain.FromHex (orders m.SellOrder).Signature
  match chain.Pack buyOrder buySig sellOrder sellSig m.FillAmount with
  | .error err => ([.pack], { Err := some (.packFailed err) })
  | .ok data =>
    match chain.PendingNonceAt client.Address with
    | .error err => ([.pack, .nonce], { Err := some (.nonceFailed err) })
    | .ok nonce =>
      match chain.SuggestGasPrice with
      | .error err => ([.pack, .nonce, .gasPrice], { Err := some (.gasPriceFailed err) })
      | .ok gasPrice =>
        let tx : Transaction :=
          { nonce := nonce, recipient := client.Contract, amount := 0, gasLimit := 500000,
            gasPrice := gasPrice, data := data }
        match chain.SignTx tx client.ChainID client.PrivateKey with
        | .error err =>
          ([.pack, .nonce, .gasPrice, .sign], { Err := some (.signFailed err) })
        | .ok signedTx =>
          match chain.SendTransaction signedTx with
          | some err =>
            ([.pack, .nonce, .gasPrice, .sign, .send], { Err := some (.sendFailed err) })
          | none =>
            match chain.WaitMined signedTx with
            | .error err =>
              ([.pack, .nonce, .gasPrice, .sign, .send, .waitMined],
                { Err := some (.waitMinedFailed err) })
            | .ok receipt =>
              if receipt.Status ≠ ReceiptStatusSuccessful then
                ([.pack, .nonce, .gasPrice, .sign, .send, .waitMined],
                  { Err := some (.txReverted (chain.HashHex signedTx)) })
              else
                ([.pack, .nonce, .gasPrice, .sign, .send, .waitMined],
                  { TxHash := chain.HashHex signedTx })

/-- What the `select` of `SettlementWorker.Run` receives: the context is done, the channel
of jobs is closed, or a job, which comes with what the chain answers while it is
settled. -/
inductive WorkerEvent where
  | done : WorkerEvent
  | closed : WorkerEvent
  | job : SettleJob → Chain → WorkerEvent

/-- `SettlementWorker.Run` on what its `select` receives, in this order; the result is
the list of the sends it makes, each the channel and the result sent on it.  When
nothing more is received the worker waits. -/
def Run (client : Client) (orders : Nat → Order) : List WorkerEvent → List (Nat × SettleResult)
  | [] => []
  | .done :: _ => []
  | .closed :: _ => []
  | .job j chain :: rest =>
    (j.Result, (settle chain client orders j.Match).2) :: Run client orders rest

/-! ## Vocabulary of the statements about the worker -/

/-- The jobs that the worker takes: those received before the context is done or the
channel is closed. -/
def jobsTaken : List WorkerEvent → List (SettleJob × Chain)
  | [] => []
  | .done :: _ => []
  | .closed :: _ => []
  | .job j chain :: rest => (j, chain) :: jobsTaken rest

/-- The transaction that `settle` signs and sends, when every request up to the signing
succeeds. -/
def signedOf (chain : Chain) (client : Client) (orders : Nat → Order) (m : MatchResult) :
    Option SignedTx :=
  match chain.Pack (tuplifyOrder chain (orders m.BuyOrder))
      (chain.FromHex (orders m.BuyOrder).Signature)
      (tuplifyOrder chain (orders m.SellOrder))
      (chain.FromHex (orders m.SellOrder).Signature) m.FillAmount,
    chain.PendingNonceAt client.Address, chain.SuggestGasPrice with
  | .ok data, .ok nonce, .ok gasPrice =>
    let tx : Transaction :=
      { nonce := nonce, recipient := client.Contract, amount := 0, gasLimit := 500000,
        gasPrice := gasPrice, data := data }
    match chain.SignTx tx client.ChainID client.PrivateKey with
    | .ok signedTx => some signedTx
    | .error _ => none
  | _, _, _ => none

/-- Whether a request of `settle` succeeds, given that the ones before it do. -/
def stepOK (chain : Chain) (client : Client) (orders : Nat → Order) (m : MatchResult) :
    SettleStep → Prop
  | .pack => ∃ data, chain.Pack (tuplifyOrder chain (orders m.BuyOrder))
      (chain.FromHex (orders m.BuyOrder).Signature)
      (tuplifyOrder chain (orders m.SellOrder))
      (chain.FromHex (orders m.SellOrder).Signature) m.FillAmount = .ok data
  | .nonce => ∃ nonce, chain.PendingNonceAt client.Address = .ok nonce
  | .gasPrice => ∃ gasPrice, chain.SuggestGasPrice = .ok gasPrice
  | .sign => ∃ signedTx, signedOf chain client orders m = some signedTx
  | .send => ∃ signedTx, signedOf chain client orders m = some signedTx ∧
      chain.SendTransaction signedTx = none
  | .waitMined => ∃ signedTx receipt, signedOf chain client orders m = some signedTx ∧
      chain.WaitMined signedTx = .ok receipt

/-- The requests of `settle` in the order of the source. -/
def settleSteps : List SettleStep := [.pack, .nonce, .gasPrice, .sign, .send, .waitMined]

/-- A chain on which everything succeeds; the receipt has the status `status`. -/
def toyChain (status : Nat) : Chain where
  HexToAddress := toyOutside.HexToAddress
  FromHex := fun s => match hexToBytes s with
    | .ok bs => bs
    | .error _ => []
  Pack := fun _ buySig _ sellSig fill => .ok (buySig ++ sellSig ++ natBytes fill.natAbs)
  PendingNonceAt := fun _ => .ok 7
  SuggestGasPrice := .ok 1000000000
  SignTx := fun tx _ _ => .ok (natBytes tx.nonce ++ tx.data)
  SendTransaction := fun _ => none
  WaitMined := fun _ => .ok { Status := status }
  HashHex := fun signedTx => hexText (toyCrypto.Keccak256 signedTx).Bytes

/-- A chain that has no gas price: the request fails. -/
def toyChainNoGas : Chain := { toyChain 1 with SuggestGasPrice := .error "no gas price" }

/-! ## Concrete books and calls the statements are evaluated on -/

/-- The default order object of the memories of the examples. -/
def order0 : Order := { AmountSell := 0, AmountBuy := 0, Side := SideSell }

/-- A book with one resting sell `100/200` (price 2) at address 0, and a new buy
`250/100` at address 1. -/
def bookC1 : OrderBook :=
  { orders := fun a =>
      if a = 0 then { ID := "sell-1", AmountSell := 100, AmountBuy := 200, Side := SideSell }
      else { ID := "buy-1", AmountSell := 250, AmountBuy := 100, Side := SideBuy, CreatedAt := 1 },
    entries := fun _ => { Order := 0, Index := 0 },
    buys := [], sells := [1], orderMap := [("sell-1", 1)] }

/-- A resting sell of seven base units whose `AmountBuy` is negative. -/
def sellC1n : Order := { ID := "sell-n", AmountSell := 7, AmountBuy := -10, Side := SideSell }

/-- An incoming buy of three base units for one quote unit. -/
def buyC1n : Order :=
  { ID := "buy-n", AmountSell := 1, AmountBuy := 3, Side := SideBuy, CreatedAt := 1 }

/-- A resting buy `200/100` (price 2). -/
def buyC2 : Order := { ID := "buy-1", AmountSell := 200, AmountBuy := 100, Side := SideBuy }

/-- An incoming sell `100/100` (price 1). -/
def sellC2 : Order :=
  { ID := "sell-1", AmountSell := 100, AmountBuy := 100, Side := SideSell, CreatedAt := 1 }

/-- A book with the resting sell `100/300` (price 3), and a new buy `200/100` (price 2)
at address 1. -/
def bookC5 : OrderBook :=
  { orders := fun a =>
      if a = 0 then { ID := "sell-1", AmountSell := 100, AmountBuy := 300, Side := SideSell }
      else { ID := "buy-1", AmountSell := 200, AmountBuy := 100, Side := SideBuy, CreatedAt := 1 },
    entries := fun _ => { Order := 0, Index := 0 },
    buys := [], sells := [1], orderMap := [("sell-1", 1)] }

/-- A resting sell of one token for `2 * 10 ^ 18 + 1` quote units. -/
def sellC10 : Order :=
  { ID := "sell-1", AmountSell := 10 ^ 18, AmountBuy := 2 * 10 ^ 18 + 1, Side := SideSell }

/-- An incoming buy of one token for at most `2 * 10 ^ 18` quote units. -/
def buyC10 : Order :=
  { ID := "buy-1", AmountSell := 2 * 10 ^ 18, AmountBuy := 10 ^ 18, Side := SideBuy,
    CreatedAt := 1 }

/-- Two calls: a sell `100/200` rests, a buy `450/150` fills it and rests with 50. -/
def callsC7 : List Call :=
  [.add { ID := "sell-1", AmountSell := 100, AmountBuy := 200, Side := SideSell },
   .add { ID := "buy-1", AmountSell := 450, AmountBuy := 150, Side := SideBuy, CreatedAt := 1 }]

/-- The world after `callsC7`. -/
def worldC7 : World := ((World.init fun _ => order0).run callsC7).getD (World.init fun _ => order0)

/-- A buy whose `AmountBuy` is negative, added with `FilledBase = 0`. -/
def buyC7n : Order := { ID := "buy-n", AmountSell := 5, AmountBuy := -5, Side := SideBuy }

/-- The world after the buy `buyC7n` is added to the empty book. -/
def worldC7n : World :=
  ((World.init fun _ => order0).run [.add buyC7n]).getD (World.init fun _ => order0)

/-- A buy order whose base amount `AmountBuy` is zero. -/
def zeroC8 : Order := { ID := "buy-0", AmountSell := 5, AmountBuy := 0, Side := SideBuy }

/-- The world after adding `zeroC8` to the empty book. -/
def worldC8 : World :=
  ((World.init fun _ => order0).run [.add zeroC8]).getD (World.init fun _ => order0)

/-- The world after the first call of `callsC7`. -/
def worldC8a : World :=
  ((World.init fun _ => order0).run (callsC7.take 1)).getD (World.init fun _ => order0)

/-- The world after adding the buy order of `callsC7` to `worldC8a`. -/
def worldC8b : World :=
  (worldC8a.run (callsC7.drop 1)).getD worldC8a

/-- The book of the spec's third scenario: the sell order 50/100 rests (address 0, entry
1) and the buy order 200/100 comes in (address 1). -/
def bookC6 : OrderBook :=
  { orders := fun a =>
      if a = 0 then { ID := "sell-1", AmountSell := 50, AmountBuy := 100, Side := SideSell }
      else { ID := "buy-1", AmountSell := 200, AmountBuy := 100, Side := SideBuy, CreatedAt := 1 },
    entries := fun _ => { Order := 0, Index := 0 },
    buys := [], sells := [1], orderMap := [("sell-1", 1)] }

/-- The result of `AddOrder` in the scenario. -/
def resultC6 : OrderBook × List MatchResult := (AddOrder bookC6 1).getD (bookC6, [])

/-- Three sells: price 3 at time 0, price 2 at time 1, price 2 at time 2. -/
def callsC4 : List Call :=
  [.add { ID := "sell-1", AmountSell := 100, AmountBuy := 300, Side := SideSell },
   .add { ID := "sell-2", AmountSell := 100, AmountBuy := 200, Side := SideSell, CreatedAt := 1 },
   .add { ID := "sell-3", AmountSell := 100, AmountBuy := 200, Side := SideSell, CreatedAt := 2 }]

/-- The world after `callsC4`. -/
def worldC4 : World := ((World.init fun _ => order0).run callsC4).getD (World.init fun _ => order0)

/-- A buy of 250 at price 4: it takes the three sells of `callsC4`, the last one in part. -/
def buyC4 : Order :=
  { ID := "buy-1", AmountSell := 1000, AmountBuy := 250, Side := SideBuy, CreatedAt := 3 }

/-- The result of adding `buyC4` to `worldC4`. -/
def resultC4 : OrderBook × List MatchResult :=
  (AddOrder { worldC4.ob with orders := Function.update worldC4.ob.orders worldC4.next buyC4 }
    worldC4.next).getD (worldC4.ob, [])

/-- Two buys that rest: 200/100 (price 2) at address 0 and 300/100 (price 3) at address 1. -/
def callsC11 : List Call :=
  [.add { ID := "buy-1", AmountSell := 200, AmountBuy := 100, Side := SideBuy },
   .add { ID := "buy-2", AmountSell := 300, AmountBuy := 100, Side := SideBuy, CreatedAt := 1 }]

/-- The world after `callsC11`. -/
def worldC11 : World :=
  ((World.init fun _ => order0).run callsC11).getD (World.init fun _ => order0)

/-- One buy is added and cancelled again. -/
def callsC12 : List Call :=
  [.add { ID := "buy-1", AmountSell := 200, AmountBuy := 100, Side := SideBuy },
   .cancel "buy-1"]

/-- The world after `callsC12`. -/
def worldC12 : World :=
  ((World.init fun _ => order0).run callsC12).getD (World.init fun _ => order0)

/-- A book with three resting buys, at the prices 2, 3 and 2, and one resting sell at
the price 4. -/
def callsC14 : List Call :=
  [.add { ID := "buy-1", AmountSell := 200, AmountBuy := 100, Side := SideBuy },
   .add { ID := "buy-2", AmountSell := 300, AmountBuy := 100, Side := SideBuy, CreatedAt := 1 },
   .add { ID := "buy-3", AmountSell := 100, AmountBuy := 50, Side := SideBuy, CreatedAt := 2 },
   .add { ID := "sell-1", AmountSell := 70, AmountBuy := 280, Side := SideSell, CreatedAt := 3 }]

/-- The world after `callsC14`. -/
def worldC14 : World :=
  ((World.init fun _ => order0).run callsC14).getD (World.init fun _ => order0)

/-- The snapshot of `worldC14`. -/
def snapC14 : Snapshot := (GetSnapshot worldC14.ob).getD default

/-- A buy at the price 1 that the sell of `worldC8a` (price 2) does not match. -/
def buyC13 : Order :=
  { ID := "buy-9", AmountSell := 100, AmountBuy := 100, Side := SideBuy, CreatedAt := 9 }

/-- The result of adding `buyC13` to `worldC8a`. -/
def resultC13 : OrderBook × List MatchResult :=
  (AddOrder { worldC8a.ob with orders := Function.update worldC8a.ob.orders worldC8a.next buyC13 }
    worldC8a.next).getD (worldC8a.ob, [])

/-- A key of the stand-in library. -/
def keyT : PrivateKey := { PublicKey := { X := 18, Y := 52 }, D := 7 }

/-- A domain, as in the tests of the package. -/
def domainT : DomainSeparator := NewDomainSeparator 31337 0x5FbDB2315678afecb367f032d93F642f64180aa3

/-- An order whose maker is the address of `keyT`. -/
def orderT : OrderData :=
  { Maker := toyCrypto.PubkeyToAddress keyT.PublicKey,
    TokenSell := 0xaaaaaaaaaaaaaaaaaaaaaaaaaaaaaaaaaaaaaaaa,
    TokenBuy := 0xbbbbbbbbbbbbbbbbbbbbbbbbbbbbbbbbbbbbbbbb,
    AmountSell := 1000, AmountBuy := 500, Expiry := 1700000000, Nonce := 0, Salt := 12345 }

/-- The signature of `orderT` by `keyT`. -/
def sigT : List Nat :=
  match toyCrypto.Sign (orderDigest toyCrypto domainT orderT) keyT with
  | .ok sig => sig
  | .error _ => []

/-- The signature `sigT` in the Ethereum convention: its last byte raised by 27. -/
def sigT27 : List Nat := sigT.set 64 (sigT.getD 64 0 + 27)

/-- The order `orderT` with a negative `AmountSell`. -/
def orderNegT : OrderData := { orderT with AmountSell := -1000 }

/-- The order `orderT` with an `AmountBuy` that does not fit in 256 bits. -/
def orderWideT : OrderData := { orderT with AmountBuy := 2 ^ 256 }

/-- The signature of `orderWideT` by `keyT`. -/
def sigWideT : List Nat :=
  match toyCrypto.Sign (orderDigest toyCrypto domainT orderWideT) keyT with
  | .ok sig => sig
  | .error _ => []

/-- A sell `100/300` (price 3) and a buy `200/100` (price 2): both rest. -/
def callsC28 : List Call :=
  [.add { ID := "sell-1", AmountSell := 100, AmountBuy := 300, Side := SideSell },
   .add { ID := "buy-1", AmountSell := 200, AmountBuy := 100, Side := SideBuy, CreatedAt := 1 }]

/-- The world after `callsC28`. -/
def worldC28 : World :=
  ((World.init fun _ => order0).run callsC28).getD (World.init fun _ => order0)

/-- The service of the examples, with empty tables and no book. -/
def serviceT : Service := NewOrderService 31337 0x5FbDB2315678afecb367f032d93F642f64180aa3

/-- What `SubmitOrder` verifies for the submissions of the examples. -/
def subDataT : OrderData :=
  { Maker := 0x1234, TokenSell := 0xaaaa, TokenBuy := 0xbbbb, AmountSell := 1000,
    AmountBuy := 500, Expiry := 1700000000, Nonce := 0, Salt := 12345 }

/-- The signature of `subDataT` by `keyT`, whose address is `0x1234`. -/
def subSigT : List Nat :=
  match toyCrypto.Sign (orderDigest toyCrypto serviceT.domain subDataT) keyT with
  | .ok sig => sig
  | .error _ => []

/-- A submission signed by its maker, with the side `hold`. -/
def subHoldT : OrderSubmission :=
  { Maker := "0x1234", TokenSell := "0xaaaa", TokenBuy := "0xbbbb", AmountSell := "1000",
    AmountBuy := "500", Expiry := 1700000000, Nonce := 0, Salt := "12345",
    Signature := hexText subSigT, Side := "hold", Pair := "TKA-TKB" }

/-- The submission `subHoldT` as a buy, with `0x9999` as its maker: the signer is not the
maker. -/
def subWrongT : OrderSubmission := { subHoldT with Maker := "0x9999", Side := SideBuy }

/-- The submission `subHoldT` with an amount that is no decimal number. -/
def subBadT : OrderSubmission := { subHoldT with AmountBuy := "5e2" }

/-- An order as `SubmitOrder` and `OrderRepo.Create` leave it, with a negative salt. -/
def orderC26 : Order :=
  { ID := "id-0", Maker := "0x1234", TokenSell := "0xaaaa", TokenBuy := "0xbbbb",
    AmountSell := 1000000000000000000000000000000, AmountBuy := 500, Expiry := 1700000000,
    Nonce := 7, Salt := -12345, Signature := "0x00", Side := SideBuy,
    Status := OrderStatusPartiallyFilled, FilledBase := 100, Pair := "TKA-TKB",
    CreatedAt := 3, UpdatedAt := 4 }

/-- The row of `orderC26`. -/
def rowC26 : orderRow :=
  match orderRowOf orderC26 with
  | .ok row => row
  | .error _ => default

/-- The submission `subHoldT` as a buy: 500 of the base for 1000, price 2. -/
def subBuyT : OrderSubmission := { subHoldT with Side := SideBuy }

/-- What `SubmitOrder` verifies for `subSellT`. -/
def sellDataT : OrderData := { subDataT with AmountSell := 500, AmountBuy := 1000 }

/-- The signature of `sellDataT` by `keyT`. -/
def sellSigT : List Nat :=
  match toyCrypto.Sign (orderDigest toyCrypto serviceT.domain sellDataT) keyT with
  | .ok sig => sig
  | .error _ => []

/-- A sell of 500 of the base for 1000, price 2, signed by its maker. -/
def subSellT : OrderSubmission :=
  { subHoldT with AmountSell := "500", AmountBuy := "1000", Signature := hexText sellSigT,
                  Side := SideSell }

/-- The service after the sell `subSellT` and then the buy `subBuyT`, which fills it. -/
def serviceC25 : Service :=
  (((OrderService.SubmitOrder toyOutside serviceT subSellT).getD
      (serviceT, .error .signerMismatch)).1 |>
    fun s1 => (OrderService.SubmitOrder toyOutside s1 subBuyT).getD
      (s1, .error .signerMismatch)).1

/-- Calls after `callsC7`: a cancellation of the filled sell and a new sell that takes
the rest of the buy. -/
def callsC25 : List Call :=
  [.cancel "sell-1",
   .add { ID := "sell-2", AmountSell := 50, AmountBuy := 100, Side := SideSell, CreatedAt := 2 }]

/-- The world after `callsC7` and then `callsC25`. -/
def worldC25 : World := (worldC7.run callsC25).getD worldC7

/-- The client of the examples. -/
def clientT : Client :=
  { Address := 0x1234, Contract := 0x5FbDB2315678afecb367f032d93F642f64180aa3, ChainID := 31337,
    PrivateKey := keyT }

/-- What the worker of the examples receives: a job on a chain without a gas price, a job
on a chain where everything succeeds, then the end of the context, then one more job. -/
def eventsC27 : List WorkerEvent :=
  [.job { Match := { BuyOrder := 1, SellOrder := 0, FillAmount := 500, QuoteAmount := 1000,
                     Price := 0 }, TradeID := "id-2", Result := 0 } toyChainNoGas,
   .job { Match := { BuyOrder := 1, SellOrder := 0, FillAmount := 500, QuoteAmount := 1000,
                     Price := 0 }, TradeID := "id-3", Result := 1 } (toyChain 1),
   .done,
   .job { Match := { BuyOrder := 1, SellOrder := 0, FillAmount := 500, QuoteAmount := 1000,
                     Price := 0 }, TradeID := "id-4", Result := 2 } (toyChain 1)]

/-! # Theorems -/

set_option maxRecDepth 100000

/-! ## The loop bodies, read backwards -/

theorem matchBuyStep_fill {ob : OrderBook} {p : Nat} {bp : F64} {ob1 : OrderBook}
    {m : MatchResult} (h : matchBuyStep ob p bp = some (.fill ob1 m)) :
    ∃ top rest sp, ob.sells = top :: rest ∧ 0 < (ob.orders p).RemainingBase ∧
      (ob.orders (ob.entries top).Order).Price = some sp ∧ ¬ bp < sp ∧
      0 < m.FillAmount ∧ (ob.orders (ob.entries top).Order).AmountSell ≠ 0 ∧
      m.BuyOrder = p ∧ m.SellOrder = (ob.entries top).Order ∧
      m.FillAmount = minBigInt (ob.orders p).RemainingBase
        (ob.orders (ob.entries top).Order).RemainingBase ∧
      m.QuoteAmount = m.FillAmount * (ob.orders (ob.entries top).Order).AmountBuy
        / (ob.orders (ob.entries top).Order).AmountSell ∧
      m.Price = sp ∧
      ob1.orders = applyFill ob.orders p (ob.entries top).Order m.FillAmount ∧
      ob1.buys = ob.buys ∧
      PopOrKeep (SellHeap.Less ob1.orders)
        ((ob1.orders (ob.entries top).Order).Status = OrderStatusFilled)
        ob.sellHeap ob1.sellHeap ∧
      ob1.orderMap = (if (ob1.orders (ob.entries top).Order).Status = OrderStatusFilled
        then mapDelete ob.orderMap (ob1.orders (ob.entries top).Order).ID else ob.orderMap) := by
  unfold matchBuyStep at h
  split at h
  · simp at h
  · rename_i top rest hs
    split at h
    · simp at h
    · rename_i hrem
      simp only [] at h
      split at h
      · simp at h
      · rename_i sp hsp
        split at h
        · simp at h
        · rename_i hcmp
          split at h
          · simp at h
          · rename_i hfill
            split at h
            · simp at h
            · rename_i hdiv
              refine ⟨top, rest, sp, hs, not_not.mp hrem, hsp, hcmp, ?_⟩
              split at h
              · rename_i hst
                split at h
                · simp at h
                · rename_i hm e hpop
                  simp only [Option.some.injEq, LoopStep.fill.injEq] at h
                  obtain ⟨rfl, rfl⟩ := h
                  refine ⟨not_le.mp hfill, hdiv, rfl, rfl, rfl, rfl, rfl, rfl, rfl, ?_, ?_⟩
                  · exact Or.inl ⟨hst, e, hpop⟩
                  · simp only [hst, if_true]
              · rename_i hst
                simp only [Option.some.injEq, LoopStep.fill.injEq] at h
                obtain ⟨rfl, rfl⟩ := h
                refine ⟨not_le.mp hfill, hdiv, rfl, rfl, rfl, rfl, rfl, rfl, rfl, ?_, ?_⟩
                · exact Or.inr ⟨hst, rfl⟩
                · simp only [hst, if_false]

theorem matchSellStep_fill {ob : OrderBook} {p : Nat} {sp : F64} {ob1 : OrderBook}
    {m : MatchResult} (h : matchSellStep ob p sp = some (.fill ob1 m)) :
    ∃ top rest bp, ob.buys = top :: rest ∧ 0 < (ob.orders p).RemainingBase ∧
      (ob.orders (ob.entries top).Order).Price = some bp ∧ ¬ bp < sp ∧
      0 < m.FillAmount ∧ (ob.orders p).AmountSell ≠ 0 ∧
      m.SellOrder = p ∧ m.BuyOrder = (ob.entries top).Order ∧
      m.FillAmount = minBigInt (ob.orders p).RemainingBase
        (ob.orders (ob.entries top).Order).RemainingBase ∧
      m.QuoteAmount = m.FillAmount * (ob.orders p).AmountBuy / (ob.orders p).AmountSell ∧
      m.Price = bp ∧
      ob1.orders = applyFill ob.orders p (ob.entries top).Order m.FillAmount ∧
      ob1.sells = ob.sells ∧
      PopOrKeep (BuyHeap.Less ob1.orders)
        ((ob1.orders (ob.entries top).Order).Status = OrderStatusFilled)
        ob.buyHeap ob1.buyHeap ∧
      ob1.orderMap = (if (ob1.orders (ob.entries top).Order).Status = OrderStatusFilled
        then mapDelete ob.orderMap (ob1.orders (ob.entries top).Order).ID else ob.orderMap) := by
  unfold matchSellStep at h
  split at h
  · simp at h
  · rename_i top rest hs
    split at h
    · simp at h
    · rename_i hrem
      simp only [] at h
      split at h
      · simp at h
      · rename_i bp hbp
        split at h
        · simp at h
        · rename_i hcmp
          split at h
          · simp at h
          · rename_i hfill
            split at h
            · simp at h
            · rename_i hdiv
              refine ⟨top, rest, bp, hs, not_not.mp hrem, hbp, hcmp, ?_⟩
              split at h
              · rename_i hst
                split at h
                · simp at h
                · rename_i hm e hpop
                  simp only [Option.some.injEq, LoopStep.fill.injEq] at h
                  obtain ⟨rfl, rfl⟩ := h
                  refine ⟨not_le.mp hfill, hdiv, rfl, rfl, rfl, rfl, rfl, rfl, rfl, ?_, ?_⟩
                  · exact Or.inl ⟨hst, e, hpop⟩
                  · simp only [hst, if_true]
              · rename_i hst
                simp only [Option.some.injEq, LoopStep.fill.injEq] at h
                obtain ⟨rfl, rfl⟩ := h
                refine ⟨not_le.mp hfill, hdiv, rfl, rfl, rfl, rfl, rfl, rfl, rfl, ?_, ?_⟩
                · exact Or.inr ⟨hst, rfl⟩
                · simp only [hst, if_false]

/-! ## The heap methods and `container/heap` -/

theorem swap_list_perm {h : List Nat} {i j ei ej : Nat} (hi : h[i]? = some ei)
    (hj : h[j]? = some ej) : ((h.set i ej).set j ei).Perm h := by
  obtain ⟨hil, rfl⟩ := List.getElem?_eq_some.mp hi
  obtain ⟨hjl, rfl⟩ := List.getElem?_eq_some.mp hj
  rw [List.perm_iff_count]
  intro a
  rw [List.count_set _ _ _ _ (by simpa using hjl), List.count_set _ _ _ _ hil]
  simp only [List.getElem_set, beq_iff_eq]
  have h1 : (if h[i] = a then 1 else 0) ≤ List.count a h := by
    split
    · rename_i e; subst e; exact List.count_pos_iff.mpr (List.getElem_mem _)
    · omega
  have h2 : (if h[j] = a then 1 else 0) ≤ List.count a h := by
    split
    · rename_i e; subst e; exact List.count_pos_iff.mpr (List.getElem_mem _)
    · omega
  by_cases hij : i = j
  · subst hij; simp only [if_true]; omega
  · simp only [hij, if_false]
    by_cases e1 : h[i] = a <;> by_cases e2 : h[j] = a <;> simp only [e1, e2, if_true, if_false] <;>
      simp only [e1, e2, if_true, if_false] at h1 h2 <;> omega

theorem swap_list_getElem? {h : List Nat} {i j ei ej : Nat} (hi : h[i]? = some ei)
    (hj : h[j]? = some ej) (x : Nat) :
    ((h.set i ej).set j ei)[x]? = if x = j then some ei else if x = i then some ej else h[x]? := by
  obtain ⟨hil, -⟩ := List.getElem?_eq_some.mp hi
  obtain ⟨hjl, -⟩ := List.getElem?_eq_some.mp hj
  rw [List.getElem?_set, List.getElem?_set]
  simp only [List.length_set, hjl, hil, if_true]
  by_cases h1 : x = j
  · subst h1; simp
  · by_cases h2 : x = i
    · subst h2; simp [h1, Ne.symm h1]
    · simp [h1, h2, Ne.symm h1, Ne.symm h2]

theorem Swap_inv {hm hm1 : HeapMem} {i j : Nat} (h : hm.Swap i j = some hm1) :
    ∃ ei ej, hm.h[i]? = some ei ∧ hm.h[j]? = some ej ∧
      hm1.h = (hm.h.set i ej).set j ei ∧
      hm1.entries = Function.update
        (Function.update hm.entries ej { hm.entries ej with Index := (i : Int) }) ei
        { (Function.update hm.entries ej { hm.entries ej with Index := (i : Int) }) ei with
          Index := (j : Int) } := by
  unfold HeapMem.Swap at h
  split at h
  · rename_i ei ej hi hj
    simp only [Option.some.injEq] at h
    subst h
    exact ⟨ei, ej, hi, hj, rfl, rfl⟩
  · simp at h

theorem HeapKeep.keep_refl (n : Nat) (hm : HeapMem) : HeapKeep n hm hm :=
  ⟨fun _ => rfl, List.Perm.refl _, fun _ _ => rfl⟩

theorem HeapKeep.keep_trans {n : Nat} {a b c : HeapMem} (h1 : HeapKeep n a b) (h2 : HeapKeep n b c) :
    HeapKeep n a c :=
  ⟨fun x => (h2.order x).trans (h1.order x), h2.perm.trans h1.perm,
    fun x hx => (h2.rest x hx).trans (h1.rest x hx)⟩

theorem HeapKeep.keep_mono {n k : Nat} {a b : HeapMem} (h : HeapKeep n a b) (hk : n ≤ k) :
    HeapKeep k a b :=
  ⟨h.order, h.perm, fun x hx => h.rest x (le_trans hk hx)⟩

theorem HeapKeep.length {n : Nat} {a b : HeapMem} (h : HeapKeep n a b) :
    b.h.length = a.h.length := h.perm.length_eq

theorem Swap_keep {hm hm1 : HeapMem} {i j n : Nat} (h : hm.Swap i j = some hm1)
    (hi : i < n) (hj : j < n) : HeapKeep n hm hm1 := by
  obtain ⟨ei, ej, hei, hej, hh, he⟩ := Swap_inv h
  refine ⟨?_, ?_, ?_⟩
  · intro a
    rw [he]
    by_cases h1 : a = ei
    · subst h1
      simp only [Function.update_same]
      by_cases h2 : a = ej
      · subst h2; simp
      · simp [Function.update_noteq h2]
    · rw [Function.update_noteq h1]
      by_cases h2 : a = ej
      · subst h2; simp
      · rw [Function.update_noteq h2]
  · rw [hh]; exact swap_list_perm hei hej
  · intro x hx
    rw [hh, swap_list_getElem? hei hej]
    have h1 : x ≠ j := by omega
    have h2 : x ≠ i := by omega
    simp [h1, h2]

theorem heapUp_run {less : HeapMem → Nat → Nat → Option Bool} :
    ∀ (fuel : Nat) (hm : HeapMem) (j : Nat) (hm1 : HeapMem),
      heapUp less fuel hm j = some hm1 → UpRun less hm j hm1 := by
  intro fuel
  induction fuel with
  | zero => intro hm j hm1 h; simp [heapUp] at h
  | succ fuel ih =>
    intro hm j hm1 h
    unfold heapUp at h
    simp only [] at h
    split at h
    · rename_i hij
      simp only [Option.some.injEq] at h
      subst h
      exact UpRun.root hij
    · rename_i hij
      split at h
      · simp at h
      · rename_i hl
        simp only [Option.some.injEq] at h
        subst h
        exact UpRun.stop hij hl
      · rename_i hl
        split at h
        · simp at h
        · rename_i hm2 hsw
          exact UpRun.swap hij hl hsw (ih _ _ _ h)

theorem heapDownLoop_run {less : HeapMem → Nat → Nat → Option Bool} {n : Nat} :
    ∀ (fuel : Nat) (hm : HeapMem) (i : Nat) (hm1 : HeapMem) (k : Nat),
      heapDownLoop less fuel hm i n = some (hm1, k) → DownRun less n hm i hm1 k := by
  intro fuel
  induction fuel with
  | zero => intro hm i hm1 k h; simp [heapDownLoop] at h
  | succ fuel ih =>
    intro hm i hm1 k h
    unfold heapDownLoop at h
    simp only [] at h
    split at h
    · rename_i hle
      simp only [Option.some.injEq, Prod.mk.injEq] at h
      obtain ⟨rfl, rfl⟩ := h
      exact DownRun.leaf hle
    · rename_i hlt
      split at h
      · simp at h
      · rename_i b hb
        have hc : downChild less hm i n = some (if b then 2 * i + 1 + 1 else 2 * i + 1) := by
          unfold downChild; rw [hb]
        split at h
        · simp at h
        · rename_i hl
          simp only [Option.some.injEq, Prod.mk.injEq] at h
          obtain ⟨rfl, rfl⟩ := h
          exact DownRun.stop (not_le.mp hlt) hc hl
        · rename_i hl
          split at h
          · simp at h
          · rename_i hm2 hsw
            exact DownRun.swap (not_le.mp hlt) hc hl hsw (ih _ _ _ _ h)

theorem downChild_cases {less : HeapMem → Nat → Nat → Option Bool} {hm : HeapMem} {i n j : Nat}
    (h : downChild less hm i n = some j) :
    (j = 2 * i + 1 ∧ (2 * i + 2 < n → less hm (2 * i + 2) (2 * i + 1) = some false)) ∨
    (j = 2 * i + 2 ∧ 2 * i + 2 < n ∧ less hm (2 * i + 2) (2 * i + 1) = some true) := by
  unfold downChild at h
  split at h
  · simp at h
  · rename_i b hb
    simp only [Option.some.injEq] at h
    split at hb
    · rename_i h2
      cases b
      · left; exact ⟨by simpa using h.symm, fun _ => hb⟩
      · right; exact ⟨by simpa using h.symm, h2, hb⟩
    · rename_i h2
      simp only [Option.some.injEq] at hb
      subst hb
      left; exact ⟨by simpa using h.symm, fun h3 => absurd h3 h2⟩

theorem downChild_lt {less : HeapMem → Nat → Nat → Option Bool} {hm : HeapMem} {i n j : Nat}
    (h : downChild less hm i n = some j) (hlt : 2 * i + 1 < n) : i < j ∧ j < n := by
  rcases downChild_cases h with ⟨rfl, -⟩ | ⟨rfl, h2, -⟩ <;> omega

theorem UpRun.up_keep {less : HeapMem → Nat → Nat → Option Bool} {hm hm1 : HeapMem} {j : Nat}
    (h : UpRun less hm j hm1) : HeapKeep (j + 1) hm hm1 := by
  induction h with
  | root _ => exact HeapKeep.keep_refl _ _
  | stop _ _ => exact HeapKeep.keep_refl _ _
  | @swap hm0 hm2 hm3 j0 hij _ hsw _ ih =>
    have hlt : (j0 - 1) / 2 < j0 := by omega
    exact (Swap_keep hsw (by omega) (by omega)).keep_trans (ih.keep_mono (by omega))

theorem DownRun.down_keep {less : HeapMem → Nat → Nat → Option Bool} {n : Nat} {hm hm1 : HeapMem}
    {i k : Nat} (h : DownRun less n hm i hm1 k) : HeapKeep n hm hm1 := by
  induction h with
  | leaf _ => exact HeapKeep.keep_refl _ _
  | stop _ _ _ => exact HeapKeep.keep_refl _ _
  | swap hlt hc _ hsw _ ih =>
    have := downChild_lt hc hlt
    exact (Swap_keep hsw (by omega) this.2).keep_trans ih

theorem Pop_inv {hm hm1 : HeapMem} {e : Nat} (h : hm.Pop = some (hm1, e)) :
    hm.h = hm1.h ++ [e] ∧
      hm1.entries = Function.update hm.entries e { hm.entries e with Index := -1 } := by
  unfold HeapMem.Pop at h
  split at h
  · simp at h
  · rename_i e1 hl
    simp only [Option.some.injEq, Prod.mk.injEq] at h
    obtain ⟨rfl, rfl⟩ := h
    exact ⟨(List.dropLast_append_getLast? e1 (by simpa using hl)).symm, rfl⟩

theorem Pop_order {hm hm1 : HeapMem} {e : Nat} (h : hm.Pop = some (hm1, e)) (a : Nat) :
    (hm1.entries a).Order = (hm.entries a).Order := by
  rw [(Pop_inv h).2]
  by_cases h1 : a = e
  · subst h1; simp
  · rw [Function.update_noteq h1]

theorem Push_order (hm : HeapMem) (x a : Nat) :
    ((hm.Push x).entries a).Order = (hm.entries a).Order := by
  unfold HeapMem.Push
  by_cases h1 : a = x
  · subst h1; simp
  · simp [Function.update_noteq h1]

/-- The parts of a run of `heap.Pop`. -/
theorem heapPop_parts {less : HeapMem → Nat → Nat → Option Bool} {hm hm1 : HeapMem} {e : Nat}
    (h : heapPop less hm = some (hm1, e)) :
    ∃ hmA hmB k, 0 < hm.h.length ∧ hm.Swap 0 (hm.h.length - 1) = some hmA ∧
      DownRun less (hm.h.length - 1) hmA 0 hmB k ∧ hmB.Pop = some (hm1, e) := by
  unfold heapPop at h
  split at h
  · simp at h
  · rename_i hlen
    simp only [] at h
    split at h
    · simp at h
    · rename_i hmA hsw
      split at h
      · simp at h
      · rename_i hmB b hd
        unfold heapDown at hd
        split at hd
        · simp at hd
        · rename_i hmB1 k hdl
          simp only [Option.some.injEq, Prod.mk.injEq] at hd
          obtain ⟨rfl, -⟩ := hd
          exact ⟨hmA, hmB1, k, Nat.pos_of_ne_zero hlen, hsw, heapDownLoop_run _ _ _ _ _ hdl, h⟩

theorem heapPop_inv {less : HeapMem → Nat → Nat → Option Bool} {hm hm1 : HeapMem} {e : Nat}
    (h : heapPop less hm = some (hm1, e)) :
    hm.h.head? = some e ∧ (e :: hm1.h).Perm hm.h ∧
      ∀ a, (hm1.entries a).Order = (hm.entries a).Order := by
  obtain ⟨hmA, hmB, k, hlen, hsw, hdown, hpop⟩ := heapPop_parts h
  have k1 := Swap_keep (n := hm.h.length) hsw (by omega) (by omega)
  have k2 := hdown.down_keep
  obtain ⟨e0, en, he0, hen, hh, -⟩ := Swap_inv hsw
  have hlast : hmB.h[hm.h.length - 1]? = some e0 := by
    rw [k2.rest _ (le_refl _), hh, swap_list_getElem? he0 hen]
    simp
  have hp := (Pop_inv hpop).1
  have hlenB : hmB.h.length = hm.h.length := by rw [k2.length, k1.length]
  have hee : e = e0 := by
    rw [hp] at hlast hlenB
    simp only [List.length_append, List.length_singleton] at hlenB
    have : hm.h.length - 1 = hm1.h.length := by omega
    rw [this, List.getElem?_append_right (le_refl _)] at hlast
    simpa using hlast
  subst hee
  refine ⟨?_, ?_, ?_⟩
  · rw [List.head?_eq_getElem?]; exact he0
  · have : (hm1.h ++ [e]).Perm hm.h := by rw [← hp]; exact k2.perm.trans k1.perm
    exact (List.perm_append_singleton e hm1.h).symm.trans this
  · intro a
    rw [Pop_order hpop, k2.order, k1.order]

theorem heapPush_inv {less : HeapMem → Nat → Nat → Option Bool} {hm hm1 : HeapMem} {x : Nat}
    (h : heapPush less hm x = some hm1) :
    hm1.h.Perm (x :: hm.h) ∧ (∀ a, (hm1.entries a).Order = (hm.entries a).Order) ∧
      UpRun less (hm.Push x) hm.h.length hm1 := by
  unfold heapPush at h
  simp only [] at h
  have hrun := heapUp_run _ _ _ _ h
  have hl : (hm.Push x).h.length - 1 = hm.h.length := by simp [HeapMem.Push]
  rw [hl] at hrun
  have k := hrun.up_keep
  refine ⟨?_, ?_, hrun⟩
  · refine k.perm.trans ?_
    simp only [HeapMem.Push]
    exact List.perm_append_singleton x hm.h
  · intro a
    rw [k.order, Push_order]

/-- The parts of a run of `heap.Remove`. -/
theorem heapRemove_parts {less : HeapMem → Nat → Nat → Option Bool} {hm hm1 : HeapMem}
    {i : Int} {e : Nat} (h : heapRemove less hm i = some (hm1, e)) :
    ∃ j : Nat, i = (j : Int) ∧ j < hm.h.length ∧
      ((j = hm.h.length - 1 ∧ hm.Pop = some (hm1, e)) ∨
       (j ≠ hm.h.length - 1 ∧ ∃ hmA hmB k, hm.Swap j (hm.h.length - 1) = some hmA ∧
          DownRun less (hm.h.length - 1) hmA j hmB k ∧
          ((j < k ∧ hmB.Pop = some (hm1, e)) ∨
           (¬ j < k ∧ ∃ hmC, UpRun less hmB j hmC ∧ hmC.Pop = some (hm1, e))))) := by
  unfold heapRemove at h
  simp only [] at h
  split at h
  · rename_i hne
    split at h
    · simp at h
    · rename_i hrange
      push_neg at hrange
      split at h
      · simp at h
      · rename_i hmA hsw
        have hn : ((hm.h.length : Int) - 1).toNat = hm.h.length - 1 := by omega
        rw [hn] at hsw h
        obtain ⟨ei, en, hei, -, -, -⟩ := Swap_inv hsw
        have hil := (List.getElem?_eq_some.mp hei).1
        refine ⟨i.toNat, by omega, hil, Or.inr ⟨by omega, ?_⟩⟩
        split at h
        · simp at h
        · rename_i hmB hd
          unfold heapDown at hd
          split at hd
          · simp at hd
          · rename_i hmB1 k hdl
            simp only [Option.some.injEq, Prod.mk.injEq, decide_eq_true_eq] at hd
            obtain ⟨rfl, hk⟩ := hd
            exact ⟨hmA, hmB1, k, hsw, heapDownLoop_run _ _ _ _ _ hdl, Or.inl ⟨hk, h⟩⟩
        · rename_i hmB hd
          unfold heapDown at hd
          split at hd
          · simp at hd
          · rename_i hmB1 k hdl
            simp only [Option.some.injEq, Prod.mk.injEq, decide_eq_false_iff_not] at hd
            obtain ⟨rfl, hk⟩ := hd
            split at h
            · simp at h
            · rename_i hmC hup
              exact ⟨hmA, hmB1, k, hsw, heapDownLoop_run _ _ _ _ _ hdl,
                Or.inr ⟨hk, hmC, heapUp_run _ _ _ _ hup, h⟩⟩
  · rename_i heq
    push_neg at heq
    have hp := (Pop_inv h).1
    have : 0 < hm.h.length := by rw [hp]; simp
    exact ⟨hm.h.length - 1, by omega, by omega, Or.inl ⟨rfl, h⟩⟩

theorem heapRemove_inv {less : HeapMem → Nat → Nat → Option Bool} {hm hm1 : HeapMem}
    {i : Int} {e : Nat} (h : heapRemove less hm i = some (hm1, e)) :
    0 ≤ i ∧ hm.h[i.toNat]? = some e ∧ (e :: hm1.h).Perm hm.h ∧
      ∀ a, (hm1.entries a).Order = (hm.entries a).Order := by
  obtain ⟨j, rfl, hj, hcase⟩ := heapRemove_parts h
  simp only [Int.toNat_ofNat]
  refine ⟨by omega, ?_⟩
  rcases hcase with ⟨hjn, hpop⟩ | ⟨hjn, hmA, hmB, k, hsw, hdown, hrest⟩
  · have hp := (Pop_inv hpop).1
    refine ⟨?_, ?_, fun a => Pop_order hpop a⟩
    · have hl : hm.h.length = hm1.h.length + 1 := by rw [hp]; simp
      rw [hjn, hp]
      simp only [List.length_append, List.length_singleton, Nat.add_sub_cancel]
      rw [List.getElem?_append_right (le_refl _)]
      simp
    · rw [hp]; exact (List.perm_append_singleton e hm1.h).symm
  · have k1 := Swap_keep (n := hm.h.length) hsw hj (by omega)
    have k2 := hdown.down_keep
    obtain ⟨ej, en, hej, hen, hh, -⟩ := Swap_inv hsw
    have hlastB : hmB.h[hm.h.length - 1]? = some ej := by
      rw [k2.rest _ (le_refl _), hh, swap_list_getElem? hej hen]
      simp
    -- the heap the final `Pop` works on
    obtain ⟨hmZ, hpop, kZ⟩ : ∃ hmZ, hmZ.Pop = some (hm1, e) ∧ HeapKeep (hm.h.length - 1) hmB hmZ := by
      rcases hrest with ⟨-, hpop⟩ | ⟨-, hmC, hup, hpop⟩
      · exact ⟨hmB, hpop, HeapKeep.keep_refl _ _⟩
      · exact ⟨hmC, hpop, hup.up_keep.keep_mono (by omega)⟩
    have hlast : hmZ.h[hm.h.length - 1]? = some ej := by
      rw [kZ.rest _ (le_refl _)]; exact hlastB
    have hp := (Pop_inv hpop).1
    have hlenZ : hmZ.h.length = hm.h.length := by rw [kZ.length, k2.length, k1.length]
    have hee : e = ej := by
      rw [hp] at hlast hlenZ
      simp only [List.length_append, List.length_singleton] at hlenZ
      have : hm.h.length - 1 = hm1.h.length := by omega
      rw [this, List.getElem?_append_right (le_refl _)] at hlast
      simpa using hlast
    subst hee
    refine ⟨hej, ?_, ?_⟩
    · have : (hm1.h ++ [e]).Perm hm.h := by
        rw [← hp]; exact kZ.perm.trans (k2.perm.trans k1.perm)
      exact (List.perm_append_singleton e hm1.h).symm.trans this
    · intro a
      rw [Pop_order hpop, kZ.order, k2.order, k1.order]

/-! ## Orders under a fill -/

theorem frozen_updateOrderStatus (o : Order) : (updateOrderStatus o).frozen = o.frozen := by
  unfold updateOrderStatus
  split
  · rfl
  · split <;> rfl

theorem frozen_price {o o1 : Order} (h : o1.frozen = o.frozen) : o1.Price = o.Price := by
  have h1 : o1.frozen.Price = o.frozen.Price := by rw [h]
  exact h1

theorem frozen_fields {o o1 : Order} (h : o1.frozen = o.frozen) :
    o1.ID = o.ID ∧ o1.Side = o.Side ∧ o1.AmountSell = o.AmountSell ∧
      o1.AmountBuy = o.AmountBuy ∧ o1.CreatedAt = o.CreatedAt := by
  have h1 : o1.frozen.ID = o.frozen.ID := by rw [h]
  have h2 : o1.frozen.Side = o.frozen.Side := by rw [h]
  have h3 : o1.frozen.AmountSell = o.frozen.AmountSell := by rw [h]
  have h4 : o1.frozen.AmountBuy = o.frozen.AmountBuy := by rw [h]
  have h5 : o1.frozen.CreatedAt = o.frozen.CreatedAt := by rw [h]
  exact ⟨h1, h2, h3, h4, h5⟩

theorem frozen_totalBase {o o1 : Order} (h : o1.frozen = o.frozen) :
    o1.totalBase = o.totalBase := by
  have h1 : o1.frozen.totalBase = o.frozen.totalBase := by rw [h]
  exact h1

theorem remaining_eq (o : Order) : o.RemainingBase = o.totalBase - o.FilledBase := by
  unfold Order.RemainingBase Order.totalBase
  split <;> rfl

theorem addFilled_frozen (orders : Nat → Order) (p : Nat) (f : Int) (a : Nat) :
    (addFilled orders p f a).frozen = (orders a).frozen := by
  unfold addFilled
  by_cases h : a = p
  · subst h; simp only [Function.update_same]; rfl
  · rw [Function.update_noteq h]

theorem updateStatusAt_frozen (orders : Nat → Order) (p : Nat) (a : Nat) :
    (updateStatusAt orders p a).frozen = (orders a).frozen := by
  unfold updateStatusAt
  by_cases h : a = p
  · subst h; simp only [Function.update_same]; exact frozen_updateOrderStatus _
  · rw [Function.update_noteq h]

theorem applyFill_frozen (orders : Nat → Order) (t mk : Nat) (f : Int) (a : Nat) :
    (applyFill orders t mk f a).frozen = (orders a).frozen := by
  unfold applyFill
  rw [updateStatusAt_frozen, updateStatusAt_frozen, addFilled_frozen, addFilled_frozen]

theorem applyFill_other {orders : Nat → Order} {t mk : Nat} {f : Int} {a : Nat}
    (h1 : a ≠ t) (h2 : a ≠ mk) : applyFill orders t mk f a = orders a := by
  unfold applyFill updateStatusAt addFilled
  simp [Function.update_noteq h1, Function.update_noteq h2]

theorem applyFill_taker {orders : Nat → Order} {t mk : Nat} {f : Int} (h : t ≠ mk) :
    applyFill orders t mk f t =
      updateOrderStatus { orders t with FilledBase := (orders t).FilledBase + f } := by
  unfold applyFill updateStatusAt addFilled
  simp [Function.update_noteq h, Function.update_noteq (Ne.symm h)]

theorem applyFill_maker {orders : Nat → Order} {t mk : Nat} {f : Int} (h : t ≠ mk) :
    applyFill orders t mk f mk =
      updateOrderStatus { orders mk with FilledBase := (orders mk).FilledBase + f } := by
  unfold applyFill updateStatusAt addFilled
  simp [Function.update_noteq h, Function.update_noteq (Ne.symm h)]

/-! ## One fill -/

theorem sideStep_facts {buy : Bool} {p : Nat} {price : F64} {ob ob1 : OrderBook}
    {m : MatchResult} (h : sideStep buy p price ob = some (.fill ob1 m)) :
    ∃ maker, FillFacts ob buy p ob1 m maker := by
  unfold sideStep at h
  cases buy
  · simp only [Bool.false_eq_true, if_false] at h
    obtain ⟨top, rest, bp, hs, hrem, hbp, -, hpos, -, hS, hB, hf, -, hP, ho, hown, hpop, hmap⟩ :=
      matchSellStep_fill h
    refine ⟨(ob.entries top).Order, ⟨hrem, hf, hpos, by rw [hP]; exact hbp, ?_, ?_, ho, ?_, ?_, ?_, hmap⟩⟩
    · simpa using hB
    · simpa using hS
    · exact ⟨top, rest, by simpa [OrderBook.opp] using hs, rfl⟩
    · simpa [OrderBook.own] using hown
    · simpa [OrderBook.opp, oppLess, OrderBook.buyHeap] using hpop
  · simp only [if_true] at h
    obtain ⟨top, rest, sp, hs, hrem, hsp, -, hpos, -, hB, hS, hf, -, hP, ho, hown, hpop, hmap⟩ :=
      matchBuyStep_fill h
    refine ⟨(ob.entries top).Order, ⟨hrem, hf, hpos, by rw [hP]; exact hsp, ?_, ?_, ho, ?_, ?_, ?_, hmap⟩⟩
    · simpa using hB
    · simpa using hS
    · exact ⟨top, rest, by simpa [OrderBook.opp] using hs, rfl⟩
    · simpa [OrderBook.own] using hown
    · simpa [OrderBook.opp, oppLess, OrderBook.sellHeap] using hpop

theorem mapDelete_sublist (m : List (String × Nat)) (k : String) :
    (mapDelete m k).Sublist m := List.filter_sublist m

theorem PopOrKeep.subperm {less : HeapMem → Nat → Nat → Option Bool} {c : Prop}
    {hm hm1 : HeapMem} (h : PopOrKeep less c hm hm1) :
    hm1.h.Subperm hm.h ∧ ∀ a, (hm1.entries a).Order = (hm.entries a).Order := by
  rcases h with ⟨-, e, hpop⟩ | ⟨-, rfl⟩
  · obtain ⟨-, hperm, hord⟩ := heapPop_inv hpop
    exact ⟨(List.sublist_cons_self e hm1.h).subperm.trans hperm.subperm, hord⟩
  · exact ⟨List.Subperm.refl _, fun _ => rfl⟩

/-! ## The matching loops -/

theorem BookShrink.shrink_refl (ob : OrderBook) : BookShrink ob ob :=
  ⟨fun _ => rfl, fun _ => rfl, List.Subperm.refl _, List.Subperm.refl _, List.Sublist.refl _⟩

theorem BookShrink.shrink_trans {a b c : OrderBook} (h1 : BookShrink a b) (h2 : BookShrink b c) :
    BookShrink a c :=
  ⟨fun x => (h2.order x).trans (h1.order x), fun x => (h2.frozen x).trans (h1.frozen x),
    h2.buys.trans h1.buys, h2.sells.trans h1.sells, h2.map.trans h1.map⟩

theorem FillFacts.fill_shrink {ob ob1 : OrderBook} {buy : Bool} {p maker : Nat} {m : MatchResult}
    (h : FillFacts ob buy p ob1 m maker) : BookShrink ob ob1 := by
  have hp := h.pop.subperm
  have hown := h.own
  refine ⟨hp.2, ?_, ?_, ?_, ?_⟩
  · intro a; rw [h.orders]; exact applyFill_frozen _ _ _ _ _
  · cases buy
    · simpa [OrderBook.opp] using hp.1
    · simp only [OrderBook.own, if_true] at hown; rw [hown]
  · cases buy
    · simp only [OrderBook.own, Bool.false_eq_true, if_false] at hown
      rw [hown]
    · simpa [OrderBook.opp] using hp.1
  · rw [h.map]
    split
    · exact mapDelete_sublist _ _
    · exact List.Sublist.refl _

theorem matchLoop_run {step : OrderBook → Option LoopStep} :
    ∀ (fuel : Nat) (ob : OrderBook) (ms : List MatchResult) (ob1 : OrderBook)
      (ms1 : List MatchResult), matchLoop step fuel ob ms = some (ob1, ms1) →
      ∃ tr, MatchRun step ob tr ob1 ∧ ms1 = ms ++ tr.map Prod.snd := by
  intro fuel
  induction fuel with
  | zero => intro ob ms ob1 ms1 h; simp [matchLoop] at h
  | succ fuel ih =>
    intro ob ms ob1 ms1 h
    unfold matchLoop at h
    split at h
    · simp at h
    · rename_i hst
      simp only [Option.some.injEq, Prod.mk.injEq] at h
      obtain ⟨rfl, rfl⟩ := h
      exact ⟨[], MatchRun.exit hst, by simp⟩
    · rename_i ob2 m hst
      obtain ⟨tr, hrun, rfl⟩ := ih _ _ _ _ h
      exact ⟨(ob, m) :: tr, MatchRun.fill hst hrun, by simp⟩

/-- Every fill of a run is a fill of the loop body, made in a book the run has reached. -/
theorem MatchRun.facts {buy : Bool} {p : Nat} {price : F64} {ob ob1 : OrderBook}
    {tr : List (OrderBook × MatchResult)} (h : MatchRun (sideStep buy p price) ob tr ob1) :
    BookShrink ob ob1 ∧
      ∀ sm ∈ tr, BookShrink ob sm.1 ∧
        ∃ s1, sideStep buy p price sm.1 = some (.fill s1 sm.2) := by
  induction h with
  | exit _ => exact ⟨BookShrink.shrink_refl _, by simp⟩
  | @fill s s1 s2 m tr hst _ ih =>
    obtain ⟨maker, hf⟩ := sideStep_facts hst
    refine ⟨hf.fill_shrink.shrink_trans ih.1, ?_⟩
    intro sm hsm
    rcases List.mem_cons.mp hsm with rfl | hsm
    · exact ⟨BookShrink.shrink_refl _, s1, hst⟩
    · exact ⟨hf.fill_shrink.shrink_trans (ih.2 sm hsm).1, (ih.2 sm hsm).2⟩

theorem sideStep_true (p : Nat) (price : F64) :
    sideStep true p price = fun b => matchBuyStep b p price := by
  funext b; simp [sideStep]

theorem sideStep_false (p : Nat) (price : F64) :
    sideStep false p price = fun b => matchSellStep b p price := by
  funext b; simp [sideStep]

/-- `AddOrder` is a run of the loop of its side followed by `restOrder`. -/
theorem AddOrder_inv {ob ob2 : OrderBook} {p : Nat} {ms : List MatchResult}
    (h : AddOrder ob p = some (ob2, ms)) :
    ∃ price ob1 tr, (ob.orders p).Price = some price ∧
      MatchRun (sideStep (decide ((ob.orders p).Side = SideBuy)) p price) ob tr ob1 ∧
      ms = tr.map Prod.snd ∧ restOrder ob1 p = some ob2 := by
  unfold AddOrder at h
  split at h
  · simp at h
  · rename_i ob1 ms1 hm
    split at h
    · simp at h
    · rename_i ob3 hr
      simp only [Option.some.injEq, Prod.mk.injEq] at h
      obtain ⟨rfl, rfl⟩ := h
      by_cases hs : (ob.orders p).Side = SideBuy
      · simp only [hs, if_true] at hm
        unfold matchBuy at hm
        split at hm
        · simp at hm
        · rename_i price hp
          obtain ⟨tr, hrun, hms⟩ := matchLoop_run _ _ _ _ _ hm
          refine ⟨price, ob1, tr, hp, ?_, by simpa using hms, hr⟩
          simp only [hs, decide_True, sideStep_true]
          exact hrun
      · simp only [hs, if_false] at hm
        unfold matchSell at hm
        split at hm
        · simp at hm
        · rename_i price hp
          obtain ⟨tr, hrun, hms⟩ := matchLoop_run _ _ _ _ _ hm
          refine ⟨price, ob1, tr, hp, ?_, by simpa using hms, hr⟩
          simp only [hs, decide_False, sideStep_false]
          exact hrun

theorem minBigInt_eq_min (a b : Int) : minBigInt a b = min a b := by
  unfold minBigInt
  split
  · rename_i h; exact (min_eq_left (le_of_lt h)).symm
  · rename_i h; exact (min_eq_right (not_lt.mp h)).symm

theorem applyFill_filled_le {orders : Nat → Order} {t mk : Nat} {f : Int} (hf : 0 ≤ f) (a : Nat) :
    (orders a).FilledBase ≤ (applyFill orders t mk f a).FilledBase := by
  have hu : ∀ o : Order, (updateOrderStatus o).FilledBase = o.FilledBase := by
    intro o; unfold updateOrderStatus; split
    · rfl
    · split <;> rfl
  unfold applyFill updateStatusAt addFilled
  by_cases h1 : a = mk <;> by_cases h2 : a = t
  · subst h1; subst h2; simp [hu]; omega
  · subst h1; simp [hu, Function.update_noteq h2, Function.update_noteq (Ne.symm h2)]; omega
  · subst h2; simp [hu, Function.update_noteq h1, Function.update_noteq (Ne.symm h1)]; omega
  · simp [Function.update_noteq h1, Function.update_noteq h2]

/-- `FilledBase` never decreases along a run. -/
theorem MatchRun.filled_le {buy : Bool} {p : Nat} {price : F64} {ob ob1 : OrderBook}
    {tr : List (OrderBook × MatchResult)} (h : MatchRun (sideStep buy p price) ob tr ob1) :
    (∀ a, (ob.orders a).FilledBase ≤ (ob1.orders a).FilledBase) ∧
      ∀ sm ∈ tr, ∀ a, (ob.orders a).FilledBase ≤ (sm.1.orders a).FilledBase := by
  induction h with
  | exit _ => exact ⟨fun _ => le_refl _, by simp⟩
  | @fill s s1 s2 m tr hst _ ih =>
    obtain ⟨maker, hf⟩ := sideStep_facts hst
    have h1 : ∀ a, (s.orders a).FilledBase ≤ (s1.orders a).FilledBase := by
      intro a; rw [hf.orders]; exact applyFill_filled_le (le_of_lt hf.fill_pos) a
    refine ⟨fun a => le_trans (h1 a) (ih.1 a), ?_⟩
    intro sm hsm a
    rcases List.mem_cons.mp hsm with rfl | hsm
    · exact le_refl _
    · exact le_trans (h1 a) (ih.2 sm hsm a)

theorem floor_ediv (a b : Int) (hb : 0 < b) : ⌊((a : Int) : ℚ) / ((b : Int) : ℚ)⌋ = a / b := by
  have h := Rat.floor_intCast_div_natCast a b.toNat
  have hb' : ((b.toNat : Nat) : Int) = b := Int.toNat_of_nonneg (le_of_lt hb)
  have hq : ((b.toNat : Nat) : ℚ) = ((b : Int) : ℚ) := by
    rw [← Int.cast_natCast, hb']
  rw [hq, hb'] at h
  exact h

/-- A buy is matched at the ratio of the resting sell, which has a positive `AmountSell`
when it is a sell with a nonnegative `FilledBase`. -/
theorem buy_fill_quote {ob s s1 : OrderBook} {p : Nat} {price : F64} {m : MatchResult}
    (hsh : BookShrink ob s) (hfl : ∀ a, (ob.orders a).FilledBase ≤ (s.orders a).FilledBase)
    (hst : matchBuyStep s p price = some (.fill s1 m))
    (hdata : ∀ e ∈ ob.sells, (ob.orders (ob.entries e).Order).Side ≠ SideBuy ∧
      0 ≤ (ob.orders (ob.entries e).Order).FilledBase) :
    m.BuyOrder = p ∧ (∃ e ∈ ob.sells, (ob.entries e).Order = m.SellOrder) ∧
      0 < (ob.orders m.SellOrder).AmountSell ∧
      m.QuoteAmount = m.FillAmount * (ob.orders m.SellOrder).AmountBuy
        / (ob.orders m.SellOrder).AmountSell := by
  obtain ⟨top, rest, sp, hs, -, -, -, hpos, -, hB, hS, hf, hq, -, -, -, -, -⟩ :=
    matchBuyStep_fill hst
  have htop : top ∈ ob.sells := hsh.sells.subset (by rw [hs]; exact List.mem_cons_self _ _)
  have hord : (ob.entries top).Order = m.SellOrder := by rw [hS, hsh.order]
  obtain ⟨hside, hfilled⟩ := hdata top htop
  rw [hord] at hside hfilled
  have hfr := frozen_fields (hsh.frozen m.SellOrder)
  have hrem : 0 < (s.orders m.SellOrder).RemainingBase := by
    rw [minBigInt_eq_min] at hf
    rw [← hS] at hf
    have := min_le_right (s.orders p).RemainingBase (s.orders m.SellOrder).RemainingBase
    omega
  have hAS : 0 < (ob.orders m.SellOrder).AmountSell := by
    unfold Order.RemainingBase at hrem
    rw [hfr.2.1, if_neg hside, hfr.2.2.1] at hrem
    have := hfl m.SellOrder
    omega
  refine ⟨hB, ⟨top, htop, hord⟩, hAS, ?_⟩
  rw [hq, ← hS, hfr.2.2.1, hfr.2.2.2.1]

theorem eq_some_getD {α : Type} {x : Option α} (d : α) (h : x.isSome = true) :
    x = some (x.getD d) := by
  cases x with
  | none => simp at h
  | some a => rfl

/-! ## Heap operations return -/

theorem Swap_some {hm : HeapMem} {i j : Nat} (hi : i < hm.h.length) (hj : j < hm.h.length) :
    ∃ hm1, hm.Swap i j = some hm1 := by
  unfold HeapMem.Swap
  rw [List.getElem?_eq_getElem hi, List.getElem?_eq_getElem hj]
  exact ⟨_, rfl⟩

theorem HeapSame.same_refl (hm : HeapMem) : HeapSame hm hm := ⟨fun _ => rfl, List.Perm.refl _⟩

theorem HeapKeep.keep_same {n : Nat} {hm hm1 : HeapMem} (h : HeapKeep n hm hm1) : HeapSame hm hm1 :=
  ⟨h.order, h.perm⟩

theorem HeapSame.total {less : HeapMem → Nat → Nat → Option Bool} {hm hm1 : HeapMem}
    (hk : HeapSame hm hm1) (ht : LessTotal less hm) : LessTotal less hm1 := by
  intro hm2 h2 i j hi hj
  exact ht hm2 ⟨fun a => (h2.1 a).trans (hk.1 a), h2.2.trans hk.2⟩ i j hi hj

theorem heapUp_total {less : HeapMem → Nat → Nat → Option Bool} :
    ∀ (fuel : Nat) (hm : HeapMem) (j : Nat), LessTotal less hm → j < hm.h.length → j < fuel →
      ∃ hm1, heapUp less fuel hm j = some hm1 := by
  intro fuel
  induction fuel with
  | zero => intro hm j _ _ hf; omega
  | succ fuel ih =>
    intro hm j ht hj hf
    unfold heapUp
    simp only []
    split
    · exact ⟨_, rfl⟩
    · rename_i hij
      obtain ⟨b, hb⟩ := ht hm (HeapSame.same_refl hm) j ((j - 1) / 2) hj (by omega)
      rw [hb]
      cases b
      · exact ⟨_, rfl⟩
      · obtain ⟨hm1, hsw⟩ := @Swap_some hm ((j - 1) / 2) j (by omega) hj
        rw [hsw]
        have hk := Swap_keep (n := hm.h.length) hsw (by omega) hj
        exact ih hm1 _ (hk.keep_same.total ht) (by rw [hk.length]; omega) (by omega)

theorem heapDownLoop_total {less : HeapMem → Nat → Nat → Option Bool} {n : Nat} :
    ∀ (fuel : Nat) (hm : HeapMem) (i : Nat), LessTotal less hm → n ≤ hm.h.length →
      i ≤ n → n < fuel + i → ∃ r, heapDownLoop less fuel hm i n = some r := by
  intro fuel
  induction fuel with
  | zero => intro hm i _ _ hi hf; omega
  | succ fuel ih =>
    intro hm i ht hn hi hf
    unfold heapDownLoop
    simp only []
    split
    · exact ⟨_, rfl⟩
    · rename_i hlt
      have hlt' : 2 * i + 1 < n := by omega
      have hb : ∃ b, (if 2 * i + 1 + 1 < n then less hm (2 * i + 1 + 1) (2 * i + 1)
          else some false) = some b := by
        split
        · exact ht hm (HeapSame.same_refl hm) _ _ (by omega) (by omega)
        · exact ⟨_, rfl⟩
      obtain ⟨b, hb⟩ := hb
      rw [hb]
      simp only []
      have hj : (if b = true then 2 * i + 1 + 1 else 2 * i + 1) < n := by
        cases b
        · simpa using hlt'
        · simp only [if_true]
          by_contra hc
          rw [if_neg hc] at hb
          simp at hb
      have hji : i < (if b = true then 2 * i + 1 + 1 else 2 * i + 1) := by
        split <;> omega
      obtain ⟨c, hc⟩ := ht hm (HeapSame.same_refl hm) _ i (lt_of_lt_of_le hj hn) (by omega)
      rw [hc]
      cases c
      · exact ⟨_, rfl⟩
      · obtain ⟨hm1, hsw⟩ := @Swap_some hm i
          (if b = true then 2 * i + 1 + 1 else 2 * i + 1) (by omega) (by omega)
        rw [hsw]
        have hk := Swap_keep (n := hm.h.length) hsw (by omega) (by omega)
        exact ih hm1 _ (hk.keep_same.total ht) (by rw [hk.length]; exact hn) (by omega) (by omega)

theorem heapDown_total {less : HeapMem → Nat → Nat → Option Bool} {hm : HeapMem} {i n : Nat}
    (ht : LessTotal less hm) (hn : n ≤ hm.h.length) (hi : i ≤ n) :
    ∃ r, heapDown less hm i n = some r := by
  obtain ⟨⟨hm1, k⟩, hr⟩ := heapDownLoop_total (n := n) (n + 1) hm i ht hn hi (by omega)
  unfold heapDown
  rw [hr]
  exact ⟨_, rfl⟩

theorem Push_same (hm : HeapMem) (x : Nat) :
    (∀ a, ((hm.Push x).entries a).Order = (hm.entries a).Order) ∧ (hm.Push x).h = hm.h ++ [x] :=
  ⟨Push_order hm x, rfl⟩

theorem heapPush_total {less : HeapMem → Nat → Nat → Option Bool} {hm : HeapMem} {x : Nat}
    (ht : LessTotal less (hm.Push x)) : ∃ hm1, heapPush less hm x = some hm1 := by
  unfold heapPush
  simp only []
  exact heapUp_total _ _ _ ht (by simp [HeapMem.Push]) (by simp [HeapMem.Push]; omega)

theorem Pop_some {hm : HeapMem} (h : 0 < hm.h.length) : ∃ r, hm.Pop = some r := by
  unfold HeapMem.Pop
  cases hl : hm.h.getLast? with
  | none =>
    rw [List.getLast?_eq_none_iff] at hl
    rw [hl] at h; simp at h
  | some e => exact ⟨_, rfl⟩

theorem heapPop_total {less : HeapMem → Nat → Nat → Option Bool} {hm : HeapMem}
    (ht : LessTotal less hm) (h : 0 < hm.h.length) : ∃ r, heapPop less hm = some r := by
  unfold heapPop
  rw [if_neg (by omega)]
  simp only []
  obtain ⟨hm1, hsw⟩ := @Swap_some hm 0 (hm.h.length - 1) h (by omega)
  rw [hsw]
  have hk := Swap_keep (n := hm.h.length) hsw h (by omega)
  obtain ⟨⟨hm2, b⟩, hd⟩ := heapDown_total (i := 0) (n := hm.h.length - 1) (hk.keep_same.total ht)
    (by rw [hk.length]; omega) (by omega)
  simp only [hd]
  unfold heapDown at hd
  split at hd
  · simp at hd
  · rename_i hm3 k hdl
    simp only [Option.some.injEq, Prod.mk.injEq] at hd
    obtain ⟨rfl, -⟩ := hd
    have hk2 := (heapDownLoop_run _ _ _ _ _ hdl).down_keep
    exact Pop_some (by rw [hk2.length, hk.length]; exact h)

theorem SellHeap.sellLess_total {orders : Nat → Order} {hm : HeapMem} (h : PricedHeap orders hm) :
    LessTotal (SellHeap.Less orders) hm := by
  intro hm1 hs i j hi hj
  unfold SellHeap.Less
  rw [List.getElem?_eq_getElem hi, List.getElem?_eq_getElem hj]
  simp only []
  obtain ⟨pi, hpi⟩ := h _ (hs.2.subset (List.getElem_mem hi))
  obtain ⟨pj, hpj⟩ := h _ (hs.2.subset (List.getElem_mem hj))
  rw [hs.1, hs.1, hpi, hpj]
  simp only []
  split <;> exact ⟨_, rfl⟩

theorem BuyHeap.buyLess_total {orders : Nat → Order} {hm : HeapMem} (h : PricedHeap orders hm) :
    LessTotal (BuyHeap.Less orders) hm := by
  intro hm1 hs i j hi hj
  unfold BuyHeap.Less
  rw [List.getElem?_eq_getElem hi, List.getElem?_eq_getElem hj]
  simp only []
  obtain ⟨pi, hpi⟩ := h _ (hs.2.subset (List.getElem_mem hi))
  obtain ⟨pj, hpj⟩ := h _ (hs.2.subset (List.getElem_mem hj))
  rw [hs.1, hs.1, hpi, hpj]
  simp only []
  split <;> exact ⟨_, rfl⟩

theorem ownLess_total {buy : Bool} {orders : Nat → Order} {hm : HeapMem}
    (h : PricedHeap orders hm) : LessTotal (ownLess buy orders) hm := by
  unfold ownLess
  cases buy
  · simpa using SellHeap.sellLess_total h
  · simpa using BuyHeap.buyLess_total h

theorem oppLess_total {buy : Bool} {orders : Nat → Order} {hm : HeapMem}
    (h : PricedHeap orders hm) : LessTotal (oppLess buy orders) hm := by
  unfold oppLess
  cases buy
  · simpa using BuyHeap.buyLess_total h
  · simpa using SellHeap.sellLess_total h

/-! ## `restOrder` -/

theorem le_foldr_max {l : List Nat} {x : Nat} (h : x ∈ l) : x ≤ l.foldr max 0 := by
  induction l with
  | nil => simp at h
  | cons a l ih =>
    simp only [List.foldr_cons]
    rcases List.mem_cons.mp h with rfl | h
    · exact le_max_left _ _
    · exact le_trans (ih h) (le_max_right _ _)

theorem newEntry_fresh (ob : OrderBook) :
    ob.newEntry ∉ ob.buys ∧ ob.newEntry ∉ ob.sells ∧
      ∀ kv ∈ ob.orderMap, kv.2 ≠ ob.newEntry := by
  have key : ∀ x ∈ ob.buys ++ ob.sells ++ ob.orderMap.map Prod.snd, x < ob.newEntry := by
    intro x hx
    have := le_foldr_max hx
    unfold OrderBook.newEntry
    omega
  refine ⟨?_, ?_, ?_⟩
  · intro h
    have := key _ (List.mem_append_left _ (List.mem_append_left _ h))
    omega
  · intro h
    have := key _ (List.mem_append_left _ (List.mem_append_right _ h))
    omega
  · intro kv hkv h
    have := key kv.2 (List.mem_append_right _ (List.mem_map_of_mem Prod.snd hkv))
    omega

/-- The book `restOrder` pushes the new entry onto. -/
theorem restOrder_inv {ob ob2 : OrderBook} {p : Nat} (h : restOrder ob p = some ob2) :
    (¬ (0 < (ob.orders p).RemainingBase ∧ (ob.orders p).Status ≠ OrderStatusFilled) ∧ ob2 = ob) ∨
    ((0 < (ob.orders p).RemainingBase ∧ (ob.orders p).Status ≠ OrderStatusFilled) ∧
      ∃ hm, heapPush (ownLess (decide ((ob.orders p).Side = SideBuy)) ob.orders)
          { entries := Function.update ob.entries ob.newEntry { Order := p, Index := 0 },
            h := ob.own (decide ((ob.orders p).Side = SideBuy)) } ob.newEntry = some hm ∧
        ob2.orders = ob.orders ∧ ob2.entries = hm.entries ∧
        ob2.own (decide ((ob.orders p).Side = SideBuy)) = hm.h ∧
        ob2.opp (decide ((ob.orders p).Side = SideBuy)) =
          ob.opp (decide ((ob.orders p).Side = SideBuy)) ∧
        ob2.orderMap = mapSet ob.orderMap (ob.orders p).ID ob.newEntry) := by
  unfold restOrder at h
  split at h
  · rename_i hc
    right
    refine ⟨hc, ?_⟩
    simp only [] at h
    split at h
    · rename_i hs
      split at h
      · simp at h
      · rename_i hm hp
        simp only [Option.some.injEq] at h
        subst h
        refine ⟨hm, ?_, rfl, rfl, ?_, ?_, rfl⟩
        · simpa [hs, ownLess, OrderBook.own, OrderBook.buyHeap] using hp
        · simp [hs, OrderBook.own]
        · simp [hs, OrderBook.opp]
    · rename_i hs
      split at h
      · simp at h
      · rename_i hm hp
        simp only [Option.some.injEq] at h
        subst h
        refine ⟨hm, ?_, rfl, rfl, ?_, ?_, rfl⟩
        · simpa [hs, ownLess, OrderBook.own, OrderBook.sellHeap] using hp
        · simp [hs, OrderBook.own]
        · simp [hs, OrderBook.opp]
  · rename_i hc
    left
    simp only [Option.some.injEq] at h
    exact ⟨hc, h.symm⟩

theorem restOrder_orders {ob ob2 : OrderBook} {p : Nat} (h : restOrder ob p = some ob2) :
    ob2.orders = ob.orders := by
  rcases restOrder_inv h with ⟨-, rfl⟩ | ⟨-, hm, -, ho, -⟩
  · rfl
  · exact ho

/-- `restOrder` returns when every order of the heap it pushes onto, and the order
itself, has a price. -/
theorem restOrder_total {ob : OrderBook} {p : Nat}
    (hp : ∃ price, (ob.orders p).Price = some price)
    (hown : ∀ e ∈ ob.own (decide ((ob.orders p).Side = SideBuy)),
      ∃ q, (ob.orders (ob.entries e).Order).Price = some q) :
    ∃ ob2, restOrder ob p = some ob2 := by
  have hfresh := newEntry_fresh ob
  have hpriced : PricedHeap ob.orders
      (HeapMem.Push ⟨Function.update ob.entries ob.newEntry ⟨p, 0⟩,
        ob.own (decide ((ob.orders p).Side = SideBuy))⟩ ob.newEntry) := by
    intro e he
    rw [Push_order]
    simp only [HeapMem.Push, List.mem_append, List.mem_singleton] at he
    rcases he with he | rfl
    · have hne : e ≠ ob.newEntry := by
        rintro rfl
        by_cases hs : (ob.orders p).Side = SideBuy
        · simp only [hs, decide_True, OrderBook.own, if_true] at he; exact hfresh.1 he
        · simp only [hs, decide_False, OrderBook.own, Bool.false_eq_true, if_false] at he
          exact hfresh.2.1 he
      simp only [Function.update_noteq hne]
      exact hown e he
    · simpa using hp
  obtain ⟨hm, hpush⟩ := @heapPush_total (ownLess (decide ((ob.orders p).Side = SideBuy))
    ob.orders) _ _ (ownLess_total hpriced)
  unfold restOrder
  split
  · simp only []
    by_cases hs : (ob.orders p).Side = SideBuy
    · simp only [hs, decide_True, ownLess, OrderBook.own, if_true] at hpush
      simp only [hs, if_true, OrderBook.buyHeap, hpush]
      exact ⟨_, rfl⟩
    · simp only [hs, decide_False, ownLess, OrderBook.own, Bool.false_eq_true, if_false] at hpush
      simp only [hs, if_false, OrderBook.sellHeap, hpush]
      exact ⟨_, rfl⟩
  · exact ⟨_, rfl⟩

/-! ## An order that does not cross -/

theorem matchBuyStep_exit_of_worse {ob : OrderBook} {p : Nat} {bp : F64}
    (h : ∀ e ∈ ob.sells, ∃ mp, (ob.orders (ob.entries e).Order).Price = some mp ∧ bp < mp) :
    matchBuyStep ob p bp = some .exit := by
  unfold matchBuyStep
  split
  · rfl
  · rename_i top rest hs
    split
    · rfl
    · obtain ⟨mp, hmp, hlt⟩ := h top (by rw [hs]; exact List.mem_cons_self _ _)
      simp only [hmp, hlt, if_true]

theorem matchSellStep_exit_of_worse {ob : OrderBook} {p : Nat} {sp : F64}
    (h : ∀ e ∈ ob.buys, ∃ mp, (ob.orders (ob.entries e).Order).Price = some mp ∧ mp < sp) :
    matchSellStep ob p sp = some .exit := by
  unfold matchSellStep
  split
  · rfl
  · rename_i top rest hs
    split
    · rfl
    · obtain ⟨mp, hmp, hlt⟩ := h top (by rw [hs]; exact List.mem_cons_self _ _)
      simp only [hmp, hlt, if_true]

/-- What `restOrder` keeps of the book. -/
theorem restOrder_keeps {ob ob2 : OrderBook} {p : Nat} (h : restOrder ob p = some ob2) :
    ob2.orders = ob.orders ∧ (∀ e ∈ ob.buys, e ∈ ob2.buys) ∧ (∀ e ∈ ob.sells, e ∈ ob2.sells) ∧
      ∀ e ∈ ob.buys ++ ob.sells, (ob2.entries e).Order = (ob.entries e).Order := by
  rcases restOrder_inv h with ⟨-, rfl⟩ | ⟨-, hm, hpush, ho, he, hown, hopp, -⟩
  · exact ⟨rfl, fun _ h => h, fun _ h => h, fun _ _ => rfl⟩
  · obtain ⟨hperm, hord, -⟩ := heapPush_inv hpush
    have hfresh := newEntry_fresh ob
    have hsub : ∀ e ∈ ob.own (decide ((ob.orders p).Side = SideBuy)),
        e ∈ ob2.own (decide ((ob.orders p).Side = SideBuy)) := by
      intro e he'
      rw [hown]
      exact hperm.symm.subset (List.mem_cons_of_mem _ he')
    refine ⟨ho, ?_, ?_, ?_⟩
    · intro e he'
      by_cases hs : (ob.orders p).Side = SideBuy
      · simp only [hs, decide_True, OrderBook.own, if_true] at hsub; exact hsub e he'
      · simp only [hs, decide_False, OrderBook.opp, Bool.false_eq_true, if_false] at hopp
        rw [hopp]; exact he'
    · intro e he'
      by_cases hs : (ob.orders p).Side = SideBuy
      · simp only [hs, decide_True, OrderBook.opp, if_true] at hopp
        rw [hopp]; exact he'
      · simp only [hs, decide_False, OrderBook.own, Bool.false_eq_true, if_false] at hsub
        exact hsub e he'
    · intro e he'
      have hne : e ≠ ob.newEntry := by
        rintro rfl
        rcases List.mem_append.mp he' with h1 | h1
        · exact hfresh.1 h1
        · exact hfresh.2.1 h1
      rw [he, hord]
      simp only [Function.update_noteq hne]

/-! ## The heap order -/


theorem Swap_kAt {κ : Type}
    {hm hm1 : HeapMem} {i j : Nat} (k : Nat → κ) (h : hm.Swap i j = some hm1)
    (x : Nat) :
    kAt k hm1.h x = if x = j then kAt k hm.h i else if x = i then kAt k hm.h j
      else kAt k hm.h x := by
  obtain ⟨ei, ej, hei, hej, hh, -⟩ := Swap_inv h
  unfold kAt
  simp only [List.getD_eq_getElem?_getD, hh, swap_list_getElem? hei hej, hei, hej]
  by_cases h1 : x = j
  · simp [h1]
  · by_cases h2 : x = i
    · subst h2
      simp [h1]
    · simp [h1, h2]

theorem HeapSame.same_trans {a b c : HeapMem} (h1 : HeapSame a b) (h2 : HeapSame b c) :
    HeapSame a c :=
  ⟨fun x => (h2.1 x).trans (h1.1 x), h2.2.trans h1.2⟩

theorem LessBy.less_same {κ : Type} [LinearOrder κ]
    {less : HeapMem → Nat → Nat → Option Bool} {k : Nat → κ} {hm hm1 : HeapMem}
    (h : LessBy less k hm) (hs : HeapSame hm hm1) : LessBy less k hm1 :=
  fun hm2 h2 => h hm2 (hs.same_trans h2)

theorem UpRun.up_ordered {κ : Type} [LinearOrder κ]
    {less : HeapMem → Nat → Nat → Option Bool} {k : Nat → κ}
    {hm hm1 : HeapMem} {j : Nat} (h : UpRun less hm j hm1) :
    ∀ n, LessBy less k hm → j < n → UpInv k hm.h n j → HeapOrderedN k hm1.h n := by
  induction h with
  | @root hm j hj =>
    intro n _ _ hinv x hx hxn
    exact hinv.1 x hx hxn (by omega)
  | @stop hm j hj hl =>
    intro n hby _ hinv x hx hxn
    by_cases hxj : x = j
    · subst hxj
      have := (hby hm (HeapSame.same_refl hm) _ _ _ hl)
      simp only [Bool.false_eq_true, false_iff, not_lt] at this
      exact this
    · exact hinv.1 x hx hxn hxj
  | @swap hm hm1 hm2 j hj hl hsw _ ih =>
    intro n hby hjn hinv
    have hlt : kAt k hm.h j < kAt k hm.h ((j - 1) / 2) :=
      (hby hm (HeapSame.same_refl hm) _ _ _ hl).mp rfl
    have hk := Swap_keep (n := j + 1) hsw (by omega) (by omega)
    refine ih n (hby.less_same hk.keep_same) (by omega) ⟨?_, ?_⟩
    · intro x hx hxn hxi
      rw [Swap_kAt k hsw, Swap_kAt k hsw]
      by_cases h1 : x = j
      · subst h1
        rw [if_neg (by omega), if_pos rfl, if_pos rfl]
        exact le_of_lt hlt
      · rw [if_neg h1, if_neg hxi]
        by_cases h2 : (x - 1) / 2 = j
        · rw [if_pos h2]
          have := hinv.2 x hx hxn h2 (by omega)
          exact this
        · rw [if_neg h2]
          by_cases h3 : (x - 1) / 2 = (j - 1) / 2
          · rw [if_pos h3]
            have := hinv.1 x hx hxn h1
            rw [h3] at this
            exact le_trans (le_of_lt hlt) this
          · rw [if_neg h3]
            exact hinv.1 x hx hxn h1
    · intro c hc hcn hpc hi
      rw [Swap_kAt k hsw, Swap_kAt k hsw]
      rw [if_neg (by omega), if_neg (by omega)]
      have hpi := hinv.1 ((j - 1) / 2) hi (by omega) (by omega)
      by_cases h1 : c = j
      · rw [if_pos h1]; exact hpi
      · rw [if_neg h1, if_neg (by omega)]
        have := hinv.1 c hc hcn h1
        rw [hpc] at this
        exact le_trans hpi this

/-- The child that the loop of `heap.down` picks is not above the other one. -/
theorem downChild_min {κ : Type} [LinearOrder κ]
    {less : HeapMem → Nat → Nat → Option Bool} {k : Nat → κ} {hm : HeapMem}
    {i n j : Nat} (hby : LessBy less k hm) (h : downChild less hm i n = some j) :
    ∀ c, c < n → (c = 2 * i + 1 ∨ c = 2 * i + 2) → kAt k hm.h j ≤ kAt k hm.h c := by
  intro c hcn hc
  rcases downChild_cases h with ⟨rfl, hl⟩ | ⟨rfl, h2, hl⟩
  · rcases hc with rfl | rfl
    · exact le_refl _
    · have := hby hm (HeapSame.same_refl hm) _ _ _ (hl hcn)
      simp only [Bool.false_eq_true, false_iff, not_lt] at this
      exact this
  · rcases hc with rfl | rfl
    · exact le_of_lt ((hby hm (HeapSame.same_refl hm) _ _ _ hl).mp rfl)
    · exact le_refl _

theorem DownRun.down_ordered {κ : Type} [LinearOrder κ]
    {less : HeapMem → Nat → Nat → Option Bool} {k : Nat → κ} {n : Nat}
    {hm hm1 : HeapMem} {i r : Nat} (h : DownRun less n hm i hm1 r) :
    LessBy less k hm → DownInv k hm.h n i → HeapOrderedN k hm1.h n := by
  induction h with
  | @leaf hm i hle =>
    intro _ hinv x hx hxn
    exact hinv.1 x hx hxn (by omega)
  | @stop hm i j hlt hc hl =>
    intro hby hinv x hx hxn
    by_cases hp : (x - 1) / 2 = i
    · have hij : kAt k hm.h i ≤ kAt k hm.h j := by
        have := hby hm (HeapSame.same_refl hm) _ _ _ hl
        simp only [Bool.false_eq_true, false_iff, not_lt] at this
        exact this
      rw [hp]
      exact le_trans hij (downChild_min hby hc x hxn (by omega))
    · exact hinv.1 x hx hxn hp
  | @swap hm hm1 hm2 i j r hlt hc hl hsw _ ih =>
    intro hby hinv
    have hjlt : kAt k hm.h j < kAt k hm.h i := (hby hm (HeapSame.same_refl hm) _ _ _ hl).mp rfl
    have hj := downChild_lt hc hlt
    have hjc : j = 2 * i + 1 ∨ j = 2 * i + 2 := by
      rcases downChild_cases hc with ⟨h1, -⟩ | ⟨h1, -, -⟩ <;> omega
    have hk := Swap_keep (n := n) hsw (by omega) hj.2
    refine ih (hby.less_same hk.keep_same) ⟨?_, ?_⟩
    · intro x hx hxn hp
      rw [Swap_kAt k hsw, Swap_kAt k hsw]
      by_cases h1 : x = j
      · subst h1
        rw [if_neg (by omega), if_pos (by omega), if_pos rfl]
        exact le_of_lt hjlt
      · rw [if_neg hp, if_neg h1]
        by_cases h2 : x = i
        · subst h2
          rw [if_neg (by omega), if_pos rfl]
          exact hinv.2 j (by omega) hj.2 (by omega) hx
        · rw [if_neg h2]
          by_cases h3 : (x - 1) / 2 = i
          · rw [if_pos h3]
            exact downChild_min hby hc x hxn (by omega)
          · rw [if_neg h3]
            exact hinv.1 x hx hxn h3
    · intro c hc0 hcn hpc _
      rw [Swap_kAt k hsw, Swap_kAt k hsw]
      have hpj : (j - 1) / 2 = i := by omega
      rw [hpj, if_neg (by omega), if_pos rfl, if_neg (by omega), if_neg (by omega)]
      have := hinv.1 c hc0 hcn (by omega)
      rw [hpc] at this
      exact this

/-- A run of `heap.down` that does not move the element changes nothing, and then the
element is not above its children. -/
theorem DownRun.unmoved {κ : Type} [LinearOrder κ]
    {less : HeapMem → Nat → Nat → Option Bool} {k : Nat → κ} {n : Nat}
    {hm hm1 : HeapMem} {i r : Nat} (h : DownRun less n hm i hm1 r) (hby : LessBy less k hm) :
    i ≤ r ∧ (¬ i < r → hm1 = hm) := by
  induction h with
  | leaf _ => exact ⟨le_refl _, fun _ => rfl⟩
  | stop _ _ _ => exact ⟨le_refl _, fun _ => rfl⟩
  | @swap hm hm1 hm2 i j r hlt hc hl hsw _ ih =>
    have hj := downChild_lt hc hlt
    have hk := Swap_keep (n := n) hsw (by omega) hj.2
    have := (ih (hby.less_same hk.keep_same)).1
    exact ⟨by omega, fun hn => absurd (by omega) hn⟩

/-- In a heap the root has the least key. -/
theorem HeapOrderedN.heap_root_le {κ : Type} [LinearOrder κ]
    {k : Nat → κ} {h : List Nat} {n : Nat} (ho : HeapOrderedN k h n) :
    ∀ j, j < n → kAt k h 0 ≤ kAt k h j := by
  intro j
  induction j using Nat.strong_induction_on with
  | _ j ih =>
    intro hj
    by_cases h0 : j = 0
    · subst h0; exact le_refl _
    · exact le_trans (ih ((j - 1) / 2) (by omega) (by omega)) (ho j (by omega) hj)

theorem kAt_append_left {κ : Type} (k : Nat → κ) {h : List Nat} (l : List Nat) {x : Nat}
    (hx : x < h.length) : kAt k (h ++ l) x = kAt k h x := by
  unfold kAt
  simp only [List.getD_eq_getElem?_getD, List.getElem?_append_left hx]

theorem HeapOrderedN.of_append {κ : Type} [LinearOrder κ] {k : Nat → κ} {h l : List Nat}
    (ho : HeapOrderedN k (h ++ l) h.length) : HeapOrderedN k h h.length := by
  intro j hj hjn
  have := ho j hj hjn
  rw [kAt_append_left k l hjn, kAt_append_left k l (by omega)] at this
  exact this

theorem heapPush_ordered {κ : Type} [LinearOrder κ] {less : HeapMem → Nat → Nat → Option Bool}
    {k : Nat → κ} {hm hm1 : HeapMem} {x : Nat} (hby : LessBy less k (hm.Push x))
    (ho : HeapOrderedN k hm.h hm.h.length) (h : heapPush less hm x = some hm1) :
    HeapOrderedN k hm1.h hm1.h.length := by
  obtain ⟨hperm, -, hrun⟩ := heapPush_inv h
  have hlen : hm1.h.length = hm.h.length + 1 := by rw [hperm.length_eq]; simp
  rw [hlen]
  refine hrun.up_ordered _ hby (by omega) ⟨?_, ?_⟩
  · intro y hy hyn hne
    have hyl : y < hm.h.length := by omega
    have := ho y hy hyl
    simp only [HeapMem.Push]
    rw [kAt_append_left k _ hyl, kAt_append_left k _ (by omega)]
    exact this
  · intro c hc hcn hpc hj
    omega

theorem heapPop_ordered {κ : Type} [LinearOrder κ] {less : HeapMem → Nat → Nat → Option Bool}
    {k : Nat → κ} {hm hm1 : HeapMem} {e : Nat} (hby : LessBy less k hm)
    (ho : HeapOrderedN k hm.h hm.h.length) (h : heapPop less hm = some (hm1, e)) :
    HeapOrderedN k hm1.h hm1.h.length := by
  obtain ⟨hmA, hmB, r, hlen, hsw, hdown, hpop⟩ := heapPop_parts h
  have k1 := Swap_keep (n := hm.h.length) hsw (by omega) (by omega)
  have k2 := hdown.down_keep
  have hp := (Pop_inv hpop).1
  have hl1 : hm1.h.length = hm.h.length - 1 := by
    have := k2.length
    rw [k1.length, hp] at this
    simp at this
    omega
  have hB : HeapOrderedN k hmB.h (hm.h.length - 1) := by
    refine hdown.down_ordered (hby.less_same k1.keep_same) ⟨?_, ?_⟩
    · intro y hy hyn hpy
      rw [Swap_kAt k hsw, Swap_kAt k hsw]
      rw [if_neg (by omega), if_neg hpy, if_neg (by omega), if_neg (by omega)]
      exact ho y hy (by omega)
    · intro c _ _ _ h0
      omega
  rw [hp, ← hl1] at hB
  exact hB.of_append

theorem heapRemove_ordered {κ : Type} [LinearOrder κ]
    {less : HeapMem → Nat → Nat → Option Bool} {k : Nat → κ} {hm hm1 : HeapMem} {i : Int}
    {e : Nat} (hby : LessBy less k hm) (ho : HeapOrderedN k hm.h hm.h.length)
    (h : heapRemove less hm i = some (hm1, e)) : HeapOrderedN k hm1.h hm1.h.length := by
  obtain ⟨j, -, hj, hcase⟩ := heapRemove_parts h
  rcases hcase with ⟨hjn, hpop⟩ | ⟨hjn, hmA, hmB, r, hsw, hdown, hrest⟩
  · have hp := (Pop_inv hpop).1
    have hl1 : hm1.h.length + 1 = hm.h.length := by rw [hp]; simp
    have : HeapOrderedN k (hm1.h ++ [e]) hm1.h.length := by
      rw [← hp]
      intro y hy hyn
      exact ho y hy (by omega)
    exact this.of_append
  · have hjn' : j < hm.h.length - 1 := by omega
    have k1 := Swap_keep (n := hm.h.length) hsw hj (by omega)
    have k2 := hdown.down_keep
    have hbyA := hby.less_same k1.keep_same
    -- keys of the first `n` slots after the swap
    have hA : ∀ y, y < hm.h.length - 1 → y ≠ j → kAt k hmA.h y = kAt k hm.h y := by
      intro y hy hne
      rw [Swap_kAt k hsw, if_neg (by omega), if_neg hne]
    have hchild : ∀ c, 0 < c → c < hm.h.length - 1 → (c - 1) / 2 = j → 0 < j →
        kAt k hmA.h ((j - 1) / 2) ≤ kAt k hmA.h c := by
      intro c hc hcn hpc hj0
      rw [hA c hcn (by omega), hA _ (by omega) (by omega)]
      have h1 := ho j hj0 hj
      have h2 := ho c hc (by omega)
      rw [hpc] at h2
      exact le_trans h1 h2
    -- the heap the final `Pop` works on is ordered on its first `n` slots
    have hZ : ∃ hmZ : HeapMem, hmZ.Pop = some (hm1, e) ∧ hmZ.h.length = hm.h.length ∧
        HeapOrderedN k hmZ.h (hm.h.length - 1) := by
      by_cases hcase : 0 < j ∧ kAt k hmA.h j < kAt k hmA.h ((j - 1) / 2)
      · -- the moved element is below its parent: `down` does nothing, `up` repairs
        obtain ⟨hj0, hlt⟩ := hcase
        have hnomove : hmA = hmB ∧ ¬ j < r := by
          cases hdown with
          | leaf _ => exact ⟨rfl, lt_irrefl _⟩
          | stop _ _ _ => exact ⟨rfl, lt_irrefl _⟩
          | @swap _ hmS _ _ c _ hlt2 hc hl hsw2 _ =>
            exfalso
            have hcj : kAt k hmA.h c < kAt k hmA.h j :=
              (hbyA hmA (HeapSame.same_refl _) _ _ _ hl).mp rfl
            have hcl := downChild_lt hc hlt2
            have hcc : c = 2 * j + 1 ∨ c = 2 * j + 2 := by
              rcases downChild_cases hc with ⟨h1, -⟩ | ⟨h1, -, -⟩ <;> omega
            have := hchild c (by omega) hcl.2 (by omega) hj0
            exact absurd (lt_trans hcj hlt) (not_lt.mpr this)
        obtain ⟨rfl, hnm⟩ := hnomove
        rcases hrest with ⟨hm', -⟩ | ⟨-, hmC, hup, hpop⟩
        · exact absurd hm' hnm
        · refine ⟨hmC, hpop, by rw [hup.up_keep.length, k1.length], ?_⟩
          refine hup.up_ordered _ hbyA hjn' ⟨?_, hchild⟩
          intro y hy hyn hne
          by_cases hpy : (y - 1) / 2 = j
          · rw [hpy, hA y hyn hne]
            have h1 := ho j hj0 hj
            have h2 := ho y hy (by omega)
            rw [hpy] at h2
            have h3 : kAt k hmA.h ((j - 1) / 2) = kAt k hm.h ((j - 1) / 2) :=
              hA _ (by omega) (by omega)
            rw [h3] at hlt
            exact le_trans (le_of_lt (lt_of_lt_of_le hlt h1)) h2
          · rw [hA y hyn hne, hA _ (by omega) hpy]
            exact ho y hy (by omega)
      · -- the moved element is not below its parent: `down` repairs
        have hB : HeapOrderedN k hmB.h (hm.h.length - 1) := by
          refine hdown.down_ordered hbyA ⟨?_, hchild⟩
          intro y hy hyn hpy
          by_cases hyj : y = j
          · subst hyj
            push_neg at hcase
            exact hcase hy
          · rw [hA y hyn hyj, hA _ (by omega) hpy]
            exact ho y hy (by omega)
        rcases hrest with ⟨-, hpop⟩ | ⟨-, hmC, hup, hpop⟩
        · exact ⟨hmB, hpop, by rw [k2.length, k1.length], hB⟩
        · refine ⟨hmC, hpop, by rw [hup.up_keep.length, k2.length, k1.length], ?_⟩
          refine hup.up_ordered _ (hbyA.less_same k2.keep_same) hjn' ⟨fun y hy hyn _ => hB y hy hyn, ?_⟩
          intro c hc hcn hpc hj0
          have h1 := hB j hj0 hjn'
          have h2 := hB c hc hcn
          rw [hpc] at h2
          exact le_trans h1 h2
    obtain ⟨hmZ, hpop, hlenZ, hoZ⟩ := hZ
    have hp := (Pop_inv hpop).1
    have hl1 : hm1.h.length = hm.h.length - 1 := by
      rw [hp] at hlenZ; simp at hlenZ; omega
    rw [hp, ← hl1] at hoZ
    exact hoZ.of_append

/-! ## The `Index` fields -/

theorem nodup_slot {h : List Nat} (hn : h.Nodup) {a b e : Nat} (ha : h[a]? = some e)
    (hb : h[b]? = some e) : a = b :=
  List.getElem?_inj (List.getElem?_eq_some.mp ha).1 hn (ha.trans hb.symm)

theorem FrameOK.frame_refl (hm : HeapMem) : FrameOK hm hm := fun _ _ => rfl

theorem FrameOK.frame_trans {a b c : HeapMem} (h1 : FrameOK a b) (h2 : FrameOK b c)
    (hp : b.h.Perm a.h) : FrameOK a c := by
  intro x hx
  rw [h2 x (fun h => hx (hp.subset h)), h1 x hx]

theorem Swap_index {hm hm1 : HeapMem} {i j : Nat} (h : hm.Swap i j = some hm1)
    (hn : hm.h.Nodup) (hi : IndexOK hm) : IndexOK hm1 ∧ FrameOK hm hm1 := by
  obtain ⟨ei, ej, hei, hej, hh, he⟩ := Swap_inv h
  constructor
  · intro x e hx
    rw [hh, swap_list_getElem? hei hej] at hx
    rw [he]
    by_cases h1 : x = j
    · rw [if_pos h1] at hx
      simp only [Option.some.injEq] at hx
      subst hx; subst h1
      simp
    · rw [if_neg h1] at hx
      by_cases h2 : x = i
      · rw [if_pos h2] at hx
        simp only [Option.some.injEq] at hx
        subst hx; subst h2
        have hne : ej ≠ ei := by
          intro heq
          rw [heq] at hej
          exact h1 (nodup_slot hn hei hej)
        simp [Function.update_noteq hne]
      · rw [if_neg h2] at hx
        have hne1 : e ≠ ei := by
          rintro rfl
          exact h2 (nodup_slot hn hx hei)
        have hne2 : e ≠ ej := by
          rintro rfl
          exact h1 (nodup_slot hn hx hej)
        rw [Function.update_noteq hne1, Function.update_noteq hne2]
        exact hi x e hx
  · intro a ha
    rw [he]
    have h1 : a ≠ ei := by
      rintro rfl
      exact ha (List.getElem?_mem hei)
    have h2 : a ≠ ej := by
      rintro rfl
      exact ha (List.getElem?_mem hej)
    rw [Function.update_noteq h1, Function.update_noteq h2]

theorem UpRun.up_index {less : HeapMem → Nat → Nat → Option Bool} {hm hm1 : HeapMem} {j : Nat}
    (h : UpRun less hm j hm1) :
    hm.h.Nodup → IndexOK hm → IndexOK hm1 ∧ FrameOK hm hm1 := by
  induction h with
  | root _ => exact fun _ hi => ⟨hi, FrameOK.frame_refl _⟩
  | stop _ _ => exact fun _ hi => ⟨hi, FrameOK.frame_refl _⟩
  | @swap hm hm1 hm2 j hj _ hsw _ ih =>
    intro hn hi
    have hk := Swap_keep (n := j + 1) hsw (by omega) (by omega)
    obtain ⟨h1, f1⟩ := Swap_index hsw hn hi
    obtain ⟨h2, f2⟩ := ih (hk.perm.symm.nodup hn) h1
    exact ⟨h2, f1.frame_trans f2 hk.perm⟩

theorem DownRun.down_index {less : HeapMem → Nat → Nat → Option Bool} {n : Nat} {hm hm1 : HeapMem}
    {i r : Nat} (h : DownRun less n hm i hm1 r) :
    hm.h.Nodup → IndexOK hm → IndexOK hm1 ∧ FrameOK hm hm1 := by
  induction h with
  | leaf _ => exact fun _ hi => ⟨hi, FrameOK.frame_refl _⟩
  | stop _ _ _ => exact fun _ hi => ⟨hi, FrameOK.frame_refl _⟩
  | @swap hm hm1 hm2 i j r hlt hc _ hsw _ ih =>
    intro hn hi
    have hj := downChild_lt hc hlt
    have hk := Swap_keep (n := n) hsw (by omega) hj.2
    obtain ⟨h1, f1⟩ := Swap_index hsw hn hi
    obtain ⟨h2, f2⟩ := ih (hk.perm.symm.nodup hn) h1
    exact ⟨h2, f1.frame_trans f2 hk.perm⟩

theorem Pop_index {hm hm1 : HeapMem} {e : Nat} (h : hm.Pop = some (hm1, e))
    (hn : hm.h.Nodup) (hi : IndexOK hm) : IndexOK hm1 ∧ FrameOK hm hm1 := by
  obtain ⟨hp, he⟩ := Pop_inv h
  constructor
  · intro x a hx
    have hxl := (List.getElem?_eq_some.mp hx).1
    have hx' : hm.h[x]? = some a := by rw [hp, List.getElem?_append_left hxl]; exact hx
    have hne : a ≠ e := by
      rintro rfl
      have hlast : hm.h[hm1.h.length]? = some a := by
        rw [hp, List.getElem?_append_right (le_refl _)]; simp
      have := nodup_slot hn hx' hlast
      omega
    rw [he, Function.update_noteq hne]
    exact hi x a hx'
  · intro a ha
    have hne : a ≠ e := by
      rintro rfl
      exact ha (by rw [hp]; simp)
    rw [he, Function.update_noteq hne]

theorem heapPop_index {less : HeapMem → Nat → Nat → Option Bool} {hm hm1 : HeapMem} {e : Nat}
    (h : heapPop less hm = some (hm1, e)) (hn : hm.h.Nodup) (hi : IndexOK hm) :
    IndexOK hm1 ∧ FrameOK hm hm1 := by
  obtain ⟨hmA, hmB, r, hlen, hsw, hdown, hpop⟩ := heapPop_parts h
  have k1 := Swap_keep (n := hm.h.length) hsw (by omega) (by omega)
  have k2 := hdown.down_keep
  obtain ⟨i1, f1⟩ := Swap_index hsw hn hi
  have n1 := k1.perm.symm.nodup hn
  obtain ⟨i2, f2⟩ := hdown.down_index n1 i1
  have n2 := k2.perm.symm.nodup n1
  obtain ⟨i3, f3⟩ := Pop_index hpop n2 i2
  exact ⟨i3, (f1.frame_trans f2 k1.perm).frame_trans f3 (k2.perm.trans k1.perm)⟩

theorem heapPush_index {less : HeapMem → Nat → Nat → Option Bool} {hm hm1 : HeapMem} {x : Nat}
    (h : heapPush less hm x = some hm1) (hx : x ∉ hm.h) (hn : hm.h.Nodup) (hi : IndexOK hm) :
    IndexOK hm1 ∧ ∀ a, a ∉ hm.h → a ≠ x → hm1.entries a = hm.entries a := by
  obtain ⟨-, -, hrun⟩ := heapPush_inv h
  have hnP : (hm.Push x).h.Nodup := by
    simp only [HeapMem.Push]
    exact List.nodup_append.mpr ⟨hn, List.nodup_singleton x, by
      intro a ha hb
      rw [List.mem_singleton] at hb
      subst hb; exact hx ha⟩
  have hiP : IndexOK (hm.Push x) := by
    intro y a hy
    simp only [HeapMem.Push] at hy ⊢
    by_cases hyl : y < hm.h.length
    · rw [List.getElem?_append_left hyl] at hy
      have hne : a ≠ x := by
        rintro rfl
        exact hx (List.getElem?_mem hy)
      rw [Function.update_noteq hne]
      exact hi y a hy
    · rw [List.getElem?_append_right (not_lt.mp hyl)] at hy
      have hy0 : y - hm.h.length = 0 := by
        by_contra hc
        rw [List.getElem?_eq_none (by simp; omega)] at hy
        simp at hy
      rw [hy0] at hy
      simp only [List.getElem?_cons_zero, Option.some.injEq] at hy
      subst hy
      simp only [Function.update_same]
      congr 1
      omega
  obtain ⟨i1, f1⟩ := hrun.up_index hnP hiP
  refine ⟨i1, ?_⟩
  intro a ha hax
  rw [f1 a (by simp only [HeapMem.Push, List.mem_append, List.mem_singleton]; tauto)]
  simp only [HeapMem.Push]
  rw [Function.update_noteq hax]

theorem heapRemove_index {less : HeapMem → Nat → Nat → Option Bool} {hm hm1 : HeapMem}
    {i : Int} {e : Nat} (h : heapRemove less hm i = some (hm1, e)) (hn : hm.h.Nodup)
    (hi : IndexOK hm) : IndexOK hm1 ∧ FrameOK hm hm1 := by
  obtain ⟨j, -, hj, hcase⟩ := heapRemove_parts h
  rcases hcase with ⟨-, hpop⟩ | ⟨-, hmA, hmB, r, hsw, hdown, hrest⟩
  · exact Pop_index hpop hn hi
  · have k1 := Swap_keep (n := hm.h.length) hsw hj (by omega)
    have k2 := hdown.down_keep
    obtain ⟨i1, f1⟩ := Swap_index hsw hn hi
    have n1 := k1.perm.symm.nodup hn
    obtain ⟨i2, f2⟩ := hdown.down_index n1 i1
    have n2 := k2.perm.symm.nodup n1
    have f12 := f1.frame_trans f2 k1.perm
    have p12 := k2.perm.trans k1.perm
    rcases hrest with ⟨-, hpop⟩ | ⟨-, hmC, hup, hpop⟩
    · obtain ⟨i3, f3⟩ := Pop_index hpop n2 i2
      exact ⟨i3, f12.frame_trans f3 p12⟩
    · have k3 := hup.up_keep
      obtain ⟨i3, f3⟩ := hup.up_index n2 i2
      have n3 := k3.perm.symm.nodup n2
      obtain ⟨i4, f4⟩ := Pop_index hpop n3 i3
      exact ⟨i4, (f12.frame_trans f3 p12).frame_trans f4 (k3.perm.trans p12)⟩

/-! ## The invariant of one heap -/

theorem priceD_of_some {o : Order} {p : F64} (h : o.Price = some p) : o.priceD = p := by
  unfold Order.priceD; rw [h]; rfl

theorem lex_lt_iff (a b c d : Int) :
    (toLex (a, b) : ℤ ×ₗ ℤ) < toLex (c, d) ↔ a < c ∨ a = c ∧ b < d := by
  rw [Prod.Lex.lt_iff]

theorem kAt_of_getElem? {κ : Type} (k : Nat → κ) {h : List Nat} {i e : Nat}
    (hi : h[i]? = some e) : kAt k h i = k e := by
  unfold kAt
  simp [List.getD_eq_getElem?_getD, hi]

theorem ownLess_by (isBuy : Bool) (orders : Nat → Order) (hm0 : HeapMem) :
    LessBy (ownLess isBuy orders) (entryKey isBuy orders hm0.entries) hm0 := by
  intro hm hs i j b hl
  cases isBuy
  · simp only [ownLess, Bool.false_eq_true, if_false] at hl
    unfold SellHeap.Less at hl
    split at hl
    · rename_i ei ej hei hej
      split at hl
      · rename_i pi pj hpi hpj
        rw [kAt_of_getElem? _ hei, kAt_of_getElem? _ hej]
        simp only [entryKey, heapKey, Bool.false_eq_true, if_false, lex_lt_iff]
        rw [← hs.1 ei, ← hs.1 ej, priceD_of_some hpi, priceD_of_some hpj]
        split at hl
        · rename_i hne
          simp only [Option.some.injEq] at hl
          subst hl
          simp only [decide_eq_true_eq]
          constructor
          · exact fun h => Or.inl h
          · rintro (h | ⟨h, -⟩)
            · exact h
            · exact absurd h hne
        · rename_i heq
          simp only [ne_eq, not_not] at heq
          simp only [Option.some.injEq] at hl
          subst hl
          simp only [decide_eq_true_eq]
          constructor
          · exact fun h => Or.inr ⟨heq, h⟩
          · rintro (h | ⟨-, h⟩)
            · rw [heq] at h; exact absurd h (lt_irrefl _)
            · exact h
      · simp at hl
    · simp at hl
  · simp only [ownLess, if_true] at hl
    unfold BuyHeap.Less at hl
    split at hl
    · rename_i ei ej hei hej
      split at hl
      · rename_i pi pj hpi hpj
        rw [kAt_of_getElem? _ hei, kAt_of_getElem? _ hej]
        simp only [entryKey, heapKey, if_true, lex_lt_iff]
        rw [← hs.1 ei, ← hs.1 ej, priceD_of_some hpi, priceD_of_some hpj]
        split at hl
        · rename_i hne
          simp only [Option.some.injEq] at hl
          subst hl
          simp only [decide_eq_true_eq, gt_iff_lt, neg_lt_neg_iff, neg_inj]
          constructor
          · exact fun h => Or.inl h
          · rintro (h | ⟨h, -⟩)
            · exact h
            · exact absurd h hne
        · rename_i heq
          simp only [ne_eq, not_not] at heq
          simp only [Option.some.injEq] at hl
          subst hl
          simp only [decide_eq_true_eq, neg_lt_neg_iff, neg_inj]
          constructor
          · exact fun h => Or.inr ⟨heq, h⟩
          · rintro (h | ⟨-, h⟩)
            · rw [heq] at h; exact absurd h (lt_irrefl _)
            · exact h
      · simp at hl
    · simp at hl

theorem oppLess_eq (buy : Bool) (orders : Nat → Order) :
    oppLess buy orders = ownLess (!buy) orders := by
  cases buy <;> rfl

theorem heapKey_frozen {isBuy : Bool} {o o1 : Order} (h : o1.frozen = o.frozen) :
    heapKey isBuy o1 = heapKey isBuy o := by
  unfold heapKey Order.priceD
  rw [frozen_price h, (frozen_fields h).2.2.2.2]

theorem HeapOrderedN.congr {κ : Type} [LinearOrder κ] {k k1 : Nat → κ} {h : List Nat}
    (ho : HeapOrderedN k h h.length) (hk : ∀ e ∈ h, k1 e = k e) :
    HeapOrderedN k1 h h.length := by
  intro j hj hjn
  have := ho j hj hjn
  have e1 : kAt k1 h j = kAt k h j := by
    unfold kAt
    rw [List.getD_eq_getElem?_getD, List.getElem?_eq_getElem hjn]
    exact hk _ (List.getElem_mem hjn)
  have hp : (j - 1) / 2 < h.length := by omega
  have e2 : kAt k1 h ((j - 1) / 2) = kAt k h ((j - 1) / 2) := by
    unfold kAt
    rw [List.getD_eq_getElem?_getD, List.getElem?_eq_getElem hp]
    exact hk _ (List.getElem_mem hp)
  rw [e1, e2]; exact this

/-- The heap invariant looks at the frozen fields of the orders of the heap only. -/
theorem HeapInv.frozen {orders orders1 : Nat → Order} {isBuy : Bool} {hm : HeapMem} {N : Nat}
    (h : HeapInv orders isBuy hm N)
    (hf : ∀ e ∈ hm.h, (orders1 (hm.entries e).Order).frozen = (orders (hm.entries e).Order).frozen) :
    HeapInv orders1 isBuy hm N := by
  refine ⟨h.bound, h.nodup, h.inj, ?_, ?_, ?_, h.idx⟩
  · intro e he
    rw [(frozen_fields (hf e he)).2.1]
    exact h.side e he
  · intro e he
    rw [frozen_price (hf e he)]
    exact h.priced e he
  · refine h.ordered.congr ?_
    intro e he
    exact heapKey_frozen (hf e he)

/-- The heap invariant looks at the entries of the slice only. -/
theorem HeapInv.frame {orders : Nat → Order} {isBuy : Bool} {hm hm1 : HeapMem} {N : Nat}
    (h : HeapInv orders isBuy hm N) (hh : hm1.h = hm.h)
    (he : ∀ e ∈ hm.h, hm1.entries e = hm.entries e) : HeapInv orders isBuy hm1 N := by
  refine ⟨?_, ?_, ?_, ?_, ?_, ?_, ?_⟩
  · intro e hem; rw [hh] at hem; rw [he e hem]; exact h.bound e hem
  · rw [hh]; exact h.nodup
  · intro e1 h1 e2 h2; rw [hh] at h1 h2; rw [he e1 h1, he e2 h2]; exact h.inj e1 h1 e2 h2
  · intro e hem; rw [hh] at hem; rw [he e hem]; exact h.side e hem
  · intro e hem; rw [hh] at hem; rw [he e hem]; exact h.priced e hem
  · rw [hh]
    refine h.ordered.congr ?_
    intro e hem
    simp only [entryKey, he e hem]
  · intro i e hi
    rw [hh] at hi
    rw [he e (List.getElem?_mem hi)]
    exact h.idx i e hi

/-- A heap that lost entries and is again ordered and indexed satisfies the invariant. -/
theorem HeapInv.heap_shrink {orders : Nat → Order} {isBuy : Bool} {hm hm1 : HeapMem} {N : Nat}
    (h : HeapInv orders isBuy hm N) (hs : hm1.h.Subperm hm.h)
    (hord : ∀ a, (hm1.entries a).Order = (hm.entries a).Order)
    (ho : HeapOrderedN (entryKey isBuy orders hm.entries) hm1.h hm1.h.length)
    (hi : IndexOK hm1) : HeapInv orders isBuy hm1 N := by
  refine ⟨?_, ?_, ?_, ?_, ?_, ?_, hi⟩
  · intro e he; rw [hord]; exact h.bound e (hs.subset he)
  · obtain ⟨l, hl, hsub⟩ := hs
    exact hl.nodup_iff.mp (hsub.nodup h.nodup)
  · intro e1 h1 e2 h2; rw [hord, hord]; exact h.inj e1 (hs.subset h1) e2 (hs.subset h2)
  · intro e he; rw [hord]; exact h.side e (hs.subset he)
  · intro e he; rw [hord]; exact h.priced e (hs.subset he)
  · refine ho.congr ?_
    intro e _
    simp only [entryKey, hord]

theorem HeapInv.pop {orders : Nat → Order} {isBuy : Bool} {hm hm1 : HeapMem} {N e : Nat}
    (h : HeapInv orders isBuy hm N) (hp : heapPop (ownLess isBuy orders) hm = some (hm1, e)) :
    HeapInv orders isBuy hm1 N := by
  obtain ⟨-, hperm, hord⟩ := heapPop_inv hp
  exact h.heap_shrink ((List.sublist_cons_self e hm1.h).subperm.trans hperm.subperm) hord
    (heapPop_ordered (ownLess_by isBuy orders hm) h.ordered hp)
    (heapPop_index hp h.nodup h.idx).1

theorem HeapInv.remove {orders : Nat → Order} {isBuy : Bool} {hm hm1 : HeapMem} {N e : Nat}
    {i : Int} (h : HeapInv orders isBuy hm N)
    (hp : heapRemove (ownLess isBuy orders) hm i = some (hm1, e)) :
    HeapInv orders isBuy hm1 N := by
  obtain ⟨-, -, hperm, hord⟩ := heapRemove_inv hp
  exact h.heap_shrink ((List.sublist_cons_self e hm1.h).subperm.trans hperm.subperm) hord
    (heapRemove_ordered (ownLess_by isBuy orders hm) h.ordered hp)
    (heapRemove_index hp h.nodup h.idx).1

theorem entryKey_order {isBuy : Bool} {orders : Nat → Order} {en en1 : Nat → OrderEntry}
    (h : ∀ a, (en1 a).Order = (en a).Order) :
    entryKey isBuy orders en1 = entryKey isBuy orders en := by
  funext e
  simp only [entryKey, h]

/-- Pushing a new entry, whose order is none of the heap, keeps the invariant. -/
theorem HeapInv.push {orders : Nat → Order} {isBuy : Bool} {hm hm1 : HeapMem} {N N1 x : Nat}
    (h : HeapInv orders isBuy hm N) (hN : N ≤ N1) (hx : x ∉ hm.h)
    (hp : (hm.entries x).Order < N1)
    (hnew : ∀ e ∈ hm.h, (hm.entries e).Order ≠ (hm.entries x).Order)
    (hside : (orders (hm.entries x).Order).Side = SideBuy ↔ isBuy = true)
    (hpr : ∃ q, (orders (hm.entries x).Order).Price = some q)
    (hpush : heapPush (ownLess isBuy orders) hm x = some hm1) :
    HeapInv orders isBuy hm1 N1 := by
  obtain ⟨hperm, hord, -⟩ := heapPush_inv hpush
  have hmem : ∀ e, e ∈ hm1.h ↔ e = x ∨ e ∈ hm.h := by
    intro e; rw [hperm.mem_iff]; exact List.mem_cons
  refine ⟨?_, ?_, ?_, ?_, ?_, ?_, ?_⟩
  · intro e he
    rw [hord]
    rcases (hmem e).mp he with rfl | he
    · exact hp
    · exact lt_of_lt_of_le (h.bound e he) hN
  · exact hperm.symm.nodup (List.nodup_cons.mpr ⟨hx, h.nodup⟩)
  · intro e1 h1 e2 h2
    rw [hord, hord]
    rcases (hmem e1).mp h1 with rfl | h1 <;> rcases (hmem e2).mp h2 with rfl | h2
    · exact fun _ => rfl
    · exact fun heq => absurd heq.symm (hnew e2 h2)
    · exact fun heq => absurd heq (hnew e1 h1)
    · exact h.inj e1 h1 e2 h2
  · intro e he
    rw [hord]
    rcases (hmem e).mp he with rfl | he
    · exact hside
    · exact h.side e he
  · intro e he
    rw [hord]
    rcases (hmem e).mp he with rfl | he
    · exact hpr
    · exact h.priced e he
  · have hby : LessBy (ownLess isBuy orders) (entryKey isBuy orders hm.entries) (hm.Push x) := by
      have := ownLess_by isBuy orders (hm.Push x)
      rw [entryKey_order (Push_order hm x)] at this
      exact this
    have := heapPush_ordered hby h.ordered hpush
    rw [entryKey_order hord]
    exact this
  · exact (heapPush_index hpush hx h.nodup h.idx).1

/-! ## The invariant of the book -/

theorem BookInv.ownInv {ob : OrderBook} {N : Nat} (h : BookInv ob N) (buy : Bool) :
    HeapInv ob.orders buy ⟨ob.entries, ob.own buy⟩ N := by
  cases buy
  · exact h.sells
  · exact h.buys

theorem BookInv.oppInv {ob : OrderBook} {N : Nat} (h : BookInv ob N) (buy : Bool) :
    HeapInv ob.orders (!buy) ⟨ob.entries, ob.opp buy⟩ N := by
  cases buy
  · exact h.buys
  · exact h.sells

theorem mem_resting (ob : OrderBook) (buy : Bool) (e : Nat) :
    e ∈ ob.buys ++ ob.sells ↔ e ∈ ob.own buy ∨ e ∈ ob.opp buy := by
  cases buy <;> simp [OrderBook.own, OrderBook.opp, or_comm]

theorem BookInv.of_sides {ob : OrderBook} {N : Nat} (buy : Bool)
    (hown : HeapInv ob.orders buy ⟨ob.entries, ob.own buy⟩ N)
    (hopp : HeapInv ob.orders (!buy) ⟨ob.entries, ob.opp buy⟩ N)
    (live : ∀ e ∈ ob.buys ++ ob.sells, 0 < (ob.orders (ob.entries e).Order).RemainingBase ∧
      (ob.orders (ob.entries e).Order).Status ≠ OrderStatusFilled)
    (mapIn : ∀ kv ∈ ob.orderMap, kv.2 ∈ ob.buys ++ ob.sells)
    (mapKey : ∀ kv ∈ ob.orderMap, kv.1 = (ob.orders (ob.entries kv.2).Order).ID) :
    BookInv ob N := by
  cases buy
  · exact ⟨hopp, hown, live, mapIn, mapKey⟩
  · exact ⟨hown, hopp, live, mapIn, mapKey⟩

/-- Entries of the two heaps point to different orders. -/
theorem BookInv.cross {ob : OrderBook} {N : Nat} (h : BookInv ob N) (buy : Bool) :
    ∀ e1 ∈ ob.own buy, ∀ e2 ∈ ob.opp buy, (ob.entries e1).Order ≠ (ob.entries e2).Order := by
  intro e1 h1 e2 h2 heq
  have s1 := (h.ownInv buy).side e1 h1
  have s2 := (h.oppInv buy).side e2 h2
  simp only [] at s1 s2
  rw [heq] at s1
  cases buy <;> simp_all

theorem BookInv.disjoint {ob : OrderBook} {N : Nat} (h : BookInv ob N) (buy : Bool) :
    ∀ e ∈ ob.own buy, e ∉ ob.opp buy :=
  fun e h1 h2 => h.cross buy e h1 e h2 rfl

theorem updateOrderStatus_rem (o : Order) :
    (updateOrderStatus o).RemainingBase = o.RemainingBase := by
  unfold updateOrderStatus
  split
  · rfl
  · split <;> rfl

theorem updateOrderStatus_filled (o : Order) :
    (updateOrderStatus o).FilledBase = o.FilledBase := by
  unfold updateOrderStatus
  split
  · rfl
  · split <;> rfl

theorem updateOrderStatus_live {o : Order} (hs : o.Status ≠ OrderStatusFilled) :
    (updateOrderStatus o).Status ≠ OrderStatusFilled ↔ 0 < o.RemainingBase := by
  unfold updateOrderStatus
  split
  · rename_i h
    simp only [ne_eq, not_true_eq_false, false_iff, not_lt]
    exact h
  · rename_i h
    have h' : 0 < o.RemainingBase := not_le.mp h
    split
    · simp only [h', iff_true]; decide
    · simp only [h', iff_true]; exact hs

/-- A fill keeps the invariant of the book, when the incoming order is not an order of
the book. -/
theorem BookInv.fill {ob ob1 : OrderBook} {N p maker : Nat} {buy : Bool} {m : MatchResult}
    (h : BookInv ob N) (hp : N ≤ p) (hf : FillFacts ob buy p ob1 m maker) : BookInv ob1 N := by
  obtain ⟨top, rest, htop, hmk⟩ := hf.top
  have htopm : top ∈ ob.opp buy := by rw [htop]; exact List.mem_cons_self _ _
  have hfro : ∀ a, (ob1.orders a).frozen = (ob.orders a).frozen := by
    intro a; rw [hf.orders]; exact applyFill_frozen _ _ _ _ _
  have hpm : p ≠ maker := by
    have := (h.oppInv buy).bound top htopm
    simp only [] at this
    rw [hmk] at this
    omega
  -- the heap the order is matched against
  have hopp0 : HeapInv ob1.orders (!buy) ⟨ob.entries, ob.opp buy⟩ N :=
    (h.oppInv buy).frozen (fun e _ => hfro _)
  have hpop := hf.pop
  rw [oppLess_eq] at hpop
  have hoppS := hf.pop.subperm
  have hord : ∀ a, (ob1.entries a).Order = (ob.entries a).Order := hoppS.2
  have hopp1 : HeapInv ob1.orders (!buy) ⟨ob1.entries, ob1.opp buy⟩ N := by
    rcases hpop with ⟨-, e, hpop⟩ | ⟨-, heq⟩
    · exact hopp0.pop hpop
    · rw [heq]; exact hopp0
  -- the entries outside that heap are untouched
  have hframe : ∀ a, a ∉ ob.opp buy → ob1.entries a = ob.entries a := by
    rcases hpop with ⟨-, e, hpop⟩ | ⟨-, heq⟩
    · exact (heapPop_index hpop hopp0.nodup hopp0.idx).2
    · intro a _
      have := congrArg HeapMem.entries heq
      simp only [] at this
      rw [this]
  have hown1 : HeapInv ob1.orders buy ⟨ob1.entries, ob1.own buy⟩ N := by
    have h0 : HeapInv ob1.orders buy ⟨ob.entries, ob.own buy⟩ N :=
      (h.ownInv buy).frozen (fun e _ => hfro _)
    exact h0.frame hf.own (fun e he => hframe e (h.disjoint buy e he))
  -- which entries are left
  have hsub : ∀ e, e ∈ ob1.buys ++ ob1.sells → e ∈ ob.buys ++ ob.sells := by
    intro e he
    rw [mem_resting _ buy] at he ⊢
    rcases he with he | he
    · left; rw [hf.own] at he; exact he
    · right; exact hoppS.1.subset he
  have hgone : (ob1.orders maker).Status = OrderStatusFilled → top ∉ ob1.opp buy := by
    intro hst
    rcases hpop with ⟨-, e, hpop⟩ | ⟨hn, -⟩
    · obtain ⟨hhead, hperm, -⟩ := heapPop_inv hpop
      simp only [htop, List.head?_cons, Option.some.injEq] at hhead
      subst hhead
      have := hperm.symm.nodup hopp0.nodup
      exact (List.nodup_cons.mp this).1
    · exact absurd hst hn
  have hkept : ∀ e, e ∈ ob.opp buy → e ≠ top → e ∈ ob1.opp buy := by
    intro e he hne
    rcases hpop with ⟨-, e0, hpop⟩ | ⟨-, heq⟩
    · obtain ⟨hhead, hperm, -⟩ := heapPop_inv hpop
      simp only [htop, List.head?_cons, Option.some.injEq] at hhead
      subst hhead
      rcases List.mem_cons.mp (hperm.symm.subset he) with h1 | h1
      · exact absurd h1 hne
      · exact h1
    · have := congrArg HeapMem.h heq
      simp only [] at this
      rw [this]; exact he
  -- an entry that points to the maker is the top
  have hmaker : ∀ e, e ∈ ob.buys ++ ob.sells → (ob.entries e).Order = maker → e = top := by
    intro e he heq
    rcases (mem_resting _ buy e).mp he with h1 | h1
    · exact absurd (heq.trans hmk.symm) (h.cross buy e h1 top htopm)
    · exact (h.oppInv buy).inj e h1 top htopm (heq.trans hmk.symm)
  refine BookInv.of_sides buy hown1 hopp1 ?_ ?_ ?_
  · intro e he
    have he0 := hsub e he
    rw [hord]
    have hlt : (ob.entries e).Order < N := by
      rcases (mem_resting _ buy e).mp he0 with h1 | h1
      · exact (h.ownInv buy).bound e h1
      · exact (h.oppInv buy).bound e h1
    by_cases hem : (ob.entries e).Order = maker
    · have het := hmaker e he0 hem
      subst het
      have hstat : (ob1.orders maker).Status ≠ OrderStatusFilled := by
        intro hst
        rcases (mem_resting _ buy e).mp he with h1 | h1
        · rw [hf.own] at h1; exact h.disjoint buy e h1 htopm
        · exact hgone hst h1
      rw [hem]
      refine ⟨?_, hstat⟩
      have hlive := (h.live e he0)
      rw [hem] at hlive
      rw [hf.orders, applyFill_maker hpm] at hstat ⊢
      rw [updateOrderStatus_rem]
      refine (updateOrderStatus_live ?_).mp hstat
      exact hlive.2
    · rw [hf.orders, applyFill_other (by omega) hem]
      exact h.live e he0
  · intro kv hkv
    have hkv0 : kv ∈ ob.orderMap := by
      rw [hf.map] at hkv
      split at hkv
      · exact (mapDelete_sublist _ _).subset hkv
      · exact hkv
    have hin := h.mapIn kv hkv0
    by_cases hst : (ob1.orders maker).Status = OrderStatusFilled
    · rw [hf.map, if_pos hst] at hkv
      have hne : kv.1 ≠ (ob1.orders maker).ID := by
        have := (List.mem_filter.mp hkv).2
        simpa using this
      have hnt : kv.2 ≠ top := by
        intro heq
        apply hne
        rw [h.mapKey kv hkv0, heq, hmk, (frozen_fields (hfro maker)).1]
      rw [mem_resting _ buy] at hin ⊢
      rcases hin with h1 | h1
      · left; rw [hf.own]; exact h1
      · right; exact hkept _ h1 hnt
    · rw [mem_resting _ buy] at hin ⊢
      rcases hin with h1 | h1
      · left; rw [hf.own]; exact h1
      · right
        rcases hpop with ⟨hc, -⟩ | ⟨-, heq⟩
        · exact absurd hc hst
        · have := congrArg HeapMem.h heq
          simp only [] at this
          rw [this]; exact h1
  · intro kv hkv
    have hkv0 : kv ∈ ob.orderMap := by
      rw [hf.map] at hkv
      split at hkv
      · exact (mapDelete_sublist _ _).subset hkv
      · exact hkv
    rw [hord, (frozen_fields (hfro _)).1]
    exact h.mapKey kv hkv0

theorem HeapInv.heap_mono {orders : Nat → Order} {isBuy : Bool} {hm : HeapMem} {N N1 : Nat}
    (h : HeapInv orders isBuy hm N) (hN : N ≤ N1) : HeapInv orders isBuy hm N1 :=
  ⟨fun e he => lt_of_lt_of_le (h.bound e he) hN, h.nodup, h.inj, h.side, h.priced, h.ordered,
    h.idx⟩

theorem BookInv.book_mono {ob : OrderBook} {N N1 : Nat} (h : BookInv ob N) (hN : N ≤ N1) :
    BookInv ob N1 :=
  ⟨h.buys.heap_mono hN, h.sells.heap_mono hN, h.live, h.mapIn, h.mapKey⟩

theorem BookInv.bound {ob : OrderBook} {N : Nat} (h : BookInv ob N) :
    ∀ e ∈ ob.buys ++ ob.sells, (ob.entries e).Order < N := by
  intro e he
  rcases List.mem_append.mp he with h1 | h1
  · exact h.buys.bound e h1
  · exact h.sells.bound e h1

theorem BookInv.init (orders : Nat → Order) : BookInv (NewOrderBook orders) 0 := by
  have hh : ∀ b, HeapInv orders b ⟨fun _ => ⟨0, 0⟩, []⟩ 0 := by
    intro b
    refine ⟨by simp, List.nodup_nil, by simp, by simp, ?_, ?_, ?_⟩
    · intro e he; simp at he
    · intro j _ hj; simp at hj
    · intro i e hi; simp at hi
  exact ⟨hh true, hh false, by simp [NewOrderBook], by simp [NewOrderBook],
    by simp [NewOrderBook]⟩

/-- Creating a new order object does not touch the book. -/
theorem BookInv.alloc {ob : OrderBook} {N : Nat} (h : BookInv ob N) (o : Order) :
    BookInv { ob with orders := Function.update ob.orders N o } N := by
  have hsame : ∀ e ∈ ob.buys ++ ob.sells,
      Function.update ob.orders N o (ob.entries e).Order = ob.orders (ob.entries e).Order := by
    intro e he
    have := h.bound e he
    rw [Function.update_noteq (by omega)]
  refine ⟨?_, ?_, ?_, h.mapIn, ?_⟩
  · exact h.buys.frozen (fun e he => by
      have := hsame e (List.mem_append_left _ he)
      simp only [OrderBook.buyHeap] at this ⊢
      rw [this])
  · exact h.sells.frozen (fun e he => by
      have := hsame e (List.mem_append_right _ he)
      simp only [OrderBook.sellHeap] at this ⊢
      rw [this])
  · intro e he
    simp only []
    rw [hsame e he]
    exact h.live e he
  · intro kv hkv
    simp only []
    rw [hsame _ (h.mapIn kv hkv)]
    exact h.mapKey kv hkv

/-- `restOrder` keeps the invariant of the book; the new order gets the address `p`. -/
theorem BookInv.rest {ob ob2 : OrderBook} {N p : Nat} (h : BookInv ob N) (hp : N ≤ p)
    (hpr : ∃ q, (ob.orders p).Price = some q) (hr : restOrder ob p = some ob2) :
    BookInv ob2 (p + 1) := by
  rcases restOrder_inv hr with ⟨-, rfl⟩ | ⟨hc, hm, hpush, ho, he, hown, hopp, hmap⟩
  · exact h.book_mono (show N ≤ p + 1 by omega)
  · have hfresh := newEntry_fresh ob
    have hxr : ob.newEntry ∉ ob.buys ++ ob.sells := by
      intro hx
      rcases List.mem_append.mp hx with h1 | h1
      · exact hfresh.1 h1
      · exact hfresh.2.1 h1
    generalize hb : decide ((ob.orders p).Side = SideBuy) = buy at hpush hown hopp
    have hxown : ob.newEntry ∉ ob.own buy := fun hx =>
      hxr ((mem_resting ob buy _).mpr (Or.inl hx))
    have hxopp : ob.newEntry ∉ ob.opp buy := fun hx =>
      hxr ((mem_resting ob buy _).mpr (Or.inr hx))
    obtain ⟨hperm, hord, -⟩ := heapPush_inv hpush
    have hidx := heapPush_index hpush hxown (h.ownInv buy).nodup
    -- the entries of the book are not the new one
    have hold : ∀ e, e ≠ ob.newEntry → (ob2.entries e).Order = (ob.entries e).Order := by
      intro e hne
      rw [he, hord]
      simp only [Function.update_noteq hne]
    have hnewO : (ob2.entries ob.newEntry).Order = p := by
      rw [he, hord]; simp
    have hown0 : HeapInv ob.orders buy
        ⟨Function.update ob.entries ob.newEntry ⟨p, 0⟩, ob.own buy⟩ N :=
      (h.ownInv buy).frame rfl (fun e hem => by
        have : e ≠ ob.newEntry := fun heq => hxown (heq ▸ hem)
        simp only [Function.update_noteq this])
    have hown2 : HeapInv ob2.orders buy ⟨ob2.entries, ob2.own buy⟩ (p + 1) := by
      rw [ho, he, hown]
      refine hown0.push (show N ≤ p + 1 by omega) hxown (by simp) ?_ ?_ ?_ hpush
      · intro e hem
        have hne : e ≠ ob.newEntry := fun heq => hxown (heq ▸ hem)
        have := (h.ownInv buy).bound e hem
        simp only [Function.update_noteq hne, Function.update_same]
        simp only [] at this
        omega
      · simp only [Function.update_same]
        rw [← hb]; simp
      · simpa using hpr
    have hopp2 : HeapInv ob2.orders (!buy) ⟨ob2.entries, ob2.opp buy⟩ (p + 1) := by
      rw [ho, he, hopp]
      refine (@HeapInv.frame _ _ _ ⟨hm.entries, ob.opp buy⟩ _ (h.oppInv buy) rfl ?_).heap_mono
        (show N ≤ p + 1 by omega)
      intro e hem
      have hne : e ≠ ob.newEntry := fun heq => hxopp (heq ▸ hem)
      have hno : e ∉ ob.own buy := fun h1 => h.disjoint buy e h1 hem
      rw [(hidx hown0.idx).2 e hno hne]
      simp only [Function.update_noteq hne]
    have hmem2 : ∀ e, e ∈ ob2.buys ++ ob2.sells ↔ e = ob.newEntry ∨ e ∈ ob.buys ++ ob.sells := by
      intro e
      rw [mem_resting ob2 buy, mem_resting ob buy, hown, hopp, hperm.mem_iff, List.mem_cons]
      tauto
    refine BookInv.of_sides buy hown2 hopp2 ?_ ?_ ?_
    · intro e hem
      rw [ho]
      rcases (hmem2 e).mp hem with rfl | hem
      · rw [hnewO]; exact hc
      · have hne : e ≠ ob.newEntry := fun heq => hxr (heq ▸ hem)
        rw [hold e hne]
        exact h.live e hem
    · intro kv hkv
      rw [hmap] at hkv
      rw [hmem2]
      rcases List.mem_cons.mp hkv with rfl | hkv
      · left; rfl
      · right; exact h.mapIn kv ((mapDelete_sublist _ _).subset hkv)
    · intro kv hkv
      rw [hmap] at hkv
      rw [ho]
      rcases List.mem_cons.mp hkv with rfl | hkv
      · simp only []
        rw [hnewO]
      · have hkv0 := (mapDelete_sublist _ _).subset hkv
        have hne : kv.2 ≠ ob.newEntry := hfresh.2.2 kv hkv0
        rw [hold _ hne]
        exact h.mapKey kv hkv0

/-! ## `CancelOrder` -/

theorem mapGet_mem {m : List (String × Nat)} {k : String} {v : Nat}
    (h : mapGet m k = some v) : (k, v) ∈ m := by
  unfold mapGet at h
  induction m with
  | nil => simp at h
  | cons kv m ih =>
    obtain ⟨k1, v1⟩ := kv
    rw [List.lookup_cons] at h
    split at h
    · rename_i heq
      simp only [Option.some.injEq] at h
      subst h
      have : k = k1 := by simpa using heq
      subst this
      exact List.mem_cons_self _ _
    · exact List.mem_cons_of_mem _ (ih h)

/-- The two ways `CancelOrder` returns: a miss, or the removal of the entry the map
holds for the id. -/
theorem CancelOrder_inv {ob ob1 : OrderBook} {id : String} {r : Option Nat}
    (h : CancelOrder ob id = some (ob1, r)) :
    (mapGet ob.orderMap id = none ∧ ob1 = ob ∧ r = none) ∨
    ∃ entry hm e, mapGet ob.orderMap id = some entry ∧
      heapRemove (ownLess (decide ((ob.orders (ob.entries entry).Order).Side = SideBuy))
          (Function.update ob.orders (ob.entries entry).Order
            { ob.orders (ob.entries entry).Order with Status := OrderStatusCancelled }))
        ⟨ob.entries, ob.own (decide ((ob.orders (ob.entries entry).Order).Side = SideBuy))⟩
        (ob.entries entry).Index = some (hm, e) ∧
      ob1.orders = Function.update ob.orders (ob.entries entry).Order
        { ob.orders (ob.entries entry).Order with Status := OrderStatusCancelled } ∧
      ob1.entries = hm.entries ∧
      ob1.own (decide ((ob.orders (ob.entries entry).Order).Side = SideBuy)) = hm.h ∧
      ob1.opp (decide ((ob.orders (ob.entries entry).Order).Side = SideBuy)) =
        ob.opp (decide ((ob.orders (ob.entries entry).Order).Side = SideBuy)) ∧
      ob1.orderMap = mapDelete ob.orderMap id ∧ r = some (ob.entries entry).Order := by
  unfold CancelOrder at h
  split at h
  · rename_i hg
    simp only [Option.some.injEq, Prod.mk.injEq] at h
    exact Or.inl ⟨hg, h.1.symm, h.2.symm⟩
  · rename_i entry hg
    right
    simp only [] at h
    split at h
    · rename_i hs0
      have hs : (ob.orders (ob.entries entry).Order).Side = SideBuy := by
        simpa using hs0
      split at h
      · simp at h
      · rename_i hm e hrem
        simp only [Option.some.injEq, Prod.mk.injEq] at h
        obtain ⟨rfl, rfl⟩ := h
        refine ⟨entry, hm, e, hg, ?_, rfl, rfl, ?_, ?_, rfl, rfl⟩
        · rw [show decide ((ob.orders (ob.entries entry).Order).Side = SideBuy) = true from
            decide_eq_true hs]
          exact hrem
        · simp [hs, OrderBook.own]
        · simp [hs, OrderBook.opp]
    · rename_i hs0
      have hs : ¬ (ob.orders (ob.entries entry).Order).Side = SideBuy := by
        simpa using hs0
      split at h
      · simp at h
      · rename_i hm e hrem
        simp only [Option.some.injEq, Prod.mk.injEq] at h
        obtain ⟨rfl, rfl⟩ := h
        refine ⟨entry, hm, e, hg, ?_, rfl, rfl, ?_, ?_, rfl, rfl⟩
        · rw [show decide ((ob.orders (ob.entries entry).Order).Side = SideBuy) = false from
            decide_eq_false hs]
          exact hrem
        · simp [hs, OrderBook.own]
        · simp [hs, OrderBook.opp]

/-- In a book that satisfies the invariant a cancellation that hits removes the entry
of the map, which rests on the side of its order. -/
theorem BookInv.cancel_hit {ob : OrderBook} {N : Nat} (h : BookInv ob N) {id : String}
    {entry : Nat} {orders1 : Nat → Order} {hm : HeapMem} {e : Nat}
    (hg : mapGet ob.orderMap id = some entry)
    (hrem : heapRemove (ownLess (decide ((ob.orders (ob.entries entry).Order).Side = SideBuy))
        orders1)
      ⟨ob.entries, ob.own (decide ((ob.orders (ob.entries entry).Order).Side = SideBuy))⟩
      (ob.entries entry).Index = some (hm, e)) :
    e = entry ∧ entry ∈ ob.own (decide ((ob.orders (ob.entries entry).Order).Side = SideBuy)) ∧
      id = (ob.orders (ob.entries entry).Order).ID := by
  have hmem := mapGet_mem hg
  have hin := h.mapIn _ hmem
  have hkey := h.mapKey _ hmem
  simp only [] at hin hkey
  generalize hb : decide ((ob.orders (ob.entries entry).Order).Side = SideBuy) = buy at hrem
  have hown : entry ∈ ob.own buy := by
    rcases (mem_resting ob buy entry).mp hin with h1 | h1
    · exact h1
    · exfalso
      have := (h.oppInv buy).side entry h1
      simp only [] at this
      rw [← hb] at this
      simp at this
  obtain ⟨i, hi⟩ := List.getElem?_of_mem hown
  have hidx := (h.ownInv buy).idx i entry hi
  simp only [] at hidx
  obtain ⟨-, hget, -, -⟩ := heapRemove_inv hrem
  rw [hidx] at hget
  simp only [Int.toNat_ofNat] at hget
  rw [hi] at hget
  simp only [Option.some.injEq] at hget
  exact ⟨hget.symm, hown, hkey⟩

theorem BookInv.cancel {ob ob1 : OrderBook} {N : Nat} {id : String} {r : Option Nat}
    (h : BookInv ob N) (hc : CancelOrder ob id = some (ob1, r)) : BookInv ob1 N := by
  rcases CancelOrder_inv hc with ⟨-, rfl, -⟩ | ⟨entry, hm, e, hg, hrem, ho, he, hown, hopp, hmap, -⟩
  · exact h
  · obtain ⟨hee, hent, hid⟩ := h.cancel_hit hg hrem
    subst hee
    generalize hb : decide ((ob.orders (ob.entries e).Order).Side = SideBuy) = buy
      at hrem hown hopp hent
    have hfro : ∀ a, (ob1.orders a).frozen = (ob.orders a).frozen := by
      intro a
      rw [ho]
      by_cases ha : a = (ob.entries e).Order
      · subst ha; simp only [Function.update_same]; rfl
      · rw [Function.update_noteq ha]
    obtain ⟨-, -, hperm, hord⟩ := heapRemove_inv hrem
    have hown0 : HeapInv ob1.orders buy ⟨ob.entries, ob.own buy⟩ N :=
      (h.ownInv buy).frozen (fun a _ => hfro _)
    rw [← ho] at hrem
    have hown1 : HeapInv ob1.orders buy ⟨ob1.entries, ob1.own buy⟩ N := by
      rw [he, hown]; exact hown0.remove hrem
    have hframe := (heapRemove_index hrem hown0.nodup hown0.idx).2
    have hopp1 : HeapInv ob1.orders (!buy) ⟨ob1.entries, ob1.opp buy⟩ N := by
      rw [he, hopp]
      refine @HeapInv.frame _ _ _ ⟨hm.entries, ob.opp buy⟩ _
        ((h.oppInv buy).frozen (fun a _ => hfro _)) rfl ?_
      intro a ha
      exact hframe a (fun h1 => h.disjoint buy a h1 ha)
    have hnod := hperm.symm.nodup hown0.nodup
    have hnot : e ∉ hm.h := (List.nodup_cons.mp hnod).1
    have hmem1 : ∀ a, a ∈ ob1.buys ++ ob1.sells ↔ a ≠ e ∧ a ∈ ob.buys ++ ob.sells := by
      intro a
      rw [mem_resting ob1 buy, mem_resting ob buy, hown, hopp]
      constructor
      · rintro (h1 | h1)
        · exact ⟨fun heq => hnot (heq ▸ h1), Or.inl (hperm.subset (List.mem_cons_of_mem _ h1))⟩
        · exact ⟨fun heq => h.disjoint buy e hent (heq ▸ h1), Or.inr h1⟩
      · rintro ⟨hne, h1 | h1⟩
        · left
          rcases List.mem_cons.mp (hperm.symm.subset h1) with h2 | h2
          · exact absurd h2 hne
          · exact h2
        · exact Or.inr h1
    have hall : e ∈ ob.buys ++ ob.sells := (mem_resting ob buy e).mpr (Or.inl hent)
    have hinj : ∀ a, a ∈ ob.buys ++ ob.sells → a ≠ e →
        (ob.entries a).Order ≠ (ob.entries e).Order := by
      intro a ha hne heq
      rcases (mem_resting ob buy a).mp ha with h1 | h1
      · exact hne ((h.ownInv buy).inj a h1 e hent heq)
      · exact h.cross buy e hent a h1 heq.symm
    have hordE : ∀ a, (ob1.entries a).Order = (ob.entries a).Order := by
      intro a; rw [he]; exact hord a
    refine BookInv.of_sides buy hown1 hopp1 ?_ ?_ ?_
    · intro a ha
      obtain ⟨hne, ha0⟩ := (hmem1 a).mp ha
      rw [hordE, ho, Function.update_noteq (hinj a ha0 hne)]
      exact h.live a ha0
    · intro kv hkv
      rw [hmap] at hkv
      have hkv0 := (mapDelete_sublist _ _).subset hkv
      rw [hmem1]
      refine ⟨?_, h.mapIn kv hkv0⟩
      intro heq
      have hne : kv.1 ≠ id := by
        have := (List.mem_filter.mp hkv).2
        simpa using this
      apply hne
      rw [h.mapKey kv hkv0, heq, hid]
    · intro kv hkv
      rw [hmap] at hkv
      have hkv0 := (mapDelete_sublist _ _).subset hkv
      rw [hordE, (frozen_fields (hfro _)).1]
      exact h.mapKey kv hkv0

/-! ## The invariant along calls -/

/-- The invariant holds in every book a matching loop reaches. -/
theorem BookInv.matchRun {buy : Bool} {p N : Nat} {price : F64} {ob ob1 : OrderBook}
    {tr : List (OrderBook × MatchResult)} (hrun : MatchRun (sideStep buy p price) ob tr ob1)
    (hp : N ≤ p) : BookInv ob N → BookInv ob1 N ∧ ∀ sm ∈ tr, BookInv sm.1 N := by
  induction hrun with
  | exit _ => exact fun h => ⟨h, by simp⟩
  | @fill s s1 s2 m tr hst _ ih =>
    intro h
    obtain ⟨maker, hf⟩ := sideStep_facts hst
    obtain ⟨h2, hall⟩ := ih (h.fill hp hf)
    refine ⟨h2, ?_⟩
    intro sm hsm
    rcases List.mem_cons.mp hsm with rfl | hsm
    · exact h
    · exact hall sm hsm

theorem BookInv.addOrder {ob ob2 : OrderBook} {N p : Nat} {ms : List MatchResult}
    (h : BookInv ob N) (hp : N ≤ p) (ha : AddOrder ob p = some (ob2, ms)) :
    BookInv ob2 (p + 1) := by
  obtain ⟨price, ob1, tr, hprice, hrun, -, hrest⟩ := AddOrder_inv ha
  have h1 := (h.matchRun hrun hp).1
  have hfro := hrun.facts.1.frozen p
  exact h1.rest hp ⟨price, by rw [frozen_price hfro]; exact hprice⟩ hrest

theorem World.step_add_inv {w w1 : World} {o : Order} (h : w.step (.add o) = some w1) :
    ∃ ms, AddOrder { w.ob with orders := Function.update w.ob.orders w.next o } w.next =
        some (w1.ob, ms) ∧ w1.next = w.next + 1 ∧ w1.trades = w.trades ++ ms := by
  simp only [World.step] at h
  split at h
  · simp at h
  · rename_i ob1 ms ha
    simp only [Option.some.injEq] at h
    subst h
    exact ⟨ms, ha, rfl, rfl⟩

theorem World.step_cancel_inv {w w1 : World} {id : String} (h : w.step (.cancel id) = some w1) :
    ∃ r, CancelOrder w.ob id = some (w1.ob, r) ∧ w1.next = w.next ∧ w1.trades = w.trades := by
  simp only [World.step] at h
  split at h
  · simp at h
  · rename_i ob1 r hc
    simp only [Option.some.injEq] at h
    subst h
    exact ⟨r, hc, rfl, rfl⟩

theorem World.step_inv {w w1 : World} {c : Call} (hi : BookInv w.ob w.next)
    (h : w.step c = some w1) : BookInv w1.ob w1.next := by
  cases c with
  | add o =>
    obtain ⟨ms, ha, hn, -⟩ := World.step_add_inv h
    rw [hn]
    exact (hi.alloc o).addOrder (le_refl _) ha
  | cancel id =>
    obtain ⟨r, hc, hn, -⟩ := World.step_cancel_inv h
    rw [hn]
    exact hi.cancel hc

/-- An induction principle for the worlds a sequence of calls reaches. -/
theorem World.run_induct {P : World → Prop} {w w1 : World} {cs : List Call}
    (hstep : ∀ (u v : World) (c : Call), c ∈ cs → P u → u.step c = some v → P v)
    (h0 : P w) (h : w.run cs = some w1) : P w1 := by
  induction cs generalizing w with
  | nil =>
    simp only [World.run, Option.some.injEq] at h
    subst h; exact h0
  | cons c cs ih =>
    simp only [World.run] at h
    split at h
    · simp at h
    · rename_i w2 hs
      exact ih (fun u v c' hc' => hstep u v c' (List.mem_cons_of_mem _ hc'))
        (hstep w w2 c (List.mem_cons_self _ _) h0 hs) h

theorem World.run_inv {w w1 : World} {cs : List Call} (hi : BookInv w.ob w.next)
    (h : w.run cs = some w1) : BookInv w1.ob w1.next :=
  World.run_induct (P := fun u => BookInv u.ob u.next) (fun _ _ _ _ hu hs => World.step_inv hu hs)
    hi h

theorem World.init_inv (orders : Nat → Order) :
    BookInv (World.init orders).ob (World.init orders).next :=
  BookInv.init orders

theorem World.run_append {w w2 : World} {cs1 cs2 : List Call}
    (h : w.run (cs1 ++ cs2) = some w2) : ∃ w1, w.run cs1 = some w1 ∧ w1.run cs2 = some w2 := by
  induction cs1 generalizing w with
  | nil => exact ⟨w, rfl, h⟩
  | cons c cs ih =>
    simp only [List.cons_append, World.run] at h ⊢
    split at h
    · simp at h
    · exact ih h

/-! ## What the fills add up to -/

theorem FillFacts.maker_lt {ob ob1 : OrderBook} {N p maker : Nat} {buy : Bool} {m : MatchResult}
    (hf : FillFacts ob buy p ob1 m maker) (h : BookInv ob N) : maker < N := by
  obtain ⟨top, rest, htop, hmk⟩ := hf.top
  have := (h.oppInv buy).bound top (by rw [htop]; exact List.mem_cons_self _ _)
  simp only [] at this
  rw [hmk] at this
  exact this

theorem FillFacts.fillOf_eq {ob ob1 : OrderBook} {p maker : Nat} {buy : Bool} {m : MatchResult}
    (hf : FillFacts ob buy p ob1 m maker) (a : Nat) :
    fillOf a m = if a = p ∨ a = maker then m.FillAmount else 0 := by
  unfold fillOf
  rw [hf.buyRef, hf.sellRef]
  have e1 : (p = a) = (a = p) := propext eq_comm
  have e2 : (maker = a) = (a = maker) := propext eq_comm
  cases buy
  · simp only [Bool.false_eq_true, if_false, e1, e2]
    exact if_congr or_comm rfl rfl
  · simp only [if_true, e1, e2]

/-- A fill adds its `FillAmount` to the two orders it references, and to no other. -/
theorem FillFacts.filled {ob ob1 : OrderBook} {p maker : Nat} {buy : Bool} {m : MatchResult}
    (hf : FillFacts ob buy p ob1 m maker) (hpm : p ≠ maker) (a : Nat) :
    (ob1.orders a).FilledBase = (ob.orders a).FilledBase + fillOf a m := by
  rw [hf.fillOf_eq, hf.orders]
  by_cases h1 : a = p
  · subst h1
    rw [applyFill_taker hpm, updateOrderStatus_filled]
    simp
  · by_cases h2 : a = maker
    · subst h2
      rw [applyFill_maker hpm, updateOrderStatus_filled]
      simp
    · rw [applyFill_other h1 h2]
      simp [h1, h2]

theorem FillFacts.fill_le {ob ob1 : OrderBook} {p maker : Nat} {buy : Bool} {m : MatchResult}
    (hf : FillFacts ob buy p ob1 m maker) :
    m.FillAmount ≤ (ob.orders p).RemainingBase ∧
      m.FillAmount ≤ (ob.orders maker).RemainingBase := by
  rw [hf.fill_eq, minBigInt_eq_min]
  exact ⟨min_le_left _ _, min_le_right _ _⟩

/-- A fill keeps `0 ≤ FilledBase ≤ totalBase` of every order. -/
theorem FillFacts.within {ob ob1 : OrderBook} {p maker : Nat} {buy : Bool} {m : MatchResult}
    (hf : FillFacts ob buy p ob1 m maker) (hpm : p ≠ maker) (a : Nat)
    (h : 0 ≤ (ob.orders a).FilledBase ∧ (ob.orders a).FilledBase ≤ (ob.orders a).totalBase) :
    0 ≤ (ob1.orders a).FilledBase ∧ (ob1.orders a).FilledBase ≤ (ob1.orders a).totalBase := by
  have hfro : (ob1.orders a).frozen = (ob.orders a).frozen := by
    rw [hf.orders]; exact applyFill_frozen _ _ _ _ _
  rw [frozen_totalBase hfro, hf.filled hpm a, hf.fillOf_eq]
  have hpos := hf.fill_pos
  have hle := hf.fill_le
  rw [remaining_eq, remaining_eq] at hle
  by_cases h1 : a = p
  · subst h1; simp only [true_or, if_true]; omega
  · by_cases h2 : a = maker
    · subst h2; simp only [or_true, if_true]; omega
    · simp only [h1, h2, or_self, if_false]; omega

theorem filledSum_append (l1 l2 : List MatchResult) (a : Nat) :
    filledSum (l1 ++ l2) a = filledSum l1 a + filledSum l2 a := by
  unfold filledSum
  rw [List.map_append, List.sum_append]

theorem filledSum_cons (m : MatchResult) (l : List MatchResult) (a : Nat) :
    filledSum (m :: l) a = fillOf a m + filledSum l a := by
  unfold filledSum
  rw [List.map_cons, List.sum_cons]

theorem filledSum_zero {l : List MatchResult} {a : Nat}
    (h : ∀ m ∈ l, m.BuyOrder ≠ a ∧ m.SellOrder ≠ a) : filledSum l a = 0 := by
  induction l with
  | nil => rfl
  | cons m l ih =>
    rw [filledSum_cons, ih (fun x hx => h x (List.mem_cons_of_mem _ hx))]
    have := h m (List.mem_cons_self _ _)
    simp [fillOf, this.1, this.2]

/-- Along a matching loop the orders gain exactly the fills that reference them, stay
within their base amounts, and the fills reference the incoming order and orders of the
book. -/
theorem MatchRun.accounts {buy : Bool} {p N : Nat} {price : F64} {ob ob1 : OrderBook}
    {tr : List (OrderBook × MatchResult)} (hrun : MatchRun (sideStep buy p price) ob tr ob1)
    (hp : N ≤ p) : BookInv ob N →
    (∀ a, (ob1.orders a).FilledBase = (ob.orders a).FilledBase + filledSum (tr.map Prod.snd) a) ∧
    (∀ a, 0 ≤ (ob.orders a).FilledBase ∧ (ob.orders a).FilledBase ≤ (ob.orders a).totalBase →
      0 ≤ (ob1.orders a).FilledBase ∧ (ob1.orders a).FilledBase ≤ (ob1.orders a).totalBase) ∧
    (∀ m ∈ tr.map Prod.snd, m.BuyOrder ≤ p ∧ m.SellOrder ≤ p) := by
  induction hrun with
  | exit _ => exact fun _ => ⟨fun a => by simp [filledSum], fun _ h => h, by simp⟩
  | @fill s s1 s2 m tr hst _ ih =>
    intro h
    obtain ⟨maker, hf⟩ := sideStep_facts hst
    have hlt := hf.maker_lt h
    have hpm : p ≠ maker := by omega
    obtain ⟨i1, i2, i3⟩ := ih (h.fill hp hf)
    refine ⟨?_, ?_, ?_⟩
    · intro a
      rw [i1 a, hf.filled hpm a, List.map_cons, filledSum_cons]
      ring
    · intro a ha
      exact i2 a (hf.within hpm a ha)
    · intro x hx
      rw [List.map_cons] at hx
      rcases List.mem_cons.mp hx with rfl | hx
      · rw [hf.buyRef, hf.sellRef]
        cases buy <;> simp <;> omega
      · exact i3 x hx

/-- `CancelOrder` writes the `Status` of one order and nothing else of the orders. -/
theorem CancelOrder_orders {ob ob1 : OrderBook} {id : String} {r : Option Nat}
    (h : CancelOrder ob id = some (ob1, r)) (a : Nat) :
    (ob1.orders a).frozen = (ob.orders a).frozen ∧
      (ob1.orders a).FilledBase = (ob.orders a).FilledBase ∧
      (ob1.orders a = ob.orders a ∨
        ∃ entry, mapGet ob.orderMap id = some entry ∧ a = (ob.entries entry).Order ∧
          ob1.orders a = { ob.orders a with Status := OrderStatusCancelled }) := by
  rcases CancelOrder_inv h with ⟨-, rfl, -⟩ | ⟨entry, hm, e, hg, -, ho, -⟩
  · exact ⟨rfl, rfl, Or.inl rfl⟩
  · rw [ho]
    by_cases ha : a = (ob.entries entry).Order
    · subst ha
      rw [Function.update_same]
      exact ⟨rfl, rfl, Or.inr ⟨entry, hg, rfl, rfl⟩⟩
    · rw [Function.update_noteq ha]
      exact ⟨rfl, rfl, Or.inl rfl⟩

/-- What `AddOrder` does to the orders: the fills of its matches, and nothing else. -/
theorem AddOrder_accounts {ob ob2 : OrderBook} {N p : Nat} {ms : List MatchResult}
    (h : BookInv ob N) (hp : N ≤ p) (ha : AddOrder ob p = some (ob2, ms)) :
    (∀ a, (ob2.orders a).frozen = (ob.orders a).frozen) ∧
    (∀ a, (ob2.orders a).FilledBase = (ob.orders a).FilledBase + filledSum ms a) ∧
    (∀ a, 0 ≤ (ob.orders a).FilledBase ∧ (ob.orders a).FilledBase ≤ (ob.orders a).totalBase →
      0 ≤ (ob2.orders a).FilledBase ∧ (ob2.orders a).FilledBase ≤ (ob2.orders a).totalBase) ∧
    (∀ m ∈ ms, m.BuyOrder ≤ p ∧ m.SellOrder ≤ p) := by
  obtain ⟨price, ob1, tr, -, hrun, rfl, hrest⟩ := AddOrder_inv ha
  rw [restOrder_orders hrest]
  obtain ⟨i1, i2, i3⟩ := hrun.accounts hp h
  exact ⟨hrun.facts.1.frozen, i1, i2, i3⟩

/-! ## Status and `FilledBase` of one order -/

/-- After a fill and `updateOrderStatus` an order satisfies the invariants of its status. -/
theorem ConsOrder.apply {o : Order} {f : Int} (h0 : 0 ≤ o.FilledBase) (hf : 0 < f)
    (hle : f ≤ o.RemainingBase) :
    ConsOrder (updateOrderStatus { o with FilledBase := o.FilledBase + f }) := by
  have hrem : ({ o with FilledBase := o.FilledBase + f } : Order).RemainingBase
      = o.RemainingBase - f := by
    unfold Order.RemainingBase
    split <;> simp only [] <;> ring
  have htot : ({ o with FilledBase := o.FilledBase + f } : Order).totalBase = o.totalBase := rfl
  have hfl : ({ o with FilledBase := o.FilledBase + f } : Order).FilledBase
      = o.FilledBase + f := rfl
  have hr2 := remaining_eq o
  unfold ConsOrder
  rw [updateOrderStatus_rem, updateOrderStatus_filled, hrem, hfl]
  have hT : (updateOrderStatus { o with FilledBase := o.FilledBase + f }).totalBase
      = o.totalBase := by
    rw [frozen_totalBase (frozen_updateOrderStatus _)]; rfl
  rw [hT]
  unfold updateOrderStatus
  rw [hrem, hfl]
  split
  · rename_i hc
    refine ⟨by omega, ?_, ?_⟩
    · simp only [true_iff]; omega
    · intro hst
      have h2 : OrderStatusFilled = OrderStatusPartiallyFilled := hst
      exact absurd h2 (by decide)
  · rename_i hc
    rw [if_pos (by omega)]
    refine ⟨by omega, ?_, ?_⟩
    · constructor
      · intro hst
        have h2 : OrderStatusPartiallyFilled = OrderStatusFilled := hst
        exact absurd h2 (by decide)
      · intro h; omega
    · intro _; omega

theorem FillFacts.fill_cons {ob ob1 : OrderBook} {p maker : Nat} {buy : Bool} {m : MatchResult}
    (hf : FillFacts ob buy p ob1 m maker) (hpm : p ≠ maker) (a : Nat)
    (h : ConsOrder (ob.orders a)) : ConsOrder (ob1.orders a) := by
  rw [hf.orders]
  by_cases h1 : a = p
  · subst h1
    rw [applyFill_taker hpm]
    exact ConsOrder.apply h.1 hf.fill_pos hf.fill_le.1
  · by_cases h2 : a = maker
    · subst h2
      rw [applyFill_maker hpm]
      exact ConsOrder.apply h.1 hf.fill_pos hf.fill_le.2
    · rw [applyFill_other h1 h2]
      exact h

theorem MatchRun.run_cons {buy : Bool} {p N : Nat} {price : F64} {ob ob1 : OrderBook}
    {tr : List (OrderBook × MatchResult)} (hrun : MatchRun (sideStep buy p price) ob tr ob1)
    (hp : N ≤ p) (a : Nat) : BookInv ob N → ConsOrder (ob.orders a) → ConsOrder (ob1.orders a) := by
  induction hrun with
  | exit _ => exact fun _ h => h
  | @fill s s1 s2 m tr hst _ ih =>
    intro h hc
    obtain ⟨maker, hf⟩ := sideStep_facts hst
    have hlt := hf.maker_lt h
    exact ih (h.fill hp hf) (hf.fill_cons (by omega) a hc)

theorem AddOrder_cons {ob ob2 : OrderBook} {N p : Nat} {ms : List MatchResult}
    (h : BookInv ob N) (hp : N ≤ p) (ha : AddOrder ob p = some (ob2, ms)) (a : Nat)
    (hc : ConsOrder (ob.orders a)) : ConsOrder (ob2.orders a) := by
  obtain ⟨price, ob1, tr, -, hrun, -, hrest⟩ := AddOrder_inv ha
  rw [restOrder_orders hrest]
  exact hrun.run_cons hp a h hc

theorem CancelOrder_cons {ob ob1 : OrderBook} {N : Nat} {id : String} {r : Option Nat}
    (h : BookInv ob N) (hcn : CancelOrder ob id = some (ob1, r)) (a : Nat)
    (hc : ConsOrder (ob.orders a)) : ConsOrder (ob1.orders a) := by
  obtain ⟨-, -, hcase⟩ := CancelOrder_orders hcn a
  rcases hcase with heq | ⟨entry, hg, ha, heq⟩
  · rw [heq]; exact hc
  · rw [heq]
    have hlive := h.live entry (h.mapIn _ (mapGet_mem hg))
    rw [← ha] at hlive
    refine ⟨hc.1, ?_, ?_⟩
    · constructor
      · intro hst
        have h2 : OrderStatusCancelled = OrderStatusFilled := hst
        exact absurd h2 (by decide)
      · intro hrem
        have : ({ ob.orders a with Status := OrderStatusCancelled } : Order).RemainingBase
            = (ob.orders a).RemainingBase := rfl
        rw [this] at hrem
        omega
    · intro hst
      have h2 : OrderStatusCancelled = OrderStatusPartiallyFilled := hst
      exact absurd h2 (by decide)

theorem World.step_cons {u v : World} {c : Call} (hinv : BookInv u.ob u.next) (a : Nat)
    (ha : a < u.next) (hc : ConsOrder (u.ob.orders a)) (hs : u.step c = some v) :
    ConsOrder (v.ob.orders a) := by
  cases c with
  | add o =>
    obtain ⟨ms, hadd, -, -⟩ := World.step_add_inv hs
    refine AddOrder_cons (hinv.alloc o) (le_refl _) hadd a ?_
    simp only []
    rw [Function.update_noteq (by omega)]
    exact hc
  | cancel id =>
    obtain ⟨r, hcn, -, -⟩ := World.step_cancel_inv hs
    exact CancelOrder_cons hinv hcn a hc

theorem World.step_next {u v : World} {c : Call} (hs : u.step c = some v) : u.next ≤ v.next := by
  cases c with
  | add o => obtain ⟨_, _, hn, _⟩ := World.step_add_inv hs; omega
  | cancel id => obtain ⟨_, _, hn, _⟩ := World.step_cancel_inv hs; omega

/-! ## The incoming order after its matching loop -/

theorem BookShrink.fresh {ob s : OrderBook} {p : Nat} (h : BookShrink ob s)
    (hnew : ∀ e ∈ ob.buys ++ ob.sells, (ob.entries e).Order ≠ p) :
    ∀ e ∈ s.buys ++ s.sells, (s.entries e).Order ≠ p := by
  intro e he
  rw [h.order]
  apply hnew
  rcases List.mem_append.mp he with h1 | h1
  · exact List.mem_append_left _ (h.buys.subset h1)
  · exact List.mem_append_right _ (h.sells.subset h1)

theorem FillFacts.maker_ne {ob ob1 : OrderBook} {p maker : Nat} {buy : Bool} {m : MatchResult}
    (hf : FillFacts ob buy p ob1 m maker)
    (hnew : ∀ e ∈ ob.buys ++ ob.sells, (ob.entries e).Order ≠ p) : p ≠ maker := by
  obtain ⟨top, rest, htop, hmk⟩ := hf.top
  have : top ∈ ob.buys ++ ob.sells :=
    (mem_resting ob buy top).mpr (Or.inr (by rw [htop]; exact List.mem_cons_self _ _))
  have := hnew top this
  rw [hmk] at this
  exact fun h => this h.symm

/-- The incoming order after the loop: untouched when nothing was matched, otherwise
filled by a positive amount and `PartiallyFilled` if something remains. -/
theorem MatchRun.taker {buy : Bool} {p : Nat} {price : F64} {ob ob1 : OrderBook}
    {tr : List (OrderBook × MatchResult)} (hrun : MatchRun (sideStep buy p price) ob tr ob1) :
    (∀ e ∈ ob.buys ++ ob.sells, (ob.entries e).Order ≠ p) → 0 ≤ (ob.orders p).FilledBase →
    (tr = [] → ob1 = ob) ∧
    (tr ≠ [] → 0 < (ob1.orders p).FilledBase ∧
      (0 < (ob1.orders p).RemainingBase →
        (ob1.orders p).Status = OrderStatusPartiallyFilled)) := by
  induction hrun with
  | exit _ => exact fun _ _ => ⟨fun _ => rfl, fun h => absurd rfl h⟩
  | @fill s s1 s2 m tr hst hrest ih =>
    intro hnew h0
    obtain ⟨maker, hf⟩ := sideStep_facts hst
    have hpm := hf.maker_ne hnew
    have h1 : (s1.orders p).FilledBase = (s.orders p).FilledBase + m.FillAmount := by
      rw [hf.filled hpm p, hf.fillOf_eq]; simp
    have hpos := hf.fill_pos
    have hst1 : 0 < (s1.orders p).RemainingBase →
        (s1.orders p).Status = OrderStatusPartiallyFilled := by
      rw [hf.orders, applyFill_taker hpm, updateOrderStatus_rem]
      intro hrem
      unfold updateOrderStatus
      rw [if_neg (by omega), if_pos (by simp only []; omega)]
    obtain ⟨i1, i2⟩ := ih (hf.fill_shrink.fresh hnew) (by omega)
    refine ⟨fun h => by simp at h, fun _ => ?_⟩
    by_cases ht : tr = []
    · rw [i1 ht]
      exact ⟨by omega, hst1⟩
    · exact i2 ht

/-! ## Price-time priority of the matches of one call -/

theorem BookShrink.opp {ob s : OrderBook} (h : BookShrink ob s) (buy : Bool) :
    ∀ e ∈ s.opp buy, e ∈ ob.opp buy := by
  intro e he
  cases buy
  · exact h.buys.subset he
  · exact h.sells.subset he

/-- The root of the heap the incoming order is matched against has the least key. -/
theorem BookInv.book_root_le {s : OrderBook} {N top : Nat} {rest : List Nat} (h : BookInv s N)
    (buy : Bool) (htop : s.opp buy = top :: rest) :
    ∀ e ∈ s.opp buy, entryKey (!buy) s.orders s.entries top ≤
      entryKey (!buy) s.orders s.entries e := by
  intro e he
  obtain ⟨j, hj, hje⟩ := List.getElem_of_mem he
  have ho := (h.oppInv buy).ordered
  simp only [] at ho
  have hle := ho.heap_root_le j hj
  have h0 : (s.opp buy)[0]? = some top := by rw [htop]; simp
  have h1 : (s.opp buy)[j]? = some e := by rw [List.getElem?_eq_getElem hj, hje]
  rw [kAt_of_getElem? _ h0, kAt_of_getElem? _ h1] at hle
  exact hle

theorem FillFacts.maker_eq {ob ob1 : OrderBook} {p maker : Nat} {buy : Bool} {m : MatchResult}
    (hf : FillFacts ob buy p ob1 m maker) : m.maker buy = maker := by
  unfold MatchResult.maker
  cases buy
  · have := hf.buyRef; simpa using this
  · have := hf.sellRef; simpa using this

theorem heapKey_le_iff (isBuy : Bool) {a b : Order} {pa pb : F64} (ha : a.Price = some pa)
    (hb : b.Price = some pb) : heapKey isBuy a ≤ heapKey isBuy b ↔ PriceTimeLE isBuy a b := by
  unfold heapKey PriceTimeLE
  rw [priceD_of_some ha, priceD_of_some hb, Prod.Lex.le_iff]
  simp only [ofLex_toLex, ha, hb, Option.some.injEq, exists_and_left, exists_eq_left']
  cases isBuy
  · simp
  · simp only [if_true, neg_lt_neg_iff, neg_inj]

/-- The makers of a matching loop are entries of the heap it started on, come in the
order of the heap, best first, and are no worse than what the loop leaves in the heap. -/
theorem MatchRun.priority {buy : Bool} {p N : Nat} {price : F64} {ob ob1 : OrderBook}
    {tr : List (OrderBook × MatchResult)} (hrun : MatchRun (sideStep buy p price) ob tr ob1)
    (hp : N ≤ p) : BookInv ob N →
    (∀ sm ∈ tr, ∃ e ∈ ob.opp buy, (ob.entries e).Order = sm.2.maker buy) ∧
    tr.Pairwise (fun a b => heapKey (!buy) (ob.orders (a.2.maker buy)) ≤
      heapKey (!buy) (ob.orders (b.2.maker buy))) ∧
    ∀ e ∈ ob1.opp buy, ∀ sm ∈ tr, heapKey (!buy) (ob.orders (sm.2.maker buy)) ≤
      heapKey (!buy) (ob.orders (ob.entries e).Order) := by
  induction hrun with
  | exit _ => exact fun _ => ⟨by simp, List.Pairwise.nil, by simp⟩
  | @fill s s1 s2 m tr hst hrest ih =>
    intro hinv
    obtain ⟨maker, hf⟩ := sideStep_facts hst
    obtain ⟨i1, i2, i3⟩ := ih (hinv.fill hp hf)
    have hsh := hf.fill_shrink
    have hsh2 := (MatchRun.facts hrest).1
    obtain ⟨top, rest, htop, hmk⟩ := hf.top
    have hroot := hinv.book_root_le buy htop
    simp only [entryKey, hmk] at hroot
    have hmaker := hf.maker_eq
    have hkey : ∀ a, heapKey (!buy) (s1.orders a) = heapKey (!buy) (s.orders a) :=
      fun a => heapKey_frozen (hsh.frozen a)
    have j1 : ∀ sm ∈ tr, ∃ e ∈ s.opp buy, (s.entries e).Order = sm.2.maker buy := by
      intro sm hsm
      obtain ⟨e, he, ho⟩ := i1 sm hsm
      exact ⟨e, hsh.opp buy e he, by rw [← hsh.order e]; exact ho⟩
    refine ⟨?_, ?_, ?_⟩
    · intro sm hsm
      rcases List.mem_cons.mp hsm with rfl | hsm
      · exact ⟨top, by rw [htop]; exact List.mem_cons_self _ _, by rw [hmk, hmaker]⟩
      · exact j1 sm hsm
    · refine List.Pairwise.cons ?_ ?_
      · intro sm hsm
        obtain ⟨e, he, ho⟩ := j1 sm hsm
        simp only [hmaker]
        rw [← ho]
        exact hroot e he
      · refine i2.imp ?_
        intro a b hab
        rw [hkey, hkey] at hab
        exact hab
    · intro e he sm hsm
      rcases List.mem_cons.mp hsm with rfl | hsm
      · simp only [hmaker]
        exact hroot e (hsh.opp buy e (hsh2.opp buy e he))
      · have := i3 e he sm hsm
        rw [hkey, hkey, hsh.order] at this
        exact this

theorem restOrder_opp {ob ob2 : OrderBook} {p : Nat} (h : restOrder ob p = some ob2) :
    ob2.opp (decide ((ob.orders p).Side = SideBuy)) =
      ob.opp (decide ((ob.orders p).Side = SideBuy)) := by
  rcases restOrder_inv h with ⟨-, rfl⟩ | ⟨-, hm, -, -, -, -, hopp, -⟩
  · rfl
  · exact hopp

/-- Price-time priority of one `AddOrder` on a book that satisfies the invariant. -/
theorem AddOrder_priority {ob ob2 : OrderBook} {N p : Nat} {ms : List MatchResult}
    (h : BookInv ob N) (hp : N ≤ p) (ha : AddOrder ob p = some (ob2, ms)) :
    (∀ m ∈ ms, ∃ e ∈ ob.opp (decide ((ob.orders p).Side = SideBuy)),
      (ob.entries e).Order = m.maker (decide ((ob.orders p).Side = SideBuy))) ∧
    ms.Pairwise (fun a b => PriceTimeLE (!decide ((ob.orders p).Side = SideBuy))
      (ob2.orders (a.maker (decide ((ob.orders p).Side = SideBuy))))
      (ob2.orders (b.maker (decide ((ob.orders p).Side = SideBuy))))) ∧
    ∀ e ∈ ob2.opp (decide ((ob.orders p).Side = SideBuy)), ∀ m ∈ ms,
      PriceTimeLE (!decide ((ob.orders p).Side = SideBuy))
        (ob2.orders (m.maker (decide ((ob.orders p).Side = SideBuy))))
        (ob2.orders (ob2.entries e).Order) := by
  obtain ⟨price, s, tr, -, hrun, hms, hrest⟩ := AddOrder_inv ha
  generalize hb : decide ((ob.orders p).Side = SideBuy) = buy at hrun ⊢
  obtain ⟨q1, q2, q3⟩ := hrun.priority hp h
  have hsh := (MatchRun.facts hrun).1
  have ho2 := restOrder_orders hrest
  have hside : (s.orders p).Side = (ob.orders p).Side := (frozen_fields (hsh.frozen p)).2.1
  have hopp : ob2.opp buy = s.opp buy := by
    have := restOrder_opp hrest
    rw [hside, hb] at this
    exact this
  have hent : ∀ e ∈ s.opp buy, (ob2.entries e).Order = (ob.entries e).Order := by
    intro e he
    rw [(restOrder_keeps hrest).2.2.2 e ((mem_resting s buy e).mpr (Or.inr he)), hsh.order]
  have hk : ∀ (b : Bool) (a : Nat), heapKey b (ob2.orders a) = heapKey b (ob.orders a) := by
    intro b a
    rw [ho2]
    exact heapKey_frozen (hsh.frozen a)
  have hpriced : ∀ e ∈ ob.opp buy, ∃ q, (ob2.orders (ob.entries e).Order).Price = some q := by
    intro e he
    obtain ⟨q, hq⟩ := (h.oppInv buy).priced e he
    refine ⟨q, ?_⟩
    rw [ho2, frozen_price (hsh.frozen _)]
    exact hq
  have hmk : ∀ sm ∈ tr, ∃ q, (ob2.orders (sm.2.maker buy)).Price = some q := by
    intro sm hsm
    obtain ⟨e, he, heq⟩ := q1 sm hsm
    rw [← heq]
    exact hpriced e he
  subst hms
  refine ⟨?_, ?_, ?_⟩
  · intro m hm
    obtain ⟨sm, hsm, rfl⟩ := List.mem_map.mp hm
    exact q1 sm hsm
  · rw [List.pairwise_map]
    refine q2.imp_of_mem ?_
    intro a b hma hmb hab
    obtain ⟨qa, hqa⟩ := hmk a hma
    obtain ⟨qb, hqb⟩ := hmk b hmb
    rw [← heapKey_le_iff _ hqa hqb, hk, hk]
    exact hab
  · intro e he m hm
    obtain ⟨sm, hsm, rfl⟩ := List.mem_map.mp hm
    rw [hopp] at he
    obtain ⟨qa, hqa⟩ := hmk sm hsm
    have he0 := hsh.opp buy e he
    rw [hent e he]
    obtain ⟨qb, hqb⟩ := hpriced e he0
    rw [← heapKey_le_iff _ hqa hqb, hk, hk]
    apply q3 e he sm hsm

/-! ## `CancelOrder` on a book that satisfies the invariant -/

theorem mapGet_mapDelete (m : List (String × Nat)) (k k1 : String) :
    mapGet (mapDelete m k) k1 = if k1 = k then none else mapGet m k1 := by
  unfold mapGet mapDelete
  induction m with
  | nil => simp
  | cons kv m ih =>
    obtain ⟨a, v⟩ := kv
    by_cases hak : a = k
    · subst hak
      rw [List.filter_cons_of_neg (by simp), ih]
      by_cases h1 : k1 = a
      · simp [h1]
      · have : (k1 == a) = false := by simpa using h1
        simp only [List.lookup_cons, this, if_neg h1]
    · rw [List.filter_cons_of_pos (by simpa using hak), List.lookup_cons, List.lookup_cons, ih]
      by_cases h1 : k1 = a
      · subst h1
        simp [hak]
      · have : (k1 == a) = false := by simpa using h1
        rw [this]

theorem heapRemove_total {less : HeapMem → Nat → Nat → Option Bool} {hm : HeapMem} {j : Nat}
    (ht : LessTotal less hm) (hj : j < hm.h.length) :
    ∃ r, heapRemove less hm (j : Int) = some r := by
  unfold heapRemove
  simp only []
  split
  · rename_i hne
    rw [if_neg (by omega)]
    have hn : ((hm.h.length : Int) - 1).toNat = hm.h.length - 1 := by omega
    simp only [Int.toNat_ofNat, hn]
    obtain ⟨hm1, hsw⟩ := @Swap_some hm j (hm.h.length - 1) hj (by omega)
    rw [hsw]
    have hk := Swap_keep (n := hm.h.length) hsw hj (by omega)
    have ht1 := hk.keep_same.total ht
    obtain ⟨⟨hm2, b⟩, hd⟩ := heapDown_total (i := j) (n := hm.h.length - 1) ht1
      (by rw [hk.length]; omega) (by omega)
    simp only [hd]
    unfold heapDown at hd
    split at hd
    · simp at hd
    · rename_i hm3 k hdl
      simp only [Option.some.injEq, Prod.mk.injEq] at hd
      obtain ⟨rfl, -⟩ := hd
      have hk2 := (heapDownLoop_run _ _ _ _ _ hdl).down_keep
      have hlen : hm3.h.length = hm.h.length := by rw [hk2.length, hk.length]
      cases b
      · simp only []
        obtain ⟨hm4, hu⟩ := heapUp_total (j + 1) hm3 j (hk2.keep_same.total ht1)
          (by rw [hlen]; exact hj) (by omega)
        rw [hu]
        have hk3 := (heapUp_run _ _ _ _ hu).up_keep
        exact Pop_some (by rw [hk3.length, hlen]; omega)
      · simp only []
        exact Pop_some (by rw [hlen]; omega)
  · exact Pop_some (by omega)

/-- The entry the map holds for an id rests in the heap of the side of its order, and
the order carries this id. -/
theorem BookInv.map_hit {ob : OrderBook} {N : Nat} (h : BookInv ob N) {id : String} {entry : Nat}
    (hg : mapGet ob.orderMap id = some entry) :
    entry ∈ ob.own (decide ((ob.orders (ob.entries entry).Order).Side = SideBuy)) ∧
      (ob.orders (ob.entries entry).Order).ID = id := by
  have hmem := mapGet_mem hg
  have hin := h.mapIn _ hmem
  have hkey := h.mapKey _ hmem
  simp only [] at hin hkey
  refine ⟨?_, hkey.symm⟩
  generalize hb : decide ((ob.orders (ob.entries entry).Order).Side = SideBuy) = buy
  rcases (mem_resting ob buy entry).mp hin with h1 | h1
  · exact h1
  · exfalso
    have := (h.oppInv buy).side entry h1
    simp only [] at this
    rw [← hb] at this
    simp at this

/-- `CancelOrder` returns on every book that satisfies the invariant. -/
theorem CancelOrder_total {ob : OrderBook} {N : Nat} (h : BookInv ob N) (id : String) :
    ∃ r, CancelOrder ob id = some r := by
  unfold CancelOrder
  split
  · exact ⟨_, rfl⟩
  · rename_i entry hg
    obtain ⟨hown, -⟩ := h.map_hit hg
    simp only []
    generalize hb : decide ((ob.orders (ob.entries entry).Order).Side = SideBuy) = buy at hown
    obtain ⟨i, hi⟩ := List.getElem?_of_mem hown
    have hidx := (h.ownInv buy).idx i entry hi
    simp only [] at hidx
    have hlt : i < (ob.own buy).length := by
      by_contra hc
      rw [List.getElem?_eq_none (by omega)] at hi
      simp at hi
    have hpr : PricedHeap (Function.update ob.orders (ob.entries entry).Order
        { ob.orders (ob.entries entry).Order with Status := OrderStatusCancelled })
        ⟨ob.entries, ob.own buy⟩ := by
      intro e he
      obtain ⟨q, hq⟩ := (h.ownInv buy).priced e he
      refine ⟨q, ?_⟩
      simp only [] at hq ⊢
      by_cases ha : (ob.entries e).Order = (ob.entries entry).Order
      · rw [ha, Function.update_same]
        rw [ha] at hq
        exact hq
      · rw [Function.update_noteq ha]
        exact hq
    obtain ⟨r, hr⟩ := @heapRemove_total (ownLess buy _) _ i (ownLess_total hpr) hlt
    rw [← hidx] at hr
    cases buy
    · have hs : ¬ (ob.orders (ob.entries entry).Order).Side = SideBuy := by simpa using hb
      simp only [Function.update_same, hs, if_false]
      simp only [ownLess, OrderBook.own, Bool.false_eq_true, if_false] at hr
      simp only [OrderBook.sellHeap]
      rw [hr]
      exact ⟨_, rfl⟩
    · have hs : (ob.orders (ob.entries entry).Order).Side = SideBuy := by simpa using hb
      simp only [ownLess, OrderBook.own, if_true] at hr
      split
      · simp only [OrderBook.buyHeap]
        rw [hr]
        exact ⟨_, rfl⟩
      · rename_i hc
        exact absurd hs (by simpa using hc)

/-- What a cancellation that hits does, on a book that satisfies the invariant: it
returns the order of the entry the map holds, marks that order `Cancelled`, deletes the
id from the map and takes the entry, and nothing else, out of the heap of its side. -/
theorem CancelOrder_hit {ob : OrderBook} {N : Nat} (h : BookInv ob N) {id : String} {entry : Nat}
    (hg : mapGet ob.orderMap id = some entry) :
    ∃ ob1, CancelOrder ob id = some (ob1, some (ob.entries entry).Order) ∧
      ob1.orders = Function.update ob.orders (ob.entries entry).Order
        { ob.orders (ob.entries entry).Order with Status := OrderStatusCancelled } ∧
      ob1.orderMap = mapDelete ob.orderMap id ∧
      (∀ x, (ob1.entries x).Order = (ob.entries x).Order) ∧
      (entry :: ob1.own (decide ((ob.orders (ob.entries entry).Order).Side = SideBuy))).Perm
        (ob.own (decide ((ob.orders (ob.entries entry).Order).Side = SideBuy))) ∧
      ob1.opp (decide ((ob.orders (ob.entries entry).Order).Side = SideBuy)) =
        ob.opp (decide ((ob.orders (ob.entries entry).Order).Side = SideBuy)) ∧
      ∀ x ∈ ob1.buys ++ ob1.sells, (ob1.entries x).Order ≠ (ob.entries entry).Order := by
  obtain ⟨⟨ob1, r⟩, hc⟩ := CancelOrder_total h id
  rcases CancelOrder_inv hc with ⟨hn, -, -⟩ | ⟨entry1, hm, e, hg1, hrem, ho, he, hown, hopp, hmap, hr⟩
  · rw [hn] at hg; simp at hg
  · rw [hg] at hg1
    simp only [Option.some.injEq] at hg1
    subst hg1
    obtain ⟨hee, hent, -⟩ := h.cancel_hit hg hrem
    subst hee
    obtain ⟨-, -, hperm, hord⟩ := heapRemove_inv hrem
    have hordE : ∀ x, (ob1.entries x).Order = (ob.entries x).Order := by
      intro x; rw [he]; exact hord x
    subst hr
    refine ⟨ob1, hc, ho, hmap, hordE, by rw [hown]; exact hperm, hopp, ?_⟩
    generalize hb : decide ((ob.orders (ob.entries e).Order).Side = SideBuy) = buy
      at hown hopp hent hperm
    intro x hx
    rw [hordE]
    have hnod := hperm.symm.nodup (h.ownInv buy).nodup
    rcases (mem_resting ob1 buy x).mp hx with h1 | h1
    · rw [hown] at h1
      have hne : x ≠ e := fun heq => (List.nodup_cons.mp hnod).1 (heq ▸ h1)
      have hx0 : x ∈ ob.own buy := hperm.subset (List.mem_cons_of_mem _ h1)
      exact fun heq => hne ((h.ownInv buy).inj x hx0 e hent heq)
    · rw [hopp] at h1
      exact fun heq => h.cross buy e hent x h1 heq.symm

/-- A miss leaves the book as it is. -/
theorem CancelOrder_miss {ob : OrderBook} {id : String} (hg : mapGet ob.orderMap id = none) :
    CancelOrder ob id = some (ob, none) := by
  unfold CancelOrder
  rw [hg]

/-- In a book that satisfies the invariant the map holds an id exactly when an order
with this id rests. -/
theorem BookInv.resting_iff {ob : OrderBook} {N : Nat} (h : BookInv ob N) (id : String) :
    (∃ a, Resting ob a ∧ (ob.orders a).ID = id) ↔ mapGet ob.orderMap id ≠ none := by
  constructor
  · rintro ⟨a, ⟨e, hg, -, -⟩, hid⟩
    rw [← hid, hg]
    simp
  · intro hne
    cases hg : mapGet ob.orderMap id with
    | none => exact absurd hg hne
    | some entry =>
      obtain ⟨hown, hid⟩ := h.map_hit hg
      exact ⟨(ob.entries entry).Order, ⟨entry, by rw [hid]; exact hg, rfl, hown⟩, hid⟩

/-! ## With distinct ids every resting entry is in the by-id map -/

theorem mapGet_mapSet (m : List (String × Nat)) (k k1 : String) (v : Nat) :
    mapGet (mapSet m k v) k1 = if k1 = k then some v else mapGet m k1 := by
  have h := mapGet_mapDelete m k k1
  unfold mapGet at h ⊢
  unfold mapSet
  rw [List.lookup_cons]
  by_cases h1 : k1 = k
  · simp [h1]
  · have : (k1 == k) = false := by simpa using h1
    rw [this, if_neg h1, h, if_neg h1]

theorem FillFacts.fill_heapInMap {ob ob1 : OrderBook} {N p maker : Nat} {buy : Bool} {m : MatchResult}
    (hf : FillFacts ob buy p ob1 m maker) (h : BookInv ob N) (hp : N ≤ p) (hm : HeapInMap ob) :
    HeapInMap ob1 := by
  have hinv1 := h.fill hp hf
  have hsh := hf.fill_shrink
  obtain ⟨top, rest, htop, hmk⟩ := hf.top
  have htopm : top ∈ ob.buys ++ ob.sells :=
    (mem_resting ob buy top).mpr (Or.inr (by rw [htop]; exact List.mem_cons_self _ _))
  intro e he
  have he0 : e ∈ ob.buys ++ ob.sells := by
    rcases List.mem_append.mp he with h1 | h1
    · exact List.mem_append_left _ (hsh.buys.subset h1)
    · exact List.mem_append_right _ (hsh.sells.subset h1)
  have hid : ∀ a, (ob1.orders a).ID = (ob.orders a).ID := fun a =>
    (frozen_fields (hsh.frozen a)).1
  rw [hsh.order, hid, hf.map]
  split
  · rename_i hst
    rw [mapGet_mapDelete, if_neg]
    · exact hm e he0
    · intro heq
      rw [hid, ← hmk] at heq
      have h1 := hm e he0
      rw [heq, hm top htopm] at h1
      simp only [Option.some.injEq] at h1
      have h2 := (hinv1.live e he).2
      rw [hsh.order, ← h1, hmk] at h2
      exact h2 hst
  · exact hm e he0

theorem MatchRun.loop_heapInMap {buy : Bool} {p N : Nat} {price : F64} {ob ob1 : OrderBook}
    {tr : List (OrderBook × MatchResult)} (hrun : MatchRun (sideStep buy p price) ob tr ob1)
    (hp : N ≤ p) : BookInv ob N → HeapInMap ob → HeapInMap ob1 := by
  induction hrun with
  | exit _ => exact fun _ h => h
  | @fill s s1 s2 m tr hst _ ih =>
    intro h hm
    obtain ⟨maker, hf⟩ := sideStep_facts hst
    exact ih (h.fill hp hf) (hf.fill_heapInMap h hp hm)

/-- The entries of a book after `restOrder`: those before, and the new one, which
points to the order, if the order rests. -/
theorem restOrder_entries {ob ob2 : OrderBook} {p : Nat} (hr : restOrder ob p = some ob2) :
    ob2.orders = ob.orders ∧
    ((ob2 = ob) ∨
     ((∀ e, e ∈ ob2.buys ++ ob2.sells ↔ e = ob.newEntry ∨ e ∈ ob.buys ++ ob.sells) ∧
      (∀ e, e ≠ ob.newEntry → (ob2.entries e).Order = (ob.entries e).Order) ∧
      (ob2.entries ob.newEntry).Order = p ∧ ob.newEntry ∉ ob.buys ++ ob.sells ∧
      ob2.orderMap = mapSet ob.orderMap (ob.orders p).ID ob.newEntry)) := by
  refine ⟨restOrder_orders hr, ?_⟩
  rcases restOrder_inv hr with ⟨-, rfl⟩ | ⟨hc, hm, hpush, ho, he, hown, hopp, hmap⟩
  · exact Or.inl rfl
  · right
    have hfresh := newEntry_fresh ob
    have hxr : ob.newEntry ∉ ob.buys ++ ob.sells := by
      intro hx
      rcases List.mem_append.mp hx with h1 | h1
      · exact hfresh.1 h1
      · exact hfresh.2.1 h1
    generalize hb : decide ((ob.orders p).Side = SideBuy) = buy at hpush hown hopp
    obtain ⟨hperm, hord, -⟩ := heapPush_inv hpush
    refine ⟨?_, ?_, ?_, hxr, hmap⟩
    · intro e
      rw [mem_resting ob2 buy, mem_resting ob buy, hown, hopp, hperm.mem_iff, List.mem_cons]
      tauto
    · intro e hne
      rw [he, hord]
      simp only [Function.update_noteq hne]
    · rw [he, hord]; simp

theorem AddOrder_heapInMap {ob ob2 : OrderBook} {N p : Nat} {ms : List MatchResult}
    (h : BookInv ob N) (hp : N ≤ p) (hm : HeapInMap ob)
    (hid : ∀ e ∈ ob.buys ++ ob.sells, (ob.orders (ob.entries e).Order).ID ≠ (ob.orders p).ID)
    (ha : AddOrder ob p = some (ob2, ms)) :
    HeapInMap ob2 ∧ ∀ e ∈ ob2.buys ++ ob2.sells,
      (ob2.orders (ob2.entries e).Order).ID = (ob.orders p).ID ∨
      ∃ e0 ∈ ob.buys ++ ob.sells,
        (ob2.orders (ob2.entries e).Order).ID = (ob.orders (ob.entries e0).Order).ID := by
  obtain ⟨price, s, tr, -, hrun, -, hrest⟩ := AddOrder_inv ha
  have hms := hrun.loop_heapInMap hp h hm
  have hsh := (MatchRun.facts hrun).1
  have hidS : ∀ a, (s.orders a).ID = (ob.orders a).ID := fun a => (frozen_fields (hsh.frozen a)).1
  have hsub : ∀ e, e ∈ s.buys ++ s.sells → e ∈ ob.buys ++ ob.sells := by
    intro e he
    rcases List.mem_append.mp he with h1 | h1
    · exact List.mem_append_left _ (hsh.buys.subset h1)
    · exact List.mem_append_right _ (hsh.sells.subset h1)
  obtain ⟨ho, hcase⟩ := restOrder_entries hrest
  rcases hcase with rfl | ⟨hmem, hold, hnew, hfresh, hmap⟩
  · refine ⟨hms, fun e he => Or.inr ⟨e, hsub e he, ?_⟩⟩
    rw [hidS, hsh.order]
  · constructor
    · intro e he
      rw [ho, hmap, mapGet_mapSet]
      rcases (hmem e).mp he with rfl | he0
      · rw [hnew, if_pos rfl]
      · have hne : e ≠ s.newEntry := fun heq => hfresh (heq ▸ he0)
        rw [hold e hne, if_neg]
        · exact hms e he0
        · rw [hidS, hidS, hsh.order]
          exact hid e (hsub e he0)
    · intro e he
      rw [ho]
      rcases (hmem e).mp he with rfl | he0
      · left; rw [hnew, hidS]
      · right
        have hne : e ≠ s.newEntry := fun heq => hfresh (heq ▸ he0)
        exact ⟨e, hsub e he0, by rw [hold e hne, hidS, hsh.order]⟩

theorem CancelOrder_heapInMap {ob ob1 : OrderBook} {N : Nat} {id : String} {r : Option Nat}
    (h : BookInv ob N) (hm : HeapInMap ob) (hc : CancelOrder ob id = some (ob1, r)) :
    HeapInMap ob1 ∧ ∀ e ∈ ob1.buys ++ ob1.sells, e ∈ ob.buys ++ ob.sells ∧
      (ob1.orders (ob1.entries e).Order).ID = (ob.orders (ob.entries e).Order).ID := by
  cases hg : mapGet ob.orderMap id with
  | none =>
    rw [CancelOrder_miss hg] at hc
    simp only [Option.some.injEq, Prod.mk.injEq] at hc
    obtain ⟨rfl, -⟩ := hc
    exact ⟨hm, fun e he => ⟨he, rfl⟩⟩
  | some entry =>
    obtain ⟨ob2, hc2, ho, hmap, hord, hperm, hopp, hnone⟩ := CancelOrder_hit h hg
    rw [hc2] at hc
    simp only [Option.some.injEq, Prod.mk.injEq] at hc
    obtain ⟨rfl, -⟩ := hc
    obtain ⟨-, hidE⟩ := h.map_hit hg
    have hsub : ∀ e, e ∈ ob2.buys ++ ob2.sells → e ∈ ob.buys ++ ob.sells := by
      intro e he
      rw [mem_resting _ (decide ((ob.orders (ob.entries entry).Order).Side = SideBuy))] at he ⊢
      rcases he with h1 | h1
      · exact Or.inl (hperm.subset (List.mem_cons_of_mem _ h1))
      · exact Or.inr (hopp ▸ h1)
    have hsame : ∀ e ∈ ob2.buys ++ ob2.sells,
        ob2.orders (ob2.entries e).Order = ob.orders (ob.entries e).Order := by
      intro e he
      have hne := hnone e he
      rw [ho, Function.update_noteq hne, hord]
    refine ⟨?_, fun e he => ⟨hsub e he, by rw [hsame e he]⟩⟩
    intro e he
    rw [hsame e he, hmap, mapGet_mapDelete, if_neg]
    · exact hm e (hsub e he)
    · intro heq
      have h1 := hm e (hsub e he)
      rw [heq, hg] at h1
      simp only [Option.some.injEq] at h1
      have hne := hnone e he
      rw [hord, ← h1] at hne
      exact hne rfl

/-- Along calls that add orders with distinct ids, none of which is the id of an order
that rests at the start, every resting entry stays in the by-id map. -/
theorem World.run_heapInMap : ∀ (cs : List Call) (w w1 : World), BookInv w.ob w.next →
    HeapInMap w.ob → (addIds cs).Nodup →
    (∀ e ∈ w.ob.buys ++ w.ob.sells, (w.ob.orders (w.ob.entries e).Order).ID ∉ addIds cs) →
    w.run cs = some w1 → HeapInMap w1.ob := by
  intro cs
  induction cs with
  | nil =>
    intro w w1 _ hm _ _ hr
    simp only [World.run, Option.some.injEq] at hr
    subst hr; exact hm
  | cons c cs ih =>
    intro w w1 hinv hm hnd hout hr
    simp only [World.run] at hr
    split at hr
    · simp at hr
    · rename_i u hstep
      have hinvu := World.step_inv hinv hstep
      cases c with
      | add o =>
        obtain ⟨ms, hadd, -, -⟩ := World.step_add_inv hstep
        simp only [addIds, List.nodup_cons] at hnd
        have hold : ∀ e ∈ w.ob.buys ++ w.ob.sells,
            Function.update w.ob.orders w.next o (w.ob.entries e).Order =
              w.ob.orders (w.ob.entries e).Order := by
          intro e he
          have := hinv.bound e he
          rw [Function.update_noteq (by omega)]
        obtain ⟨hmu, hids⟩ := AddOrder_heapInMap (hinv.alloc o) (le_refl _)
          (fun e he => by simp only []; rw [hold e he]; exact hm e he)
          (fun e he => by
            simp only [Function.update_same]
            rw [hold e he]
            intro heq
            exact hout e he (by rw [heq]; simp [addIds])) hadd
        refine ih u w1 hinvu hmu hnd.2 ?_ hr
        intro e he
        rcases hids e he with h1 | ⟨e0, he0, h1⟩
        · rw [h1]
          simp only [Function.update_same]
          exact hnd.1
        · rw [h1]
          simp only [] at he0 ⊢
          rw [hold e0 he0]
          intro hin
          exact hout e0 he0 (by simp [addIds, hin])
      | cancel id =>
        obtain ⟨r, hcn, -, -⟩ := World.step_cancel_inv hstep
        obtain ⟨hmu, hids⟩ := CancelOrder_heapInMap hinv hm hcn
        refine ih u w1 hinvu hmu (by simpa [addIds] using hnd) ?_ hr
        intro e he
        obtain ⟨he0, hid⟩ := hids e he
        rw [hid]
        have := hout e he0
        simpa [addIds] using this

/-! ## The insertion sort of the snapshot -/

theorem getD_mid (pre : List F64) (y : F64) (post : List F64) :
    (pre ++ y :: post).getD pre.length 0 = y := by
  induction pre with
  | nil => rfl
  | cons a pre ih => simpa using ih

theorem getD_mid_succ (pre : List F64) (y x : F64) (post : List F64) :
    (pre ++ y :: x :: post).getD (pre.length + 1) 0 = x := by
  induction pre with
  | nil => rfl
  | cons a pre ih => simpa using ih

theorem set_mid (pre : List F64) (y x : F64) (post : List F64) :
    ((pre ++ y :: x :: post).set (pre.length + 1) y).set pre.length x =
      pre ++ x :: y :: post := by
  induction pre with
  | nil => rfl
  | cons a pre ih => simp [ih]

/-- The inner loop inserts the element in slot `j` into the sorted slots before it. -/
theorem sortInner_spec (before : F64 → F64 → Bool)
    (htrans : ∀ a b c, before b a = false → before c b = false → before c a = false)
    (hasym : ∀ a b, before a b = true → before b a = false) (pre : List F64) :
    ∀ (x : F64) (post : List F64), ∃ l, sortInner before pre.length (pre ++ x :: post) = l ++ post ∧
      l.Perm (pre ++ [x]) ∧
      (pre.Pairwise (fun a b => before b a = false) → l.Pairwise (fun a b => before b a = false)) := by
  induction pre using List.reverseRecOn with
  | nil =>
    intro x post
    exact ⟨[x], rfl, List.Perm.refl _, fun _ => List.pairwise_singleton _ _⟩
  | append_singleton pre y ih =>
    intro x post
    have hlen : (pre ++ [y]).length = pre.length + 1 := by simp
    have hs : pre ++ [y] ++ x :: post = pre ++ y :: x :: post := by simp
    rw [hlen, hs]
    unfold sortInner
    rw [getD_mid_succ, getD_mid, set_mid]
    split
    · rename_i hb
      obtain ⟨l, hl, hperm, hsorted⟩ := ih x (y :: post)
      refine ⟨l ++ [y], by rw [hl]; simp, ?_, ?_⟩
      · have h1 : (l ++ [y]).Perm (pre ++ [x] ++ [y]) := hperm.append_right [y]
        refine h1.trans ?_
        rw [List.append_assoc, List.append_assoc]
        exact List.Perm.append_left pre (List.Perm.swap y x [])
      · intro hp
        rw [List.pairwise_append] at hp ⊢
        refine ⟨hsorted hp.1, List.pairwise_singleton _ _, ?_⟩
        intro a ha b hb1
        rw [List.mem_singleton] at hb1
        subst hb1
        rcases List.mem_append.mp (hperm.subset ha) with h1 | h1
        · exact hp.2.2 a h1 b (List.mem_singleton_self _)
        · rw [List.mem_singleton] at h1
          subst h1
          exact hasym _ _ hb
    · rename_i hb
      have hb1 : before x y = false := by simpa using hb
      refine ⟨pre ++ [y] ++ [x], by simp, List.Perm.refl _, ?_⟩
      intro hp
      rw [List.pairwise_append]
      refine ⟨hp, List.pairwise_singleton _ _, ?_⟩
      intro a ha b hb2
      rw [List.mem_singleton] at hb2
      subst hb2
      rw [List.pairwise_append] at hp
      rcases List.mem_append.mp ha with h1 | h1
      · exact htrans a y b (hp.2.2 a h1 y (List.mem_singleton_self _)) hb1
      · rw [List.mem_singleton] at h1
        subst h1
        exact hb1

/-- The outer loop returns, with a sorted permutation of the slice. -/
theorem sortOuter_spec (before : F64 → F64 → Bool)
    (htrans : ∀ a b c, before b a = false → before c b = false → before c a = false)
    (hasym : ∀ a b, before a b = true → before b a = false) :
    ∀ (fuel i : Nat) (s : List F64), s.length ≤ fuel + i →
      (s.take i).Pairwise (fun a b => before b a = false) →
      ∃ r, sortOuter before fuel i s = some r ∧ r.Perm s ∧
        r.Pairwise (fun a b => before b a = false) := by
  intro fuel
  induction fuel with
  | zero =>
    intro i s hlen hp
    unfold sortOuter
    rw [if_neg (by omega)]
    rw [List.take_of_length_le (by omega)] at hp
    exact ⟨s, rfl, List.Perm.refl _, hp⟩
  | succ fuel ih =>
    intro i s hlen hp
    unfold sortOuter
    split
    · rename_i hi
      have hsplit : s = s.take i ++ s[i] :: s.drop (i + 1) := by
        conv_lhs => rw [← List.take_append_drop i s]
        rw [List.drop_eq_getElem_cons hi]
      have hti : (s.take i).length = i := by rw [List.length_take]; omega
      obtain ⟨l, hl, hperm, hsorted⟩ :=
        sortInner_spec before htrans hasym (s.take i) s[i] (s.drop (i + 1))
      rw [hti, ← hsplit] at hl
      rw [hl]
      have hll : l.length = i + 1 := by
        rw [hperm.length_eq, List.length_append, hti]; rfl
      have hps : (l ++ s.drop (i + 1)).Perm s := by
        conv_rhs => rw [hsplit]
        have := hperm.append_right (s.drop (i + 1))
        simpa using this
      obtain ⟨r, hr, hrp, hrs⟩ := ih (i + 1) (l ++ s.drop (i + 1))
        (by rw [hps.length_eq]; omega)
        (by rw [List.take_append_of_le_length (by omega), List.take_of_length_le (by omega)]
            exact hsorted hp)
      exact ⟨r, hr, hrp.trans hps, hrs⟩
    · rename_i hi
      rw [List.take_of_length_le (by omega)] at hp
      exact ⟨s, rfl, List.Perm.refl _, hp⟩

/-- `sortDesc` returns the slice sorted from high to low. -/
theorem sortDesc_spec (s : List F64) :
    ∃ r, sortDesc s = some r ∧ r.Perm s ∧ r.Pairwise (fun a b => b ≤ a) := by
  obtain ⟨r, hr, hp, hs⟩ := sortOuter_spec (fun a b => decide (a > b))
    (fun a b c h1 h2 => by
      simp only [decide_eq_false_iff_not, not_lt, gt_iff_lt] at *
      exact le_trans h2 h1)
    (fun a b h => by
      simp only [decide_eq_true_eq, gt_iff_lt, decide_eq_false_iff_not, not_lt] at *
      exact le_of_lt h)
    s.length 1 s (by omega)
    (by
      cases s with
      | nil => simp
      | cons a s => simp)
  refine ⟨r, hr, hp, hs.imp ?_⟩
  intro a b h
  simpa using h

/-- `sortAsc` returns the slice sorted from low to high. -/
theorem sortAsc_spec (s : List F64) :
    ∃ r, sortAsc s = some r ∧ r.Perm s ∧ r.Pairwise (fun a b => a ≤ b) := by
  obtain ⟨r, hr, hp, hs⟩ := sortOuter_spec (fun a b => decide (a < b))
    (fun a b c h1 h2 => by
      simp only [decide_eq_false_iff_not, not_lt] at *
      exact le_trans h1 h2)
    (fun a b h => by
      simp only [decide_eq_true_eq, decide_eq_false_iff_not, not_lt] at *
      exact le_of_lt h)
    s.length 1 s (by omega)
    (by
      cases s with
      | nil => simp
      | cons a s => simp)
  refine ⟨r, hr, hp, hs.imp ?_⟩
  intro a b h
  simpa using h

/-! ## What `aggregateLevels` computes -/

theorem levelGet_levelSet (levels : List (F64 × PriceLevel)) (p q : F64) (lvl : PriceLevel) :
    levelGet (levelSet levels p lvl) q = if q = p then some lvl else levelGet levels q := by
  unfold levelGet levelSet
  rw [List.lookup_cons]
  by_cases h1 : q = p
  · simp [h1]
  · have hq : (q == p) = false := by simpa using h1
    rw [hq, if_neg h1]
    simp only []
    induction levels with
    | nil => simp
    | cons kv levels ih =>
      obtain ⟨a, v⟩ := kv
      by_cases hak : a = p
      · subst hak
        rw [List.filter_cons_of_neg (by simp), ih, List.lookup_cons]
        have : (q == a) = false := by simpa using h1
        rw [this]
      · rw [List.filter_cons_of_pos (by simpa using hak), List.lookup_cons, List.lookup_cons, ih]

theorem levelAmount_append (orders : Nat → Order) (entries : Nat → OrderEntry) (h : List Nat)
    (e : Nat) (p : F64) :
    levelAmount orders entries (h ++ [e]) p = levelAmount orders entries h p +
      if (orders (entries e).Order).Price = some p then (orders (entries e).Order).RemainingBase
      else 0 := by
  unfold levelAmount
  rw [List.filter_append, List.map_append, List.sum_append]
  by_cases hp : (orders (entries e).Order).Price = some p
  · rw [List.filter_cons_of_pos (by simpa using hp), if_pos hp]
    simp
  · rw [List.filter_cons_of_neg (by simpa using hp), if_neg hp]
    simp

theorem levelCount_append (orders : Nat → Order) (entries : Nat → OrderEntry) (h : List Nat)
    (e : Nat) (p : F64) :
    levelCount orders entries (h ++ [e]) p = levelCount orders entries h p +
      if (orders (entries e).Order).Price = some p then 1 else 0 := by
  unfold levelCount
  rw [List.filter_append, List.length_append]
  by_cases hp : (orders (entries e).Order).Price = some p
  · rw [List.filter_cons_of_pos (by simpa using hp), if_pos hp]
    simp
  · rw [List.filter_cons_of_neg (by simpa using hp), if_neg hp]
    simp

theorem levelOf_absent (orders : Nat → Order) (entries : Nat → OrderEntry) (h : List Nat) (p : F64)
    (hp : ¬ ∃ e ∈ h, (orders (entries e).Order).Price = some p) :
    levelAmount orders entries h p = 0 ∧ levelCount orders entries h p = 0 := by
  have hnil : (h.filter fun e => (orders (entries e).Order).Price = some p) = [] := by
    rw [List.filter_eq_nil_iff]
    intro e he hpe
    exact hp ⟨e, he, by simpa using hpe⟩
  unfold levelAmount levelCount
  rw [hnil]
  simp

theorem LevelsOK.start (orders : Nat → Order) (entries : Nat → OrderEntry) :
    LevelsOK orders entries [] [] [] :=
  ⟨List.nodup_nil, fun p => by simp, fun p => by simp [levelGet]⟩

/-- One iteration of the loop of `aggregateLevels` keeps `LevelsOK`. -/
theorem LevelsOK.step {orders : Nat → Order} {entries : Nat → OrderEntry} {done : List Nat}
    {levels : List (F64 × PriceLevel)} {prices : List F64} (h : LevelsOK orders entries done levels prices)
    (e : Nat) (p : F64) (hp : (orders (entries e).Order).Price = some p) :
    (∀ lvl, levelGet levels p = some lvl →
      LevelsOK orders entries (done ++ [e])
        (levelSet levels p { lvl with
          Amount := lvl.Amount + (orders (entries e).Order).RemainingBase,
          Count := lvl.Count + 1 }) prices) ∧
    (levelGet levels p = none →
      LevelsOK orders entries (done ++ [e])
        (levelSet levels p
          { Price := p, Amount := (orders (entries e).Order).RemainingBase, Count := 1 })
        (prices ++ [p])) := by
  obtain ⟨hnd, hmem, hget⟩ := h
  have hmem1 : ∀ q, (∃ x ∈ done ++ [e], (orders (entries x).Order).Price = some q) ↔
      (q = p ∨ ∃ x ∈ done, (orders (entries x).Order).Price = some q) := by
    intro q
    constructor
    · rintro ⟨x, hx, hxq⟩
      rcases List.mem_append.mp hx with h1 | h1
      · exact Or.inr ⟨x, h1, hxq⟩
      · rw [List.mem_singleton] at h1
        subst h1
        rw [hp] at hxq
        simp only [Option.some.injEq] at hxq
        exact Or.inl hxq.symm
    · rintro (rfl | ⟨x, hx, hxq⟩)
      · exact ⟨e, by simp, hp⟩
      · exact ⟨x, List.mem_append_left _ hx, hxq⟩
  have hne : ∀ q, q ≠ p → levelOf orders entries (done ++ [e]) q = levelOf orders entries done q := by
    intro q hq
    have : ¬ (orders (entries e).Order).Price = some q := by
      rw [hp]; simpa using fun h => hq h.symm
    unfold levelOf
    rw [levelAmount_append, levelCount_append, if_neg this, if_neg this]
    simp
  constructor
  · intro lvl hl
    have hin : p ∈ prices := by
      by_contra hc
      have := hget p
      rw [if_neg hc, hl] at this
      simp at this
    have hlv : lvl = levelOf orders entries done p := by
      have := hget p
      rw [if_pos hin, hl] at this
      simpa using this
    refine ⟨hnd, ?_, ?_⟩
    · intro q
      rw [hmem1, hmem q]
      constructor
      · exact fun h => Or.inr h
      · rintro (rfl | h)
        · exact (hmem q).mp hin
        · exact h
    · intro q
      rw [levelGet_levelSet]
      by_cases hq : q = p
      · subst hq
        rw [if_pos rfl, if_pos hin, hlv]
        unfold levelOf
        rw [levelAmount_append, levelCount_append, if_pos hp, if_pos hp]
      · rw [if_neg hq, hget q, hne q hq]
  · intro hl
    have hin : p ∉ prices := by
      intro hc
      have := hget p
      rw [if_pos hc, hl] at this
      simp at this
    have habs := levelOf_absent orders entries done p (fun hc => hin ((hmem p).mpr hc))
    refine ⟨?_, ?_, ?_⟩
    · rw [List.nodup_append]
      exact ⟨hnd, List.nodup_singleton _, fun q h1 h2 => by
        rw [List.mem_singleton] at h2; subst h2; exact hin h1⟩
    · intro q
      rw [hmem1, List.mem_append, List.mem_singleton, hmem q]
      exact or_comm
    · intro q
      rw [levelGet_levelSet]
      by_cases hq : q = p
      · subst hq
        rw [if_pos rfl, if_pos (by simp)]
        unfold levelOf
        rw [levelAmount_append, levelCount_append, if_pos hp, if_pos hp, habs.1, habs.2]
        simp
      · rw [if_neg hq, hget q, hne q hq]
        by_cases h1 : q ∈ prices
        · rw [if_pos h1, if_pos (List.mem_append_left _ h1)]
        · rw [if_neg h1, if_neg]
          simpa [h1] using hq

/-- The loop of `aggregateLevels` returns on entries whose orders have a price, and
keeps `LevelsOK`. -/
theorem aggregateLoop_spec (orders : Nat → Order) (entries : Nat → OrderEntry) :
    ∀ (es done : List Nat) (levels : List (F64 × PriceLevel)) (prices : List F64),
      LevelsOK orders entries done levels prices →
      (∀ e ∈ es, ∃ p, (orders (entries e).Order).Price = some p) →
      ∃ levels1 prices1, aggregateLoop orders entries es levels prices = some (levels1, prices1) ∧
        LevelsOK orders entries (done ++ es) levels1 prices1 := by
  intro es
  induction es with
  | nil =>
    intro done levels prices h _
    exact ⟨levels, prices, rfl, by simpa using h⟩
  | cons e es ih =>
    intro done levels prices h hpr
    obtain ⟨p, hp⟩ := hpr e (List.mem_cons_self _ _)
    have hstep := h.step e p hp
    unfold aggregateLoop
    rw [hp]
    simp only []
    have hrest : ∀ x ∈ es, ∃ p, (orders (entries x).Order).Price = some p :=
      fun x hx => hpr x (List.mem_cons_of_mem _ hx)
    have happ : done ++ e :: es = (done ++ [e]) ++ es := by simp
    rw [happ]
    cases hl : levelGet levels p with
    | none => exact ih _ _ _ (hstep.2 hl) hrest
    | some lvl => exact ih _ _ _ (hstep.1 lvl hl) hrest

theorem resultLoop_spec (levels : List (F64 × PriceLevel)) (f : F64 → PriceLevel) :
    ∀ ps : List F64, (∀ p ∈ ps, levelGet levels p = some (f p)) →
      resultLoop levels ps = some (ps.map f) := by
  intro ps
  induction ps with
  | nil => intro _; rfl
  | cons p ps ih =>
    intro h
    unfold resultLoop
    rw [h p (List.mem_cons_self _ _), ih (fun q hq => h q (List.mem_cons_of_mem _ hq))]
    rfl

/-- What `aggregateLevels` and `aggregateSellLevels` return: the levels of the prices of
the heap, each price once, in the order of the sort. -/
theorem aggregateWith_spec {sort : List F64 → Option (List F64)} {R : F64 → F64 → Prop}
    (hsort : ∀ s, ∃ r, sort s = some r ∧ r.Perm s ∧ r.Pairwise R) (orders : Nat → Order)
    (hm : HeapMem) (hpr : PricedHeap orders hm) :
    ∃ ps : List F64, aggregateWith sort orders hm = some (ps.map (levelOf orders hm.entries hm.h)) ∧
      ps.Nodup ∧ (∀ p, p ∈ ps ↔ ∃ e ∈ hm.h, (orders (hm.entries e).Order).Price = some p) ∧
      ps.Pairwise R := by
  obtain ⟨levels, prices, hl, hnd, hmem, hget⟩ :=
    aggregateLoop_spec orders hm.entries hm.h [] [] [] (LevelsOK.start _ _) hpr
  simp only [List.nil_append] at hnd hmem hget
  obtain ⟨r, hr, hperm, hsorted⟩ := hsort prices
  refine ⟨r, ?_, hperm.nodup_iff.mpr hnd, fun p => by rw [hperm.mem_iff]; exact hmem p, hsorted⟩
  unfold aggregateWith
  rw [hl]
  simp only [hr]
  apply resultLoop_spec
  intro p hp
  rw [hget p, if_pos (hperm.subset hp)]

/-! ## The snapshot depends on the heaps only through what rests in them -/

theorem levelAmount_view (orders : Nat → Order) (entries : Nat → OrderEntry) (h : List Nat)
    (p : F64) :
    levelAmount orders entries h p =
      (((heapView orders entries h).filter fun x => x.1 = some p).map Prod.snd).sum := by
  unfold levelAmount heapView
  rw [List.filter_map, List.map_map]
  rfl

theorem levelCount_view (orders : Nat → Order) (entries : Nat → OrderEntry) (h : List Nat)
    (p : F64) :
    levelCount orders entries h p =
      (((heapView orders entries h).filter fun x => x.1 = some p).length : Int) := by
  unfold levelCount heapView
  rw [List.filter_map, List.length_map]
  rfl

theorem levelOf_congr {orders orders1 : Nat → Order} {entries entries1 : Nat → OrderEntry}
    {h h1 : List Nat} (hv : (heapView orders1 entries1 h1).Perm (heapView orders entries h))
    (p : F64) : levelOf orders1 entries1 h1 p = levelOf orders entries h p := by
  unfold levelOf
  rw [levelAmount_view, levelCount_view, levelAmount_view, levelCount_view]
  have hf := hv.filter (fun x => x.1 = some p)
  rw [(hf.map Prod.snd).sum_eq, hf.length_eq]

theorem heapView_price (orders : Nat → Order) (entries : Nat → OrderEntry) (h : List Nat)
    (p : F64) : (∃ e ∈ h, (orders (entries e).Order).Price = some p) ↔
      ∃ x ∈ heapView orders entries h, x.1 = some p := by
  unfold heapView
  constructor
  · rintro ⟨e, he, hp⟩
    exact ⟨_, List.mem_map.mpr ⟨e, he, rfl⟩, hp⟩
  · rintro ⟨x, hx, hp⟩
    obtain ⟨e, he, rfl⟩ := List.mem_map.mp hx
    exact ⟨e, he, hp⟩

/-- Two heaps that the snapshot reads alike, up to the order of the slots, give the same
levels. -/
theorem aggregateWith_congr {sort : List F64 → Option (List F64)} {R : F64 → F64 → Prop}
    (hsort : ∀ s, ∃ r, sort s = some r ∧ r.Perm s ∧ r.Pairwise R)
    (huniq : ∀ l1 l2 : List F64, l1.Perm l2 → l1.Pairwise R → l2.Pairwise R → l1 = l2)
    {orders orders1 : Nat → Order} {hm hm1 : HeapMem}
    (hpr : PricedHeap orders hm) (hpr1 : PricedHeap orders1 hm1)
    (hv : (heapView orders1 hm1.entries hm1.h).Perm (heapView orders hm.entries hm.h)) :
    aggregateWith sort orders1 hm1 = aggregateWith sort orders hm := by
  obtain ⟨ps, hps, hnd, hmem, hsorted⟩ := aggregateWith_spec hsort orders hm hpr
  obtain ⟨ps1, hps1, hnd1, hmem1, hsorted1⟩ := aggregateWith_spec hsort orders1 hm1 hpr1
  have hperm : ps1.Perm ps := by
    rw [List.perm_ext_iff_of_nodup hnd1 hnd]
    intro p
    rw [hmem, hmem1, heapView_price, heapView_price]
    constructor
    · rintro ⟨x, hx, hp⟩; exact ⟨x, hv.subset hx, hp⟩
    · rintro ⟨x, hx, hp⟩; exact ⟨x, hv.symm.subset hx, hp⟩
  have heq := huniq ps1 ps hperm hsorted1 hsorted
  rw [hps, hps1, heq]
  congr 1
  apply List.map_congr_left
  intro p _
  exact levelOf_congr hv p

theorem sorted_desc_unique (l1 l2 : List F64) (hp : l1.Perm l2)
    (h1 : l1.Pairwise (fun a b => b ≤ a)) (h2 : l2.Pairwise (fun a b => b ≤ a)) : l1 = l2 := by
  have s1 : l1.Sorted (· ≥ ·) := h1
  have s2 : l2.Sorted (· ≥ ·) := h2
  exact List.eq_of_perm_of_sorted hp s1 s2

theorem sorted_asc_unique (l1 l2 : List F64) (hp : l1.Perm l2)
    (h1 : l1.Pairwise (fun a b => a ≤ b)) (h2 : l2.Pairwise (fun a b => a ≤ b)) : l1 = l2 := by
  have s1 : l1.Sorted (· ≤ ·) := h1
  have s2 : l2.Sorted (· ≤ ·) := h2
  exact List.eq_of_perm_of_sorted hp s1 s2

theorem BookPriced_heaps {ob : OrderBook}
    (hpr : ∀ e ∈ ob.buys ++ ob.sells, (ob.orders (ob.entries e).Order).Price.isSome = true) :
    PricedHeap ob.orders ob.buyHeap ∧ PricedHeap ob.orders ob.sellHeap := by
  constructor
  · intro e he
    have := hpr e (List.mem_append_left _ he)
    exact Option.isSome_iff_exists.mp this
  · intro e he
    have := hpr e (List.mem_append_right _ he)
    exact Option.isSome_iff_exists.mp this

/-- Two books whose heaps the snapshot reads alike, up to the order of the slots, have
the same snapshot. -/
theorem GetSnapshot_congr {ob ob1 : OrderBook}
    (hpr : ∀ e ∈ ob.buys ++ ob.sells, (ob.orders (ob.entries e).Order).Price.isSome = true)
    (hpr1 : ∀ e ∈ ob1.buys ++ ob1.sells, (ob1.orders (ob1.entries e).Order).Price.isSome = true)
    (hb : (heapView ob1.orders ob1.entries ob1.buys).Perm (heapView ob.orders ob.entries ob.buys))
    (hs : (heapView ob1.orders ob1.entries ob1.sells).Perm
      (heapView ob.orders ob.entries ob.sells)) :
    GetSnapshot ob1 = GetSnapshot ob := by
  obtain ⟨p1, p2⟩ := BookPriced_heaps hpr
  obtain ⟨q1, q2⟩ := BookPriced_heaps hpr1
  unfold GetSnapshot aggregateLevels aggregateSellLevels
  rw [aggregateWith_congr sortDesc_spec sorted_desc_unique p1 q1 hb,
    aggregateWith_congr sortAsc_spec sorted_asc_unique p2 q2 hs]

theorem sum_indicator (ps : List F64) (q : F64) (hnd : ps.Nodup) (hq : q ∈ ps) :
    (ps.map fun p => if q = p then (1 : Int) else 0).sum = 1 := by
  induction ps with
  | nil => simp at hq
  | cons a ps ih =>
    rw [List.nodup_cons] at hnd
    rw [List.map_cons, List.sum_cons]
    rcases List.mem_cons.mp hq with rfl | h1
    · have hz : (ps.map fun p => if q = p then (1 : Int) else 0).sum = 0 := by
        apply List.sum_eq_zero
        intro x hx
        obtain ⟨p, hp, rfl⟩ := List.mem_map.mp hx
        rw [if_neg]
        intro heq
        exact hnd.1 (heq ▸ hp)
      rw [if_pos rfl, hz]; rfl
    · have hne : q ≠ a := fun heq => hnd.1 (heq ▸ h1)
      rw [if_neg hne, ih hnd.2 h1]; rfl

/-- The counts of the levels add up to the number of entries. -/
theorem levelCount_sum (orders : Nat → Order) (entries : Nat → OrderEntry) (ps : List F64)
    (hnd : ps.Nodup) : ∀ h : List Nat,
      (∀ e ∈ h, ∃ p ∈ ps, (orders (entries e).Order).Price = some p) →
      (ps.map (levelCount orders entries h)).sum = (h.length : Int) := by
  intro h
  induction h using List.reverseRecOn with
  | nil =>
    intro _
    have : (ps.map (levelCount orders entries [])) = ps.map fun _ => (0 : Int) := by
      apply List.map_congr_left
      intro p _
      simp [levelCount]
    rw [this]
    simp
  | append_singleton h e ih =>
    intro hall
    obtain ⟨q, hq, hqe⟩ := hall e (by simp)
    have hstep : (ps.map (levelCount orders entries (h ++ [e]))) =
        ps.map fun p => levelCount orders entries h p + if q = p then (1 : Int) else 0 := by
      apply List.map_congr_left
      intro p _
      rw [levelCount_append, hqe]
      simp only [Option.some.injEq]
    rw [hstep, List.sum_map_add, ih (fun x hx => hall x (List.mem_append_left _ hx)),
      sum_indicator ps q hnd hq]
    simp

/-- `GetSnapshot` returns on a book whose resting orders have a price: the bids are the
levels of the prices of the buy heap, each once, from high to low, and the asks those of
the sell heap from low to high. -/
theorem GetSnapshot_spec {ob : OrderBook}
    (hpr : ∀ e ∈ ob.buys ++ ob.sells, (ob.orders (ob.entries e).Order).Price.isSome = true) :
    ∃ bs as : List F64,
      GetSnapshot ob = some { Bids := bs.map (levelOf ob.orders ob.entries ob.buys),
                              Asks := as.map (levelOf ob.orders ob.entries ob.sells) } ∧
      bs.Nodup ∧ as.Nodup ∧
      (∀ p, p ∈ bs ↔ ∃ e ∈ ob.buys, (ob.orders (ob.entries e).Order).Price = some p) ∧
      (∀ p, p ∈ as ↔ ∃ e ∈ ob.sells, (ob.orders (ob.entries e).Order).Price = some p) ∧
      bs.Pairwise (fun a b => b < a) ∧ as.Pairwise (fun a b => a < b) := by
  obtain ⟨p1, p2⟩ := BookPriced_heaps hpr
  obtain ⟨bs, hbs, hnb, hmb, hsb⟩ := aggregateWith_spec sortDesc_spec ob.orders ob.buyHeap p1
  obtain ⟨as, has, hna, hma, hsa⟩ := aggregateWith_spec sortAsc_spec ob.orders ob.sellHeap p2
  refine ⟨bs, as, ?_, hnb, hna, hmb, hma, ?_, ?_⟩
  · unfold GetSnapshot aggregateLevels aggregateSellLevels
    rw [hbs, has]
    rfl
  · exact (hsb.and hnb).imp fun h => lt_of_le_of_ne h.1 (Ne.symm h.2)
  · exact (hsa.and hna).imp fun h => lt_of_le_of_ne h.1 h.2

theorem map_price_levelOf (orders : Nat → Order) (entries : Nat → OrderEntry) (h : List Nat)
    (ps : List F64) : (ps.map (levelOf orders entries h)).map (fun l => l.Price) = ps := by
  rw [List.map_map]
  conv_rhs => rw [← List.map_id ps]
  apply List.map_congr_left
  intro p _
  rfl

/-! ## Adding an order that is not matched and cancelling it again -/

theorem BookInv.priced_isSome {ob : OrderBook} {N : Nat} (h : BookInv ob N) :
    ∀ e ∈ ob.buys ++ ob.sells, (ob.orders (ob.entries e).Order).Price.isSome = true := by
  intro e he
  rcases List.mem_append.mp he with h1 | h1
  · obtain ⟨q, hq⟩ := h.buys.priced e h1
    simp only [OrderBook.buyHeap] at hq
    rw [hq]; rfl
  · obtain ⟨q, hq⟩ := h.sells.priced e h1
    simp only [OrderBook.sellHeap] at hq
    rw [hq]; rfl

theorem heapView_perm {orders orders1 : Nat → Order} {entries entries1 : Nat → OrderEntry}
    {h h1 : List Nat} (hp : h1.Perm h)
    (heq : ∀ e ∈ h, orders1 (entries1 e).Order = orders (entries e).Order) :
    (heapView orders1 entries1 h1).Perm (heapView orders entries h) := by
  unfold heapView
  refine (hp.map _).trans ?_
  rw [List.map_congr_left]
  intro e he
  rw [heq e he]

/-- A book and the same book with its heaps rearranged, whose resting orders are the
same, have the same snapshot. -/
theorem GetSnapshot_perm {ob ob1 : OrderBook} {N N1 : Nat} (h : BookInv ob N)
    (h1 : BookInv ob1 N1) (hb : ob1.buys.Perm ob.buys) (hs : ob1.sells.Perm ob.sells)
    (heq : ∀ e ∈ ob.buys ++ ob.sells, ob1.orders (ob1.entries e).Order =
      ob.orders (ob.entries e).Order) :
    GetSnapshot ob1 = GetSnapshot ob :=
  GetSnapshot_congr h.priced_isSome h1.priced_isSome
    (heapView_perm hb fun e he => heq e (List.mem_append_left _ he))
    (heapView_perm hs fun e he => heq e (List.mem_append_right _ he))

/-- On a book that satisfies the invariant and does not hold the id of a new order:
when `AddOrder` of the order makes no match, `CancelOrder` of its id brings the snapshot
back. -/
theorem add_cancel_snapshot {ob ob1 : OrderBook} {N : Nat} (h : BookInv ob N) (o : Order)
    (hid : mapGet ob.orderMap o.ID = none)
    (hadd : AddOrder { ob with orders := Function.update ob.orders N o } N = some (ob1, [])) :
    ∃ ob2 r, CancelOrder ob1 o.ID = some (ob2, r) ∧ (GetSnapshot ob).isSome = true ∧
      GetSnapshot ob2 = GetSnapshot ob := by
  have hsome : (GetSnapshot ob).isSome = true := by
    obtain ⟨bs, as, hsnap, -⟩ := GetSnapshot_spec h.priced_isSome
    rw [hsnap]; rfl
  have hinv0 := h.alloc o
  have hinv1 := hinv0.addOrder (le_refl _) hadd
  have hold0 : ∀ e ∈ ob.buys ++ ob.sells,
      Function.update ob.orders N o (ob.entries e).Order = ob.orders (ob.entries e).Order := by
    intro e he
    have := h.bound e he
    rw [Function.update_noteq (by omega)]
  obtain ⟨price, s, tr, -, hrun, hms, hrest⟩ := AddOrder_inv hadd
  have htr : tr = [] := List.map_eq_nil_iff.mp hms.symm
  subst htr
  cases hrun
  rcases restOrder_inv hrest with ⟨-, rfl⟩ | ⟨-, hm, hpush, ho, he, hown, hopp, hmap⟩
  · refine ⟨_, none, CancelOrder_miss hid, hsome, ?_⟩
    exact GetSnapshot_perm h hinv1 (List.Perm.refl _) (List.Perm.refl _) hold0
  · simp only [Function.update_same] at hpush hown hopp hmap
    have hfresh := newEntry_fresh { ob with orders := Function.update ob.orders N o }
    simp only [] at hfresh
    obtain ⟨hperm, hord, -⟩ := heapPush_inv hpush
    have hnewO : (ob1.entries (OrderBook.newEntry
        { ob with orders := Function.update ob.orders N o })).Order = N := by
      rw [he, hord]; simp
    have hg : mapGet ob1.orderMap o.ID = some (OrderBook.newEntry
        { ob with orders := Function.update ob.orders N o }) := by
      rw [hmap, mapGet_mapSet, if_pos rfl]
    obtain ⟨ob2, hc, ho2, -, hord2, hperm2, hopp2, -⟩ := CancelOrder_hit hinv1 hg
    have hinv2 := hinv1.cancel hc
    rw [hnewO] at ho2 hperm2 hopp2
    have hside : (ob1.orders N).Side = o.Side := by rw [ho]; simp
    rw [hside] at hperm2 hopp2
    rw [hown] at hperm2
    have hpown : (ob2.own (decide (o.Side = SideBuy))).Perm (ob.own (decide (o.Side = SideBuy))) :=
      (hperm2.trans hperm).cons_inv
    have hpopp : ob2.opp (decide (o.Side = SideBuy)) = ob.opp (decide (o.Side = SideBuy)) := by
      rw [hopp2, hopp]; cases decide (o.Side = SideBuy) <;> rfl
    refine ⟨ob2, _, hc, hsome, GetSnapshot_perm h hinv2 ?_ ?_ ?_⟩
    · cases hb : decide (o.Side = SideBuy)
      · rw [hb] at hpopp
        simp only [OrderBook.opp, Bool.false_eq_true, if_false] at hpopp
        rw [hpopp]
      · rw [hb] at hpown
        simpa [OrderBook.own] using hpown
    · cases hb : decide (o.Side = SideBuy)
      · rw [hb] at hpown
        simpa [OrderBook.own] using hpown
      · rw [hb] at hpopp
        simp only [OrderBook.opp, if_true] at hpopp
        rw [hpopp]
    · intro e hmem
      have hne : e ≠ OrderBook.newEntry { ob with orders := Function.update ob.orders N o } := by
        intro heq
        rcases List.mem_append.mp hmem with h1 | h1
        · exact hfresh.1 (heq ▸ h1)
        · exact hfresh.2.1 (heq ▸ h1)
      have hb := h.bound e hmem
      have h1 : (ob2.entries e).Order = (ob.entries e).Order := by
        rw [hord2, he, hord]
        simp only [Function.update_noteq hne]
      rw [h1, ho2, Function.update_noteq (by omega), ho]
      simp only []
      rw [Function.update_noteq (by omega)]

/-! ## `VerifyOrderSignature` -/

theorem copyBytes_full (s : List Nat) (n : Nat) (hs : s.length = n) :
    copyBytes (List.replicate n 0) s = s := by
  unfold copyBytes
  simp [hs]

theorem getD_lt_of_length {mem : SliceMem} {a : Nat} (h : (mem.getD a []).length ≠ 0) :
    a < mem.length := by
  by_contra hc
  rw [List.getD_eq_default _ _ (by omega)] at h
  simp at h

/-- The memory after a call that got a signature of 65 bytes: one new slice, holding
what is passed to the recovery. -/
theorem verify_unfold (c : Crypto) (domain : DomainSeparator) (order : OrderData)
    (mem : SliceMem) (signature : Nat) (hlen : (mem.getD signature []).length = 65) :
    VerifyOrderSignature c domain order mem signature =
      match c.Ecrecover (orderDigest c domain order) (recoveryInput (mem.getD signature [])) with
      | .error err =>
        (mem ++ [recoveryInput (mem.getD signature [])], false, some (.ecrecoverFailed err))
      | .ok pubKey =>
        match c.UnmarshalPubkey pubKey with
        | .error err =>
          (mem ++ [recoveryInput (mem.getD signature [])], false,
            some (.unmarshalPubkeyFailed err))
        | .ok recoveredPub =>
          (mem ++ [recoveryInput (mem.getD signature [])],
            decide (c.PubkeyToAddress recoveredPub = order.Maker), none) := by
  have hlt : signature < mem.length := getD_lt_of_length (by omega)
  have h1 : (mem ++ [List.replicate 65 0]).getD signature [] = mem.getD signature [] := by
    rw [List.getD_append _ _ _ _ hlt]
  have h2 : ∀ z : List Nat, (mem ++ [z]).getD mem.length [] = z := by
    intro z
    rw [List.getD_append_right _ _ _ _ (le_refl _)]
    simp
  have h3 : ∀ z v : List Nat, (mem ++ [z]).set mem.length v = mem ++ [v] := by
    intro z v
    rw [List.set_append_right _ _ (le_refl _)]
    simp
  unfold VerifyOrderSignature
  rw [if_neg (by omega)]
  simp only [h1, h2, h3, copyBytes_full _ 65 hlen]
  have hm : (if 27 ≤ (mem.getD signature []).getD 64 0 then
      mem ++ [(mem.getD signature []).set 64 (((mem.getD signature []).getD 64 0 + 256 - 27) % 256)]
      else mem ++ [mem.getD signature []]) = mem ++ [recoveryInput (mem.getD signature [])] := by
    unfold recoveryInput
    split <;> rfl
  rw [hm, h2]
  rfl

theorem verify_short (c : Crypto) (domain : DomainSeparator) (order : OrderData)
    (mem : SliceMem) (signature : Nat) (hlen : (mem.getD signature []).length ≠ 65) :
    VerifyOrderSignature c domain order mem signature =
      (mem, false, some (.invalidSignatureLength (mem.getD signature []).length)) := by
  unfold VerifyOrderSignature
  rw [if_pos hlen]

theorem recoveryInput_small (s : List Nat) (h : s.getD 64 0 < 27) : recoveryInput s = s := by
  unfold recoveryInput
  rw [if_neg (by omega)]

theorem recoveryInput_ethereum (s : List Nat) (v : Nat) (hlen : s.length = 65)
    (hv : s.getD 64 0 = v) (h27 : v = 27 ∨ v = 28) :
    recoveryInput s = s.set 64 (v - 27) ∧ recoveryInput (s.set 64 (v - 27)) = s.set 64 (v - 27) := by
  have hget : (s.set 64 (v - 27)).getD 64 0 = v - 27 := by
    rw [List.getD_eq_getElem?_getD, List.getElem?_set_self (by omega)]
    rfl
  constructor
  · unfold recoveryInput
    rw [hv, if_pos (by omega)]
    congr 1
    omega
  · apply recoveryInput_small
    rw [hget]
    omega

theorem natBytesAux_length_ge (fuel : Nat) : ∀ (n : Nat) (acc : List Nat),
    acc.length ≤ (natBytesAux fuel n acc).length := by
  induction fuel with
  | zero => intro n acc; exact le_refl _
  | succ fuel ih =>
    intro n acc
    unfold natBytesAux
    split
    · exact le_refl _
    · have := ih (n / 256) (n % 256 :: acc)
      simp only [List.length_cons] at this
      omega

/-- A number of `256 ^ k` or more has more than `k` bytes. -/
theorem natBytesAux_length (fuel : Nat) : ∀ (n : Nat) (acc : List Nat) (k : Nat), n ≤ fuel →
    256 ^ k ≤ n → acc.length + k + 1 ≤ (natBytesAux fuel n acc).length := by
  induction fuel with
  | zero =>
    intro n acc k hn hk
    have : 0 < 256 ^ k := by positivity
    omega
  | succ fuel ih =>
    intro n acc k hn hk
    have hpos : 0 < 256 ^ k := by positivity
    unfold natBytesAux
    rw [if_neg (by omega)]
    cases k with
    | zero =>
      have := natBytesAux_length_ge fuel (n / 256) (n % 256 :: acc)
      simp only [List.length_cons] at this
      omega
    | succ k =>
      have h1 : 256 ^ k ≤ n / 256 := by
        rw [Nat.le_div_iff_mul_le (by norm_num)]
        rw [pow_succ] at hk
        exact hk
      have h2 : n / 256 ≤ fuel := by
        have : n / 256 < n := Nat.div_lt_self (by omega) (by norm_num)
        omega
      have := ih (n / 256) (n % 256 :: acc) k h2 h1
      simp only [List.length_cons] at this
      omega

/-- A `big.Int` that does not fit in 256 bits is not padded: all its bytes are hashed. -/
theorem leftPad_wide (x : Int) (hx : 2 ^ 256 ≤ |x|) :
    32 < (bigIntBytes x).length ∧ LeftPadBytes (bigIntBytes x) 32 = bigIntBytes x := by
  have hn : 256 ^ 32 ≤ x.natAbs := by
    have : ((2 : Int) ^ 256) ≤ (x.natAbs : Int) := by rw [Int.natCast_natAbs]; exact hx
    have h2 : ((2 ^ 256 : Nat) : Int) ≤ (x.natAbs : Int) := by exact_mod_cast this
    have h3 : (2 ^ 256 : Nat) ≤ x.natAbs := by exact_mod_cast h2
    calc 256 ^ 32 = 2 ^ 256 := by norm_num
      _ ≤ x.natAbs := h3
  have hlen := natBytesAux_length x.natAbs x.natAbs [] 32 (le_refl _) hn
  simp only [List.length_nil] at hlen
  have h32 : 32 < (bigIntBytes x).length := by
    unfold bigIntBytes natBytes; omega
  refine ⟨h32, ?_⟩
  unfold LeftPadBytes
  rw [if_pos (by omega)]

theorem bigIntBytes_abs (x : Int) : bigIntBytes |x| = bigIntBytes x := by
  unfold bigIntBytes
  rw [Int.natAbs_abs]

/-- `HashOrder` reads the five integer fields through their absolute values. -/
theorem HashOrder_magnitudes (c : Crypto) (order : OrderData) :
    HashOrder c order.magnitudes = HashOrder c order := by
  unfold HashOrder orderPreimage OrderData.magnitudes
  simp only [bigIntBytes_abs]

theorem verify_magnitudes (c : Crypto) (domain : DomainSeparator) (order : OrderData)
    (mem : SliceMem) (signature : Nat) :
    VerifyOrderSignature c domain order.magnitudes mem signature =
      VerifyOrderSignature c domain order mem signature := by
  unfold VerifyOrderSignature
  rw [HashOrder_magnitudes]
  rfl

/-- The stand-in library keeps the law of `crypto.Sign`. -/
theorem toy_signLaw : SignLaw toyCrypto := by
  intro d k sig hs
  simp only [toyCrypto] at hs ⊢
  split at hs
  · rename_i hk
    obtain ⟨hx0, hx1, hy0, hy1⟩ := hk
    simp only [Except.ok.injEq] at hs
    subst hs
    have hv : (k.PublicKey.X.toNat + k.PublicKey.Y.toNat) % 2 < 4 := by omega
    refine ⟨by simp, ?_, ?_⟩
    · simp [List.getD_eq_getElem?_getD, List.getElem?_append, List.getElem?_replicate]
      omega
    · refine ⟨[4, ((k.PublicKey.X.toNat + d.sum) % 256 + 256 - d.sum % 256) % 256,
        k.PublicKey.Y.toNat], ?_, ?_⟩
      · simp [List.getD_eq_getElem?_getD, List.getElem?_append, List.getElem?_replicate]
        omega
      · simp only [List.length_cons, List.length_nil, List.getD_cons_zero, List.getD_cons_succ,
          true_and, if_true]
        have h1 : (((k.PublicKey.X.toNat + d.sum) % 256 + 256 - d.sum % 256) % 256 : Nat)
            = k.PublicKey.X.toNat := by omega
        rw [h1]
        have h2 : ((k.PublicKey.X.toNat : Nat) : Int) = k.PublicKey.X := Int.toNat_of_nonneg hx0
        have h3 : ((k.PublicKey.Y.toNat : Nat) : Int) = k.PublicKey.Y := Int.toNat_of_nonneg hy0
        rw [h2, h3]
  · simp at hs

/-! ## The words that `HashOrder` hashes -/

theorem fixedBytes_length (w n : Nat) : (fixedBytes w n).length = w := by
  simp [fixedBytes]

theorem fixedBytes_succ (w n : Nat) :
    fixedBytes (w + 1) n = fixedBytes w (n / 256) ++ [n % 256] := by
  unfold fixedBytes
  rw [List.range_succ, List.map_append]
  congr 1
  · apply List.map_congr_left
    intro i hi
    have hi1 : i < w := List.mem_range.mp hi
    have e : w + 1 - 1 - i = (w - 1 - i) + 1 := by omega
    rw [e, pow_succ, Nat.div_div_eq_div_mul, mul_comm]
  · simp

theorem fixedBytes_zero (w : Nat) : fixedBytes w 0 = List.replicate w 0 := by
  induction w with
  | zero => rfl
  | succ w ih =>
    rw [fixedBytes_succ, Nat.zero_div, ih, List.replicate_succ']

theorem beValue_snoc (bs : List Nat) (b : Nat) : beValue (bs ++ [b]) = 256 * beValue bs + b := by
  simp [beValue, List.foldl_append]

theorem beValue_fixedBytes (w n : Nat) : beValue (fixedBytes w n) = n % 256 ^ w := by
  induction w generalizing n with
  | zero => simp [fixedBytes, beValue, Nat.mod_one]
  | succ w ih =>
    rw [fixedBytes_succ, beValue_snoc, ih, pow_succ', Nat.mod_mul]
    omega

theorem natBytesAux_fixed (fuel : Nat) : ∀ (n : Nat) (acc : List Nat) (w : Nat), n ≤ fuel →
    n < 256 ^ w → ∃ pre, natBytesAux fuel n acc = pre ++ acc ∧ pre.length ≤ w ∧
      List.replicate (w - pre.length) 0 ++ pre = fixedBytes w n := by
  induction fuel with
  | zero =>
    intro n acc w hn _
    have h0 : n = 0 := by omega
    subst h0
    exact ⟨[], rfl, by simp, by simp [fixedBytes_zero]⟩
  | succ fuel ih =>
    intro n acc w hn hw
    by_cases h0 : n = 0
    · subst h0
      exact ⟨[], by simp [natBytesAux], by simp, by simp [fixedBytes_zero]⟩
    · cases w with
      | zero => simp at hw; omega
      | succ w =>
        have h1 : n / 256 ≤ fuel := by omega
        have h2 : n / 256 < 256 ^ w := by
          rw [Nat.div_lt_iff_lt_mul (by norm_num)]
          rw [pow_succ] at hw
          exact hw
        obtain ⟨pre, e1, e2, e3⟩ := ih (n / 256) (n % 256 :: acc) w h1 h2
        refine ⟨pre ++ [n % 256], ?_, ?_, ?_⟩
        · simp only [natBytesAux, if_neg h0, e1, List.append_assoc, List.singleton_append]
        · simp; omega
        · rw [fixedBytes_succ, ← e3]
          have e : w + 1 - (pre ++ [n % 256]).length = w - pre.length := by simp
          rw [e, List.append_assoc]

theorem leftPad_word (x : Int) (h0 : 0 ≤ x) (h1 : x < 2 ^ 256) :
    LeftPadBytes (bigIntBytes x) 32 = fixedBytes 32 x.toNat := by
  have hn : x.natAbs = x.toNat := by omega
  have hlt : x.toNat < 256 ^ 32 := by
    have : (x.toNat : Int) < 2 ^ 256 := by rw [Int.toNat_of_nonneg h0]; exact h1
    have e : (256 : Nat) ^ 32 = 2 ^ 256 := by norm_num
    rw [e]
    exact_mod_cast this
  obtain ⟨pre, e1, e2, e3⟩ := natBytesAux_fixed x.toNat x.toNat [] 32 le_rfl hlt
  have hb : bigIntBytes x = pre := by
    unfold bigIntBytes natBytes
    rw [hn, e1, List.append_nil]
  rw [hb]
  unfold LeftPadBytes
  split
  · rename_i h
    have : pre.length = 32 := by omega
    rw [← e3, this]
    simp
  · exact e3

theorem leftPad_address (a : Address) :
    LeftPadBytes a.Bytes 32 = List.replicate 12 0 ++ a.Bytes := by
  unfold LeftPadBytes Address.Bytes
  rw [fixedBytes_length]
  simp

/-! ## The matching loop returns -/

theorem sell_amount_pos {o : Order} (hs : o.Side ≠ SideBuy) (hr : 0 < o.RemainingBase)
    (hF : 0 ≤ o.FilledBase) : 0 < o.AmountSell := by
  unfold Order.RemainingBase at hr
  rw [if_neg hs] at hr
  omega

theorem buy_amount_pos {o : Order} (hs : o.Side = SideBuy) (hr : 0 < o.RemainingBase)
    (hF : 0 ≤ o.FilledBase) : 0 < o.AmountBuy := by
  unfold Order.RemainingBase at hr
  rw [if_pos hs] at hr
  omega

theorem priced_applyFill {orders : Nat → Order} {hm : HeapMem} (t mk : Nat) (f : Int)
    (h : PricedHeap orders hm) : PricedHeap (applyFill orders t mk f) hm := by
  intro e he
  obtain ⟨q, hq⟩ := h e he
  exact ⟨q, by rw [frozen_price (applyFill_frozen orders t mk f _)]; exact hq⟩

theorem matchBuyStep_total {s : OrderBook} {N p : Nat} {price : F64} (h : BookInv s N)
    (hF : ∀ e ∈ s.sells, 0 ≤ (s.orders (s.entries e).Order).FilledBase) :
    ∃ r, matchBuyStep s p price = some r := by
  unfold matchBuyStep
  split
  · exact ⟨_, rfl⟩
  · rename_i top rest hs
    have htop : top ∈ s.sells := by rw [hs]; exact List.mem_cons_self _ _
    split
    · exact ⟨_, rfl⟩
    · obtain ⟨sp, hsp⟩ := h.sells.priced top htop
      simp only [OrderBook.sellHeap] at hsp
      simp only [hsp]
      split
      · exact ⟨_, rfl⟩
      · split
        · exact ⟨_, rfl⟩
        · have hside : (s.orders (s.entries top).Order).Side ≠ SideBuy := by
            intro hc
            have := (h.sells.side top htop).mp hc
            exact absurd this (by decide)
          have hlive := (h.live top (List.mem_append_right _ htop)).1
          have hAS : (s.orders (s.entries top).Order).AmountSell ≠ 0 :=
            ne_of_gt (sell_amount_pos hside hlive (hF top htop))
          rw [if_neg hAS]
          split
          · have hpr : PricedHeap (applyFill s.orders p (s.entries top).Order
                (minBigInt (s.orders p).RemainingBase
                  (s.orders (s.entries top).Order).RemainingBase)) s.sellHeap :=
              priced_applyFill _ _ _ h.sells.priced
            obtain ⟨r, hr⟩ := heapPop_total (@oppLess_total true _ _ hpr)
              (by show 0 < s.sells.length; rw [hs]; simp)
            simp only [oppLess, if_true] at hr
            simp only [OrderBook.sellHeap] at hr ⊢
            rw [hr]
            exact ⟨_, rfl⟩
          · exact ⟨_, rfl⟩

theorem matchSellStep_total {s : OrderBook} {N p : Nat} {price : F64} (h : BookInv s N)
    (hside : (s.orders p).Side ≠ SideBuy) (hFp : 0 ≤ (s.orders p).FilledBase) :
    ∃ r, matchSellStep s p price = some r := by
  unfold matchSellStep
  split
  · exact ⟨_, rfl⟩
  · rename_i top rest hs
    have htop : top ∈ s.buys := by rw [hs]; exact List.mem_cons_self _ _
    split
    · exact ⟨_, rfl⟩
    · rename_i hrem
      obtain ⟨bp, hbp⟩ := h.buys.priced top htop
      simp only [OrderBook.buyHeap] at hbp
      simp only [hbp]
      split
      · exact ⟨_, rfl⟩
      · split
        · exact ⟨_, rfl⟩
        · have hAS : (s.orders p).AmountSell ≠ 0 :=
            ne_of_gt (sell_amount_pos hside (not_not.mp hrem) hFp)
          rw [if_neg hAS]
          split
          · have hpr : PricedHeap (applyFill s.orders p (s.entries top).Order
                (minBigInt (s.orders p).RemainingBase
                  (s.orders (s.entries top).Order).RemainingBase)) s.buyHeap :=
              priced_applyFill _ _ _ h.buys.priced
            obtain ⟨r, hr⟩ := heapPop_total (@oppLess_total false _ _ hpr)
              (by show 0 < s.buys.length; rw [hs]; simp)
            simp only [oppLess, Bool.false_eq_true, if_false] at hr
            simp only [OrderBook.buyHeap] at hr ⊢
            rw [hr]
            exact ⟨_, rfl⟩
          · exact ⟨_, rfl⟩

theorem sideStep_total {buy : Bool} {s : OrderBook} {N p : Nat} {price : F64} (h : BookInv s N)
    (hside : (s.orders p).Side = SideBuy ↔ buy = true)
    (hF : ∀ e ∈ s.opp buy, 0 ≤ (s.orders (s.entries e).Order).FilledBase)
    (hFp : 0 ≤ (s.orders p).FilledBase) : ∃ r, sideStep buy p price s = some r := by
  cases buy with
  | true =>
    rw [sideStep_true]
    exact matchBuyStep_total h hF
  | false =>
    rw [sideStep_false]
    exact matchSellStep_total h (fun hc => absurd (hside.mp hc) (by decide)) hFp

/-! ## Fuel of the matching loop, and `AddOrder` returns -/

theorem rem_addFilled (o : Order) (f : Int) :
    ({ o with FilledBase := o.FilledBase + f } : Order).RemainingBase = o.RemainingBase - f := by
  unfold Order.RemainingBase
  split <;> simp only [] <;> omega

theorem updateOrderStatus_not_filled {o : Order}
    (h : (updateOrderStatus o).Status ≠ OrderStatusFilled) : 0 < o.RemainingBase := by
  by_contra hc
  apply h
  unfold updateOrderStatus
  rw [if_pos (not_lt.mp hc)]

/-- A fill that leaves the resting order in the book uses up the incoming order. -/
theorem FillFacts.taker_done {ob ob1 : OrderBook} {p maker : Nat} {buy : Bool} {m : MatchResult}
    (hf : FillFacts ob buy p ob1 m maker) (hpm : p ≠ maker)
    (hnf : (ob1.orders maker).Status ≠ OrderStatusFilled) :
    (ob1.orders p).RemainingBase = 0 := by
  rw [hf.orders] at hnf ⊢
  rw [applyFill_maker hpm] at hnf
  rw [applyFill_taker hpm, updateOrderStatus_rem, rem_addFilled]
  have h1 := updateOrderStatus_not_filled hnf
  rw [rem_addFilled] at h1
  have h2 := hf.fill_eq
  rw [minBigInt_eq_min] at h2
  have h3 : m.FillAmount = (ob.orders p).RemainingBase := by
    rw [h2]
    apply min_eq_left
    rw [h2] at h1
    by_contra hc
    rw [min_eq_right (le_of_lt (not_le.mp hc))] at h1
    omega
  omega

theorem FillFacts.opp_length {ob ob1 : OrderBook} {p maker : Nat} {buy : Bool} {m : MatchResult}
    (hf : FillFacts ob buy p ob1 m maker) :
    ((ob1.orders maker).Status = OrderStatusFilled ∧
      (ob1.opp buy).length + 1 = (ob.opp buy).length) ∨
    ((ob1.orders maker).Status ≠ OrderStatusFilled ∧ ob1.opp buy = ob.opp buy) := by
  rcases hf.pop with ⟨hfl, e, he⟩ | ⟨hnf, he⟩
  · left
    refine ⟨hfl, ?_⟩
    have := (heapPop_inv he).2.1.length_eq
    simpa using this
  · right
    refine ⟨hnf, ?_⟩
    have : ({ entries := ob1.entries, h := ob1.opp buy } : HeapMem).h =
        ({ entries := ob.entries, h := ob.opp buy } : HeapMem).h := by rw [he]
    exact this

theorem matchLoop_total {buy : Bool} {p N : Nat} {price : F64} (hp : N ≤ p) :
    ∀ (fuel : Nat) (s : OrderBook) (ms : List MatchResult), BookInv s N →
      ((s.orders p).Side = SideBuy ↔ buy = true) →
      (∀ e ∈ s.opp buy, 0 ≤ (s.orders (s.entries e).Order).FilledBase) →
      0 ≤ (s.orders p).FilledBase →
      ((s.opp buy).length + 1 ≤ fuel ∨ (¬ 0 < (s.orders p).RemainingBase ∧ 1 ≤ fuel)) →
      ∃ r, matchLoop (sideStep buy p price) fuel s ms = some r := by
  intro fuel
  induction fuel with
  | zero => intro s ms _ _ _ _ hfu; omega
  | succ fuel ih =>
    intro s ms hinv hside hF hFp hfu
    obtain ⟨r, hr⟩ := @sideStep_total buy s N p price hinv hside hF hFp
    unfold matchLoop
    rw [hr]
    cases r with
    | exit => exact ⟨_, rfl⟩
    | fill s1 m =>
      simp only []
      obtain ⟨maker, hf⟩ := sideStep_facts hr
      have hpm : p ≠ maker := by have := hf.maker_lt hinv; omega
      have hsh := hf.fill_shrink
      have hle : ∀ a, (s.orders a).FilledBase ≤ (s1.orders a).FilledBase := by
        intro a; rw [hf.orders]; exact applyFill_filled_le (le_of_lt hf.fill_pos) a
      apply ih s1 (ms ++ [m]) (hinv.fill hp hf)
      · rw [(frozen_fields (hsh.frozen p)).2.1]; exact hside
      · intro e he
        have he0 := hsh.opp buy e he
        rw [hsh.order e]
        exact le_trans (hF e he0) (hle _)
      · exact le_trans hFp (hle p)
      · obtain ⟨top, rest, htop, _⟩ := hf.top
        have hlen : 1 ≤ (s.opp buy).length := by rw [htop]; simp
        have hfuel : (s.opp buy).length + 1 ≤ fuel + 1 := by
          rcases hfu with h | ⟨h, _⟩
          · exact h
          · exact absurd hf.rem_pos h
        rcases hf.opp_length with ⟨_, hl⟩ | ⟨hnf, _⟩
        · left; omega
        · right
          refine ⟨?_, by omega⟩
          rw [hf.taker_done hpm hnf]
          decide

theorem price_isSome_of_ne (o : Order) (h : o.AmountSell ≠ 0 ∨ o.AmountBuy ≠ 0) :
    ∃ price, o.Price = some price := by
  unfold Order.Price quoFloat64
  split <;> split <;> split <;> first
    | exact ⟨_, rfl⟩
    | (exfalso; rcases h with h | h <;> contradiction)

theorem AddOrder_total {ob : OrderBook} {N p : Nat} (h : BookInv ob N) (hp : N ≤ p)
    (hpr : ∃ price, (ob.orders p).Price = some price)
    (hF : ∀ e ∈ ob.buys ++ ob.sells, 0 ≤ (ob.orders (ob.entries e).Order).FilledBase)
    (hFp : 0 ≤ (ob.orders p).FilledBase) : ∃ r, AddOrder ob p = some r := by
  obtain ⟨price, hprice⟩ := hpr
  have hloop : ∃ r, matchLoop (sideStep (decide ((ob.orders p).Side = SideBuy)) p price)
      ((ob.opp (decide ((ob.orders p).Side = SideBuy))).length + 1) ob [] = some r :=
    matchLoop_total hp _ ob [] h (by simp)
      (fun e he => hF e ((mem_resting ob _ e).mpr (Or.inr he))) hFp (Or.inl (le_refl _))
  obtain ⟨⟨ob1, ms⟩, hr⟩ := hloop
  obtain ⟨tr, hrun, _⟩ := matchLoop_run _ _ _ _ _ hr
  have hinv1 := (BookInv.matchRun hrun hp h).1
  have hsh := (MatchRun.facts hrun).1
  have hrest : ∃ ob2, restOrder ob1 p = some ob2 := by
    apply restOrder_total
    · exact ⟨price, by rw [frozen_price (hsh.frozen p)]; exact hprice⟩
    · intro e he
      exact (hinv1.ownInv _).priced e he
  obtain ⟨ob2, hob2⟩ := hrest
  unfold AddOrder
  by_cases hb : (ob.orders p).Side = SideBuy
  · simp only [hb, decide_True, sideStep_true, OrderBook.opp, if_true] at hr
    simp only [if_pos hb, matchBuy, hprice, hr, hob2]
    exact ⟨_, rfl⟩
  · simp only [hb, decide_False, sideStep_false, OrderBook.opp, Bool.false_eq_true,
      if_false] at hr
    simp only [if_neg hb, matchSell, hprice, hr, hob2]
    exact ⟨_, rfl⟩

/-! ## The shape of a run of the matching loop -/

/-- A fill writes the incoming order and the resting order on top, nothing else. -/
theorem FillFacts.frame_off {ob ob1 : OrderBook} {p maker : Nat} {buy : Bool} {m : MatchResult}
    (hf : FillFacts ob buy p ob1 m maker) (a : Nat) (ha : a ≠ p)
    (hnr : ∀ e ∈ ob.opp buy, (ob.entries e).Order ≠ a) : ob1.orders a = ob.orders a := by
  obtain ⟨top, rest, htop, hmk⟩ := hf.top
  have hne : a ≠ maker := fun h => hnr top (by rw [htop]; exact List.mem_cons_self _ _)
    (by rw [hmk, h])
  rw [hf.orders]
  exact applyFill_other ha hne

theorem MatchRun.frame_run {buy : Bool} {p : Nat} {price : F64} {ob ob1 : OrderBook}
    {tr : List (OrderBook × MatchResult)} (hrun : MatchRun (sideStep buy p price) ob tr ob1)
    (a : Nat) (ha : a ≠ p) :
    (∀ e ∈ ob.opp buy, (ob.entries e).Order ≠ a) → ob1.orders a = ob.orders a := by
  induction hrun with
  | exit _ => intro _; rfl
  | @fill s s1 s2 m tr hst _ ih =>
    intro hnr
    obtain ⟨maker, hf⟩ := sideStep_facts hst
    rw [ih (fun e he => by
      rw [hf.fill_shrink.order e]; exact hnr e (hf.fill_shrink.opp buy e he)),
      hf.frame_off a ha hnr]

theorem MatchRun.nil_of_done {buy : Bool} {p : Nat} {price : F64} {ob ob1 : OrderBook}
    {tr : List (OrderBook × MatchResult)} (hrun : MatchRun (sideStep buy p price) ob tr ob1)
    (hd : ¬ 0 < (ob.orders p).RemainingBase) : tr = [] ∧ ob1 = ob := by
  cases hrun with
  | exit _ => exact ⟨rfl, rfl⟩
  | fill hst _ =>
    obtain ⟨maker, hf⟩ := sideStep_facts hst
    exact absurd hf.rem_pos hd

theorem MatchRun.shape {buy : Bool} {p N : Nat} {price : F64} {ob ob1 : OrderBook}
    {tr : List (OrderBook × MatchResult)} (hrun : MatchRun (sideStep buy p price) ob tr ob1)
    (hp : N ≤ p) : BookInv ob N →
    tr.length ≤ (ob.opp buy).length ∧
    (∀ i sm, tr[i]? = some sm → i + 1 < tr.length →
      (ob1.orders (sm.2.maker buy)).Status = OrderStatusFilled) ∧
    ((∀ sm ∈ tr, (ob1.orders (sm.2.maker buy)).Status = OrderStatusFilled) ∨
      (ob1.orders p).RemainingBase = 0) := by
  induction hrun with
  | exit _ => intro _; exact ⟨by simp, by simp, Or.inl (by simp)⟩
  | @fill s s1 s2 m tr hst hrest ih =>
    intro hinv
    obtain ⟨maker, hf⟩ := sideStep_facts hst
    have hinv1 := hinv.fill hp hf
    have hpm : p ≠ maker := by have := hf.maker_lt hinv; omega
    have hmk : m.maker buy = maker := hf.maker_eq
    obtain ⟨top, rest, htop, _⟩ := hf.top
    have hlen : 1 ≤ (s.opp buy).length := by rw [htop]; simp
    rcases hf.opp_length with ⟨hfl, hl⟩ | ⟨hnf, _⟩
    · obtain ⟨iA, iB, iC⟩ := ih hinv1
      have keep : (s2.orders maker).Status = OrderStatusFilled := by
        rw [hrest.frame_run maker (Ne.symm hpm) (fun e he hc => by
          have := (hinv1.live e ((mem_resting s1 buy e).mpr (Or.inr he))).2
          rw [hc] at this
          exact this hfl)]
        exact hfl
      refine ⟨by simp only [List.length_cons]; omega, ?_, ?_⟩
      · intro i sm hi hlt
        cases i with
        | zero =>
          simp only [List.getElem?_cons_zero, Option.some.injEq] at hi
          subst hi
          simp only [hmk]
          exact keep
        | succ i =>
          simp only [List.getElem?_cons_succ] at hi
          simp only [List.length_cons] at hlt
          exact iB i sm hi (by omega)
      · rcases iC with h | h
        · left
          intro sm hsm
          rcases List.mem_cons.mp hsm with rfl | hsm
          · simp only [hmk]; exact keep
          · exact h sm hsm
        · exact Or.inr h
    · have hdone := hf.taker_done hpm hnf
      obtain ⟨e1, e2⟩ := hrest.nil_of_done (by rw [hdone]; decide)
      subst e1
      subst e2
      refine ⟨by simpa using hlen, ?_, Or.inr hdone⟩
      intro i sm _ hlt
      simp only [List.length_cons, List.length_nil] at hlt
      omega

/-- Every match of a run references the incoming order and its resting order. -/
theorem MatchRun.refs {buy : Bool} {p : Nat} {price : F64} {ob ob1 : OrderBook}
    {tr : List (OrderBook × MatchResult)} (hrun : MatchRun (sideStep buy p price) ob tr ob1) :
    ∀ sm ∈ tr, ∀ a, fillOf a sm.2 ≠ 0 → a = p ∨ a = sm.2.maker buy := by
  intro sm hsm a hne
  obtain ⟨_, s1, hst⟩ := (MatchRun.facts hrun).2 sm hsm
  obtain ⟨maker, hf⟩ := sideStep_facts hst
  rw [hf.fillOf_eq a] at hne
  rw [hf.maker_eq]
  by_contra hc
  exact hne (if_neg hc)

/-! ## What one `AddOrder` leaves behind -/

theorem filledSum_ne_zero {l : List MatchResult} {a : Nat} (h : filledSum l a ≠ 0) :
    ∃ m ∈ l, fillOf a m ≠ 0 := by
  induction l with
  | nil => exact absurd rfl h
  | cons m l ih =>
    rw [filledSum_cons] at h
    by_cases h0 : fillOf a m = 0
    · rw [h0, zero_add] at h
      obtain ⟨x, hx, hne⟩ := ih h
      exact ⟨x, List.mem_cons_of_mem _ hx, hne⟩
    · exact ⟨m, List.mem_cons_self _ _, h0⟩

theorem AddOrder_filled_le {ob ob2 : OrderBook} {p : Nat} {ms : List MatchResult}
    (ha : AddOrder ob p = some (ob2, ms)) (a : Nat) :
    (ob.orders a).FilledBase ≤ (ob2.orders a).FilledBase := by
  obtain ⟨price, ob1, tr, _, hrun, _, hrest⟩ := AddOrder_inv ha
  rw [restOrder_orders hrest]
  exact (MatchRun.filled_le hrun).1 a

/-- The incoming order rests after `AddOrder` only with something remaining. -/
theorem restOrder_rests {ob ob2 : OrderBook} {N p : Nat} (h : BookInv ob N) (hp : N ≤ p)
    (hr : restOrder ob p = some ob2)
    (hin : ∃ e ∈ ob2.buys ++ ob2.sells, (ob2.entries e).Order = p) :
    0 < (ob.orders p).RemainingBase := by
  rcases restOrder_inv hr with ⟨_, he⟩ | ⟨hc, _⟩
  · subst he
    obtain ⟨e, he, hep⟩ := hin
    have := h.bound e he
    omega
  · exact hc.1

theorem AddOrder_shape {ob ob2 : OrderBook} {N p : Nat} {ms : List MatchResult}
    (h : BookInv ob N) (hp : N ≤ p) (ha : AddOrder ob p = some (ob2, ms)) :
    ms.length ≤ (ob.opp (decide ((ob.orders p).Side = SideBuy))).length ∧
    (∀ i m, ms[i]? = some m → i + 1 < ms.length →
      (ob2.orders (m.maker (decide ((ob.orders p).Side = SideBuy)))).Status = OrderStatusFilled ∧
      ∀ e ∈ ob2.buys ++ ob2.sells,
        (ob2.entries e).Order ≠ m.maker (decide ((ob.orders p).Side = SideBuy))) ∧
    (∀ a b, (∃ e ∈ ob2.buys ++ ob2.sells, (ob2.entries e).Order = a) →
      (∃ e ∈ ob2.buys ++ ob2.sells, (ob2.entries e).Order = b) →
      (ob2.orders a).FilledBase ≠ (ob.orders a).FilledBase →
      (ob2.orders b).FilledBase ≠ (ob.orders b).FilledBase → a = b) := by
  obtain ⟨price, ob1, tr, hprice, hrun, hms, hrest⟩ := AddOrder_inv ha
  obtain ⟨iA, iB, iC⟩ := hrun.shape hp h
  have hinv1 := (BookInv.matchRun hrun hp h).1
  have hinv2 := h.addOrder hp ha
  have hord : ob2.orders = ob1.orders := restOrder_orders hrest
  have hacc := (AddOrder_accounts h hp ha).2.1
  have hlenms : ms.length = tr.length := by rw [hms, List.length_map]
  -- a resting order is not `Filled`
  have hlive : ∀ a, (∃ e ∈ ob2.buys ++ ob2.sells, (ob2.entries e).Order = a) →
      (ob2.orders a).Status ≠ OrderStatusFilled := by
    rintro a ⟨e, he, rfl⟩
    exact (hinv2.live e he).2
  -- an order that this call filled and that rests is the incoming one or the last maker
  have cls : ∀ a, (∃ e ∈ ob2.buys ++ ob2.sells, (ob2.entries e).Order = a) →
      (ob2.orders a).FilledBase ≠ (ob.orders a).FilledBase →
      a = p ∨ ∃ i sm, tr[i]? = some sm ∧
        a = sm.2.maker (decide ((ob.orders p).Side = SideBuy)) ∧ i + 1 = tr.length := by
    intro a hin hne
    have hs : filledSum ms a ≠ 0 := by
      intro hc
      apply hne
      rw [hacc a, hc, add_zero]
    obtain ⟨m, hm, hfo⟩ := filledSum_ne_zero hs
    rw [hms] at hm
    obtain ⟨sm, hsm, rfl⟩ := List.mem_map.mp hm
    rcases hrun.refs sm hsm a hfo with h1 | h1
    · exact Or.inl h1
    · right
      obtain ⟨i, hi⟩ := List.getElem?_of_mem hsm
      have hlt : i < tr.length := by
        by_contra hc
        rw [List.getElem?_eq_none (not_lt.mp hc)] at hi
        exact absurd hi (by simp)
      refine ⟨i, sm, hi, h1, ?_⟩
      by_contra hc
      have hF := iB i sm hi (by omega)
      rw [← hord, ← h1] at hF
      exact hlive a hin hF
  refine ⟨by rw [hlenms]; exact iA, ?_, ?_⟩
  · intro i m hi hlt
    rw [hms, List.getElem?_map] at hi
    obtain ⟨sm, hsm, rfl⟩ := Option.map_eq_some'.mp hi
    have hF := iB i sm hsm (by rw [← hlenms]; exact hlt)
    rw [← hord] at hF
    refine ⟨hF, ?_⟩
    intro e he hc
    have := (hinv2.live e he).2
    rw [hc] at this
    exact this hF
  · -- the incoming order rests only when every maker is `Filled`
    have pcase : (∃ e ∈ ob2.buys ++ ob2.sells, (ob2.entries e).Order = p) →
        ∀ sm ∈ tr, (ob2.orders (sm.2.maker (decide ((ob.orders p).Side = SideBuy)))).Status =
          OrderStatusFilled := by
      intro hin
      have hrem := restOrder_rests hinv1 hp hrest hin
      rcases iC with hC | hC
      · intro sm hsm; rw [hord]; exact hC sm hsm
      · omega
    intro a b hina hinb hna hnb
    rcases cls a hina hna with ha1 | ⟨i, sm, hi, ha1, hl⟩ <;>
      rcases cls b hinb hnb with hb1 | ⟨j, sn, hj, hb1, hl2⟩
    · rw [ha1, hb1]
    · exfalso
      have := pcase (ha1 ▸ hina) sn (List.getElem?_mem hj)
      rw [← hb1] at this
      exact hlive b hinb this
    · exfalso
      have := pcase (hb1 ▸ hinb) sm (List.getElem?_mem hi)
      rw [← ha1] at this
      exact hlive a hina this
    · have hij : i = j := by omega
      subst hij
      rw [hi] at hj
      have := Option.some.inj hj
      rw [ha1, hb1, this]

/-! ## Sequences of calls: nonnegative fills, and every call returns -/

theorem World.step_nonneg {u v : World} {c : Call}
    (hnn : ∀ a, a < u.next → 0 ≤ (u.ob.orders a).FilledBase)
    (hc : ∀ o, c = .add o → 0 ≤ o.FilledBase) (hs : u.step c = some v) :
    ∀ a, a < v.next → 0 ≤ (v.ob.orders a).FilledBase := by
  cases c with
  | add o =>
    obtain ⟨ms, ha, hn, _⟩ := World.step_add_inv hs
    intro a hlt
    refine le_trans ?_ (AddOrder_filled_le ha a)
    simp only []
    by_cases hau : a = u.next
    · subst hau
      rw [Function.update_same]
      exact hc o rfl
    · rw [Function.update_noteq hau]
      exact hnn a (by omega)
  | cancel id =>
    obtain ⟨r, hcn, hn, _⟩ := World.step_cancel_inv hs
    intro a hlt
    rw [(CancelOrder_orders hcn a).2.1]
    exact hnn a (by omega)

/-- After calls that add orders with `0 ≤ FilledBase`, the book satisfies its invariant
and no order has a negative `FilledBase`. -/
theorem World.reach_nonneg {orders : Nat → Order} {cs : List Call} {w : World}
    (hcs : ∀ o, Call.add o ∈ cs → 0 ≤ o.FilledBase)
    (h : (World.init orders).run cs = some w) :
    BookInv w.ob w.next ∧ ∀ a, a < w.next → 0 ≤ (w.ob.orders a).FilledBase := by
  refine @World.run_induct (fun u => BookInv u.ob u.next ∧
    ∀ a, a < u.next → 0 ≤ (u.ob.orders a).FilledBase) _ _ cs ?_ ?_ h
  · intro u v c hc ⟨hinv, hnn⟩ hstep
    exact ⟨World.step_inv hinv hstep,
      World.step_nonneg hnn (fun o ho => hcs o (ho ▸ hc)) hstep⟩
  · exact ⟨World.init_inv orders, fun a ha => absurd ha (by simp [World.init])⟩

/-- The divisors of the resting orders: a resting sell has `AmountSell > 0`, a resting
buy has `AmountBuy > 0`. -/
theorem BookInv.divisors {ob : OrderBook} {N : Nat} (h : BookInv ob N)
    (hnn : ∀ a, a < N → 0 ≤ (ob.orders a).FilledBase) :
    (∀ e ∈ ob.sells, 0 < (ob.orders (ob.entries e).Order).AmountSell) ∧
    (∀ e ∈ ob.buys, 0 < (ob.orders (ob.entries e).Order).AmountBuy) := by
  constructor
  · intro e he
    have hside : (ob.orders (ob.entries e).Order).Side ≠ SideBuy := fun hc =>
      absurd ((h.sells.side e he).mp hc) (by decide)
    exact sell_amount_pos hside (h.live e (List.mem_append_right _ he)).1
      (hnn _ (h.sells.bound e he))
  · intro e he
    have hside : (ob.orders (ob.entries e).Order).Side = SideBuy := (h.buys.side e he).mpr rfl
    exact buy_amount_pos hside (h.live e (List.mem_append_left _ he)).1
      (hnn _ (h.buys.bound e he))

/-- `AddOrder` of a new order returns. -/
theorem World.add_total {w : World} (hinv : BookInv w.ob w.next)
    (hnn : ∀ a, a < w.next → 0 ≤ (w.ob.orders a).FilledBase) (o : Order)
    (ho : o.AmountSell ≠ 0 ∨ o.AmountBuy ≠ 0) (hF : 0 ≤ o.FilledBase) :
    ∃ r, AddOrder { w.ob with orders := Function.update w.ob.orders w.next o } w.next =
      some r := by
  apply AddOrder_total (hinv.alloc o) (le_refl _)
  · simp only [Function.update_same]
    exact price_isSome_of_ne o ho
  · intro e he
    simp only [] at he ⊢
    have hlt := hinv.bound e he
    rw [Function.update_noteq (by omega)]
    exact hnn _ hlt
  · simp only [Function.update_same]
    exact hF

theorem World.step_total {w : World} (hinv : BookInv w.ob w.next)
    (hnn : ∀ a, a < w.next → 0 ≤ (w.ob.orders a).FilledBase) (c : Call)
    (hc : ∀ o, c = .add o → (o.AmountSell ≠ 0 ∨ o.AmountBuy ≠ 0) ∧ 0 ≤ o.FilledBase) :
    ∃ v, w.step c = some v := by
  cases c with
  | add o =>
    obtain ⟨⟨ob1, ms⟩, hr⟩ := World.add_total hinv hnn o (hc o rfl).1 (hc o rfl).2
    exact ⟨{ ob := ob1, next := w.next + 1, trades := w.trades ++ ms },
      by simp only [World.step, hr]⟩
  | cancel id =>
    obtain ⟨⟨ob1, r⟩, hr⟩ := CancelOrder_total hinv id
    exact ⟨{ w with ob := ob1 }, by simp only [World.step, hr]⟩

/-! ## The book does not rest crossed -/

theorem MatchRun.exit_end {step : OrderBook → Option LoopStep} {ob ob1 : OrderBook}
    {tr : List (OrderBook × MatchResult)} (hrun : MatchRun step ob tr ob1) :
    step ob1 = some .exit := by
  induction hrun with
  | exit h => exact h
  | fill _ _ ih => exact ih

theorem heapKey_fst_le {isBuy : Bool} {a b : Order} (h : heapKey isBuy a ≤ heapKey isBuy b) :
    if isBuy then b.priceD ≤ a.priceD else a.priceD ≤ b.priceD := by
  unfold heapKey at h
  rw [Prod.Lex.le_iff] at h
  simp only [ofLex_toLex] at h
  cases isBuy
  · simp only [Bool.false_eq_true, if_false] at h ⊢
    rcases h with h | ⟨h, _⟩
    · exact le_of_lt h
    · exact le_of_eq h
  · simp only [if_true] at h ⊢
    rcases h with h | ⟨h, _⟩
    · exact le_of_lt (neg_lt_neg_iff.mp h)
    · exact le_of_eq (neg_inj.mp h).symm

theorem matchBuyStep_exit_inv {s : OrderBook} {N p : Nat} {price : F64} (h : BookInv s N)
    (hex : matchBuyStep s p price = some .exit) (hrem : 0 < (s.orders p).RemainingBase) :
    ∀ e ∈ s.sells, price < (s.orders (s.entries e).Order).priceD := by
  unfold matchBuyStep at hex
  split at hex
  · rename_i hs
    intro e he
    rw [hs] at he
    exact absurd he (List.not_mem_nil _)
  · rename_i top rest hs
    have htop : top ∈ s.sells := by rw [hs]; exact List.mem_cons_self _ _
    rw [if_neg (not_not.mpr hrem)] at hex
    obtain ⟨sp, hsp⟩ := h.sells.priced top htop
    simp only [OrderBook.sellHeap] at hsp
    simp only [hsp] at hex
    split at hex
    · rename_i hlt
      intro e he
      have hroot := h.book_root_le true (by simpa [OrderBook.opp] using hs) e
        (by simpa [OrderBook.opp] using he)
      have := heapKey_fst_le hroot
      simp only [Bool.not_true, Bool.false_eq_true, if_false, priceD_of_some hsp] at this
      exact lt_of_lt_of_le hlt this
    · exfalso
      have hlive := (h.live top (List.mem_append_right _ htop)).1
      split at hex
      · rename_i hfill
        rw [minBigInt_eq_min] at hfill
        have := lt_min hrem hlive
        omega
      · split at hex
        · exact absurd hex (by simp)
        · split at hex
          · split at hex
            · exact absurd hex (by simp)
            · simp at hex
          · simp at hex

theorem matchSellStep_exit_inv {s : OrderBook} {N p : Nat} {price : F64} (h : BookInv s N)
    (hex : matchSellStep s p price = some .exit) (hrem : 0 < (s.orders p).RemainingBase) :
    ∀ e ∈ s.buys, (s.orders (s.entries e).Order).priceD < price := by
  unfold matchSellStep at hex
  split at hex
  · rename_i hs
    intro e he
    rw [hs] at he
    exact absurd he (List.not_mem_nil _)
  · rename_i top rest hs
    have htop : top ∈ s.buys := by rw [hs]; exact List.mem_cons_self _ _
    rw [if_neg (not_not.mpr hrem)] at hex
    obtain ⟨bp, hbp⟩ := h.buys.priced top htop
    simp only [OrderBook.buyHeap] at hbp
    simp only [hbp] at hex
    split at hex
    · rename_i hlt
      intro e he
      have hroot := h.book_root_le false (by simpa [OrderBook.opp] using hs) e
        (by simpa [OrderBook.opp] using he)
      have := heapKey_fst_le hroot
      simp only [Bool.not_false, if_true, priceD_of_some hbp] at this
      exact lt_of_le_of_lt this hlt
    · exfalso
      have hlive := (h.live top (List.mem_append_left _ htop)).1
      split at hex
      · rename_i hfill
        rw [minBigInt_eq_min] at hfill
        have := lt_min hrem hlive
        omega
      · split at hex
        · exact absurd hex (by simp)
        · split at hex
          · split at hex
            · exact absurd hex (by simp)
            · simp at hex
          · simp at hex

theorem sideStep_exit_inv {buy : Bool} {s : OrderBook} {N p : Nat} {price : F64}
    (h : BookInv s N) (hex : sideStep buy p price s = some .exit)
    (hrem : 0 < (s.orders p).RemainingBase) :
    ∀ e ∈ s.opp buy, outOfReach buy price (s.orders (s.entries e).Order).priceD := by
  cases buy with
  | true =>
    rw [sideStep_true] at hex
    simpa [OrderBook.opp, outOfReach] using matchBuyStep_exit_inv h hex hrem
  | false =>
    rw [sideStep_false] at hex
    simpa [OrderBook.opp, outOfReach] using matchSellStep_exit_inv h hex hrem

theorem uncrossed_iff (ob : OrderBook) (buy : Bool) :
    Uncrossed ob ↔ ∀ e1 ∈ ob.own buy, ∀ e2 ∈ ob.opp buy,
      outOfReach buy (ob.orders (ob.entries e1).Order).priceD
        (ob.orders (ob.entries e2).Order).priceD := by
  cases buy
  · simp only [Uncrossed, OrderBook.own, OrderBook.opp, outOfReach, Bool.false_eq_true, if_false]
    exact ⟨fun h e1 h1 e2 h2 => h e2 h2 e1 h1, fun h b hb s hs => h s hs b hb⟩
  · simp only [Uncrossed, OrderBook.own, OrderBook.opp, outOfReach, if_true]

theorem priceD_frozen {o o1 : Order} (h : o1.frozen = o.frozen) : o1.priceD = o.priceD := by
  unfold Order.priceD
  rw [frozen_price h]

theorem BookShrink.uncrossed {ob s : OrderBook} (h : BookShrink ob s) (hu : Uncrossed ob) :
    Uncrossed s := by
  intro b hb x hx
  rw [h.order b, h.order x, priceD_frozen (h.frozen _), priceD_frozen (h.frozen _)]
  exact hu b (h.buys.subset hb) x (h.sells.subset hx)

/-! ## `AddOrder` and `CancelOrder` keep the book uncrossed -/

theorem AddOrder_uncrossed {ob ob2 : OrderBook} {N p : Nat} {ms : List MatchResult}
    (h : BookInv ob N) (hp : N ≤ p) (hu : Uncrossed ob) (ha : AddOrder ob p = some (ob2, ms)) :
    Uncrossed ob2 := by
  obtain ⟨price, ob1, tr, hprice, hrun, hms, hrest⟩ := AddOrder_inv ha
  have hsh := (MatchRun.facts hrun).1
  have hinv1 := (BookInv.matchRun hrun hp h).1
  have hu1 := hsh.uncrossed hu
  rcases restOrder_inv hrest with ⟨_, rfl⟩ | ⟨hc, hm, hpush, ho, he, hown, hopp, hmap⟩
  · exact hu1
  · have hside : (ob1.orders p).Side = (ob.orders p).Side := (frozen_fields (hsh.frozen p)).2.1
    rw [hside] at hpush hown hopp
    generalize hb : decide ((ob.orders p).Side = SideBuy) = buy at hrun hpush hown hopp
    have hreach := sideStep_exit_inv hinv1 hrun.exit_end hc.1
    obtain ⟨hperm, hordE, -⟩ := heapPush_inv hpush
    have hfresh := newEntry_fresh ob1
    have hne : ∀ e ∈ ob1.buys ++ ob1.sells, e ≠ ob1.newEntry := by
      intro e he1 heq
      subst heq
      rcases List.mem_append.mp he1 with h1 | h1
      · exact hfresh.1 h1
      · exact hfresh.2.1 h1
    have hold : ∀ e ∈ ob1.buys ++ ob1.sells, (ob2.entries e).Order = (ob1.entries e).Order := by
      intro e he1
      rw [he, hordE]
      simp only [Function.update_noteq (hne e he1)]
    have hnew : (ob2.entries ob1.newEntry).Order = p := by
      rw [he, hordE]
      simp
    have hpd : (ob1.orders p).priceD = price :=
      priceD_of_some (by rw [frozen_price (hsh.frozen p)]; exact hprice)
    rw [uncrossed_iff ob2 buy]
    intro e1 h1 e2 h2
    rw [hown, hperm.mem_iff, List.mem_cons] at h1
    rw [hopp] at h2
    rw [ho, hold e2 ((mem_resting ob1 buy e2).mpr (Or.inr h2))]
    rcases h1 with rfl | h1
    · rw [hnew, hpd]
      exact hreach e2 h2
    · rw [hold e1 ((mem_resting ob1 buy e1).mpr (Or.inl h1))]
      exact (uncrossed_iff ob1 buy).mp hu1 e1 h1 e2 h2

theorem CancelOrder_uncrossed {ob ob1 : OrderBook} {N : Nat} {id : String} {r : Option Nat}
    (h : BookInv ob N) (hu : Uncrossed ob) (hc : CancelOrder ob id = some (ob1, r)) :
    Uncrossed ob1 := by
  cases hg : mapGet ob.orderMap id with
  | none =>
    rw [CancelOrder_miss hg] at hc
    simp only [Option.some.injEq, Prod.mk.injEq] at hc
    rw [← hc.1]
    exact hu
  | some entry =>
    obtain ⟨ob1x, hcx, -, -, hordE, hperm, hopp, -⟩ := CancelOrder_hit h hg
    rw [hcx] at hc
    simp only [Option.some.injEq, Prod.mk.injEq] at hc
    obtain ⟨rfl, -⟩ := hc
    generalize decide ((ob.orders (ob.entries entry).Order).Side = SideBuy) = buy at hperm hopp
    rw [uncrossed_iff ob1x buy]
    intro e1 h1 e2 h2
    rw [hordE, hordE, priceD_frozen (CancelOrder_orders hcx _).1,
      priceD_frozen (CancelOrder_orders hcx _).1]
    rw [hopp] at h2
    exact (uncrossed_iff ob buy).mp hu e1 (hperm.subset (List.mem_cons_of_mem _ h1)) e2 h2

theorem Uncrossed.uncrossed_alloc {ob : OrderBook} {N : Nat} (h : BookInv ob N) (hu : Uncrossed ob)
    (o : Order) : Uncrossed { ob with orders := Function.update ob.orders N o } := by
  intro b hb s hs
  simp only [] at hb hs ⊢
  have h1 := h.buys.bound b hb
  have h2 := h.sells.bound s hs
  simp only [OrderBook.buyHeap, OrderBook.sellHeap] at h1 h2
  rw [Function.update_noteq (by omega), Function.update_noteq (by omega)]
  exact hu b hb s hs

theorem World.step_uncrossed {u v : World} {c : Call} (hinv : BookInv u.ob u.next)
    (hu : Uncrossed u.ob) (hs : u.step c = some v) : Uncrossed v.ob := by
  cases c with
  | add o =>
    obtain ⟨ms, ha, _, _⟩ := World.step_add_inv hs
    exact AddOrder_uncrossed (hinv.alloc o) (le_refl _) (hu.uncrossed_alloc hinv o) ha
  | cancel id =>
    obtain ⟨r, hcn, _, _⟩ := World.step_cancel_inv hs
    exact CancelOrder_uncrossed hinv hu hcn

theorem World.reach_uncrossed {orders : Nat → Order} {cs : List Call} {w : World}
    (h : (World.init orders).run cs = some w) : BookInv w.ob w.next ∧ Uncrossed w.ob := by
  refine @World.run_induct (fun u => BookInv u.ob u.next ∧ Uncrossed u.ob) _ _ cs ?_ ?_ h
  · intro u v c _ ⟨hinv, hu⟩ hstep
    exact ⟨World.step_inv hinv hstep, World.step_uncrossed hinv hu hstep⟩
  · refine ⟨World.init_inv orders, ?_⟩
    intro b hb
    simp [World.init, NewOrderBook] at hb

/-- A sequence of calls whose orders have a price and a nonnegative `FilledBase` returns. -/
theorem World.run_total : ∀ (cs : List Call) (w : World), BookInv w.ob w.next →
    (∀ a, a < w.next → 0 ≤ (w.ob.orders a).FilledBase) →
    (∀ o, Call.add o ∈ cs → (o.AmountSell ≠ 0 ∨ o.AmountBuy ≠ 0) ∧ 0 ≤ o.FilledBase) →
    ∃ w1, w.run cs = some w1 := by
  intro cs
  induction cs with
  | nil => intro w _ _ _; exact ⟨w, rfl⟩
  | cons c cs ih =>
    intro w hinv hnn hcs
    obtain ⟨v, hv⟩ := World.step_total hinv hnn c
      (fun o ho => hcs o (by rw [ho]; exact List.mem_cons_self _ _))
    obtain ⟨w1, hw1⟩ := ih v (World.step_inv hinv hv)
      (World.step_nonneg hnn (fun o ho =>
        (hcs o (by rw [ho]; exact List.mem_cons_self _ _)).2) hv)
      (fun o ho => hcs o (List.mem_cons_of_mem _ ho))
    exact ⟨w1, by simp only [World.run, hv, hw1]⟩

/-! ## The status a fill leaves, and the orders a match refers to -/

theorem updateOrderStatus_idem (o : Order) :
    updateOrderStatus (updateOrderStatus o) = updateOrderStatus o := by
  by_cases h1 : o.RemainingBase ≤ 0
  · have e : updateOrderStatus o = { o with Status := OrderStatusFilled } := by
      unfold updateOrderStatus; rw [if_pos h1]
    rw [e]
    have h1x : ({ o with Status := OrderStatusFilled } : Order).RemainingBase ≤ 0 := h1
    unfold updateOrderStatus
    rw [if_pos h1x]
  · by_cases h2 : 0 < o.FilledBase
    · have e : updateOrderStatus o = { o with Status := OrderStatusPartiallyFilled } := by
        unfold updateOrderStatus; rw [if_neg h1, if_pos h2]
      rw [e]
      have h1x : ¬ ({ o with Status := OrderStatusPartiallyFilled } : Order).RemainingBase ≤ 0 :=
        h1
      have h2x : 0 < ({ o with Status := OrderStatusPartiallyFilled } : Order).FilledBase := h2
      unfold updateOrderStatus
      rw [if_neg h1x, if_pos h2x]
    · have e : updateOrderStatus o = o := by
        unfold updateOrderStatus; rw [if_neg h1, if_neg h2]
      rw [e, e]

theorem FillFacts.fill_fixed {ob ob1 : OrderBook} {p maker : Nat} {buy : Bool} {m : MatchResult}
    (hf : FillFacts ob buy p ob1 m maker) (hpm : p ≠ maker) (a : Nat)
    (h : fillOf a m ≠ 0 ∨ updateOrderStatus (ob.orders a) = ob.orders a) :
    updateOrderStatus (ob1.orders a) = ob1.orders a := by
  rw [hf.orders]
  by_cases h1 : a = p
  · subst h1
    rw [applyFill_taker hpm, updateOrderStatus_idem]
  · by_cases h2 : a = maker
    · subst h2
      rw [applyFill_maker hpm, updateOrderStatus_idem]
    · rw [applyFill_other h1 h2]
      rcases h with h | h
      · rw [hf.fillOf_eq a, if_neg (by tauto)] at h
        exact absurd rfl h
      · exact h

theorem MatchRun.run_fixed {buy : Bool} {p N : Nat} {price : F64} {ob ob1 : OrderBook}
    {tr : List (OrderBook × MatchResult)} (hrun : MatchRun (sideStep buy p price) ob tr ob1)
    (hp : N ≤ p) (a : Nat) : BookInv ob N →
    ((∃ sm ∈ tr, fillOf a sm.2 ≠ 0) ∨ updateOrderStatus (ob.orders a) = ob.orders a) →
    updateOrderStatus (ob1.orders a) = ob1.orders a := by
  induction hrun with
  | exit _ =>
    intro _ h
    rcases h with ⟨sm, hsm, _⟩ | h
    · exact absurd hsm (List.not_mem_nil _)
    · exact h
  | @fill s s1 s2 m tr hst _ ih =>
    intro hinv h
    obtain ⟨maker, hf⟩ := sideStep_facts hst
    have hpm : p ≠ maker := by have := hf.maker_lt hinv; omega
    apply ih (hinv.fill hp hf)
    rcases h with ⟨sm, hsm, hne⟩ | h
    · rcases List.mem_cons.mp hsm with rfl | hsm
      · exact Or.inr (hf.fill_fixed hpm a (Or.inl hne))
      · exact Or.inl ⟨sm, hsm, hne⟩
    · exact Or.inr (hf.fill_fixed hpm a (Or.inr h))

/-- A resting order that `AddOrder` has filled in part is `PartiallyFilled`. -/
theorem AddOrder_partly {ob ob2 : OrderBook} {N p : Nat} {ms : List MatchResult}
    (h : BookInv ob N) (hp : N ≤ p) (ha : AddOrder ob p = some (ob2, ms)) (a : Nat)
    (hin : ∃ e ∈ ob2.buys ++ ob2.sells, (ob2.entries e).Order = a)
    (hF : 0 ≤ (ob.orders a).FilledBase)
    (hne : (ob2.orders a).FilledBase ≠ (ob.orders a).FilledBase) :
    (ob2.orders a).Status = OrderStatusPartiallyFilled := by
  obtain ⟨price, ob1, tr, hprice, hrun, hms, hrest⟩ := AddOrder_inv ha
  have hord : ob2.orders = ob1.orders := restOrder_orders hrest
  have hacc := (AddOrder_accounts h hp ha).2.1 a
  have hs : filledSum ms a ≠ 0 := by
    intro hc
    apply hne
    rw [hacc, hc, add_zero]
  obtain ⟨m, hm, hfo⟩ := filledSum_ne_zero hs
  rw [hms] at hm
  obtain ⟨sm, hsm, rfl⟩ := List.mem_map.mp hm
  have hfix := hrun.run_fixed hp a h (Or.inl ⟨sm, hsm, hfo⟩)
  rw [← hord] at hfix
  have hle := AddOrder_filled_le ha a
  have hpos : 0 < (ob2.orders a).FilledBase := by omega
  obtain ⟨e, he, rfl⟩ := hin
  have hrem := (h.addOrder hp ha).live e he
  unfold updateOrderStatus at hfix
  rw [if_neg (not_le.mpr hrem.1), if_pos hpos] at hfix
  rw [← hfix]

/-- The two orders of a match of `AddOrder`: the incoming order and an order that rested
on the other side. -/
theorem AddOrder_refs {ob ob2 : OrderBook} {N p : Nat} {ms : List MatchResult}
    (h : BookInv ob N) (hp : N ≤ p) (ha : AddOrder ob p = some (ob2, ms)) :
    ∀ m ∈ ms, if (ob.orders p).Side = SideBuy
      then m.BuyOrder = p ∧ ∃ e ∈ ob.sells, (ob.entries e).Order = m.SellOrder
      else m.SellOrder = p ∧ ∃ e ∈ ob.buys, (ob.entries e).Order = m.BuyOrder := by
  obtain ⟨price, ob1, tr, hprice, hrun, hms, hrest⟩ := AddOrder_inv ha
  intro m hm
  rw [hms] at hm
  obtain ⟨sm, hsm, rfl⟩ := List.mem_map.mp hm
  obtain ⟨e, he, heq⟩ := (hrun.priority hp h).1 sm hsm
  obtain ⟨_, s1, hst⟩ := (MatchRun.facts hrun).2 sm hsm
  obtain ⟨maker, hf⟩ := sideStep_facts hst
  by_cases hb : (ob.orders p).Side = SideBuy
  · rw [if_pos hb]
    simp only [hb, decide_True] at he heq hf
    have h1 := hf.buyRef
    simp only [if_true] at h1
    exact ⟨h1, e, he, by simpa [MatchResult.maker] using heq⟩
  · rw [if_neg hb]
    simp only [hb, decide_False] at he heq hf
    have h1 := hf.sellRef
    simp only [Bool.false_eq_true, if_false] at h1
    exact ⟨h1, e, he, by simpa [MatchResult.maker] using heq⟩

/-! ## A `Filled` or `Cancelled` order is not written again -/

theorem updateOrderStatus_not_cancelled {o : Order} (h : o.Status ≠ OrderStatusCancelled) :
    (updateOrderStatus o).Status ≠ OrderStatusCancelled := by
  unfold updateOrderStatus
  split
  · show OrderStatusFilled ≠ OrderStatusCancelled
    decide
  · split
    · show OrderStatusPartiallyFilled ≠ OrderStatusCancelled
      decide
    · exact h

theorem applyFill_not_cancelled {orders : Nat → Order} {t mk : Nat} {f : Int} (a : Nat)
    (h : (orders a).Status ≠ OrderStatusCancelled) :
    (applyFill orders t mk f a).Status ≠ OrderStatusCancelled := by
  have h1 : (addFilled (addFilled orders t f) mk f a).Status ≠ OrderStatusCancelled := by
    unfold addFilled
    by_cases e1 : a = mk
    · subst e1
      rw [Function.update_same]
      by_cases e2 : a = t
      · subst e2; rw [Function.update_same]; exact h
      · rw [Function.update_noteq e2]; exact h
    · rw [Function.update_noteq e1]
      by_cases e2 : a = t
      · subst e2; rw [Function.update_same]; exact h
      · rw [Function.update_noteq e2]; exact h
  have h2 : ∀ (os : Nat → Order) (x : Nat), (os a).Status ≠ OrderStatusCancelled →
      (updateStatusAt os x a).Status ≠ OrderStatusCancelled := by
    intro os x hx
    unfold updateStatusAt
    by_cases e : a = x
    · subst e; rw [Function.update_same]; exact updateOrderStatus_not_cancelled hx
    · rw [Function.update_noteq e]; exact hx
  unfold applyFill
  exact h2 _ _ (h2 _ _ h1)

theorem MatchRun.not_cancelled {buy : Bool} {p : Nat} {price : F64} {ob ob1 : OrderBook}
    {tr : List (OrderBook × MatchResult)} (hrun : MatchRun (sideStep buy p price) ob tr ob1)
    (a : Nat) : (ob.orders a).Status ≠ OrderStatusCancelled →
    (ob1.orders a).Status ≠ OrderStatusCancelled := by
  induction hrun with
  | exit _ => exact id
  | @fill s s1 s2 m tr hst _ ih =>
    intro h
    obtain ⟨maker, hf⟩ := sideStep_facts hst
    apply ih
    rw [hf.orders]
    exact applyFill_not_cancelled a h

theorem AddOrder_noneCancelled {ob ob2 : OrderBook} {p : Nat} {ms : List MatchResult}
    (hn : NoneCancelled ob)
    (hst : (ob.orders p).Status ≠ OrderStatusCancelled) (ha : AddOrder ob p = some (ob2, ms)) :
    NoneCancelled ob2 := by
  obtain ⟨price, ob1, tr, hprice, hrun, hms, hrest⟩ := AddOrder_inv ha
  have hsh := (MatchRun.facts hrun).1
  have h1 : NoneCancelled ob1 := by
    intro e he
    have he0 : e ∈ ob.buys ++ ob.sells := by
      rcases List.mem_append.mp he with h1 | h1
      · exact List.mem_append_left _ (hsh.buys.subset h1)
      · exact List.mem_append_right _ (hsh.sells.subset h1)
    rw [hsh.order e]
    exact hrun.not_cancelled _ (hn e he0)
  obtain ⟨hord, hcase⟩ := restOrder_entries hrest
  rcases hcase with rfl | ⟨hmem, hold, hnew, hfresh, _⟩
  · exact h1
  · intro e he
    rw [hord]
    rcases (hmem e).mp he with rfl | he1
    · rw [hnew]
      exact hrun.not_cancelled p hst
    · have hne : e ≠ ob1.newEntry := fun hc => hfresh (hc ▸ he1)
      rw [hold e hne]
      exact h1 e he1

theorem CancelOrder_noneCancelled {ob ob1 : OrderBook} {N : Nat} {id : String} {r : Option Nat}
    (h : BookInv ob N) (hn : NoneCancelled ob) (hc : CancelOrder ob id = some (ob1, r)) :
    NoneCancelled ob1 := by
  cases hg : mapGet ob.orderMap id with
  | none =>
    rw [CancelOrder_miss hg] at hc
    simp only [Option.some.injEq, Prod.mk.injEq] at hc
    rw [← hc.1]
    exact hn
  | some entry =>
    obtain ⟨ob1x, hcx, hord, -, hordE, hperm, hopp, hgone⟩ := CancelOrder_hit h hg
    rw [hcx] at hc
    simp only [Option.some.injEq, Prod.mk.injEq] at hc
    obtain ⟨rfl, -⟩ := hc
    intro e he
    have hne := hgone e he
    rw [hord, Function.update_noteq hne, hordE]
    apply hn
    generalize decide ((ob.orders (ob.entries entry).Order).Side = SideBuy) = buy at hperm hopp
    rcases (mem_resting ob1x buy e).mp he with h1 | h1
    · exact (mem_resting ob buy e).mpr (Or.inl (hperm.subset (List.mem_cons_of_mem _ h1)))
    · exact (mem_resting ob buy e).mpr (Or.inr (hopp ▸ h1))

/-- One call does not write an order that is `Filled` or `Cancelled`. -/
theorem World.step_done {u v : World} {c : Call} (hinv : BookInv u.ob u.next)
    (hn : NoneCancelled u.ob) (a : Nat) (ha : a < u.next)
    (hd : (u.ob.orders a).Status = OrderStatusFilled ∨
      (u.ob.orders a).Status = OrderStatusCancelled)
    (hs : u.step c = some v) : v.ob.orders a = u.ob.orders a := by
  have hoff : ∀ e ∈ u.ob.buys ++ u.ob.sells, (u.ob.entries e).Order ≠ a := by
    intro e he hc
    rcases hd with h1 | h1
    · exact (hinv.live e he).2 (hc ▸ h1)
    · exact hn e he (hc ▸ h1)
  cases c with
  | add o =>
    obtain ⟨ms, hadd, _, _⟩ := World.step_add_inv hs
    obtain ⟨price, ob1, tr, hprice, hrun, hms, hrest⟩ := AddOrder_inv hadd
    rw [restOrder_orders hrest, hrun.frame_run a (by omega) (fun e he =>
      hoff e ((mem_resting u.ob _ e).mpr (Or.inr he)))]
    exact Function.update_noteq (by omega) _ _
  | cancel id =>
    obtain ⟨r, hcn, _, _⟩ := World.step_cancel_inv hs
    rcases (CancelOrder_orders hcn a).2.2 with h1 | ⟨entry, hg, hae, _⟩
    · exact h1
    · exact absurd hae.symm (hoff entry (hinv.mapIn _ (mapGet_mem hg)))

theorem World.step_noneCancelled {u v : World} {c : Call} (hinv : BookInv u.ob u.next)
    (hn : NoneCancelled u.ob) (hc : ∀ o, c = .add o → o.Status ≠ OrderStatusCancelled)
    (hs : u.step c = some v) : NoneCancelled v.ob := by
  cases c with
  | add o =>
    obtain ⟨ms, hadd, _, _⟩ := World.step_add_inv hs
    refine AddOrder_noneCancelled ?_ ?_ hadd
    · intro e he
      simp only [] at he ⊢
      have := hinv.bound e he
      rw [Function.update_noteq (by omega)]
      exact hn e he
    · simp only [Function.update_same]
      exact hc o rfl
  | cancel id =>
    obtain ⟨r, hcn, _, _⟩ := World.step_cancel_inv hs
    exact CancelOrder_noneCancelled hinv hn hcn

theorem World.reach_noneCancelled {orders : Nat → Order} {cs : List Call} {w : World}
    (hcs : ∀ o, Call.add o ∈ cs → o.Status ≠ OrderStatusCancelled)
    (h : (World.init orders).run cs = some w) : BookInv w.ob w.next ∧ NoneCancelled w.ob := by
  refine @World.run_induct (fun u => BookInv u.ob u.next ∧ NoneCancelled u.ob) _ _ cs ?_ ?_ h
  · intro u v c hc ⟨hinv, hn⟩ hstep
    exact ⟨World.step_inv hinv hstep,
      World.step_noneCancelled hinv hn (fun o ho => hcs o (ho ▸ hc)) hstep⟩
  · refine ⟨World.init_inv orders, ?_⟩
    intro e he
    simp [World.init, NewOrderBook] at he

/-- No later call writes an order that is `Filled` or `Cancelled`. -/
theorem World.run_done : ∀ (cs : List Call) (u v : World), BookInv u.ob u.next →
    NoneCancelled u.ob → (∀ o, Call.add o ∈ cs → o.Status ≠ OrderStatusCancelled) →
    u.run cs = some v → ∀ a, a < u.next →
    ((u.ob.orders a).Status = OrderStatusFilled ∨
      (u.ob.orders a).Status = OrderStatusCancelled) →
    v.ob.orders a = u.ob.orders a := by
  intro cs
  induction cs with
  | nil =>
    intro u v _ _ _ hrun a _ _
    simp only [World.run, Option.some.injEq] at hrun
    rw [hrun]
  | cons c cs ih =>
    intro u v hinv hn hcs hrun a ha hd
    simp only [World.run] at hrun
    cases hs : u.step c with
    | none => rw [hs] at hrun; exact absurd hrun (by simp)
    | some u1 =>
      rw [hs] at hrun
      simp only [] at hrun
      have e1 := World.step_done hinv hn a ha hd hs
      rw [ih u1 v (World.step_inv hinv hs)
        (World.step_noneCancelled hinv hn
          (fun o ho => hcs o (by rw [ho]; exact List.mem_cons_self _ _)) hs)
        (fun o ho => hcs o (List.mem_cons_of_mem _ ho)) hrun a
        (lt_of_lt_of_le ha (World.step_next hs)) (by rw [e1]; exact hd), e1]

/-! ## Decimal text: `String` and `SetString` -/

theorem digit_toNat (d : Nat) (h : d < 10) : (Char.ofNat (48 + d)).toNat = 48 + d := by
  interval_cases d <;> rfl

theorem digitValue_digit (d : Nat) (h : d < 10) : digitValue (Char.ofNat (48 + d)) = some d := by
  unfold digitValue
  rw [digit_toNat d h, if_pos (by omega)]
  simp

theorem digitValue_isSome (c : Char) :
    (∃ d, digitValue c = some d) ↔ 48 ≤ c.toNat ∧ c.toNat ≤ 57 := by
  unfold digitValue
  constructor
  · rintro ⟨d, hd⟩
    by_contra hc
    rw [if_neg hc] at hd
    exact absurd hd (by simp)
  · intro h
    exact ⟨_, if_pos h⟩

theorem scanDigits_decimalDigits (fuel : Nat) : ∀ (n : Nat) (acc : List Char), n ≤ fuel →
    scanDigits (decimalDigits fuel n acc) 0 = scanDigits acc n := by
  induction fuel with
  | zero =>
    intro n acc hn
    have : n = 0 := by omega
    subst this
    rfl
  | succ fuel ih =>
    intro n acc hn
    unfold decimalDigits
    by_cases h0 : n = 0
    · subst h0; rw [if_pos rfl]
    · rw [if_neg h0, ih (n / 10) _ (by omega)]
      conv_lhs => unfold scanDigits
      rw [digitValue_digit (n % 10) (Nat.mod_lt _ (by norm_num))]
      simp only []
      rw [Nat.div_add_mod]

theorem decimalDigits_digits (fuel : Nat) : ∀ (n : Nat) (acc : List Char),
    (∀ c ∈ acc, 48 ≤ c.toNat ∧ c.toNat ≤ 57) →
    ∀ c ∈ decimalDigits fuel n acc, 48 ≤ c.toNat ∧ c.toNat ≤ 57 := by
  induction fuel with
  | zero => intro n acc h; exact h
  | succ fuel ih =>
    intro n acc h
    unfold decimalDigits
    split
    · exact h
    · apply ih
      intro c hc
      rcases List.mem_cons.mp hc with rfl | hc
      · rw [digit_toNat _ (Nat.mod_lt _ (by norm_num))]
        have := Nat.mod_lt n (show 0 < 10 by norm_num)
        omega
      · exact h c hc

theorem decimalDigits_ne_nil (fuel : Nat) : ∀ (n : Nat) (acc : List Char), acc ≠ [] →
    decimalDigits fuel n acc ≠ [] := by
  induction fuel with
  | zero => intro n acc h; exact h
  | succ fuel ih =>
    intro n acc h
    unfold decimalDigits
    split
    · exact h
    · exact ih _ _ (List.cons_ne_nil _ _)

theorem natString_digits (n : Nat) : ∀ c ∈ natString n, 48 ≤ c.toNat ∧ c.toNat ≤ 57 := by
  unfold natString
  split
  · intro c hc
    rw [List.mem_singleton.mp hc]
    decide
  · exact decimalDigits_digits n n [] (by simp)

theorem natString_ne_nil (n : Nat) : natString n ≠ [] := by
  unfold natString
  split
  · exact List.cons_ne_nil _ _
  · rename_i h
    obtain ⟨k, rfl⟩ := Nat.exists_eq_succ_of_ne_zero h
    unfold decimalDigits
    rw [if_neg h]
    exact decimalDigits_ne_nil _ _ _ (List.cons_ne_nil _ _)

theorem natString_scan (n : Nat) : scanDigits (natString n) 0 = some n := by
  unfold natString
  split
  · rename_i h; subst h; rfl
  · rw [scanDigits_decimalDigits n n [] le_rfl]
    rfl

/-- A list of digits does not start with a sign. -/
theorem digits_head {cs : List Char} (h : ∀ c ∈ cs, 48 ≤ c.toNat ∧ c.toNat ≤ 57) :
    ¬ (cs.head? = some '-' ∨ cs.head? = some '+') := by
  cases cs with
  | nil => simp
  | cons c cs =>
    have hc := h c (List.mem_cons_self _ _)
    simp only [List.head?_cons, Option.some.injEq]
    rintro (rfl | rfl)
    · exact absurd hc.1 (by decide)
    · exact absurd hc.1 (by decide)

theorem SetString10_chars {s : String} {cs : List Char} (h : s.toList = cs) :
    SetString10 s =
      if (if cs.head? = some '-' ∨ cs.head? = some '+' then cs.tail else cs) = [] then none
      else
        match scanDigits (if cs.head? = some '-' ∨ cs.head? = some '+' then cs.tail else cs) 0 with
        | none => none
        | some n => some (if decide (cs.head? = some '-') then -(n : Int) else (n : Int)) := by
  subst h
  rfl

/-- Reading back the decimal text of a number gives the number. -/
theorem SetString10_bigIntString (x : Int) : SetString10 (bigIntString x) = some x := by
  by_cases hx : x < 0
  · have hl : (bigIntString x).toList = '-' :: natString x.natAbs := by
      unfold bigIntString; rw [if_pos hx]; rfl
    rw [SetString10_chars hl]
    simp only [List.head?_cons, true_or, if_true, List.tail_cons, decide_True]
    rw [if_neg (natString_ne_nil _), natString_scan]
    simp only [Option.some.injEq]
    omega
  · have hl : (bigIntString x).toList = natString x.natAbs := by
      unfold bigIntString; rw [if_neg hx]; rfl
    rw [SetString10_chars hl]
    have hd := digits_head (natString_digits x.natAbs)
    rw [if_neg hd, if_neg (natString_ne_nil _), natString_scan]
    have hneg : (natString x.natAbs).head? ≠ some '-' := fun h => hd (Or.inl h)
    simp only [hneg, decide_False, Bool.false_eq_true, if_false, Option.some.injEq]
    omega

theorem scanDigits_some {cs : List Char} : ∀ {a n : Nat}, scanDigits cs a = some n →
    ∀ c ∈ cs, 48 ≤ c.toNat ∧ c.toNat ≤ 57 := by
  induction cs with
  | nil => intro _ _ _ c hc; exact absurd hc (List.not_mem_nil _)
  | cons c cs ih =>
    intro a n h x hx
    unfold scanDigits at h
    cases hd : digitValue c with
    | none => rw [hd] at h; exact absurd h (by simp)
    | some d =>
      rw [hd] at h
      rcases List.mem_cons.mp hx with rfl | hx
      · exact (digitValue_isSome x).mp ⟨d, hd⟩
      · exact ih h x hx

theorem scanDigits_total {cs : List Char} (h : ∀ c ∈ cs, 48 ≤ c.toNat ∧ c.toNat ≤ 57) :
    ∀ a, ∃ n, scanDigits cs a = some n := by
  induction cs with
  | nil => intro a; exact ⟨a, rfl⟩
  | cons c cs ih =>
    intro a
    obtain ⟨d, hd⟩ := (digitValue_isSome c).mpr (h c (List.mem_cons_self _ _))
    obtain ⟨n, hn⟩ := ih (fun x hx => h x (List.mem_cons_of_mem _ hx)) (10 * a + d)
    exact ⟨n, by unfold scanDigits; rw [hd]; exact hn⟩

/-- `SetString` succeeds exactly on the well-formed base-10 integer strings. -/
theorem SetString10_isSome_iff (s : String) :
    (∃ x, SetString10 s = some x) ↔ DecimalString s := by
  unfold SetString10 DecimalString
  simp only []
  constructor
  · rintro ⟨x, hx⟩
    by_cases hs : s.toList.head? = some '-' ∨ s.toList.head? = some '+'
    · rw [if_pos hs] at hx
      by_cases hb : s.toList.tail = []
      · rw [if_pos hb] at hx; exact absurd hx (by simp)
      · rw [if_neg hb] at hx
        cases hsc : scanDigits s.toList.tail 0 with
        | none => rw [hsc] at hx; exact absurd hx (by simp)
        | some n =>
          cases hl : s.toList with
          | nil => rw [hl] at hb; exact absurd rfl hb
          | cons c cs =>
            rw [hl] at hs hb hsc
            simp only [List.head?_cons, Option.some.injEq, List.tail_cons] at hs hb hsc
            refine ⟨[c], cs, rfl, ?_, hb, scanDigits_some hsc⟩
            rcases hs with rfl | rfl
            · exact Or.inr (Or.inl rfl)
            · exact Or.inr (Or.inr rfl)
    · rw [if_neg hs] at hx
      by_cases hb : s.toList = []
      · rw [if_pos hb] at hx; exact absurd hx (by simp)
      · rw [if_neg hb] at hx
        cases hsc : scanDigits s.toList 0 with
        | none => rw [hsc] at hx; exact absurd hx (by simp)
        | some n => exact ⟨[], s.toList, rfl, Or.inl rfl, hb, scanDigits_some hsc⟩
  · rintro ⟨sign, digits, hl, hsign, hne, hdig⟩
    have hbody : (if s.toList.head? = some '-' ∨ s.toList.head? = some '+' then s.toList.tail
        else s.toList) = digits := by
      rcases hsign with rfl | rfl | rfl
      · rw [List.nil_append] at hl
        rw [hl, if_neg (digits_head hdig)]
      · rw [hl]; simp
      · rw [hl]; simp
    rw [hbody, if_neg hne]
    obtain ⟨n, hn⟩ := scanDigits_total hdig 0
    rw [hn]
    exact ⟨_, rfl⟩

theorem SetString10_none_iff (s : String) : SetString10 s = none ↔ ¬ DecimalString s := by
  rw [← SetString10_isSome_iff]
  cases SetString10 s with
  | none => simp
  | some x => simp

/-! ## Hexadecimal text -/

theorem fromHexChar_isSome (b : Nat) : (∃ d, fromHexChar b = some d) ↔ isHexDigit b := by
  unfold fromHexChar isHexDigit
  constructor
  · rintro ⟨d, hd⟩
    by_contra hc
    rw [if_neg (fun h => hc (Or.inl h)), if_neg (fun h => hc (Or.inr (Or.inl h))),
      if_neg (fun h => hc (Or.inr (Or.inr h)))] at hd
    exact absurd hd (by simp)
  · rintro (h | h | h)
    · exact ⟨_, if_pos h⟩
    · exact ⟨_, by rw [if_neg (by omega), if_pos h]⟩
    · exact ⟨_, by rw [if_neg (by omega), if_neg (by omega), if_pos h]⟩

/-- `hex.DecodeString` succeeds exactly on an even number of hexadecimal digits. -/
theorem hexDecode_ok_iff : ∀ bs : List Nat,
    (∃ r, hexDecode bs = .ok r) ↔ (bs.length % 2 = 0 ∧ ∀ b ∈ bs, isHexDigit b)
  | [] => by simp [hexDecode]
  | [p] => by
    unfold hexDecode
    constructor
    · rintro ⟨r, hr⟩
      split at hr <;> exact absurd hr (by simp)
    · rintro ⟨h, _⟩
      simp at h
  | p :: q :: rest => by
    have ih := hexDecode_ok_iff rest
    unfold hexDecode
    constructor
    · rintro ⟨r, hr⟩
      cases hp : fromHexChar p with
      | none => rw [hp] at hr; exact absurd hr (by simp)
      | some a =>
        cases hq : fromHexChar q with
        | none => rw [hp, hq] at hr; exact absurd hr (by simp)
        | some b =>
          rw [hp, hq] at hr
          simp only [] at hr
          cases hrest : hexDecode rest with
          | error e => rw [hrest] at hr; exact absurd hr (by simp)
          | ok bs =>
            obtain ⟨h1, h2⟩ := ih.mp ⟨bs, hrest⟩
            refine ⟨by simp only [List.length_cons]; omega, ?_⟩
            intro x hx
            rcases List.mem_cons.mp hx with rfl | hx
            · exact (fromHexChar_isSome x).mp ⟨a, hp⟩
            · rcases List.mem_cons.mp hx with rfl | hx
              · exact (fromHexChar_isSome x).mp ⟨b, hq⟩
              · exact h2 x hx
    · rintro ⟨h1, h2⟩
      obtain ⟨a, ha⟩ := (fromHexChar_isSome p).mpr (h2 p (List.mem_cons_self _ _))
      obtain ⟨b, hb⟩ := (fromHexChar_isSome q).mpr
        (h2 q (List.mem_cons_of_mem _ (List.mem_cons_self _ _)))
      obtain ⟨bs, hbs⟩ := ih.mpr ⟨by simp only [List.length_cons] at h1; omega,
        fun x hx => h2 x (List.mem_cons_of_mem _ (List.mem_cons_of_mem _ hx))⟩
      rw [ha, hb]
      simp only []
      rw [hbs]
      exact ⟨_, rfl⟩

theorem hexToBytes_error_iff (s : String) :
    (∃ e, hexToBytes s = .error e) ↔ ¬ HexString s := by
  unfold hexToBytes HexString
  rw [← hexDecode_ok_iff]
  cases hexDecode (strBytes (TrimPrefix s "0x")) with
  | error e => simp
  | ok r => simp

/-! ## The service: what each step keeps -/

theorem find?_map_id (l : List orderRow) (id : String) (f : orderRow → orderRow)
    (hf : ∀ x, (f x).ID = x.ID) :
    (l.map f).find? (fun x => x.ID = id) = (l.find? (fun x => x.ID = id)).map f := by
  induction l with
  | nil => rfl
  | cons a l ih =>
    simp only [List.map_cons, List.find?_cons, hf]
    split
    · rfl
    · exact ih

theorem rowToOrder_ok {row : orderRow} {o : Order} (h : rowToOrder row = .ok o) :
    parseBigInt row.FilledBase = some o.FilledBase ∧ o.Pair = row.Pair ∧ o.ID = row.ID := by
  unfold rowToOrder at h
  split at h
  · exact absurd h (by simp)
  · split at h
    · exact absurd h (by simp)
    · split at h
      · exact absurd h (by simp)
      · split at h
        · exact absurd h (by simp)
        · rename_i fb hfb
          simp only [Except.ok.injEq] at h
          subst h
          exact ⟨hfb, rfl, rfl⟩

theorem getOrCreate_keeps (s : Service) (pair : String) :
    (OrderService.GetOrCreateOrderBook s pair).1.orderRows = s.orderRows ∧
    (OrderService.GetOrCreateOrderBook s pair).1.dbCalls = s.dbCalls ∧
    (OrderService.GetOrCreateOrderBook s pair).1.clock = s.clock ∧
    (OrderService.GetOrCreateOrderBook s pair).1.next = s.next ∧
    (OrderService.GetOrCreateOrderBook s pair).2 =
      (s.orderbooks.lookup pair).getD (NewOrderBook fun _ => default) := by
  unfold OrderService.GetOrCreateOrderBook
  cases s.orderbooks.lookup pair <;> simp

theorem updateCache_keeps {out : Outside} {s s1 : Service} {pair : String} {book : OrderBook}
    (h : OrderService.updateCache out s pair book = some s1) :
    s1.orderRows = s.orderRows ∧ s1.orderbooks = s.orderbooks ∧ s1.next = s.next := by
  unfold OrderService.updateCache at h
  split at h
  · exact absurd h (by simp)
  · simp only [Option.some.injEq] at h
    subst h
    unfold OrderbookCache.PublishUpdate OrderbookCache.SetSnapshot
    refine ⟨?_, ?_, ?_⟩ <;> (repeat' split) <;> rfl

theorem updateStatus_keeps (out : Outside) (s : Service) (id : String) (status : OrderStatus)
    (fb : String) :
    (OrderRepo.UpdateStatus out s id status fb).1.orderbooks = s.orderbooks ∧
    (OrderRepo.UpdateStatus out s id status fb).1.next = s.next ∧
    (OrderRepo.UpdateStatus out s id status fb).1.orderRows.map (fun r => (r.ID, r.Side)) =
      s.orderRows.map (fun r => (r.ID, r.Side)) := by
  unfold OrderRepo.UpdateStatus
  split
  · exact ⟨rfl, rfl, rfl⟩
  · refine ⟨rfl, rfl, ?_⟩
    simp only [List.map_map]
    apply List.map_congr_left
    intro r _
    simp only [Function.comp]
    split <;> rfl

theorem tradeCreate_keeps (out : Outside) (s : Service) (t : Trade) :
    (TradeRepo.Create out s t).1.orderbooks = s.orderbooks ∧
    (TradeRepo.Create out s t).1.next = s.next ∧
    (TradeRepo.Create out s t).1.orderRows = s.orderRows := by
  unfold TradeRepo.Create
  simp only []
  refine ⟨?_, ?_, ?_⟩ <;> (repeat' split) <;> rfl

theorem processMatch_keeps (out : Outside) (book : OrderBook) (pair : String) (s : Service)
    (m : MatchResult) :
    (processMatch out book pair s m).orderbooks = s.orderbooks ∧
    (processMatch out book pair s m).next = s.next ∧
    (processMatch out book pair s m).orderRows.map (fun r => (r.ID, r.Side)) =
      s.orderRows.map (fun r => (r.ID, r.Side)) := by
  unfold processMatch
  simp only []
  split
  · rename_i s1 x e heq
    have h1 := congrArg Prod.fst heq
    simp only [] at h1
    have h := tradeCreate_keeps out s (matchTrade book pair m)
    rw [h1] at h
    exact ⟨h.1, h.2.1, by rw [h.2.2]⟩
  · rename_i s1 t1 heq
    have h1 := congrArg Prod.fst heq
    simp only [] at h1
    have h := tradeCreate_keeps out s (matchTrade book pair m)
    rw [h1] at h
    have h2 := updateStatus_keeps out s1 (book.orders m.BuyOrder).ID
      (book.orders m.BuyOrder).Status (bigIntString (book.orders m.BuyOrder).FilledBase)
    have h3 := updateStatus_keeps out (OrderRepo.UpdateStatus out s1 (book.orders m.BuyOrder).ID
      (book.orders m.BuyOrder).Status (bigIntString (book.orders m.BuyOrder).FilledBase)).1
      (book.orders m.SellOrder).ID (book.orders m.SellOrder).Status
      (bigIntString (book.orders m.SellOrder).FilledBase)
    refine ⟨?_, ?_, ?_⟩
    · show (OrderRepo.UpdateStatus out _ _ _ _).1.orderbooks = _
      rw [h3.1, h2.1, h.1]
    · show (OrderRepo.UpdateStatus out _ _ _ _).1.next = _
      rw [h3.2.1, h2.2.1, h.2.1]
    · show (OrderRepo.UpdateStatus out _ _ _ _).1.orderRows.map _ = _
      rw [h3.2.2, h2.2.2, h.2.2]

theorem processMatches_keeps (out : Outside) (book : OrderBook) (pair : String) :
    ∀ (ms : List MatchResult) (s : Service),
    (ms.foldl (processMatch out book pair) s).orderbooks = s.orderbooks ∧
    (ms.foldl (processMatch out book pair) s).next = s.next ∧
    (ms.foldl (processMatch out book pair) s).orderRows.map (fun r => (r.ID, r.Side)) =
      s.orderRows.map (fun r => (r.ID, r.Side)) := by
  intro ms
  induction ms with
  | nil => intro s; exact ⟨rfl, rfl, rfl⟩
  | cons m ms ih =>
    intro s
    simp only [List.foldl_cons]
    obtain ⟨a1, a2, a3⟩ := ih (processMatch out book pair s m)
    obtain ⟨b1, b2, b3⟩ := processMatch_keeps out book pair s m
    exact ⟨by rw [a1, b1], by rw [a2, b2], by rw [a3, b3]⟩

/-! ## `SubmitOrder` after the verification, and `CancelOrder` of the service -/

theorem orderRowOf_ok {order : Order} {row : orderRow} (h : orderRowOf order = .ok row) :
    row.Side = order.Side ∧ row.ID = order.ID := by
  unfold orderRowOf at h
  split at h
  · exact absurd h (by simp)
  · split at h
    · exact absurd h (by simp)
    · simp only [Except.ok.injEq] at h
      subst h
      exact ⟨rfl, rfl⟩

theorem Create_inv (out : Outside) (s : Service) (order : Order) :
    (OrderRepo.Create out s order).2.1.Side = order.Side ∧
    (OrderRepo.Create out s order).2.1.Pair = order.Pair ∧
    (OrderRepo.Create out s order).1.orderbooks = s.orderbooks ∧
    (OrderRepo.Create out s order).1.next = s.next ∧
    ((OrderRepo.Create out s order).2.2 ≠ none →
      (OrderRepo.Create out s order).1.orderRows = s.orderRows) ∧
    ((OrderRepo.Create out s order).2.2 = none →
      ∃ row, (OrderRepo.Create out s order).1.orderRows = s.orderRows ++ [row] ∧
        row.Side = order.Side ∧ row.ID = (OrderRepo.Create out s order).2.1.ID) := by
  unfold OrderRepo.Create
  simp only []
  split
  · refine ⟨?_, ?_, ?_, ?_, ?_, ?_⟩
    · split <;> rfl
    · split <;> rfl
    · split <;> rfl
    · split <;> rfl
    · intro _; split <;> rfl
    · intro h; exact absurd h (by simp)
  · rename_i row hrow
    have hr := orderRowOf_ok hrow
    simp only [] at hr
    split
    · refine ⟨?_, ?_, ?_, ?_, ?_, ?_⟩
      · split <;> rfl
      · split <;> rfl
      · split <;> rfl
      · split <;> rfl
      · intro _; split <;> rfl
      · intro h; exact absurd h (by simp)
    · refine ⟨?_, ?_, ?_, ?_, ?_, ?_⟩
      · split <;> rfl
      · split <;> rfl
      · split <;> rfl
      · split <;> rfl
      · intro h; exact absurd rfl h
      · intro _
        refine ⟨row, ?_, ?_, hr.2⟩
        · split <;> rfl
        · rw [hr.1]; split <;> rfl

theorem lookup_setBook (s : Service) (pair : String) (book : OrderBook) :
    (s.setBook pair book).orderbooks.lookup pair = some book := by
  unfold Service.setBook
  simp [List.lookup_cons]

/-- What `SubmitOrder` does once the signature is verified, when it returns: either the
store refused the order and nothing else happened, or the order is in the table `orders`
with its side, and the book of its pair is what `AddOrder` made of it. -/
theorem submitVerified_inv {out : Outside} {s : Service} {order : Order}
    {r : Service × Except SubmitError (Nat × List MatchResult)}
    (h : submitVerified out s order = some r) :
    (∃ msg, r.2 = .error (.persistFailed msg) ∧ r.1.orderRows = s.orderRows ∧
      r.1.orderbooks = s.orderbooks) ∨
    (∃ order1 book1 ms, r.2 = .ok (s.next, ms) ∧ order1.Side = order.Side ∧
      AddOrder ((s.bookOf order.Pair).withOrder s.next order1) s.next = some (book1, ms) ∧
      r.1.orderbooks.lookup order.Pair = some book1 ∧
      ∃ row ∈ r.1.orderRows, row.ID = order1.ID ∧ row.Side = order.Side) := by
  unfold submitVerified at h
  obtain ⟨c1, c2, c3, c4, c5, c6⟩ := Create_inv out s order
  generalize OrderRepo.Create out s order = res at h c1 c2 c3 c4 c5 c6
  obtain ⟨s1, order1, err⟩ := res
  simp only [] at c1 c2 c3 c4 c5 c6
  cases err with
  | some e =>
    simp only [Option.some.injEq] at h
    subst h
    exact Or.inl ⟨e, rfl, c5 (by simp), c3⟩
  | none =>
    right
    simp only [] at h
    obtain ⟨g1, _, _, g4, g5⟩ := getOrCreate_keeps s1 order1.Pair
    generalize OrderService.GetOrCreateOrderBook s1 order1.Pair = gb at h g1 g4 g5
    obtain ⟨s2, book⟩ := gb
    simp only [] at h g1 g4 g5
    rw [c3, c2] at g5
    rw [c4] at g4
    subst g5
    rw [g4] at h
    split at h
    · exact absurd h (by simp)
    · rename_i book1 ms hadd
      split at h
      · exact absurd h (by simp)
      · rename_i s5 hs5
        simp only [Option.some.injEq] at h
        subst h
        obtain ⟨u1, u2, _⟩ := updateCache_keeps hs5
        obtain ⟨p1, _, p3⟩ := processMatches_keeps out book1 order1.Pair ms
          { s2.setBook order1.Pair book1 with next := s.next + 1 }
        refine ⟨order1, book1, ms, rfl, c1, hadd, ?_, ?_⟩
        · simp only []
          rw [u2, p1, ← c2]
          exact lookup_setBook s2 order1.Pair book1
        · obtain ⟨row, hrow, hside, hid⟩ := c6 rfl
          have hmem : (row.ID, row.Side) ∈
              (s5.orderRows.map fun r => (r.ID, r.Side)) := by
            rw [u1, p3]
            show (row.ID, row.Side) ∈ (s2.orderRows.map fun r => (r.ID, r.Side))
            rw [g1, hrow]
            simp
          obtain ⟨row1, hrow1, heq⟩ := List.mem_map.mp hmem
          simp only [Prod.mk.injEq] at heq
          exact ⟨row1, hrow1, by rw [heq.1, hid], by rw [heq.2, hside]⟩

/-- `CancelOrder` of the service and the first row with the id: the `FilledBase` it
holds stays the same number, the status becomes `cancelled` when the call reports no
error, and the row stays as it is when the call reports one. -/
theorem serviceCancel_row {out : Outside} {s s1 : Service} {id : String} {row : orderRow}
    {r : Option CancelError}
    (hfind : s.orderRows.find? (fun x => x.ID = id) = some row)
    (hret : OrderService.CancelOrder out s id = some (s1, r)) :
    ∃ row1, s1.orderRows.find? (fun x => x.ID = id) = some row1 ∧
      parseBigInt row1.FilledBase = parseBigInt row.FilledBase ∧
      (r = none → row1.Status = OrderStatusCancelled) ∧ (r ≠ none → row1 = row) := by
  unfold OrderService.CancelOrder OrderRepo.GetByID at hret
  cases hdb : out.dbError s.dbCalls with
  | some e =>
    rw [hdb] at hret
    simp only [Option.some.injEq, Prod.mk.injEq] at hret
    obtain ⟨rfl, rfl⟩ := hret
    exact ⟨row, hfind, rfl, fun h => absurd h (by simp), fun _ => rfl⟩
  | none =>
    rw [hdb, hfind] at hret
    simp only [] at hret
    cases hrow : rowToOrder row with
    | error e =>
      rw [hrow] at hret
      simp only [Option.some.injEq, Prod.mk.injEq] at hret
      obtain ⟨rfl, rfl⟩ := hret
      exact ⟨row, hfind, rfl, fun h => absurd h (by simp), fun _ => rfl⟩
    | ok order =>
      rw [hrow] at hret
      simp only [] at hret
      obtain ⟨hfb, _, _⟩ := rowToOrder_ok hrow
      obtain ⟨g1, g2, _, _, _⟩ := getOrCreate_keeps { s with dbCalls := s.dbCalls + 1 } order.Pair
      generalize OrderService.GetOrCreateOrderBook { s with dbCalls := s.dbCalls + 1 }
        order.Pair = gb at hret g1 g2
      obtain ⟨s2, book⟩ := gb
      simp only [] at hret g1 g2
      cases hc : Nexus.CancelOrder book id with
      | none => rw [hc] at hret; exact absurd hret (by simp)
      | some cb =>
        obtain ⟨book1, res⟩ := cb
        rw [hc] at hret
        simp only [] at hret
        unfold OrderRepo.UpdateStatus at hret
        have hrows2 : (s2.setBook order.Pair book1).orderRows = s.orderRows := g1
        cases hdb2 : out.dbError (s2.setBook order.Pair book1).dbCalls with
        | some e =>
          rw [hdb2] at hret
          simp only [Option.some.injEq, Prod.mk.injEq] at hret
          obtain ⟨rfl, rfl⟩ := hret
          exact ⟨row, by simp only []; rw [hrows2]; exact hfind, rfl,
            fun h => absurd h (by simp), fun _ => rfl⟩
        | none =>
          rw [hdb2] at hret
          simp only [] at hret
          split at hret
          · exact absurd hret (by simp)
          · rename_i s4 hs4
            simp only [Option.some.injEq, Prod.mk.injEq] at hret
            obtain ⟨rfl, rfl⟩ := hret
            obtain ⟨u1, _, _⟩ := updateCache_keeps hs4
            rw [u1]
            simp only []
            have hid : row.ID = id := by simpa using List.find?_some hfind
            rw [hrows2, find?_map_id _ _ _ (by intro x; split <;> rfl), hfind]
            simp only [Option.map_some', if_pos hid]
            refine ⟨_, rfl, ?_, fun _ => rfl, fun h => absurd rfl h⟩
            simp only []
            unfold parseBigInt at hfb ⊢
            rw [SetString10_bigIntString, hfb]

/-! ## The settlement worker -/

theorem Run_jobsTaken (client : Client) (orders : Nat → Order) (evs : List WorkerEvent) :
    Run client orders evs = (jobsTaken evs).map
      fun jc => (jc.1.Result, (settle jc.2 client orders jc.1.Match).2) := by
  induction evs with
  | nil => rfl
  | cons e evs ih =>
    cases e with
    | done => rfl
    | closed => rfl
    | job j chain =>
      simp only [Run, jobsTaken, List.map_cons, ih]

/-- The result and the transcript of `settle`, request by request. -/
theorem settle_cases (chain : Chain) (client : Client) (orders : Nat → Order) (m : MatchResult) :
    (((settle chain client orders m).2.Err = none ↔
      (∀ st ∈ settleSteps, stepOK chain client orders m st) ∧
      ∃ signedTx receipt, signedOf chain client orders m = some signedTx ∧
        chain.WaitMined signedTx = .ok receipt ∧ receipt.Status = ReceiptStatusSuccessful) ∧
    ((settle chain client orders m).2.Err = none →
      ∃ signedTx, signedOf chain client orders m = some signedTx ∧
        (settle chain client orders m).2.TxHash = chain.HashHex signedTx) ∧
    ((settle chain client orders m).2.Err ≠ none → (settle chain client orders m).2.TxHash = "")) ∧
    (settle chain client orders m).1 <+: settleSteps ∧
    (∀ st ∈ (settle chain client orders m).1.dropLast, stepOK chain client orders m st) ∧
    ((settle chain client orders m).1 ≠ settleSteps →
      ∃ st, (settle chain client orders m).1.getLast? = some st ∧
        ¬ stepOK chain client orders m st) := by
  unfold settle
  simp only []
  split
  · rename_i err h1
    simp [settleSteps, stepOK, signedOf, h1]
  · rename_i data h1
    split
    · rename_i err h2
      simp [settleSteps, stepOK, signedOf, h1, h2]
    · rename_i nonce h2
      split
      · rename_i err h3
        simp [settleSteps, stepOK, signedOf, h1, h2, h3]
      · rename_i gasPrice h3
        split
        · rename_i err h4
          simp [settleSteps, stepOK, signedOf, h1, h2, h3, h4]
        · rename_i signedTx h4
          split
          · rename_i err h5
            simp [settleSteps, stepOK, signedOf, h1, h2, h3, h4, h5]
          · rename_i h5
            split
            · rename_i err h6
              simp [settleSteps, stepOK, signedOf, h1, h2, h3, h4, h5, h6]
            · rename_i receipt h6
              split
              · rename_i h7
                simp [settleSteps, stepOK, signedOf, h1, h2, h3, h4, h5, h6]
                exact h7
              · rename_i h7
                simp [settleSteps, stepOK, signedOf, h1, h2, h3, h4, h5, h6]
                exact not_not.mp h7

/-! ## `SubmitOrder` returns -/

theorem Create_amounts (out : Outside) (s : Service) (order : Order) :
    (OrderRepo.Create out s order).2.1.AmountSell = order.AmountSell ∧
    (OrderRepo.Create out s order).2.1.AmountBuy = order.AmountBuy ∧
    (OrderRepo.Create out s order).2.1.FilledBase = order.FilledBase := by
  unfold OrderRepo.Create
  simp only []
  refine ⟨?_, ?_, ?_⟩ <;> (repeat' split) <;> rfl

theorem updateCache_total (out : Outside) (s : Service) (pair : String) {book : OrderBook}
    {N : Nat} (h : BookInv book N) : ∃ s1, OrderService.updateCache out s pair book = some s1 := by
  obtain ⟨bs, as, hsnap, _⟩ := GetSnapshot_spec h.priced_isSome
  unfold OrderService.updateCache
  rw [hsnap]
  exact ⟨_, rfl⟩

/-- Once the signature is verified `SubmitOrder` returns, when the book of the pair
satisfies the invariant of the book, no order of its memory has a negative `FilledBase`,
and the amounts of the order are not both zero. -/
theorem submitVerified_total (out : Outside) (s : Service) (order : Order)
    (hinv : BookInv (s.bookOf order.Pair) s.next)
    (hnn : ∀ a, a < s.next → 0 ≤ ((s.bookOf order.Pair).orders a).FilledBase)
    (ho : order.AmountSell ≠ 0 ∨ order.AmountBuy ≠ 0) (hF : 0 ≤ order.FilledBase) :
    ∃ r, submitVerified out s order = some r := by
  unfold submitVerified
  obtain ⟨_, c2, c3, c4, _, _⟩ := Create_inv out s order
  obtain ⟨a1, a2, a3⟩ := Create_amounts out s order
  generalize OrderRepo.Create out s order = res at c2 c3 c4 a1 a2 a3
  obtain ⟨s1, order1, err⟩ := res
  simp only [] at c2 c3 c4 a1 a2 a3
  cases err with
  | some e => exact ⟨_, rfl⟩
  | none =>
    simp only []
    obtain ⟨_, _, _, g4, g5⟩ := getOrCreate_keeps s1 order1.Pair
    generalize OrderService.GetOrCreateOrderBook s1 order1.Pair = gb at g4 g5
    obtain ⟨s2, book⟩ := gb
    simp only [] at g4 g5
    rw [c3, c2] at g5
    rw [c4] at g4
    have hb : book = s.bookOf order.Pair := g5
    subst hb
    rw [g4]
    obtain ⟨⟨book1, ms⟩, hadd⟩ := @World.add_total ⟨s.bookOf order.Pair, s.next, []⟩ hinv hnn
      order1 (by rw [a1, a2]; exact ho) (by rw [a3]; exact hF)
    simp only [] at hadd
    rw [hadd]
    simp only []
    obtain ⟨s5, hs5⟩ := updateCache_total out
      (ms.foldl (processMatch out book1 order1.Pair)
        { s2.setBook order1.Pair book1 with next := s.next + 1 }) order1.Pair
      ((hinv.alloc order1).addOrder (le_refl _) hadd)
    rw [hs5]
    exact ⟨_, rfl⟩

/-- A new book, with a memory of default orders, satisfies the invariant at every
number of orders. -/
theorem newBook_inv (N : Nat) :
    BookInv (NewOrderBook fun _ => default) N ∧
      ∀ a, a < N → 0 ≤ ((NewOrderBook fun _ => (default : Order)).orders a).FilledBase :=
  ⟨(BookInv.init _).book_mono (Nat.zero_le _), fun _ _ => le_refl _⟩

/-- `CancelOrder` of the service returns when the book of the pair of the order
satisfies the invariant of the book. -/
theorem serviceCancel_total (out : Outside) (s : Service) (id : String) {row : orderRow}
    {N : Nat} (hfind : s.orderRows.find? (fun x => x.ID = id) = some row)
    (hinv : BookInv (s.bookOf row.Pair) N) :
    ∃ r, OrderService.CancelOrder out s id = some r := by
  unfold OrderService.CancelOrder OrderRepo.GetByID
  cases hdb : out.dbError s.dbCalls with
  | some e => exact ⟨_, rfl⟩
  | none =>
    simp only [hfind]
    cases hrow : rowToOrder row with
    | error e => exact ⟨_, rfl⟩
    | ok order =>
      simp only []
      obtain ⟨_, hpair, _⟩ := rowToOrder_ok hrow
      obtain ⟨_, _, _, _, g5⟩ := getOrCreate_keeps { s with dbCalls := s.dbCalls + 1 } order.Pair
      generalize OrderService.GetOrCreateOrderBook { s with dbCalls := s.dbCalls + 1 }
        order.Pair = gb at g5
      obtain ⟨s2, book⟩ := gb
      simp only [] at g5
      have hb : book = s.bookOf row.Pair := by rw [g5, hpair]; rfl
      subst hb
      obtain ⟨⟨book1, res⟩, hc⟩ := CancelOrder_total hinv id
      rw [hc]
      simp only []
      generalize OrderRepo.UpdateStatus out (s2.setBook order.Pair book1) id OrderStatusCancelled
        (bigIntString order.FilledBase) = us
      obtain ⟨s3, err⟩ := us
      cases err with
      | some e => exact ⟨_, rfl⟩
      | none =>
        simp only []
        obtain ⟨s4, hs4⟩ := updateCache_total out s3 order.Pair (hinv.cancel hc)
        rw [hs4]
        exact ⟨_, rfl⟩

/-! ## Fills never pass the base amount -/

/-- A fill leaves `FilledBase` of every order at or below the larger of its old value and
the base amount of the order. -/
theorem FillFacts.fill_capped {ob ob1 : OrderBook} {p maker : Nat} {buy : Bool} {m : MatchResult}
    (hf : FillFacts ob buy p ob1 m maker) (hpm : p ≠ maker) (a : Nat) :
    (ob1.orders a).FilledBase ≤ max (ob.orders a).FilledBase (ob.orders a).totalBase := by
  rw [hf.filled hpm a, hf.fillOf_eq, le_max_iff]
  have hle := hf.fill_le
  rw [remaining_eq, remaining_eq] at hle
  by_cases h1 : a = p
  · subst h1; simp only [true_or, if_true]; omega
  · by_cases h2 : a = maker
    · subst h2; simp only [or_true, if_true]; omega
    · simp only [h1, h2, or_self, if_false]; omega

/-- A run of the matching loop leaves `FilledBase` of every order at or below the larger
of its old value and the base amount of the order. -/
theorem MatchRun.run_capped {buy : Bool} {p N : Nat} {price : F64} {ob ob1 : OrderBook}
    {tr : List (OrderBook × MatchResult)} (hrun : MatchRun (sideStep buy p price) ob tr ob1)
    (hp : N ≤ p) : BookInv ob N →
    ∀ a, (ob1.orders a).FilledBase ≤ max (ob.orders a).FilledBase (ob.orders a).totalBase := by
  induction hrun with
  | exit _ => exact fun _ a => le_max_left _ _
  | @fill s s1 s2 m tr hst _ ih =>
    intro h a
    obtain ⟨maker, hf⟩ := sideStep_facts hst
    have hlt := hf.maker_lt h
    have hpm : p ≠ maker := by omega
    have h1 := ih (h.fill hp hf) a
    have h2 := hf.fill_capped hpm a
    have hfro : (s1.orders a).frozen = (s.orders a).frozen := by
      rw [hf.orders]; exact applyFill_frozen _ _ _ _ _
    rw [frozen_totalBase hfro] at h1
    exact le_trans h1 (max_le h2 (le_max_right _ _))

/-- `AddOrder` leaves `FilledBase` of every order at or below the larger of its old value
and the base amount of the order. -/
theorem AddOrder_capped {ob ob2 : OrderBook} {N p : Nat} {ms : List MatchResult}
    (h : BookInv ob N) (hp : N ≤ p) (ha : AddOrder ob p = some (ob2, ms)) (a : Nat) :
    (ob2.orders a).FilledBase ≤ max (ob.orders a).FilledBase (ob.orders a).totalBase := by
  obtain ⟨price, ob1, tr, -, hrun, rfl, hrest⟩ := AddOrder_inv ha
  rw [restOrder_orders hrest]
  exact hrun.run_capped hp h a

/-! ## The properties of the specification -/

/-- C1 fails as stated: the sell of 7 for -10 rests, the buy of 3 for 1 is matched with it for three
base units, and the quote is `3 * (-10) / 7 = -5`, the quotient rounded down, while the
quotient rounded toward zero is `-4`. -/
theorem C1_counterexample :
    (((World.init fun _ => order0).run [.add sellC1n, .add buyC1n]).map fun w =>
        w.trades.map fun m => (m.BuyOrder, m.SellOrder, m.FillAmount, m.QuoteAmount)) =
      some [(1, 0, 3, -5)] ∧
    Int.tdiv (3 * sellC1n.AmountBuy) sellC1n.AmountSell = -4 ∧
    (-5 : Int) ≠ Int.tdiv (3 * sellC1n.AmountBuy) sellC1n.AmountSell := by
  decide

/-- C1, amended: in a book whose resting sells are sell orders with nonnegative
`FilledBase`, every match that `AddOrder` returns for an incoming buy has the incoming
order as its buy order, a resting sell of the book as its sell order (the maker), and
`QuoteAmount = floor(FillAmount * maker.AmountBuy / maker.AmountSell)`, the quotient
rounded down; it is the quotient rounded toward zero when `maker.AmountBuy` is not
negative. -/
theorem C1_buy_quote_floor_amended (ob ob1 : OrderBook) (order : Nat) (ms : List MatchResult)
    (hside : (ob.orders order).Side = SideBuy)
    (hdata : ∀ e ∈ ob.sells, (ob.orders (ob.entries e).Order).Side ≠ SideBuy ∧
      0 ≤ (ob.orders (ob.entries e).Order).FilledBase)
    (h : AddOrder ob order = some (ob1, ms)) :
    ∀ m ∈ ms, m.BuyOrder = order ∧ (∃ e ∈ ob.sells, (ob.entries e).Order = m.SellOrder) ∧
      0 < (ob.orders m.SellOrder).AmountSell ∧
      m.QuoteAmount = ⌊((m.FillAmount * (ob.orders m.SellOrder).AmountBuy : Int) : ℚ)
        / (((ob.orders m.SellOrder).AmountSell : Int) : ℚ)⌋ ∧
      (0 ≤ (ob.orders m.SellOrder).AmountBuy →
        m.QuoteAmount = Int.tdiv (m.FillAmount * (ob.orders m.SellOrder).AmountBuy)
          (ob.orders m.SellOrder).AmountSell) := by
  obtain ⟨price, obm, tr, -, hrun, rfl, -⟩ := AddOrder_inv h
  simp only [hside, decide_True] at hrun
  intro m hm
  obtain ⟨sm, hsm, rfl⟩ := List.mem_map.mp hm
  obtain ⟨hsh, s1, hst⟩ := hrun.facts.2 sm hsm
  have hfl := hrun.filled_le.2 sm hsm
  rw [sideStep_true] at hst
  obtain ⟨hB, ⟨e, he, hord⟩, hAS, hq⟩ := buy_fill_quote hsh hfl hst hdata
  have hpos : 0 < sm.2.FillAmount := by
    obtain ⟨_, _, _, _, _, _, _, hpos, _⟩ := matchBuyStep_fill hst
    exact hpos
  refine ⟨hB, ⟨e, he, hord⟩, hAS, ?_, ?_⟩
  · rw [floor_ediv _ _ hAS]; exact hq
  · intro hAB
    rw [Int.tdiv_eq_ediv (mul_nonneg (le_of_lt hpos) hAB) (le_of_lt hAS)]; exact hq

theorem C1_witness :
    ((AddOrder bookC1 1).map fun r => r.2.map fun m => (m.FillAmount, m.QuoteAmount)) =
        some [(100, 200)] ∧
      ∀ m ∈ ((AddOrder bookC1 1).getD (bookC1, [])).2,
        m.BuyOrder = 1 ∧ (∃ e ∈ bookC1.sells, (bookC1.entries e).Order = m.SellOrder) ∧
        0 < (bookC1.orders m.SellOrder).AmountSell ∧
        m.QuoteAmount = ⌊((m.FillAmount * (bookC1.orders m.SellOrder).AmountBuy : Int) : ℚ)
          / (((bookC1.orders m.SellOrder).AmountSell : Int) : ℚ)⌋ ∧
        (0 ≤ (bookC1.orders m.SellOrder).AmountBuy →
          m.QuoteAmount = Int.tdiv (m.FillAmount * (bookC1.orders m.SellOrder).AmountBuy)
            (bookC1.orders m.SellOrder).AmountSell) :=
  ⟨by decide,
    C1_buy_quote_floor_amended bookC1 _ 1 _ (by decide) (by decide)
      (eq_some_getD (bookC1, []) (by decide))⟩

/-- C2 (the code differs): on a book with the resting buy `200/100`, the incoming sell
`100/100` is matched for 100 base units at `Price` 2.0, the price of the maker, but with
`QuoteAmount` 100, which is `FillAmount * taker.AmountBuy / taker.AmountSell`; the
maker's ratio `FillAmount * maker.AmountSell / maker.AmountBuy` gives 200. -/
theorem C2_sell_quote_uses_taker_ratio :
    (((World.init fun _ => order0).run [.add buyC2, .add sellC2]).map fun w =>
        w.trades.map fun m => (m.BuyOrder, m.SellOrder, m.FillAmount, m.QuoteAmount, m.Price)) =
      some [(0, 1, 100, 100, 4611686018427387904)] ∧
    (100 : Int) * sellC2.AmountBuy / sellC2.AmountSell = 100 ∧
    (100 : Int) * buyC2.AmountSell / buyC2.AmountBuy = 200 := by
  decide

/-- C3: `AddOrder` returns the fills of a run of its matching loop, and every fill `m`,
made in the book `s` the loop had reached, has `FillAmount = min(taker.RemainingBase,
maker.RemainingBase)` evaluated in `s`, `FillAmount > 0`, the resting order on top of
the opposite heap of `s` as its maker, the incoming order as its taker, and `Price`
equal to `Price()` of the maker. -/
theorem C3_fill_is_min_at_maker_price (ob ob1 : OrderBook) (order : Nat)
    (ms : List MatchResult) (h : AddOrder ob order = some (ob1, ms)) :
    ∃ price mid tr, (ob.orders order).Price = some price ∧
      MatchRun (sideStep (decide ((ob.orders order).Side = SideBuy)) order price) ob tr mid ∧
      tr.map Prod.snd = ms ∧
      ∀ sm ∈ tr, ∃ maker top,
        (sm.1.opp (decide ((ob.orders order).Side = SideBuy))).head? = some top ∧
        (sm.1.entries top).Order = maker ∧
        sm.2.BuyOrder = (if (ob.orders order).Side = SideBuy then order else maker) ∧
        sm.2.SellOrder = (if (ob.orders order).Side = SideBuy then maker else order) ∧
        sm.2.FillAmount = min (sm.1.orders order).RemainingBase
          (sm.1.orders maker).RemainingBase ∧
        0 < sm.2.FillAmount ∧
        (sm.1.orders maker).Price = some sm.2.Price := by
  obtain ⟨price, obm, tr, hp, hrun, rfl, -⟩ := AddOrder_inv h
  refine ⟨price, obm, tr, hp, hrun, rfl, ?_⟩
  intro sm hsm
  obtain ⟨-, s1, hst⟩ := hrun.facts.2 sm hsm
  obtain ⟨maker, hf⟩ := sideStep_facts hst
  obtain ⟨top, rest, htop, hord⟩ := hf.top
  refine ⟨maker, top, by rw [htop]; rfl, hord, ?_, ?_, ?_, hf.fill_pos, hf.price⟩
  · rw [hf.buyRef]; simp
  · rw [hf.sellRef]; simp
  · rw [hf.fill_eq, minBigInt_eq_min]

theorem C3_witness :
    ((AddOrder bookC1 1).map fun r => r.2.map fun m => (m.FillAmount, m.Price)) =
        some [(100, 4611686018427387904)] ∧
    ∃ price mid tr, (bookC1.orders 1).Price = some price ∧
      MatchRun (sideStep (decide ((bookC1.orders 1).Side = SideBuy)) 1 price) bookC1 tr mid ∧
      tr.map Prod.snd = ((AddOrder bookC1 1).getD (bookC1, [])).2 ∧
      ∀ sm ∈ tr, ∃ maker top,
        (sm.1.opp (decide ((bookC1.orders 1).Side = SideBuy))).head? = some top ∧
        (sm.1.entries top).Order = maker ∧
        sm.2.BuyOrder = (if (bookC1.orders 1).Side = SideBuy then 1 else maker) ∧
        sm.2.SellOrder = (if (bookC1.orders 1).Side = SideBuy then maker else 1) ∧
        sm.2.FillAmount = min (sm.1.orders 1).RemainingBase
          (sm.1.orders maker).RemainingBase ∧
        0 < sm.2.FillAmount ∧
        (sm.1.orders maker).Price = some sm.2.Price :=
  ⟨by decide,
    C3_fill_is_min_at_maker_price bookC1 _ 1 _ (eq_some_getD (bookC1, []) (by decide))⟩

/-- C4: on a book reached from the empty book by any calls, when `AddOrder` returns for
an incoming order `o` (placed at the next address), every maker of the returned matches
was resting in the opposite heap, the makers come best price first (ascending `Price` for
resting sells, descending for resting buys) and at equal price in ascending `CreatedAt`,
and every order left in the opposite heap is no better in (price, `CreatedAt`) than every
maker of the matches. -/
theorem C4_price_time_priority (orders : Nat → Order) (cs : List Call) (w : World) (o : Order)
    (ob1 : OrderBook) (ms : List MatchResult)
    (hw : (World.init orders).run cs = some w)
    (h : AddOrder { w.ob with orders := Function.update w.ob.orders w.next o } w.next =
      some (ob1, ms)) :
    (∀ m ∈ ms, ∃ e ∈ w.ob.opp (decide (o.Side = SideBuy)),
      (w.ob.entries e).Order = m.maker (decide (o.Side = SideBuy))) ∧
    ms.Pairwise (fun m1 m2 => PriceTimeLE (!decide (o.Side = SideBuy))
      (ob1.orders (m1.maker (decide (o.Side = SideBuy))))
      (ob1.orders (m2.maker (decide (o.Side = SideBuy))))) ∧
    ∀ e ∈ ob1.opp (decide (o.Side = SideBuy)), ∀ m ∈ ms,
      PriceTimeLE (!decide (o.Side = SideBuy))
        (ob1.orders (m.maker (decide (o.Side = SideBuy))))
        (ob1.orders (ob1.entries e).Order) := by
  have hinv := World.run_inv (World.init_inv orders) hw
  have key := AddOrder_priority (hinv.alloc o) (le_refl _) h
  simp only [Function.update_same] at key
  exact key

theorem C4_witness :
    ((resultC4.2.map fun m => (m.SellOrder, m.FillAmount)) = [(1, 100), (2, 100), (0, 50)] ∧
      resultC4.1.sells.map (fun e => (resultC4.1.entries e).Order) = [0]) ∧
    (∀ m ∈ resultC4.2, ∃ e ∈ worldC4.ob.opp (decide (buyC4.Side = SideBuy)),
      (worldC4.ob.entries e).Order = m.maker (decide (buyC4.Side = SideBuy))) ∧
    resultC4.2.Pairwise (fun m1 m2 => PriceTimeLE (!decide (buyC4.Side = SideBuy))
      (resultC4.1.orders (m1.maker (decide (buyC4.Side = SideBuy))))
      (resultC4.1.orders (m2.maker (decide (buyC4.Side = SideBuy))))) ∧
    ∀ e ∈ resultC4.1.opp (decide (buyC4.Side = SideBuy)), ∀ m ∈ resultC4.2,
      PriceTimeLE (!decide (buyC4.Side = SideBuy))
        (resultC4.1.orders (m.maker (decide (buyC4.Side = SideBuy))))
        (resultC4.1.orders (resultC4.1.entries e).Order) :=
  ⟨by decide,
    C4_price_time_priority (fun _ => order0) callsC4 worldC4 buyC4 resultC4.1 resultC4.2
      (eq_some_getD _ (by decide)) (eq_some_getD (worldC4.ob, []) (by decide))⟩


/-- C5: when the price of the incoming order is strictly worse than the price of every
resting order of the opposite side (below every ask for a buy, above every bid for a
sell), `AddOrder` returns, with no match; no order object is changed (so the incoming
order keeps its `FilledBase` and `Status`), and every resting entry still rests on its
side with the same order.  Every resting order has a price, as it has in a book built
by `AddOrder`. -/
theorem C5_worse_price_no_match (ob : OrderBook) (order : Nat) (price : F64)
    (hprice : (ob.orders order).Price = some price)
    (hbuy : (ob.orders order).Side = SideBuy → ∀ e ∈ ob.sells,
      ∃ mp, (ob.orders (ob.entries e).Order).Price = some mp ∧ price < mp)
    (hsell : (ob.orders order).Side ≠ SideBuy → ∀ e ∈ ob.buys,
      ∃ mp, (ob.orders (ob.entries e).Order).Price = some mp ∧ mp < price)
    (hpriced : ∀ e ∈ ob.buys ++ ob.sells,
      ((ob.orders (ob.entries e).Order).Price).isSome = true) :
    ∃ ob1, AddOrder ob order = some (ob1, []) ∧ ob1.orders = ob.orders ∧
      (∀ e ∈ ob.buys, e ∈ ob1.buys) ∧ (∀ e ∈ ob.sells, e ∈ ob1.sells) ∧
      ∀ e ∈ ob.buys ++ ob.sells, (ob1.entries e).Order = (ob.entries e).Order := by
  have hown : ∀ e ∈ ob.own (decide ((ob.orders order).Side = SideBuy)),
      ∃ q, (ob.orders (ob.entries e).Order).Price = some q := by
    intro e he
    apply Option.isSome_iff_exists.mp
    apply hpriced
    by_cases hs : (ob.orders order).Side = SideBuy
    · simp only [hs, decide_True, OrderBook.own, if_true] at he
      exact List.mem_append_left _ he
    · simp only [hs, decide_False, OrderBook.own, Bool.false_eq_true, if_false] at he
      exact List.mem_append_right _ he
  obtain ⟨ob2, hrest⟩ := restOrder_total ⟨price, hprice⟩ hown
  refine ⟨ob2, ?_, restOrder_keeps hrest⟩
  unfold AddOrder
  by_cases hs : (ob.orders order).Side = SideBuy
  · simp only [hs, if_true, matchBuy, hprice, matchLoop, matchBuyStep_exit_of_worse (hbuy hs),
      hrest]
  · simp only [hs, if_false, matchSell, hprice, matchLoop,
      matchSellStep_exit_of_worse (hsell hs), hrest]

theorem C5_witness :
    ∃ ob1, AddOrder bookC5 1 = some (ob1, []) ∧ ob1.orders = bookC5.orders ∧
      (∀ e ∈ bookC5.buys, e ∈ ob1.buys) ∧ (∀ e ∈ bookC5.sells, e ∈ ob1.sells) ∧
      ∀ e ∈ bookC5.buys ++ bookC5.sells, (ob1.entries e).Order = (bookC5.entries e).Order :=
  C5_worse_price_no_match bookC5 1 4611686018427387904 (by decide) (by decide) (by decide)
    (by decide)

/-- C6: when `AddOrder` returns for an incoming order that no heap entry of the book
points to yet, the order rests (the by-id map sends its `ID` to an entry of the heap of
its side that points to it) if and only if its `RemainingBase` after matching is positive
and its status is not `Filled`; and if it came in `Open` with `0 ≤ FilledBase` and rests,
its status is `Open` when the call made no match and `PartiallyFilled` when it made
one. -/
theorem C6_rests_iff_remaining (ob ob1 : OrderBook) (order : Nat) (ms : List MatchResult)
    (hnew : ∀ e ∈ ob.buys ++ ob.sells, (ob.entries e).Order ≠ order)
    (h : AddOrder ob order = some (ob1, ms)) :
    (Resting ob1 order ↔
      0 < (ob1.orders order).RemainingBase ∧ (ob1.orders order).Status ≠ OrderStatusFilled) ∧
    ((ob.orders order).Status = OrderStatusOpen → 0 ≤ (ob.orders order).FilledBase →
      Resting ob1 order →
      (ms = [] ∧ (ob1.orders order).Status = OrderStatusOpen) ∨
      (ms ≠ [] ∧ (ob1.orders order).Status = OrderStatusPartiallyFilled)) := by
  obtain ⟨price, s, tr, -, hrun, hms, hrest⟩ := AddOrder_inv h
  have hfresh := (MatchRun.facts hrun).1.fresh hnew
  have horders := restOrder_orders hrest
  have hiff : Resting ob1 order ↔
      0 < (ob1.orders order).RemainingBase ∧ (ob1.orders order).Status ≠ OrderStatusFilled := by
    rw [horders]
    rcases restOrder_inv hrest with ⟨hc, heq⟩ | ⟨hc, hm, hpush, ho, he, hown, -, hmap⟩
    · subst heq
      constructor
      · rintro ⟨e, -, hord, hmem⟩
        exact absurd hord (hfresh e ((mem_resting _ _ e).mpr (Or.inl hmem)))
      · exact fun hc1 => absurd hc1 hc
    · refine ⟨fun _ => hc, fun _ => ⟨s.newEntry, ?_, ?_, ?_⟩⟩
      · rw [hmap, ho]
        simp [mapGet, mapSet, List.lookup]
      · obtain ⟨-, hord, -⟩ := heapPush_inv hpush
        rw [he, hord]
        simp
      · obtain ⟨hperm, -, -⟩ := heapPush_inv hpush
        rw [ho, hown]
        exact hperm.mem_iff.mpr (List.mem_cons_self _ _)
  refine ⟨hiff, fun hopen h0 hres => ?_⟩
  have hc := hiff.mp hres
  obtain ⟨t1, t2⟩ := hrun.taker hnew h0
  rw [horders] at hc ⊢
  by_cases ht : tr = []
  · left
    rw [hms, ht, t1 ht]
    exact ⟨rfl, hopen⟩
  · right
    refine ⟨?_, (t2 ht).2 hc.1⟩
    rw [hms]
    intro hnil
    exact ht (List.map_eq_nil_iff.mp hnil)

theorem C6_witness :
    ((resultC6.2.map fun m => (m.FillAmount, m.QuoteAmount)) = [(50, 100)] ∧
      (resultC6.1.orders 0).Status = OrderStatusFilled ∧
      (resultC6.1.orders 1).RemainingBase = 50 ∧ resultC6.1.buys.length = 1 ∧
      resultC6.1.sells = []) ∧
    (Resting resultC6.1 1 ↔
      0 < (resultC6.1.orders 1).RemainingBase ∧
        (resultC6.1.orders 1).Status ≠ OrderStatusFilled) ∧
    ((bookC6.orders 1).Status = OrderStatusOpen → 0 ≤ (bookC6.orders 1).FilledBase →
      Resting resultC6.1 1 →
      (resultC6.2 = [] ∧ (resultC6.1.orders 1).Status = OrderStatusOpen) ∨
      (resultC6.2 ≠ [] ∧ (resultC6.1.orders 1).Status = OrderStatusPartiallyFilled)) :=
  ⟨by decide,
    C6_rests_iff_remaining bookC6 resultC6.1 1 resultC6.2 (by decide)
      (eq_some_getD (bookC6, []) (by decide))⟩

/-- C7 fails as stated: the buy of -5 for 5 is added with `FilledBase = 0`, `AddOrder` returns
without a match, and the order has `FilledBase = 0` above its `totalBase = -5`. -/
theorem C7_counterexample :
    buyC7n.FilledBase = 0 ∧
    ((World.init fun _ => order0).run [.add buyC7n]).isSome = true ∧
    worldC7n.next = 1 ∧ worldC7n.trades.length = 0 ∧
    (worldC7n.ob.orders 0).FilledBase = 0 ∧ (worldC7n.ob.orders 0).totalBase = -5 ∧
    ¬ ((worldC7n.ob.orders 0).FilledBase ≤ (worldC7n.ob.orders 0).totalBase) := by
  decide

/-- C7, amended: after any sequence of calls from the empty book in which every order is
added with `FilledBase = 0`, every order created so far has `0 ≤ FilledBase`, has
`FilledBase ≤ totalBase` when its `totalBase` is not negative and `FilledBase = 0` when it
is negative, and its `FilledBase` is the sum of `FillAmount` over all matches returned so
far that reference it. -/
theorem C7_filled_within_base_amended (orders : Nat → Order) (cs : List Call) (w : World)
    (hcs : ∀ o, Call.add o ∈ cs → o.FilledBase = 0)
    (h : (World.init orders).run cs = some w) :
    ∀ a, a < w.next → 0 ≤ (w.ob.orders a).FilledBase ∧
      (0 ≤ (w.ob.orders a).totalBase →
        (w.ob.orders a).FilledBase ≤ (w.ob.orders a).totalBase) ∧
      ((w.ob.orders a).totalBase < 0 → (w.ob.orders a).FilledBase = 0) ∧
      (w.ob.orders a).FilledBase = filledSum w.trades a := by
  have key : BookInv w.ob w.next ∧ (∀ m ∈ w.trades, m.BuyOrder < w.next ∧ m.SellOrder < w.next) ∧
      ∀ a, a < w.next → 0 ≤ (w.ob.orders a).FilledBase ∧
        (w.ob.orders a).FilledBase ≤ max (w.ob.orders a).totalBase 0 ∧
        (w.ob.orders a).FilledBase = filledSum w.trades a := by
    refine World.run_induct (P := fun u => BookInv u.ob u.next ∧
      (∀ m ∈ u.trades, m.BuyOrder < u.next ∧ m.SellOrder < u.next) ∧
      ∀ a, a < u.next → 0 ≤ (u.ob.orders a).FilledBase ∧
        (u.ob.orders a).FilledBase ≤ max (u.ob.orders a).totalBase 0 ∧
        (u.ob.orders a).FilledBase = filledSum u.trades a) ?_ ?_ h
    · intro u v c hc ⟨hinv, href, hacc⟩ hstep
      refine ⟨World.step_inv hinv hstep, ?_⟩
      cases c with
      | add o =>
        obtain ⟨ms, ha, hn, ht⟩ := World.step_add_inv hstep
        obtain ⟨hfro, i1, -, i3⟩ := AddOrder_accounts (hinv.alloc o) (le_refl _) ha
        have i2 := AddOrder_capped (hinv.alloc o) (le_refl _) ha
        have i4 := AddOrder_filled_le ha
        simp only [] at hfro i1 i2 i3 i4
        have ho1 := hcs o hc
        rw [hn, ht]
        refine ⟨?_, ?_⟩
        · intro m hm
          rcases List.mem_append.mp hm with h1 | h1
          · have := href m h1; omega
          · have := i3 m h1; omega
        · intro a ha'
          rw [filledSum_append, frozen_totalBase (hfro a)]
          by_cases hlt : a < u.next
          · obtain ⟨b1, b2, b3⟩ := hacc a hlt
            have hsame : Function.update u.ob.orders u.next o a = u.ob.orders a :=
              Function.update_noteq (by omega) _ _
            have hb := i2 a
            have hc4 := i4 a
            rw [hsame] at hb hc4 ⊢
            refine ⟨le_trans b1 hc4, le_trans hb (max_le b2 (le_max_left _ _)), ?_⟩
            rw [i1 a, hsame, b3]
          · have hEq : a = u.next := by omega
            subst hEq
            have hsame : Function.update u.ob.orders u.next o u.next = o :=
              Function.update_same _ _ _
            have hb := i2 u.next
            have hc4 := i4 u.next
            rw [hsame] at hb hc4 ⊢
            rw [ho1] at hb hc4
            refine ⟨hc4, le_trans hb (max_le (le_max_right _ _) (le_max_left _ _)), ?_⟩
            have hz : filledSum u.trades u.next = 0 :=
              filledSum_zero (fun m hm => by have := href m hm; omega)
            rw [i1 u.next, hsame, ho1, hz]
      | cancel id =>
        obtain ⟨r, hcn, hn, ht⟩ := World.step_cancel_inv hstep
        rw [hn, ht]
        refine ⟨href, ?_⟩
        intro a ha'
        obtain ⟨f1, f2, -⟩ := CancelOrder_orders hcn a
        rw [f2, frozen_totalBase f1]
        exact hacc a ha'
    · exact ⟨World.init_inv orders, by simp [World.init], fun a ha => by
        simp [World.init] at ha⟩
  intro a ha
  obtain ⟨k1, k2, k3⟩ := key.2.2 a ha
  refine ⟨k1, fun ht => ?_, fun ht => ?_, k3⟩
  · rwa [max_eq_left ht] at k2
  · rw [max_eq_right (le_of_lt ht)] at k2
    omega

theorem C7_witness :
    (worldC7.next = 2 ∧ (worldC7.trades.map fun m => m.FillAmount) = [100] ∧
      (worldC7.ob.orders 1).FilledBase = 100) ∧
    ∀ a, a < worldC7.next → 0 ≤ (worldC7.ob.orders a).FilledBase ∧
      (0 ≤ (worldC7.ob.orders a).totalBase →
        (worldC7.ob.orders a).FilledBase ≤ (worldC7.ob.orders a).totalBase) ∧
      ((worldC7.ob.orders a).totalBase < 0 → (worldC7.ob.orders a).FilledBase = 0) ∧
      (worldC7.ob.orders a).FilledBase = filledSum worldC7.trades a :=
  ⟨by decide,
    C7_filled_within_base_amended (fun _ => order0) callsC7 worldC7
      (by
        intro o ho
        simp only [callsC7, List.mem_cons, Call.add.injEq, List.mem_singleton,
          List.not_mem_nil, or_false] at ho
        rcases ho with rfl | rfl <;> decide)
      (eq_some_getD _ (by decide))⟩

/-- C8 (counterexample): a buy order with `AmountBuy = 0` is `Open` with `FilledBase = 0`
when it is passed to `AddOrder` on the empty book; the call returns, and afterwards the
order (at address 0) is still `Open` although its `RemainingBase` is 0, so
`Status = Filled ↔ RemainingBase = 0` fails. -/
theorem C8_counterexample :
    zeroC8.Status = OrderStatusOpen ∧ zeroC8.FilledBase = 0 ∧
    ((World.init fun _ => order0).run [.add zeroC8]).isSome = true ∧
    (worldC8.ob.orders 0).ID = "buy-0" ∧
    (worldC8.ob.orders 0).Status = OrderStatusOpen ∧
    (worldC8.ob.orders 0).RemainingBase = 0 ∧
    ¬((worldC8.ob.orders 0).Status = OrderStatusFilled ↔
      (worldC8.ob.orders 0).RemainingBase = 0) := by
  decide

/-- C8 (amended): an order with a positive base amount (`AmountBuy` of a buy, `AmountSell`
of a sell) that is `Open` with `FilledBase = 0` when it is passed to `AddOrder`, on a book
reached from the empty book by the calls `cs1`, satisfies after that call and after any
further calls `cs2`: `0 ≤ FilledBase`, `Status = Filled ↔ RemainingBase = 0`, and
`Status = PartiallyFilled → 0 < FilledBase < totalBase`. -/
theorem C8_status_consistent_amended (orders : Nat → Order) (cs1 cs2 : List Call) (o : Order)
    (w1 w2 : World) (h1 : (World.init orders).run cs1 = some w1)
    (hopen : o.Status = OrderStatusOpen ∧ o.FilledBase = 0) (htot : 0 < o.totalBase)
    (h2 : w1.run (Call.add o :: cs2) = some w2) :
    0 ≤ (w2.ob.orders w1.next).FilledBase ∧
    ((w2.ob.orders w1.next).Status = OrderStatusFilled ↔
      (w2.ob.orders w1.next).RemainingBase = 0) ∧
    ((w2.ob.orders w1.next).Status = OrderStatusPartiallyFilled →
      0 < (w2.ob.orders w1.next).FilledBase ∧
      (w2.ob.orders w1.next).FilledBase < (w2.ob.orders w1.next).totalBase) := by
  have hinv := World.run_inv (World.init_inv orders) h1
  simp only [World.run] at h2
  split at h2
  · simp at h2
  · rename_i u hstep
    have hinvu := World.step_inv hinv hstep
    obtain ⟨ms, hadd, hn, -⟩ := World.step_add_inv hstep
    have h0 : ConsOrder o := by
      have hr := remaining_eq o
      refine ⟨by omega, ?_, ?_⟩
      · rw [hopen.1]
        constructor
        · intro hst; exact absurd hst (by decide)
        · intro hrem; omega
      · rw [hopen.1]
        intro hst; exact absurd hst (by decide)
    have hu : ConsOrder (u.ob.orders w1.next) := by
      refine AddOrder_cons (hinv.alloc o) (le_refl _) hadd w1.next ?_
      simp only []
      rw [Function.update_same]
      exact h0
    have key : BookInv w2.ob w2.next ∧ w1.next < w2.next ∧ ConsOrder (w2.ob.orders w1.next) := by
      refine World.run_induct (P := fun v => BookInv v.ob v.next ∧ w1.next < v.next ∧
        ConsOrder (v.ob.orders w1.next)) ?_ ⟨hinvu, by omega, hu⟩ h2
      intro a b c _ ⟨i1, i2, i3⟩ hs
      have := World.step_next hs
      exact ⟨World.step_inv i1 hs, by omega, World.step_cons i1 _ i2 i3 hs⟩
    exact key.2.2

theorem C8_witness :
    (worldC8a.next = 1 ∧ (worldC8b.ob.orders 1).Status = OrderStatusPartiallyFilled ∧
      (worldC8b.ob.orders 1).FilledBase = 100) ∧
    (0 ≤ (worldC8b.ob.orders worldC8a.next).FilledBase ∧
    ((worldC8b.ob.orders worldC8a.next).Status = OrderStatusFilled ↔
      (worldC8b.ob.orders worldC8a.next).RemainingBase = 0) ∧
    ((worldC8b.ob.orders worldC8a.next).Status = OrderStatusPartiallyFilled →
      0 < (worldC8b.ob.orders worldC8a.next).FilledBase ∧
      (worldC8b.ob.orders worldC8a.next).FilledBase <
        (worldC8b.ob.orders worldC8a.next).totalBase)) :=
  ⟨by decide,
    C8_status_consistent_amended (fun _ => order0) (callsC7.take 1) []
      { ID := "buy-1", AmountSell := 450, AmountBuy := 150, Side := SideBuy, CreatedAt := 1 }
      worldC8a worldC8b (eq_some_getD _ (by decide)) (by decide) (by decide)
      (eq_some_getD worldC8a (by decide))⟩

/-- C9: after any sequence of calls from the empty book no resting entry, in either heap,
points to a `Filled` order, and every entry of the by-id map rests in a heap; so an order
that is `Filled` after a call (a resting order that a match of the call filled
completely) is in no heap and under no key of the map when the call returns. -/
theorem C9_no_resting_order_is_filled (orders : Nat → Order) (cs : List Call) (w : World)
    (h : (World.init orders).run cs = some w) :
    (∀ e ∈ w.ob.buys ++ w.ob.sells,
      (w.ob.orders (w.ob.entries e).Order).Status ≠ OrderStatusFilled) ∧
    (∀ kv ∈ w.ob.orderMap, kv.2 ∈ w.ob.buys ++ w.ob.sells) ∧
    ∀ a, (w.ob.orders a).Status = OrderStatusFilled →
      (∀ e ∈ w.ob.buys ++ w.ob.sells, (w.ob.entries e).Order ≠ a) ∧
      ∀ kv ∈ w.ob.orderMap, (w.ob.entries kv.2).Order ≠ a := by
  have hinv := World.run_inv (World.init_inv orders) h
  refine ⟨fun e he => (hinv.live e he).2, hinv.mapIn, ?_⟩
  intro a ha
  have h1 : ∀ e ∈ w.ob.buys ++ w.ob.sells, (w.ob.entries e).Order ≠ a := by
    intro e he heq
    exact (hinv.live e he).2 (heq ▸ ha)
  exact ⟨h1, fun kv hkv => h1 _ (hinv.mapIn kv hkv)⟩

theorem C9_witness :
    ((worldC7.ob.orders 0).Status = OrderStatusFilled ∧ worldC7.ob.sells = [] ∧
      worldC7.ob.buys.length = 1) ∧
    ((∀ e ∈ worldC7.ob.buys ++ worldC7.ob.sells,
      (worldC7.ob.orders (worldC7.ob.entries e).Order).Status ≠ OrderStatusFilled) ∧
    (∀ kv ∈ worldC7.ob.orderMap, kv.2 ∈ worldC7.ob.buys ++ worldC7.ob.sells) ∧
    ∀ a, (worldC7.ob.orders a).Status = OrderStatusFilled →
      (∀ e ∈ worldC7.ob.buys ++ worldC7.ob.sells, (worldC7.ob.entries e).Order ≠ a) ∧
      ∀ kv ∈ worldC7.ob.orderMap, (worldC7.ob.entries kv.2).Order ≠ a) :=
  ⟨by decide,
    C9_no_resting_order_is_filled (fun _ => order0) callsC7 worldC7 (eq_some_getD _ (by decide))⟩

/-- C10 fails as stated.  The ratios `(2 * 10 ^ 18 + 1) / 10 ^ 18` of the resting sell
and `2 * 10 ^ 18 / 10 ^ 18` of the incoming buy are the same `float64` 2.0, so the buy is
matched and pays `2 * 10 ^ 18 + 1` for `10 ^ 18` base units, more than its limit. -/
theorem C10_counterexample :
    (((World.init fun _ => order0).run [.add sellC10, .add buyC10]).map fun w =>
        w.trades.map fun m => (m.BuyOrder, m.SellOrder, m.FillAmount, m.QuoteAmount)) =
      some [(1, 0, 10 ^ 18, 2 * 10 ^ 18 + 1)] ∧
     ¬ ((2 * 10 ^ 18 + 1) * buyC10.AmountBuy ≤ 10 ^ 18 * buyC10.AmountSell) := by
  decide

/-- C10, amended: with nonnegative `FilledBase` of the incoming order and of the resting
orders, a match of an incoming buy satisfies `QuoteAmount * taker.AmountBuy ≤
FillAmount * taker.AmountSell` whenever the limit ratio of the buy is at least the ratio of
the maker in exact integers (`maker.AmountBuy * taker.AmountBuy ≤ taker.AmountSell *
maker.AmountSell`). -/
theorem C10_taker_limit_amended (ob ob1 : OrderBook) (order : Nat) (ms : List MatchResult)
    (hside : (ob.orders order).Side = SideBuy)
    (htaker : 0 ≤ (ob.orders order).FilledBase)
    (hdata : ∀ e ∈ ob.sells, (ob.orders (ob.entries e).Order).Side ≠ SideBuy ∧
      0 ≤ (ob.orders (ob.entries e).Order).FilledBase)
    (h : AddOrder ob order = some (ob1, ms)) :
    ∀ m ∈ ms, m.BuyOrder = order ∧
      (∃ e ∈ ob.sells, (ob.entries e).Order = m.SellOrder) ∧
      ((ob.orders m.SellOrder).AmountBuy * (ob.orders order).AmountBuy ≤
          (ob.orders order).AmountSell * (ob.orders m.SellOrder).AmountSell →
        m.QuoteAmount * (ob.orders order).AmountBuy ≤
          m.FillAmount * (ob.orders order).AmountSell) := by
  obtain ⟨price, obm, tr, -, hrun, rfl, -⟩ := AddOrder_inv h
  intro m hm
  obtain ⟨sm, hsm, rfl⟩ := List.mem_map.mp hm
  obtain ⟨hsh, s1, hst⟩ := hrun.facts.2 sm hsm
  have hfl := hrun.filled_le.2 sm hsm
  have hfr := frozen_fields (hsh.frozen order)
  simp only [hside, decide_True, sideStep_true] at hst
  obtain ⟨hB, hmk, hAS, hq⟩ := buy_fill_quote hsh hfl hst hdata
  refine ⟨hB, hmk, ?_⟩
  intro hcross
  obtain ⟨_, _, _, _, hrem, _, _, hpos, _⟩ := matchBuyStep_fill hst
  have hAB : 0 ≤ (ob.orders order).AmountBuy := by
    unfold Order.RemainingBase at hrem
    rw [hfr.2.1, if_pos hside, hfr.2.2.2.1] at hrem
    have := hfl order
    omega
  have h1 : sm.2.QuoteAmount * (ob.orders sm.2.SellOrder).AmountSell ≤
      sm.2.FillAmount * (ob.orders sm.2.SellOrder).AmountBuy := by
    rw [hq]; exact Int.ediv_mul_le _ (ne_of_gt hAS)
  have h2 := mul_le_mul_of_nonneg_right h1 hAB
  have h3 := mul_le_mul_of_nonneg_left hcross (le_of_lt hpos)
  have h4 : (sm.2.QuoteAmount * (ob.orders order).AmountBuy) *
      (ob.orders sm.2.SellOrder).AmountSell ≤
      (sm.2.FillAmount * (ob.orders order).AmountSell) *
      (ob.orders sm.2.SellOrder).AmountSell := by
    calc (sm.2.QuoteAmount * (ob.orders order).AmountBuy) *
          (ob.orders sm.2.SellOrder).AmountSell
        = sm.2.QuoteAmount * (ob.orders sm.2.SellOrder).AmountSell *
          (ob.orders order).AmountBuy := by ring
      _ ≤ sm.2.FillAmount * (ob.orders sm.2.SellOrder).AmountBuy *
          (ob.orders order).AmountBuy := h2
      _ = sm.2.FillAmount * ((ob.orders sm.2.SellOrder).AmountBuy *
          (ob.orders order).AmountBuy) := by ring
      _ ≤ sm.2.FillAmount * ((ob.orders order).AmountSell *
          (ob.orders sm.2.SellOrder).AmountSell) := h3
      _ = _ := by ring
  exact le_of_mul_le_mul_right h4 hAS

theorem C10_witness :
    (((AddOrder bookC1 1).map fun r => r.2.map fun m => (m.SellOrder, m.FillAmount, m.QuoteAmount))
        = some [(0, 100, 200)] ∧
      (bookC1.orders 1).Side = SideBuy ∧
      (bookC1.orders 0).AmountBuy * (bookC1.orders 1).AmountBuy ≤
        (bookC1.orders 1).AmountSell * (bookC1.orders 0).AmountSell) ∧
    ∀ m ∈ ((AddOrder bookC1 1).getD (bookC1, [])).2, m.BuyOrder = 1 ∧
      (∃ e ∈ bookC1.sells, (bookC1.entries e).Order = m.SellOrder) ∧
      ((bookC1.orders m.SellOrder).AmountBuy * (bookC1.orders 1).AmountBuy ≤
          (bookC1.orders 1).AmountSell * (bookC1.orders m.SellOrder).AmountSell →
        m.QuoteAmount * (bookC1.orders 1).AmountBuy ≤
          m.FillAmount * (bookC1.orders 1).AmountSell) :=
  ⟨by decide,
    C10_taker_limit_amended bookC1 _ 1 _ (by decide) (by decide) (by decide)
      (eq_some_getD (bookC1, []) (by decide))⟩

/-- C11: on a book reached from the empty book, for an order that rests (the map sends
its id to an entry of the heap of its side that points to it), `CancelOrder` called with
its id returns that order; afterwards the order is `Cancelled` with every other field,
`FilledBase` included, as before; its id, and no other key, has left the map; the heaps
hold the entries they held except those of this order; and every other order keeps its
fields and rests exactly if it rested before. -/
theorem C11_cancel_removes_exactly_that_order (orders : Nat → Order) (cs : List Call) (w : World)
    (a : Nat) (hw : (World.init orders).run cs = some w) (hres : Resting w.ob a) :
    ∃ ob1, CancelOrder w.ob (w.ob.orders a).ID = some (ob1, some a) ∧
      ob1.orders a = { w.ob.orders a with Status := OrderStatusCancelled } ∧
      (ob1.orders a).FilledBase = (w.ob.orders a).FilledBase ∧
      (∀ k, mapGet ob1.orderMap k =
        if k = (w.ob.orders a).ID then none else mapGet w.ob.orderMap k) ∧
      (∀ x, x ∈ ob1.buys ↔ x ∈ w.ob.buys ∧ (w.ob.entries x).Order ≠ a) ∧
      (∀ x, x ∈ ob1.sells ↔ x ∈ w.ob.sells ∧ (w.ob.entries x).Order ≠ a) ∧
      ob1.buys.Nodup ∧ ob1.sells.Nodup ∧
      (∀ x, (ob1.entries x).Order = (w.ob.entries x).Order) ∧
      ¬ Resting ob1 a ∧
      ∀ a1, a1 ≠ a → ob1.orders a1 = w.ob.orders a1 ∧ (Resting ob1 a1 ↔ Resting w.ob a1) := by
  have hinv := World.run_inv (World.init_inv orders) hw
  obtain ⟨e, hg, hea, -⟩ := hres
  obtain ⟨ob1, hc, ho, hmap, hord, hperm, hopp, hnone⟩ := CancelOrder_hit hinv hg
  have hinv1 := hinv.cancel hc
  rw [hea] at hc ho hperm hopp hnone
  have hmapget : ∀ k, mapGet ob1.orderMap k =
      if k = (w.ob.orders a).ID then none else mapGet w.ob.orderMap k := by
    intro k; rw [hmap]; exact mapGet_mapDelete _ _ _
  have hmem : ∀ (s : Bool) (x : Nat),
      x ∈ ob1.own s ↔ x ∈ w.ob.own s ∧ (w.ob.entries x).Order ≠ a := by
    intro s x
    constructor
    · intro hx
      have hx1 : x ∈ ob1.buys ++ ob1.sells := (mem_resting ob1 s x).mpr (Or.inl hx)
      refine ⟨?_, by rw [← hord]; exact hnone x hx1⟩
      by_cases hs : s = decide ((w.ob.orders a).Side = SideBuy)
      · rw [hs] at hx ⊢
        exact hperm.subset (List.mem_cons_of_mem _ hx)
      · have hs1 : s = !decide ((w.ob.orders a).Side = SideBuy) := by
          cases s <;> cases hd : decide ((w.ob.orders a).Side = SideBuy) <;> simp_all
        have h1 : ob1.own s = ob1.opp (decide ((w.ob.orders a).Side = SideBuy)) := by
          rw [hs1]; cases decide ((w.ob.orders a).Side = SideBuy) <;> rfl
        have h2 : w.ob.own s = w.ob.opp (decide ((w.ob.orders a).Side = SideBuy)) := by
          rw [hs1]; cases decide ((w.ob.orders a).Side = SideBuy) <;> rfl
        rw [h2, ← hopp, ← h1]
        exact hx
    · rintro ⟨hx, hne⟩
      by_cases hs : s = decide ((w.ob.orders a).Side = SideBuy)
      · rw [hs] at hx ⊢
        rcases List.mem_cons.mp (hperm.symm.subset hx) with h1 | h1
        · rw [h1, hea] at hne
          exact absurd rfl hne
        · exact h1
      · have hs1 : s = !decide ((w.ob.orders a).Side = SideBuy) := by
          cases s <;> cases hd : decide ((w.ob.orders a).Side = SideBuy) <;> simp_all
        have h1 : ob1.own s = ob1.opp (decide ((w.ob.orders a).Side = SideBuy)) := by
          rw [hs1]; cases decide ((w.ob.orders a).Side = SideBuy) <;> rfl
        have h2 : w.ob.own s = w.ob.opp (decide ((w.ob.orders a).Side = SideBuy)) := by
          rw [hs1]; cases decide ((w.ob.orders a).Side = SideBuy) <;> rfl
        rw [h1, hopp, ← h2]
        exact hx
  have hoa : ob1.orders a = { w.ob.orders a with Status := OrderStatusCancelled } := by
    rw [ho, Function.update_same]
  have hother : ∀ a1, a1 ≠ a → ob1.orders a1 = w.ob.orders a1 := by
    intro a1 hne; rw [ho, Function.update_noteq hne]
  refine ⟨ob1, hc, hoa, by rw [hoa], hmapget, hmem true, hmem false, hinv1.buys.nodup,
    hinv1.sells.nodup, hord, ?_, ?_⟩
  · rintro ⟨x, -, hxa, hx⟩
    exact hnone x ((mem_resting ob1 _ x).mpr (Or.inl hx)) hxa
  · intro a1 hne
    refine ⟨hother a1 hne, ?_⟩
    unfold Resting
    rw [hother a1 hne]
    constructor
    · rintro ⟨x, hgx, hxa, hx⟩
      rw [hmapget] at hgx
      split at hgx
      · simp at hgx
      · exact ⟨x, hgx, by rw [← hord]; exact hxa, ((hmem _ x).mp hx).1⟩
    · rintro ⟨x, hgx, hxa, hx⟩
      refine ⟨x, ?_, by rw [hord]; exact hxa, (hmem _ x).mpr ⟨hx, by rw [hxa]; exact hne⟩⟩
      rw [hmapget, if_neg]
      · exact hgx
      · intro hid
        rw [hid, hg] at hgx
        simp only [Option.some.injEq] at hgx
        rw [← hgx, hea] at hxa
        exact hne hxa.symm

theorem C11_witness :
    ((worldC11.ob.orders 0).ID = "buy-1" ∧ worldC11.ob.buys.length = 2 ∧
      ((CancelOrder worldC11.ob "buy-1").map fun r =>
        (r.2, (r.1.orders 0).Status, r.1.buys.map fun x => (r.1.entries x).Order)) =
        some (some 0, OrderStatusCancelled, [1])) ∧
    ∃ ob1, CancelOrder worldC11.ob (worldC11.ob.orders 0).ID = some (ob1, some 0) ∧
      ob1.orders 0 = { worldC11.ob.orders 0 with Status := OrderStatusCancelled } ∧
      (ob1.orders 0).FilledBase = (worldC11.ob.orders 0).FilledBase ∧
      (∀ k, mapGet ob1.orderMap k =
        if k = (worldC11.ob.orders 0).ID then none else mapGet worldC11.ob.orderMap k) ∧
      (∀ x, x ∈ ob1.buys ↔ x ∈ worldC11.ob.buys ∧ (worldC11.ob.entries x).Order ≠ 0) ∧
      (∀ x, x ∈ ob1.sells ↔ x ∈ worldC11.ob.sells ∧ (worldC11.ob.entries x).Order ≠ 0) ∧
      ob1.buys.Nodup ∧ ob1.sells.Nodup ∧
      (∀ x, (ob1.entries x).Order = (worldC11.ob.entries x).Order) ∧
      ¬ Resting ob1 0 ∧
      ∀ a1, a1 ≠ 0 → ob1.orders a1 = worldC11.ob.orders a1 ∧
        (Resting ob1 a1 ↔ Resting worldC11.ob a1) :=
  ⟨by decide,
    C11_cancel_removes_exactly_that_order (fun _ => order0) callsC11 worldC11 0
      (eq_some_getD _ (by decide))
      ⟨(mapGet worldC11.ob.orderMap "buy-1").getD 0, by decide, by decide, by decide⟩⟩

/-- C12: on a book reached from the empty book `CancelOrder` returns, and it reports a
miss exactly when no order with the id rests (none that the by-id map sends to an entry
of its heap); on a miss the book is unchanged; the same id misses when it is cancelled
again; an id that no order created so far carries misses; an order that is `Filled` does
not rest, so that its id misses unless another order rests under it; and when the added
orders have distinct ids, a miss is reported exactly when no entry of a heap points to
an order with the id. -/
theorem C12_cancel_miss_iff_not_resting (orders : Nat → Order) (cs : List Call) (w : World)
    (id : String) (hw : (World.init orders).run cs = some w) :
    ∃ ob1 r, CancelOrder w.ob id = some (ob1, r) ∧
      (r = none ↔ ¬ ∃ a, Resting w.ob a ∧ (w.ob.orders a).ID = id) ∧
      (r = none → ob1 = w.ob) ∧
      CancelOrder ob1 id = some (ob1, none) ∧
      ((∀ a, a < w.next → (w.ob.orders a).ID ≠ id) → r = none) ∧
      (∀ a, (w.ob.orders a).Status = OrderStatusFilled → ¬ Resting w.ob a) ∧
      ((addIds cs).Nodup → (r = none ↔
        ¬ ∃ e ∈ w.ob.buys ++ w.ob.sells, (w.ob.orders (w.ob.entries e).Order).ID = id)) := by
  have hinv := World.run_inv (World.init_inv orders) hw
  have hfilled : ∀ a, (w.ob.orders a).Status = OrderStatusFilled → ¬ Resting w.ob a := by
    rintro a hst ⟨e, -, hea, he⟩
    have := (hinv.live e ((mem_resting _ _ e).mpr (Or.inl he))).2
    rw [hea] at this
    exact this hst
  have hnever : (∀ a, a < w.next → (w.ob.orders a).ID ≠ id) → mapGet w.ob.orderMap id = none := by
    intro hn
    by_contra hne
    obtain ⟨a, ⟨e, -, hea, he⟩, hid⟩ := (hinv.resting_iff id).mpr hne
    have hb := hinv.bound e ((mem_resting _ _ e).mpr (Or.inl he))
    rw [hea] at hb
    exact hn a hb hid
  have hheap : (addIds cs).Nodup →
      ((∃ e ∈ w.ob.buys ++ w.ob.sells, (w.ob.orders (w.ob.entries e).Order).ID = id) ↔
        mapGet w.ob.orderMap id ≠ none) := by
    intro hids
    have hm : HeapInMap w.ob :=
      World.run_heapInMap cs _ w (World.init_inv orders)
        (fun e he => by simp [World.init, NewOrderBook] at he) hids
        (fun e he => by simp [World.init, NewOrderBook] at he) hw
    constructor
    · rintro ⟨e, he, hid⟩
      rw [← hid, hm e he]
      simp
    · intro hne
      obtain ⟨a, ⟨e, -, hea, he⟩, hid⟩ := (hinv.resting_iff id).mpr hne
      exact ⟨e, (mem_resting _ _ e).mpr (Or.inl he), by rw [hea]; exact hid⟩
  cases hg : mapGet w.ob.orderMap id with
  | none =>
    have hmiss := CancelOrder_miss hg
    refine ⟨w.ob, none, hmiss, ?_, fun _ => rfl, hmiss, fun _ => rfl, hfilled, ?_⟩
    · refine ⟨fun _ => ?_, fun _ => rfl⟩
      rw [hinv.resting_iff id, hg]
      simp
    · intro hids
      refine ⟨fun _ => ?_, fun _ => rfl⟩
      rw [hheap hids, hg]
      simp
  | some entry =>
    obtain ⟨ob1, hc, -, hmap, -⟩ := CancelOrder_hit hinv hg
    refine ⟨ob1, some (w.ob.entries entry).Order, hc, ?_, fun h => by simp at h, ?_, ?_, hfilled,
      ?_⟩
    · refine ⟨fun h => by simp at h, fun h => ?_⟩
      rw [hinv.resting_iff id, hg] at h
      simp at h
    · apply CancelOrder_miss
      rw [hmap, mapGet_mapDelete, if_pos rfl]
    · intro hn
      rw [hnever hn] at hg
      simp at hg
    · intro hids
      refine ⟨fun h => by simp at h, fun h => ?_⟩
      rw [hheap hids, hg] at h
      simp at h

theorem C12_witness :
    ((((World.init fun _ => order0).run (callsC12.take 1)).bind fun u =>
        (CancelOrder u.ob "buy-1").map fun r => r.2) = some (some 0) ∧
      (worldC12.ob.orders 0).Status = OrderStatusCancelled ∧
      worldC12.ob.buys = [] ∧ worldC12.ob.orderMap = [] ∧
      ((CancelOrder worldC12.ob "buy-1").map fun r => r.2) = some none) ∧
    ∃ ob1 r, CancelOrder worldC12.ob "buy-1" = some (ob1, r) ∧
      (r = none ↔ ¬ ∃ a, Resting worldC12.ob a ∧ (worldC12.ob.orders a).ID = "buy-1") ∧
      (r = none → ob1 = worldC12.ob) ∧
      CancelOrder ob1 "buy-1" = some (ob1, none) ∧
      ((∀ a, a < worldC12.next → (worldC12.ob.orders a).ID ≠ "buy-1") → r = none) ∧
      (∀ a, (worldC12.ob.orders a).Status = OrderStatusFilled → ¬ Resting worldC12.ob a) ∧
      ((addIds callsC12).Nodup → (r = none ↔
        ¬ ∃ e ∈ worldC12.ob.buys ++ worldC12.ob.sells,
          (worldC12.ob.orders (worldC12.ob.entries e).Order).ID = "buy-1")) :=
  ⟨by decide,
    C12_cancel_miss_iff_not_resting (fun _ => order0) callsC12 worldC12 "buy-1"
      (eq_some_getD _ (by decide))⟩

/-- C13 (counterexample): the book that holds the sell `100/200` has one ask, at the
price 2.0; it does not hold the id `buy-1`.  Adding the buy `450/150` under this id fills
the sell, and after cancelling `buy-1` the snapshot has no ask. -/
theorem C13_counterexample :
    (((World.init fun _ => order0).run (callsC7.take 1)).map fun w =>
        (GetSnapshot w.ob, mapGet w.ob.orderMap "buy-1")) =
      some (some { Bids := [], Asks := [{ Price := 4611686018427387904, Amount := 100,
                                          Count := 1 }] }, none) ∧
    addIds (callsC7.drop 1) = ["buy-1"] ∧
    (((World.init fun _ => order0).run (callsC7 ++ [.cancel "buy-1"])).map fun w =>
        GetSnapshot w.ob) = some (some { Bids := [], Asks := [] }) := by
  decide

/-- C13 (amended): on a book reached from the empty book that does not hold the id of
the order `o`, when `AddOrder(o)` returns no match, `CancelOrder(o.ID)` returns and the
snapshot after it is the snapshot before the `AddOrder`, which exists. -/
theorem C13_add_cancel_snapshot_amended (orders : Nat → Order) (cs : List Call) (w : World)
    (o : Order) (ob1 : OrderBook) (hw : (World.init orders).run cs = some w)
    (hid : mapGet w.ob.orderMap o.ID = none)
    (hadd : AddOrder { w.ob with orders := Function.update w.ob.orders w.next o } w.next =
      some (ob1, [])) :
    ∃ ob2 r, CancelOrder ob1 o.ID = some (ob2, r) ∧ (GetSnapshot w.ob).isSome = true ∧
      GetSnapshot ob2 = GetSnapshot w.ob :=
  add_cancel_snapshot (World.run_inv (World.init_inv orders) hw) o hid hadd

theorem C13_witness :
    (resultC13.2 = [] ∧ resultC13.1.buys.length = 1 ∧
      GetSnapshot resultC13.1 = some
        { Bids := [{ Price := 4607182418800017408, Amount := 100, Count := 1 }],
          Asks := [{ Price := 4611686018427387904, Amount := 100, Count := 1 }] } ∧
      GetSnapshot worldC8a.ob = some
        { Bids := [], Asks := [{ Price := 4611686018427387904, Amount := 100, Count := 1 }] }) ∧
    ∃ ob2 r, CancelOrder resultC13.1 buyC13.ID = some (ob2, r) ∧
      (GetSnapshot worldC8a.ob).isSome = true ∧ GetSnapshot ob2 = GetSnapshot worldC8a.ob :=
  ⟨by decide,
    C13_add_cancel_snapshot_amended (fun _ => order0) (callsC7.take 1) worldC8a buyC13
      resultC13.1 (eq_some_getD _ (by decide)) (by decide)
      (eq_some_getD (worldC8a.ob, []) (by decide))⟩

/-- C14: on every book whose resting orders have a price (`Price()` does not panic),
`GetSnapshot` returns; the prices of its bids are strictly decreasing and those of its
asks strictly increasing, so that no price has two levels; and a price has a level on a
side exactly if an order resting on that side has this price. -/
theorem C14_snapshot_levels_sorted_distinct (ob : OrderBook)
    (hpr : ∀ e ∈ ob.buys ++ ob.sells, (ob.orders (ob.entries e).Order).Price.isSome = true) :
    ∃ snap, GetSnapshot ob = some snap ∧
      (snap.Bids.map fun l => l.Price).Pairwise (fun a b => b < a) ∧
      (snap.Asks.map fun l => l.Price).Pairwise (fun a b => a < b) ∧
      (∀ p, p ∈ (snap.Bids.map fun l => l.Price) ↔
        ∃ e ∈ ob.buys, (ob.orders (ob.entries e).Order).Price = some p) ∧
      (∀ p, p ∈ (snap.Asks.map fun l => l.Price) ↔
        ∃ e ∈ ob.sells, (ob.orders (ob.entries e).Order).Price = some p) := by
  obtain ⟨bs, as, hsnap, -, -, hmb, hma, hsb, hsa⟩ := GetSnapshot_spec hpr
  refine ⟨_, hsnap, ?_, ?_, ?_, ?_⟩
  · simp only [map_price_levelOf]; exact hsb
  · simp only [map_price_levelOf]; exact hsa
  · simp only [map_price_levelOf]; exact hmb
  · simp only [map_price_levelOf]; exact hma

theorem C14_witness :
    (GetSnapshot worldC14.ob = some
      { Bids := [{ Price := 4613937818241073152, Amount := 100, Count := 1 },
                 { Price := 4611686018427387904, Amount := 150, Count := 2 }],
        Asks := [{ Price := 4616189618054758400, Amount := 70, Count := 1 }] }) ∧
    ∃ snap, GetSnapshot worldC14.ob = some snap ∧
      (snap.Bids.map fun l => l.Price).Pairwise (fun a b => b < a) ∧
      (snap.Asks.map fun l => l.Price).Pairwise (fun a b => a < b) ∧
      (∀ p, p ∈ (snap.Bids.map fun l => l.Price) ↔
        ∃ e ∈ worldC14.ob.buys, (worldC14.ob.orders (worldC14.ob.entries e).Order).Price = some p) ∧
      (∀ p, p ∈ (snap.Asks.map fun l => l.Price) ↔
        ∃ e ∈ worldC14.ob.sells,
          (worldC14.ob.orders (worldC14.ob.entries e).Order).Price = some p) :=
  ⟨by decide, C14_snapshot_levels_sorted_distinct worldC14.ob (by decide)⟩

/-- C15: on every book whose resting orders have a price, every level of the snapshot
carries as `Amount` the sum of `RemainingBase` over the orders resting on its side at
its price and as `Count` the number of these orders; the counts of a side add up to the
number of entries of its heap; and a book whose heaps hold orders with the same prices
and remaining amounts, in whatever slots, has the same snapshot. -/
theorem C15_snapshot_amount_and_count (ob : OrderBook)
    (hpr : ∀ e ∈ ob.buys ++ ob.sells, (ob.orders (ob.entries e).Order).Price.isSome = true) :
    ∃ snap, GetSnapshot ob = some snap ∧
      (∀ lvl ∈ snap.Bids, lvl.Amount = levelAmount ob.orders ob.entries ob.buys lvl.Price ∧
        lvl.Count = levelCount ob.orders ob.entries ob.buys lvl.Price) ∧
      (∀ lvl ∈ snap.Asks, lvl.Amount = levelAmount ob.orders ob.entries ob.sells lvl.Price ∧
        lvl.Count = levelCount ob.orders ob.entries ob.sells lvl.Price) ∧
      (snap.Bids.map fun l => l.Count).sum = (ob.buys.length : Int) ∧
      (snap.Asks.map fun l => l.Count).sum = (ob.sells.length : Int) ∧
      ∀ ob1 : OrderBook,
        (∀ e ∈ ob1.buys ++ ob1.sells, (ob1.orders (ob1.entries e).Order).Price.isSome = true) →
        (heapView ob1.orders ob1.entries ob1.buys).Perm (heapView ob.orders ob.entries ob.buys) →
        (heapView ob1.orders ob1.entries ob1.sells).Perm
          (heapView ob.orders ob.entries ob.sells) →
        GetSnapshot ob1 = some snap := by
  obtain ⟨bs, as, hsnap, hnb, hna, hmb, hma, -, -⟩ := GetSnapshot_spec hpr
  obtain ⟨p1, p2⟩ := BookPriced_heaps hpr
  refine ⟨_, hsnap, ?_, ?_, ?_, ?_, ?_⟩
  · intro lvl hl
    obtain ⟨p, -, rfl⟩ := List.mem_map.mp hl
    exact ⟨rfl, rfl⟩
  · intro lvl hl
    obtain ⟨p, -, rfl⟩ := List.mem_map.mp hl
    exact ⟨rfl, rfl⟩
  · simp only [List.map_map]
    refine levelCount_sum ob.orders ob.entries bs hnb ob.buys ?_
    intro e he
    obtain ⟨p, hp⟩ := p1 e he
    exact ⟨p, (hmb p).mpr ⟨e, he, hp⟩, hp⟩
  · simp only [List.map_map]
    refine levelCount_sum ob.orders ob.entries as hna ob.sells ?_
    intro e he
    obtain ⟨p, hp⟩ := p2 e he
    exact ⟨p, (hma p).mpr ⟨e, he, hp⟩, hp⟩
  · intro ob1 hpr1 hb hs
    rw [GetSnapshot_congr hpr hpr1 hb hs]
    exact hsnap

theorem C15_witness :
    (snapC14.Bids.map (fun l => (l.Amount, l.Count)) = [(100, 1), (150, 2)] ∧
      worldC14.ob.buys.length = 3) ∧
    ∃ snap, GetSnapshot worldC14.ob = some snap ∧
      (∀ lvl ∈ snap.Bids,
        lvl.Amount = levelAmount worldC14.ob.orders worldC14.ob.entries worldC14.ob.buys
          lvl.Price ∧
        lvl.Count = levelCount worldC14.ob.orders worldC14.ob.entries worldC14.ob.buys
          lvl.Price) ∧
      (∀ lvl ∈ snap.Asks,
        lvl.Amount = levelAmount worldC14.ob.orders worldC14.ob.entries worldC14.ob.sells
          lvl.Price ∧
        lvl.Count = levelCount worldC14.ob.orders worldC14.ob.entries worldC14.ob.sells
          lvl.Price) ∧
      (snap.Bids.map fun l => l.Count).sum = (worldC14.ob.buys.length : Int) ∧
      (snap.Asks.map fun l => l.Count).sum = (worldC14.ob.sells.length : Int) ∧
      ∀ ob1 : OrderBook,
        (∀ e ∈ ob1.buys ++ ob1.sells, (ob1.orders (ob1.entries e).Order).Price.isSome = true) →
        (heapView ob1.orders ob1.entries ob1.buys).Perm
          (heapView worldC14.ob.orders worldC14.ob.entries worldC14.ob.buys) →
        (heapView ob1.orders ob1.entries ob1.sells).Perm
          (heapView worldC14.ob.orders worldC14.ob.entries worldC14.ob.sells) →
        GetSnapshot ob1 = some snap :=
  ⟨by decide, C15_snapshot_amount_and_count worldC14.ob (by decide)⟩

/-- C16: after calls from the empty book that add orders with distinct ids, every entry
of a heap is what the by-id map holds under the id of its order, and every pair of the
map is such an entry under such an id (so map and heaps hold the same orders); no entry
is in two slots and no order has two entries; the buy heap holds buy orders and the sell
heap the others; and every entry records its slot in `Index`. -/
theorem C16_one_slot_per_resting_order (orders : Nat → Order) (cs : List Call) (w : World)
    (hids : (addIds cs).Nodup) (hw : (World.init orders).run cs = some w) :
    (∀ e ∈ w.ob.buys ++ w.ob.sells,
      mapGet w.ob.orderMap (w.ob.orders (w.ob.entries e).Order).ID = some e) ∧
    (∀ kv ∈ w.ob.orderMap, kv.2 ∈ w.ob.buys ++ w.ob.sells ∧
      kv.1 = (w.ob.orders (w.ob.entries kv.2).Order).ID ∧
      mapGet w.ob.orderMap kv.1 = some kv.2) ∧
    (w.ob.buys ++ w.ob.sells).Nodup ∧
    (∀ e1 ∈ w.ob.buys ++ w.ob.sells, ∀ e2 ∈ w.ob.buys ++ w.ob.sells,
      (w.ob.entries e1).Order = (w.ob.entries e2).Order → e1 = e2) ∧
    (∀ e ∈ w.ob.buys, (w.ob.orders (w.ob.entries e).Order).Side = SideBuy) ∧
    (∀ e ∈ w.ob.sells, (w.ob.orders (w.ob.entries e).Order).Side ≠ SideBuy) ∧
    (∀ (i e : Nat), w.ob.buys[i]? = some e → (w.ob.entries e).Index = (i : Int)) ∧
    (∀ (i e : Nat), w.ob.sells[i]? = some e → (w.ob.entries e).Index = (i : Int)) := by
  have hinv := World.run_inv (World.init_inv orders) hw
  have hm : HeapInMap w.ob :=
    World.run_heapInMap cs _ w (World.init_inv orders)
      (fun e he => by simp [World.init, NewOrderBook] at he) hids
      (fun e he => by simp [World.init, NewOrderBook] at he) hw
  refine ⟨hm, ?_, ?_, ?_, ?_, ?_, hinv.buys.idx, hinv.sells.idx⟩
  · intro kv hkv
    have h1 := hinv.mapIn kv hkv
    have h2 := hinv.mapKey kv hkv
    refine ⟨h1, h2, ?_⟩
    rw [h2]
    exact hm kv.2 h1
  · rw [List.nodup_append]
    exact ⟨hinv.buys.nodup, hinv.sells.nodup, fun e h1 h2 => hinv.disjoint true e h1 h2⟩
  · intro e1 h1 e2 h2 heq
    rcases List.mem_append.mp h1 with a1 | a1 <;> rcases List.mem_append.mp h2 with a2 | a2
    · exact hinv.buys.inj e1 a1 e2 a2 heq
    · exact absurd heq (hinv.cross true e1 a1 e2 a2)
    · exact absurd heq.symm (hinv.cross true e2 a2 e1 a1)
    · exact hinv.sells.inj e1 a1 e2 a2 heq
  · intro e he
    exact (hinv.buys.side e he).mpr rfl
  · intro e he hs
    have := (hinv.sells.side e he).mp hs
    simp at this

theorem C16_witness :
    (worldC11.ob.buys.map (fun e => ((worldC11.ob.entries e).Order, (worldC11.ob.entries e).Index))
        = [(1, 0), (0, 1)] ∧
      worldC11.ob.orderMap.map (fun kv => (kv.1, (worldC11.ob.entries kv.2).Order))
        = [("buy-2", 1), ("buy-1", 0)]) ∧
    (∀ e ∈ worldC11.ob.buys ++ worldC11.ob.sells,
      mapGet worldC11.ob.orderMap (worldC11.ob.orders (worldC11.ob.entries e).Order).ID
        = some e) ∧
    (∀ kv ∈ worldC11.ob.orderMap, kv.2 ∈ worldC11.ob.buys ++ worldC11.ob.sells ∧
      kv.1 = (worldC11.ob.orders (worldC11.ob.entries kv.2).Order).ID ∧
      mapGet worldC11.ob.orderMap kv.1 = some kv.2) ∧
    (worldC11.ob.buys ++ worldC11.ob.sells).Nodup ∧
    (∀ e1 ∈ worldC11.ob.buys ++ worldC11.ob.sells, ∀ e2 ∈ worldC11.ob.buys ++ worldC11.ob.sells,
      (worldC11.ob.entries e1).Order = (worldC11.ob.entries e2).Order → e1 = e2) ∧
    (∀ e ∈ worldC11.ob.buys,
      (worldC11.ob.orders (worldC11.ob.entries e).Order).Side = SideBuy) ∧
    (∀ e ∈ worldC11.ob.sells,
      (worldC11.ob.orders (worldC11.ob.entries e).Order).Side ≠ SideBuy) ∧
    (∀ (i e : Nat), worldC11.ob.buys[i]? = some e →
      (worldC11.ob.entries e).Index = (i : Int)) ∧
    (∀ (i e : Nat), worldC11.ob.sells[i]? = some e →
      (worldC11.ob.entries e).Index = (i : Int)) :=
  ⟨by decide,
    C16_one_slot_per_resting_order (fun _ => order0) callsC11 worldC11 (by decide)
      (eq_some_getD _ (by decide))⟩

/-- C17: with a library that keeps the law of `crypto.Sign` (recovery from a signature
and its digest gives the key of the signer), `VerifyOrderSignature` of the signature
that `crypto.Sign` returns for the digest of the order returns a nil error and
`valid = (address of the key == order.Maker)`: `(true, nil)` exactly if the maker is the
address of the key, and `(false, nil)` otherwise. -/
theorem C17_verify_of_signed_order (c : Crypto) (domain : DomainSeparator) (order : OrderData)
    (key : PrivateKey) (sig : List Nat) (mem : SliceMem) (signature : Nat) (hlaw : SignLaw c)
    (hsign : c.Sign (orderDigest c domain order) key = .ok sig)
    (hmem : mem.getD signature [] = sig) :
    (VerifyOrderSignature c domain order mem signature).2 =
      (decide (c.PubkeyToAddress key.PublicKey = order.Maker), none) ∧
    ((VerifyOrderSignature c domain order mem signature).2 = (true, none) ↔
      order.Maker = c.PubkeyToAddress key.PublicKey) ∧
    (order.Maker ≠ c.PubkeyToAddress key.PublicKey →
      (VerifyOrderSignature c domain order mem signature).2 = (false, none)) := by
  obtain ⟨hlen, hv, pb, hrec, hun⟩ := hlaw _ _ _ hsign
  have hres : (VerifyOrderSignature c domain order mem signature).2 =
      (decide (c.PubkeyToAddress key.PublicKey = order.Maker), none) := by
    rw [verify_unfold c domain order mem signature (by rw [hmem]; exact hlen), hmem,
      recoveryInput_small sig hv, hrec]
    simp only [hun]
  refine ⟨hres, ?_, ?_⟩
  · rw [hres]
    simp only [Prod.mk.injEq, decide_eq_true_eq, and_true]
    exact eq_comm
  · intro hne
    rw [hres]
    simp only [Prod.mk.injEq, decide_eq_false_iff_not, and_true]
    exact fun h => hne h.symm

theorem C17_witness :
    (sigT.length = 65 ∧ orderT.Maker = toyCrypto.PubkeyToAddress keyT.PublicKey) ∧
    (VerifyOrderSignature toyCrypto domainT orderT [sigT] 0).2 =
      (decide (toyCrypto.PubkeyToAddress keyT.PublicKey = orderT.Maker), none) ∧
    ((VerifyOrderSignature toyCrypto domainT orderT [sigT] 0).2 = (true, none) ↔
      orderT.Maker = toyCrypto.PubkeyToAddress keyT.PublicKey) ∧
    (orderT.Maker ≠ toyCrypto.PubkeyToAddress keyT.PublicKey →
      (VerifyOrderSignature toyCrypto domainT orderT [sigT] 0).2 = (false, none)) :=
  ⟨by decide,
    C17_verify_of_signed_order toyCrypto domainT orderT keyT sigT [sigT] 0 toy_signLaw rfl rfl⟩

/-- C18: `VerifyOrderSignature` returns an error exactly when the signature does not
have 65 bytes, or `crypto.Ecrecover` fails on the digest and the signature (its last
byte lowered by 27 when it is 27 or more), or `crypto.UnmarshalPubkey` fails on the
recovered key; with an error it returns `valid = false`; and otherwise it returns a nil
error and `valid = (recovered address == order.Maker)`. -/
theorem C18_verify_error_cases (c : Crypto) (domain : DomainSeparator) (order : OrderData)
    (mem : SliceMem) (signature : Nat) :
    ((VerifyOrderSignature c domain order mem signature).2.2 ≠ none ↔
      ((mem.getD signature []).length ≠ 65 ∨
       (∃ e, c.Ecrecover (orderDigest c domain order) (recoveryInput (mem.getD signature [])) =
          .error e) ∨
       ∃ pb e, c.Ecrecover (orderDigest c domain order) (recoveryInput (mem.getD signature [])) =
          .ok pb ∧ c.UnmarshalPubkey pb = .error e)) ∧
    ((VerifyOrderSignature c domain order mem signature).2.2 ≠ none →
      (VerifyOrderSignature c domain order mem signature).2.1 = false) ∧
    ∀ pb pk, (mem.getD signature []).length = 65 →
      c.Ecrecover (orderDigest c domain order) (recoveryInput (mem.getD signature [])) = .ok pb →
      c.UnmarshalPubkey pb = .ok pk →
      (VerifyOrderSignature c domain order mem signature).2 =
        (decide (c.PubkeyToAddress pk = order.Maker), none) := by
  by_cases hlen : (mem.getD signature []).length = 65
  · rw [verify_unfold c domain order mem signature hlen]
    cases hrec : c.Ecrecover (orderDigest c domain order)
        (recoveryInput (mem.getD signature [])) with
    | error e =>
      simp only []
      exact ⟨⟨fun _ => Or.inr (Or.inl ⟨e, rfl⟩), fun _ => by simp⟩, fun _ => by simp,
        fun pb pk _ h => by simp at h⟩
    | ok pb =>
      simp only []
      cases hun : c.UnmarshalPubkey pb with
      | error e =>
        simp only []
        refine ⟨⟨fun _ => Or.inr (Or.inr ⟨pb, e, rfl, hun⟩), fun _ => by simp⟩, fun _ => by simp,
          ?_⟩
        intro pb1 pk _ h1 h2
        simp only [Except.ok.injEq] at h1
        subst h1
        rw [hun] at h2
        simp at h2
      | ok pk =>
        simp only []
        refine ⟨⟨fun h => absurd rfl h, ?_⟩, fun h => absurd rfl h, ?_⟩
        · rintro (h | ⟨e, h⟩ | ⟨pb1, e, h1, h2⟩)
          · exact absurd hlen h
          · simp at h
          · simp only [Except.ok.injEq] at h1
            subst h1
            rw [hun] at h2
            simp at h2
        · intro pb1 pk1 _ h1 h2
          simp only [Except.ok.injEq] at h1
          subst h1
          rw [hun] at h2
          simp only [Except.ok.injEq] at h2
          subst h2
          rfl
  · rw [verify_short c domain order mem signature hlen]
    exact ⟨⟨fun _ => Or.inl hlen, fun _ => by simp⟩, fun _ => rfl,
      fun pb pk h => absurd h hlen⟩

/-- C19: for a signature of 65 bytes whose last byte `v` is 27 or 28,
`VerifyOrderSignature` returns what it returns for the signature with `v - 27` as last
byte, wherever that one is stored; a last byte below 27, so 0 or 1, reaches the recovery
unchanged; and after the call every slice that was there, the caller's signature
included, holds what it held. -/
theorem C19_verify_normalizes_v (c : Crypto) (domain : DomainSeparator) (order : OrderData)
    (mem mem1 : SliceMem) (signature signature1 v : Nat)
    (hlen : (mem.getD signature []).length = 65)
    (hv : (mem.getD signature []).getD 64 0 = v) (h27 : v = 27 ∨ v = 28)
    (hmem1 : mem1.getD signature1 [] = (mem.getD signature []).set 64 (v - 27)) :
    (VerifyOrderSignature c domain order mem signature).2 =
      (VerifyOrderSignature c domain order mem1 signature1).2 ∧
    (∀ s : List Nat, s.getD 64 0 < 27 → recoveryInput s = s) ∧
    (VerifyOrderSignature c domain order mem signature).1.getD signature [] =
      mem.getD signature [] ∧
    ∀ a, a < mem.length →
      (VerifyOrderSignature c domain order mem signature).1.getD a [] = mem.getD a [] := by
  obtain ⟨h1, h2⟩ := recoveryInput_ethereum _ v hlen hv h27
  have hlen1 : (mem1.getD signature1 []).length = 65 := by rw [hmem1]; simpa using hlen
  have hframe : ∀ a, a < mem.length →
      (VerifyOrderSignature c domain order mem signature).1.getD a [] = mem.getD a [] := by
    intro a ha
    rw [verify_unfold c domain order mem signature hlen]
    cases c.Ecrecover (orderDigest c domain order) (recoveryInput (mem.getD signature [])) with
    | error e => exact List.getD_append _ _ _ _ ha
    | ok pb =>
      simp only []
      cases c.UnmarshalPubkey pb with
      | error e => exact List.getD_append _ _ _ _ ha
      | ok pk => exact List.getD_append _ _ _ _ ha
  refine ⟨?_, recoveryInput_small, hframe signature (getD_lt_of_length (by omega)), hframe⟩
  rw [verify_unfold c domain order mem signature hlen,
    verify_unfold c domain order mem1 signature1 hlen1, hmem1, h1, h2]
  cases c.Ecrecover (orderDigest c domain order) ((mem.getD signature []).set 64 (v - 27)) with
  | error e => rfl
  | ok pb =>
    simp only []
    cases c.UnmarshalPubkey pb with
    | error e => rfl
    | ok pk => rfl

theorem C19_witness :
    (sigT27.length = 65 ∧ sigT27.getD 64 0 = 27 ∧ sigT.getD 64 0 = 0 ∧
      (VerifyOrderSignature toyCrypto domainT orderT [sigT27] 0).2 = (true, none)) ∧
    (VerifyOrderSignature toyCrypto domainT orderT [sigT27] 0).2 =
      (VerifyOrderSignature toyCrypto domainT orderT [sigT] 0).2 ∧
    (∀ s : List Nat, s.getD 64 0 < 27 → recoveryInput s = s) ∧
    (VerifyOrderSignature toyCrypto domainT orderT [sigT27] 0).1.getD 0 [] =
      [sigT27].getD 0 [] ∧
    ∀ a, a < [sigT27].length →
      (VerifyOrderSignature toyCrypto domainT orderT [sigT27] 0).1.getD a [] =
        [sigT27].getD a [] :=
  ⟨by decide,
    C19_verify_normalizes_v toyCrypto domainT orderT [sigT27] [sigT] 0 0 27 (by decide)
      (by decide) (Or.inl rfl) (by decide)⟩

/-- C20 (counterexample): the stand-in library keeps the law of `crypto.Sign`; the order
`orderNegT` has a negative `AmountSell` and is verified, `(true, nil)`, with the signature
of the order with `AmountSell = 1000`, which has the same hash; and the order `orderWideT`,
whose `AmountBuy` is `2 ^ 256`, is verified with the signature made for it. -/
theorem C20_counterexample :
    (orderNegT.AmountSell < 0 ∧
      HashOrder toyCrypto orderNegT = HashOrder toyCrypto orderT ∧
      toyCrypto.Sign (orderDigest toyCrypto domainT orderT) keyT = .ok sigT ∧
      (VerifyOrderSignature toyCrypto domainT orderNegT [sigT] 0).2 = (true, none)) ∧
    (2 ^ 256 ≤ orderWideT.AmountBuy ∧
      toyCrypto.Sign (orderDigest toyCrypto domainT orderWideT) keyT = .ok sigWideT ∧
      (VerifyOrderSignature toyCrypto domainT orderWideT [sigWideT] 0).2 = (true, none)) :=
  ⟨⟨by decide, by decide, rfl, by decide⟩, by decide, rfl, by decide⟩

/-- C20 (amended): `VerifyOrderSignature` makes no range check on `AmountSell`,
`AmountBuy`, `Expiry`, `Nonce` and `Salt`: for every order, domain and signature it
returns what it returns for the order with these fields replaced by their absolute
values, and a field of `2 ^ 256` or more is hashed with all its bytes, more than 32,
without padding. -/
theorem C20_verify_without_range_check_amended (c : Crypto) (domain : DomainSeparator)
    (order : OrderData) (mem : SliceMem) (signature : Nat) :
    VerifyOrderSignature c domain order.magnitudes mem signature =
      VerifyOrderSignature c domain order mem signature ∧
    ∀ x : Int, 2 ^ 256 ≤ |x| →
      32 < (bigIntBytes x).length ∧ LeftPadBytes (bigIntBytes x) 32 = bigIntBytes x :=
  ⟨verify_magnitudes c domain order mem signature, leftPad_wide⟩


/-- C21: for an order whose five integer fields lie in `[0, 2^256)`, the slices that
`HashOrder` passes to Keccak-256 are nine words of 32 bytes, 288 bytes in all: the
`OrderTypeHash`, then maker, tokenSell and tokenBuy behind twelve zero bytes each, then
amountSell, amountBuy, expiry, nonce and salt as the 32 bytes that spell the number, big
end first; and `HashTypedData` hashes the 66 bytes `0x19`, `0x01`, the domain separator
and the struct hash. -/
theorem C21_hash_preimage_layout (c : Crypto) (order : OrderData) (domainSep structHash : Hash)
    (hrange : ∀ x ∈ [order.AmountSell, order.AmountBuy, order.Expiry, order.Nonce, order.Salt],
      0 ≤ x ∧ x < 2 ^ 256) :
    orderPreimage c order =
      [ (OrderTypeHash c).Bytes,
        List.replicate 12 0 ++ order.Maker.Bytes,
        List.replicate 12 0 ++ order.TokenSell.Bytes,
        List.replicate 12 0 ++ order.TokenBuy.Bytes,
        fixedBytes 32 order.AmountSell.toNat,
        fixedBytes 32 order.AmountBuy.toNat,
        fixedBytes 32 order.Expiry.toNat,
        fixedBytes 32 order.Nonce.toNat,
        fixedBytes 32 order.Salt.toNat ] ∧
    (∀ word ∈ orderPreimage c order, word.length = 32) ∧
    (∀ x ∈ [order.AmountSell, order.AmountBuy, order.Expiry, order.Nonce, order.Salt],
      (beValue (fixedBytes 32 x.toNat) : Int) = x) ∧
    HashOrder c order = c.Keccak256 (orderPreimage c order).flatten ∧
    (orderPreimage c order).flatten.length = 288 ∧
    HashTypedData c domainSep structHash =
      c.Keccak256 ([25, 1] ++ domainSep.Bytes ++ structHash.Bytes) ∧
    ([25, 1] ++ domainSep.Bytes ++ structHash.Bytes).length = 66 := by
  have hpre : orderPreimage c order =
      [ (OrderTypeHash c).Bytes,
        List.replicate 12 0 ++ order.Maker.Bytes,
        List.replicate 12 0 ++ order.TokenSell.Bytes,
        List.replicate 12 0 ++ order.TokenBuy.Bytes,
        fixedBytes 32 order.AmountSell.toNat,
        fixedBytes 32 order.AmountBuy.toNat,
        fixedBytes 32 order.Expiry.toNat,
        fixedBytes 32 order.Nonce.toNat,
        fixedBytes 32 order.Salt.toNat ] := by
    unfold orderPreimage
    rw [leftPad_address, leftPad_address, leftPad_address,
      leftPad_word _ (hrange _ (by simp)).1 (hrange _ (by simp)).2,
      leftPad_word _ (hrange _ (by simp)).1 (hrange _ (by simp)).2,
      leftPad_word _ (hrange _ (by simp)).1 (hrange _ (by simp)).2,
      leftPad_word _ (hrange _ (by simp)).1 (hrange _ (by simp)).2,
      leftPad_word _ (hrange _ (by simp)).1 (hrange _ (by simp)).2]
  have hlen : ∀ word ∈ orderPreimage c order, word.length = 32 := by
    rw [hpre]
    intro word hw
    simp only [List.mem_cons, List.mem_singleton, List.not_mem_nil, or_false] at hw
    rcases hw with h | h | h | h | h | h | h | h | h <;> subst h <;>
      simp [Hash.Bytes, Address.Bytes, fixedBytes_length]
  refine ⟨hpre, hlen, ?_, rfl, ?_, ?_, ?_⟩
  · intro x hx
    obtain ⟨h0, h1⟩ := hrange x hx
    rw [beValue_fixedBytes]
    have hlt : x.toNat < 256 ^ 32 := by
      have : (x.toNat : Int) < 2 ^ 256 := by rw [Int.toNat_of_nonneg h0]; exact h1
      have e : (256 : Nat) ^ 32 = 2 ^ 256 := by norm_num
      rw [e]
      exact_mod_cast this
    rw [Nat.mod_eq_of_lt hlt, Int.toNat_of_nonneg h0]
  · rw [hpre]
    simp [Hash.Bytes, Address.Bytes, fixedBytes_length]
  · simp [HashTypedData, Crypto.Keccak256Hash]
  · simp [Hash.Bytes, fixedBytes_length]

theorem C21_witness :
    (∀ x ∈ [orderT.AmountSell, orderT.AmountBuy, orderT.Expiry, orderT.Nonce, orderT.Salt],
      0 ≤ x ∧ x < 2 ^ 256) ∧
    (orderPreimage toyCrypto orderT).flatten.length = 288 ∧
    HashOrder toyCrypto orderT = toyCrypto.Keccak256 (orderPreimage toyCrypto orderT).flatten :=
  ⟨by decide,
   (C21_hash_preimage_layout toyCrypto orderT 0 0 (by decide)).2.2.2.2.1,
   (C21_hash_preimage_layout toyCrypto orderT 0 0 (by decide)).2.2.2.1⟩

/-- C22: when the amounts, the salt and the signature of a submission are read and
`VerifyOrderSignature` returns an error or `valid = false`, `SubmitOrder` returns an error
(the wrapped error of the verification, or the signer mismatch) and the state of the
service after the call is the state before it: no row of an order or a trade is created,
no book is made or changed, nothing is sent to the settlement channel or to the cache. -/
theorem C22_rejected_signature_changes_nothing (out : Outside) (s : Service)
    (sub : OrderSubmission) (amountSell amountBuy salt : Int) (sigBytes : List Nat)
    (hS : SetString10 sub.AmountSell = some amountSell)
    (hB : SetString10 sub.AmountBuy = some amountBuy)
    (hsalt : SetString10 sub.Salt = some salt)
    (hsig : hexToBytes sub.Signature = .ok sigBytes)
    (hv : (VerifyOrderSignature out.crypto s.domain
      (submittedData out sub amountSell amountBuy salt) [sigBytes] 0).2 ≠ (true, none)) :
    OrderService.SubmitOrder out s sub = some (s, .error
      (match (VerifyOrderSignature out.crypto s.domain
          (submittedData out sub amountSell amountBuy salt) [sigBytes] 0).2.2 with
       | some err => .verificationFailed err
       | none => .signerMismatch)) := by
  unfold OrderService.SubmitOrder
  rw [hS, hB, hsalt, hsig]
  simp only []
  generalize (VerifyOrderSignature out.crypto s.domain
    (submittedData out sub amountSell amountBuy salt) [sigBytes] 0).2 = res at hv
  obtain ⟨valid, err⟩ := res
  cases err with
  | some e => cases valid <;> rfl
  | none =>
    cases valid with
    | false => rfl
    | true => exact absurd rfl hv

theorem C22_witness :
    (VerifyOrderSignature toyOutside.crypto serviceT.domain
      (submittedData toyOutside subWrongT 1000 500 12345) [subSigT] 0).2 = (false, none) ∧
    OrderService.SubmitOrder toyOutside serviceT subWrongT = some (serviceT, .error
      (match (VerifyOrderSignature toyOutside.crypto serviceT.domain
          (submittedData toyOutside subWrongT 1000 500 12345) [subSigT] 0).2.2 with
       | some err => .verificationFailed err
       | none => .signerMismatch)) :=
  ⟨by decide,
    C22_rejected_signature_changes_nothing toyOutside serviceT subWrongT 1000 500 12345 subSigT
      (by decide) (by decide) (by decide) (by rfl) (by decide)⟩

/-- C23: when `amountSell`, `amountBuy` or `salt` of a submission is not a well-formed
base-10 integer string, or its signature is not valid hex, `SubmitOrder` returns the error
of the first such field and the state of the service after the call is the state before
it: no operation of the store, of a book, of the cache or of the settlement is performed. -/
theorem C23_malformed_input_changes_nothing (out : Outside) (s : Service)
    (sub : OrderSubmission)
    (h : ¬ DecimalString sub.AmountSell ∨ ¬ DecimalString sub.AmountBuy ∨
      ¬ DecimalString sub.Salt ∨ ¬ HexString sub.Signature) :
    ∃ err, OrderService.SubmitOrder out s sub = some (s, .error err) ∧
      (err = .invalidAmountSell ∨ err = .invalidAmountBuy ∨ err = .invalidSalt ∨
        ∃ e, err = .invalidSignatureHex e) := by
  unfold OrderService.SubmitOrder
  cases hS : SetString10 sub.AmountSell with
  | none => exact ⟨_, rfl, Or.inl rfl⟩
  | some amountSell =>
    cases hB : SetString10 sub.AmountBuy with
    | none => exact ⟨_, rfl, Or.inr (Or.inl rfl)⟩
    | some amountBuy =>
      cases hsalt : SetString10 sub.Salt with
      | none => exact ⟨_, rfl, Or.inr (Or.inr (Or.inl rfl))⟩
      | some salt =>
        have h1 : DecimalString sub.AmountSell := (SetString10_isSome_iff _).mp ⟨_, hS⟩
        have h2 : DecimalString sub.AmountBuy := (SetString10_isSome_iff _).mp ⟨_, hB⟩
        have h3 : DecimalString sub.Salt := (SetString10_isSome_iff _).mp ⟨_, hsalt⟩
        have h4 : ¬ HexString sub.Signature := by tauto
        obtain ⟨e, he⟩ := (hexToBytes_error_iff _).mpr h4
        rw [he]
        exact ⟨_, rfl, Or.inr (Or.inr (Or.inr ⟨e, rfl⟩))⟩

theorem C23_witness :
    (SetString10 subBadT.AmountBuy = none ∧ SetString10 subBadT.AmountSell = some 1000) ∧
    ∃ err, OrderService.SubmitOrder toyOutside serviceT subBadT = some (serviceT, .error err) ∧
      (err = .invalidAmountSell ∨ err = .invalidAmountBuy ∨ err = .invalidSalt ∨
        ∃ e, err = .invalidSignatureHex e) :=
  ⟨by decide,
    C23_malformed_input_changes_nothing toyOutside serviceT subBadT
      (Or.inr (Or.inl ((SetString10_none_iff _).mp (by decide))))⟩

/-- C24 fails: a submission with the side `hold`, signed by its maker, is accepted.  It
is stored with the side `hold`, and the book of its pair holds it among the sells. -/
theorem C24_counterexample :
    (subHoldT.Side ≠ "buy" ∧ subHoldT.Side ≠ "sell") ∧
    ((OrderService.SubmitOrder toyOutside serviceT subHoldT).map fun r =>
      match r.2 with
      | .ok (p, ms) => some (p, ms.length)
      | .error _ => none) = some (some (0, 0)) ∧
    ((OrderService.SubmitOrder toyOutside serviceT subHoldT).map fun r =>
      r.1.orderRows.map fun row => (row.ID, row.Side, row.Status)) =
      some [("id-0", "hold", "open")] ∧
    ((OrderService.SubmitOrder toyOutside serviceT subHoldT).map fun r =>
      ((r.1.bookOf "TKA-TKB").buys.length,
       (r.1.bookOf "TKA-TKB").sells.map fun e =>
         ((r.1.bookOf "TKA-TKB").orders ((r.1.bookOf "TKA-TKB").entries e).Order).Side)) =
      some (0, ["hold"]) :=
  ⟨by decide, by decide, by decide, by decide⟩

/-- C24, amended: `SubmitOrder` does not validate the side.  A submission whose side is
neither `buy` nor `sell`, whose amounts, salt and signature are read and whose signature
is verified, is not rejected for its side.  The call returns when the book of the pair
satisfies the invariant of the book, with no negative `FilledBase`, and the amounts are
not both zero.  When it returns, either the store has refused the order and no table row
and no book has changed, or the order is in the table `orders` with the submitted side
and the book of its pair is what `AddOrder` made of it, which matched it with
`matchSell`, as a sell order, and let it rest among the sells. -/
theorem C24_side_not_validated_amended (out : Outside) (s : Service) (sub : OrderSubmission)
    (amountSell amountBuy salt : Int) (sigBytes : List Nat)
    (hside : sub.Side ≠ "buy" ∧ sub.Side ≠ "sell")
    (hS : SetString10 sub.AmountSell = some amountSell)
    (hB : SetString10 sub.AmountBuy = some amountBuy)
    (hsalt : SetString10 sub.Salt = some salt)
    (hsig : hexToBytes sub.Signature = .ok sigBytes)
    (hv : (VerifyOrderSignature out.crypto s.domain
      (submittedData out sub amountSell amountBuy salt) [sigBytes] 0).2 = (true, none)) :
    (BookInv (s.bookOf sub.Pair) s.next →
      (∀ a, a < s.next → 0 ≤ ((s.bookOf sub.Pair).orders a).FilledBase) →
      (amountSell ≠ 0 ∨ amountBuy ≠ 0) → ∃ r, OrderService.SubmitOrder out s sub = some r) ∧
    ∀ r, OrderService.SubmitOrder out s sub = some r →
      (∃ msg, r.2 = .error (.persistFailed msg) ∧ r.1.orderRows = s.orderRows ∧
        r.1.orderbooks = s.orderbooks) ∨
      (∃ order1 book1 ms, r.2 = .ok (s.next, ms) ∧ order1.Side = sub.Side ∧
        (∃ row ∈ r.1.orderRows, row.ID = order1.ID ∧ row.Side = sub.Side) ∧
        r.1.orderbooks.lookup sub.Pair = some book1 ∧
        AddOrder ((s.bookOf sub.Pair).withOrder s.next order1) s.next = some (book1, ms) ∧
        ∃ ob1, matchSell ((s.bookOf sub.Pair).withOrder s.next order1) s.next = some (ob1, ms) ∧
          restOrder ob1 s.next = some book1 ∧ book1.buys = ob1.buys) := by
  have hsub : OrderService.SubmitOrder out s sub =
      submitVerified out s (submittedOrder sub amountSell amountBuy salt) := by
    unfold OrderService.SubmitOrder
    rw [hS, hB, hsalt, hsig]
    simp only []
    rw [hv]
  rw [hsub]
  constructor
  · intro hinv hnn ho
    exact submitVerified_total out s (submittedOrder sub amountSell amountBuy salt) hinv hnn ho
      (le_refl _)
  intro r hr
  rcases submitVerified_inv hr with h1 | ⟨order1, book1, ms, h1, h2, h3, h4, h5⟩
  · exact Or.inl h1
  · right
    have hs1 : order1.Side = sub.Side := h2
    have hnb : order1.Side ≠ SideBuy := by rw [hs1]; exact hside.1
    refine ⟨order1, book1, ms, h1, hs1, h5, h4, h3, ?_⟩
    have hadd := h3
    unfold AddOrder at hadd
    have hp : (((s.bookOf (submittedOrder sub amountSell amountBuy salt).Pair).withOrder s.next
        order1).orders s.next).Side ≠ SideBuy := by
      simp only [OrderBook.withOrder, Function.update_same]
      exact hnb
    rw [if_neg hp] at hadd
    split at hadd
    · exact absurd hadd (by simp)
    · rename_i ob1 ms1 hms
      split at hadd
      · exact absurd hadd (by simp)
      · rename_i ob2 hrest
        simp only [Option.some.injEq, Prod.mk.injEq] at hadd
        obtain ⟨rfl, rfl⟩ := hadd
        refine ⟨ob1, hms, hrest, ?_⟩
        have hside1 : (ob1.orders s.next).Side ≠ SideBuy := by
          unfold matchSell at hms
          split at hms
          · exact absurd hms (by simp)
          · rename_i price hprice
            obtain ⟨tr, hrun, _⟩ := matchLoop_run _ _ _ _ _ hms
            rw [← sideStep_false] at hrun
            rw [(frozen_fields ((MatchRun.facts hrun).1.frozen s.next)).2.1]
            exact hp
        have := restOrder_opp hrest
        simpa [hside1, OrderBook.opp] using this

theorem C24_witness :
    ((subHoldT.Side ≠ "buy" ∧ subHoldT.Side ≠ "sell") ∧
      (OrderService.SubmitOrder toyOutside serviceT subHoldT).isSome = true) ∧
    (∃ r, OrderService.SubmitOrder toyOutside serviceT subHoldT = some r) ∧
    ((∃ msg, ((OrderService.SubmitOrder toyOutside serviceT subHoldT).getD
          (serviceT, .error .signerMismatch)).2 = .error (.persistFailed msg) ∧
        ((OrderService.SubmitOrder toyOutside serviceT subHoldT).getD
          (serviceT, .error .signerMismatch)).1.orderRows = serviceT.orderRows ∧
        ((OrderService.SubmitOrder toyOutside serviceT subHoldT).getD
          (serviceT, .error .signerMismatch)).1.orderbooks = serviceT.orderbooks) ∨
      (∃ order1 book1 ms,
        ((OrderService.SubmitOrder toyOutside serviceT subHoldT).getD
          (serviceT, .error .signerMismatch)).2 = .ok (serviceT.next, ms) ∧
        order1.Side = subHoldT.Side ∧
        (∃ row ∈ ((OrderService.SubmitOrder toyOutside serviceT subHoldT).getD
            (serviceT, .error .signerMismatch)).1.orderRows,
          row.ID = order1.ID ∧ row.Side = subHoldT.Side) ∧
        ((OrderService.SubmitOrder toyOutside serviceT subHoldT).getD
          (serviceT, .error .signerMismatch)).1.orderbooks.lookup subHoldT.Pair = some book1 ∧
        AddOrder ((serviceT.bookOf subHoldT.Pair).withOrder serviceT.next order1)
          serviceT.next = some (book1, ms) ∧
        ∃ ob1, matchSell ((serviceT.bookOf subHoldT.Pair).withOrder serviceT.next order1)
            serviceT.next = some (ob1, ms) ∧
          restOrder ob1 serviceT.next = some book1 ∧ book1.buys = ob1.buys)) :=
  ⟨⟨by decide, by decide⟩,
    (C24_side_not_validated_amended toyOutside serviceT subHoldT 1000 500 12345 subSigT
      (by decide) (by decide) (by decide) (by decide) (by rfl) (by decide)).1
      (newBook_inv serviceT.next).1 (newBook_inv serviceT.next).2 (by decide),
    (C24_side_not_validated_amended toyOutside serviceT subHoldT 1000 500 12345 subSigT
      (by decide) (by decide) (by decide) (by decide) (by rfl) (by decide)).2 _
      (eq_some_getD _ (by decide))⟩

/-- C25 fails: after a sell and a buy that fill each other, the store holds the sell
`id-0` as `filled`; `CancelOrder` of the service with this id returns no error and the
store then holds the order as `cancelled`. -/
theorem C25_counterexample :
    (serviceC25.orderRows.map fun row => (row.ID, row.Status, row.FilledBase)) =
      [("id-0", "filled", "500"), ("id-1", "filled", "500")] ∧
    ((OrderService.CancelOrder toyOutside serviceC25 "id-0").map fun r => r.2) = some none ∧
    ((OrderService.CancelOrder toyOutside serviceC25 "id-0").map fun r =>
      r.1.orderRows.map fun row => (row.ID, row.Status, row.FilledBase)) =
      some [("id-0", "cancelled", "500"), ("id-1", "filled", "500")] :=
  ⟨by decide, by decide, by decide⟩

/-- C25, amended: in a book reached from the empty book by calls that add orders with a
status other than `Cancelled`, an order that is `Filled` or `Cancelled` is not written by
any later `AddOrder` or `CancelOrder` of the book: its status and its `FilledBase` stay.
`CancelOrder` of the service with the id of a stored order returns when the book of the
pair satisfies the invariant of the book; it leaves the stored `FilledBase` of the order
the same number; it leaves the stored row as it is when it returns an error, and sets the
stored status to `cancelled` when it returns none, whatever the status was. -/
theorem C25_done_orders_amended (orders : Nat → Order) (cs1 cs2 : List Call) (w w2 : World)
    (a : Nat) (out : Outside) (s : Service) (id : String) (row : orderRow)
    (hcs : ∀ o, Call.add o ∈ cs1 ++ cs2 → o.Status ≠ OrderStatusCancelled)
    (h1 : (World.init orders).run cs1 = some w) (h2 : w.run cs2 = some w2) (ha : a < w.next)
    (hd : (w.ob.orders a).Status = OrderStatusFilled ∨
      (w.ob.orders a).Status = OrderStatusCancelled)
    (hfind : s.orderRows.find? (fun x => x.ID = id) = some row) :
    ((w2.ob.orders a).Status = (w.ob.orders a).Status ∧
      (w2.ob.orders a).FilledBase = (w.ob.orders a).FilledBase) ∧
    (∀ N, BookInv (s.bookOf row.Pair) N → ∃ r, OrderService.CancelOrder out s id = some r) ∧
    ∀ s1 r, OrderService.CancelOrder out s id = some (s1, r) →
      ∃ row1, s1.orderRows.find? (fun x => x.ID = id) = some row1 ∧
        parseBigInt row1.FilledBase = parseBigInt row.FilledBase ∧
        (r = none → row1.Status = OrderStatusCancelled) ∧ (r ≠ none → row1 = row) := by
  obtain ⟨hinv, hn⟩ := World.reach_noneCancelled
    (fun o ho => hcs o (List.mem_append_left _ ho)) h1
  have hsame := World.run_done cs2 w w2 hinv hn
    (fun o ho => hcs o (List.mem_append_right _ ho)) h2 a ha hd
  exact ⟨⟨by rw [hsame], by rw [hsame]⟩,
    fun N hb => serviceCancel_total out s id hfind hb,
    fun s1 r hret => serviceCancel_row hfind hret⟩

theorem C25_witness :
    ((worldC7.ob.orders 0).Status = OrderStatusFilled ∧
      (serviceC25.orderRows.map fun row => (row.ID, row.Status)) =
        [("id-0", "filled"), ("id-1", "filled")] ∧
      (worldC7.run callsC25).isSome = true ∧
      (OrderService.CancelOrder toyOutside serviceC25 "id-0").isSome = true) ∧
    ((worldC25.ob.orders 0).Status = (worldC7.ob.orders 0).Status ∧
      (worldC25.ob.orders 0).FilledBase = (worldC7.ob.orders 0).FilledBase) ∧
    ∃ row1, ((OrderService.CancelOrder toyOutside serviceC25 "id-0").getD
        (serviceC25, none)).1.orderRows.find? (fun x => x.ID = "id-0") = some row1 ∧
      parseBigInt row1.FilledBase = parseBigInt
        ((serviceC25.orderRows.find? (fun x => x.ID = "id-0")).getD default).FilledBase ∧
      (((OrderService.CancelOrder toyOutside serviceC25 "id-0").getD (serviceC25, none)).2 = none →
        row1.Status = OrderStatusCancelled) ∧
      (((OrderService.CancelOrder toyOutside serviceC25 "id-0").getD (serviceC25, none)).2 ≠ none →
        row1 = (serviceC25.orderRows.find? (fun x => x.ID = "id-0")).getD default) :=
  ⟨⟨by decide, by decide, by decide, by decide⟩,
    (C25_done_orders_amended (fun _ => order0) callsC7 callsC25 worldC7 worldC25 0 toyOutside
      serviceC25 "id-0" ((serviceC25.orderRows.find? (fun x => x.ID = "id-0")).getD default)
      (by
        intro o ho
        simp only [callsC7, callsC25, List.cons_append, List.nil_append, List.mem_cons,
          Call.add.injEq, List.mem_singleton, List.not_mem_nil, or_false, false_or] at ho
        rcases ho with rfl | rfl | h | rfl
        · decide
        · decide
        · exact absurd h (by simp)
        · decide)
      (eq_some_getD _ (by decide)) (eq_some_getD _ (by decide)) (by decide) (Or.inl (by decide))
      (eq_some_getD default (by decide))).1,
    (C25_done_orders_amended (fun _ => order0) callsC7 callsC25 worldC7 worldC25 0 toyOutside
      serviceC25 "id-0" ((serviceC25.orderRows.find? (fun x => x.ID = "id-0")).getD default)
      (by
        intro o ho
        simp only [callsC7, callsC25, List.cons_append, List.nil_append, List.mem_cons,
          Call.add.injEq, List.mem_singleton, List.not_mem_nil, or_false, false_or] at ho
        rcases ho with rfl | rfl | h | rfl
        · decide
        · decide
        · exact absurd h (by simp)
        · decide)
      (eq_some_getD _ (by decide)) (eq_some_getD _ (by decide)) (by decide) (Or.inl (by decide))
      (eq_some_getD default (by decide))).2.2
      ((OrderService.CancelOrder toyOutside serviceC25 "id-0").getD (serviceC25, none)).1
      ((OrderService.CancelOrder toyOutside serviceC25 "id-0").getD (serviceC25, none)).2
      (eq_some_getD (serviceC25, none) (by decide))⟩

/-- C26: the row that `OrderRepo.Create` writes for an order is read back by `rowToOrder`
without an error, as an order with the same id, maker, tokenSell, tokenBuy, amountSell,
amountBuy, expiry, nonce, salt, signature, side, status, filledBase and pair: it is the
order itself.  The same holds for every row that holds the decimal texts of the order and,
in its two `int64` columns, `Expiry` and `Nonce` up to a multiple of `2 ^ 64`.
`OrderRepo.Create` has a row for every order whose `Expiry` and `Nonce` are below
`2 ^ 63`; `database/sql` does not pass a larger `uint64` to the database. -/
theorem C26_persistence_round_trip (order : Order) :
    (∀ row, orderRowOf order = .ok row →
      row.AmountSell = bigIntString order.AmountSell ∧
      row.Expiry = (order.Expiry : Int) ∧ row.Side = order.Side ∧
      row.Status = order.Status ∧
      ∃ back, rowToOrder row = .ok back ∧ back = order ∧
        back.ID = order.ID ∧ back.Maker = order.Maker ∧ back.TokenSell = order.TokenSell ∧
        back.TokenBuy = order.TokenBuy ∧ back.AmountSell = order.AmountSell ∧
        back.AmountBuy = order.AmountBuy ∧ back.Expiry = order.Expiry ∧
        back.Nonce = order.Nonce ∧ back.Salt = order.Salt ∧
        back.Signature = order.Signature ∧ back.Side = order.Side ∧
        back.Status = order.Status ∧ back.FilledBase = order.FilledBase ∧
        back.Pair = order.Pair) ∧
    (∀ expiry nonce : Int, expiry % 2 ^ 64 = (order.Expiry : Int) →
      nonce % 2 ^ 64 = (order.Nonce : Int) →
      rowToOrder (order.toRow expiry nonce) = .ok order) ∧
    (order.Expiry < 2 ^ 63 → order.Nonce < 2 ^ 63 → ∃ row, orderRowOf order = .ok row) := by
  have hgen : ∀ expiry nonce : Int, expiry % 2 ^ 64 = (order.Expiry : Int) →
      nonce % 2 ^ 64 = (order.Nonce : Int) →
      rowToOrder (order.toRow expiry nonce) = .ok order := by
    intro expiry nonce he hn
    unfold rowToOrder parseBigInt Order.toRow
    simp only [SetString10_bigIntString, he, hn, Int.toNat_ofNat]
  refine ⟨?_, hgen, ?_⟩
  · intro row hrow
    unfold orderRowOf at hrow
    split at hrow
    · exact absurd hrow (by simp)
    · rename_i hlt
      split at hrow
      · exact absurd hrow (by simp)
      rename_i hlt2
      simp only [Except.ok.injEq] at hrow
      subst hrow
      exact ⟨rfl, rfl, rfl, rfl, order, hgen _ _ (by omega) (by omega), rfl, rfl, rfl, rfl,
        rfl, rfl, rfl, rfl, rfl, rfl, rfl, rfl, rfl, rfl, rfl⟩
  · intro h1 h2
    unfold orderRowOf
    rw [if_neg (by omega), if_neg (by omega)]
    exact ⟨_, rfl⟩

theorem C26_witness :
    (orderRowOf orderC26 = .ok rowC26 ∧ rowC26.Salt = "-12345" ∧
      rowC26.AmountSell = "1000000000000000000000000000000") ∧
    ∃ back, rowToOrder rowC26 = .ok back ∧ back = orderC26 :=
  ⟨⟨rfl, by decide, by decide⟩,
    match ((C26_persistence_round_trip orderC26).1 rowC26 rfl).2.2.2.2 with
    | ⟨back, hb, heq, _⟩ => ⟨back, hb, heq⟩⟩

/-- C27: the sends that `Run` makes are one for every job it takes, in the order of the
jobs, each on the `Result` channel of its job and carrying the result of `settle` for its
match.  For every job taken, that result has a nil `Err` exactly when the six requests
(encoding, nonce, gas price, signing, sending, waiting for the receipt) all succeed and
the receipt has the status successful, and then `TxHash` is the hash of the signed
transaction; otherwise `Err` is not nil and `TxHash` is empty.  The requests made are the
first ones of the six, in their order: all but the last one made have succeeded, and
when fewer than six are made the last one made has failed. -/
theorem C27_one_result_per_job (client : Client) (orders : Nat → Order)
    (evs : List WorkerEvent) :
    Run client orders evs = (jobsTaken evs).map
      (fun jc => (jc.1.Result, (settle jc.2 client orders jc.1.Match).2)) ∧
    (Run client orders evs).length = (jobsTaken evs).length ∧
    ∀ jc ∈ jobsTaken evs,
      (((settle jc.2 client orders jc.1.Match).2.Err = none ↔
        (∀ st ∈ settleSteps, stepOK jc.2 client orders jc.1.Match st) ∧
        ∃ signedTx receipt, signedOf jc.2 client orders jc.1.Match = some signedTx ∧
          jc.2.WaitMined signedTx = .ok receipt ∧ receipt.Status = ReceiptStatusSuccessful) ∧
      ((settle jc.2 client orders jc.1.Match).2.Err = none →
        ∃ signedTx, signedOf jc.2 client orders jc.1.Match = some signedTx ∧
          (settle jc.2 client orders jc.1.Match).2.TxHash = jc.2.HashHex signedTx) ∧
      ((settle jc.2 client orders jc.1.Match).2.Err ≠ none →
        (settle jc.2 client orders jc.1.Match).2.TxHash = "")) ∧
      (settle jc.2 client orders jc.1.Match).1 <+: settleSteps ∧
      (∀ st ∈ (settle jc.2 client orders jc.1.Match).1.dropLast,
        stepOK jc.2 client orders jc.1.Match st) ∧
      ((settle jc.2 client orders jc.1.Match).1 ≠ settleSteps →
        ∃ st, (settle jc.2 client orders jc.1.Match).1.getLast? = some st ∧
          ¬ stepOK jc.2 client orders jc.1.Match st) := by
  refine ⟨Run_jobsTaken client orders evs, ?_, ?_⟩
  · rw [Run_jobsTaken, List.length_map]
  · intro jc _
    exact settle_cases jc.2 client orders jc.1.Match

theorem C27_witness :
    ((Run clientT (fun _ => order0) eventsC27).map fun cr => (cr.1, cr.2.Err, cr.2.TxHash.length)) =
      [(0, some (.gasPriceFailed "no gas price"), 0), (1, none, 66)] ∧
    ((eventsC27.map fun e => match e with
      | .job j chain => (settle chain clientT (fun _ => order0) j.Match).1.length
      | _ => 0) = [3, 6, 0, 6]) ∧
    (Run clientT (fun _ => order0) eventsC27).length = (jobsTaken eventsC27).length :=
  ⟨by decide, by decide, (C27_one_result_per_job clientT (fun _ => order0) eventsC27).2.1⟩


/-- C28: a sequence of `AddOrder` and `CancelOrder` calls from the empty book, with orders of
positive amounts and `FilledBase = 0`, returns after every call (every prefix of the
sequence), and in the book it leaves every resting buy has a `Price()` strictly below the
`Price()` of every resting sell: the highest bid is below the lowest ask. -/
theorem C28_book_never_rests_crossed (orders : Nat → Order) (cs : List Call)
    (hcs : ∀ o, Call.add o ∈ cs → 0 < o.AmountSell ∧ 0 < o.AmountBuy ∧ o.FilledBase = 0) :
    ∀ cs1, cs1 <+: cs → ∃ w, (World.init orders).run cs1 = some w ∧
      ∀ b ∈ w.ob.buys, ∀ s ∈ w.ob.sells, ∃ pb ps,
        (w.ob.orders (w.ob.entries b).Order).Price = some pb ∧
        (w.ob.orders (w.ob.entries s).Order).Price = some ps ∧ pb < ps := by
  intro cs1 hpre
  have hcs1 : ∀ o, Call.add o ∈ cs1 →
      (o.AmountSell ≠ 0 ∨ o.AmountBuy ≠ 0) ∧ 0 ≤ o.FilledBase := by
    intro o ho
    obtain ⟨h1, _, h3⟩ := hcs o (hpre.subset ho)
    exact ⟨Or.inl (ne_of_gt h1), le_of_eq h3.symm⟩
  obtain ⟨w, hw⟩ := World.run_total cs1 (World.init orders) (World.init_inv orders)
    (fun a ha => absurd ha (by simp [World.init])) hcs1
  obtain ⟨hinv, hu⟩ := World.reach_uncrossed hw
  refine ⟨w, hw, ?_⟩
  intro b hb s hs
  obtain ⟨pb, hpb⟩ := hinv.buys.priced b hb
  obtain ⟨ps, hps⟩ := hinv.sells.priced s hs
  simp only [OrderBook.buyHeap, OrderBook.sellHeap] at hpb hps
  refine ⟨pb, ps, hpb, hps, ?_⟩
  have := hu b hb s hs
  rw [priceD_of_some hpb, priceD_of_some hps] at this
  exact this

theorem C28_witness :
    (worldC28.ob.buys.length = 1 ∧ worldC28.ob.sells.length = 1 ∧
      (World.init fun _ => order0).run callsC28 = some worldC28) ∧
    ∀ cs1, cs1 <+: callsC28 → ∃ w, (World.init fun _ => order0).run cs1 = some w ∧
      ∀ b ∈ w.ob.buys, ∀ s ∈ w.ob.sells, ∃ pb ps,
        (w.ob.orders (w.ob.entries b).Order).Price = some pb ∧
        (w.ob.orders (w.ob.entries s).Order).Price = some ps ∧ pb < ps :=
  ⟨⟨by decide, by decide, eq_some_getD _ (by decide)⟩,
    C28_book_never_rests_crossed (fun _ => order0) callsC28
      (by
        intro o ho
        simp only [callsC28, List.mem_cons, Call.add.injEq, List.mem_singleton,
          List.not_mem_nil, or_false] at ho
        rcases ho with rfl | rfl <;> decide)⟩

/-- C29: in a book reached from the empty book, whenever `AddOrder` of a new order returns,
it returns at most as many matches as orders rested on the other side; the maker of every
match but the last is `Filled` and no entry of the book points to it any more; and among
the orders that rest afterwards at most one has been filled by this call.  When the orders
have been added with `0 ≤ FilledBase` and the new order has a price and `0 ≤ FilledBase`,
`AddOrder` does return (the matching loop ends within `len + 1` iterations), and a resting
order that this call has filled is `PartiallyFilled`. -/
theorem C29_matching_loop_bounded (orders : Nat → Order) (cs : List Call) (w : World) (o : Order)
    (hw : (World.init orders).run cs = some w) :
    (∀ ob2 ms,
      AddOrder { w.ob with orders := Function.update w.ob.orders w.next o } w.next =
        some (ob2, ms) →
      ms.length ≤ (w.ob.opp (decide (o.Side = SideBuy))).length ∧
      (∀ i m, ms[i]? = some m → i + 1 < ms.length →
        (ob2.orders (m.maker (decide (o.Side = SideBuy)))).Status = OrderStatusFilled ∧
        ∀ e ∈ ob2.buys ++ ob2.sells,
          (ob2.entries e).Order ≠ m.maker (decide (o.Side = SideBuy))) ∧
      (∀ a b, (∃ e ∈ ob2.buys ++ ob2.sells, (ob2.entries e).Order = a) →
        (∃ e ∈ ob2.buys ++ ob2.sells, (ob2.entries e).Order = b) →
        (ob2.orders a).FilledBase ≠ (Function.update w.ob.orders w.next o a).FilledBase →
        (ob2.orders b).FilledBase ≠ (Function.update w.ob.orders w.next o b).FilledBase →
        a = b)) ∧
    ((∀ o1, Call.add o1 ∈ cs → 0 ≤ o1.FilledBase) → (o.AmountSell ≠ 0 ∨ o.AmountBuy ≠ 0) →
      0 ≤ o.FilledBase →
      ∃ ob2 ms,
        AddOrder { w.ob with orders := Function.update w.ob.orders w.next o } w.next =
          some (ob2, ms) ∧
        ∀ a, (∃ e ∈ ob2.buys ++ ob2.sells, (ob2.entries e).Order = a) →
          (ob2.orders a).FilledBase ≠ (Function.update w.ob.orders w.next o a).FilledBase →
          (ob2.orders a).Status = OrderStatusPartiallyFilled) := by
  have hinv : BookInv w.ob w.next := World.run_inv (World.init_inv orders) hw
  have hinvA := hinv.alloc o
  constructor
  · intro ob2 ms ha
    obtain ⟨h1, h2, h3⟩ := AddOrder_shape hinvA (le_refl _) ha
    simp only [Function.update_same] at h1 h2 h3
    exact ⟨h1, h2, h3⟩
  · intro hcs ho hF
    obtain ⟨_, hnn⟩ := World.reach_nonneg hcs hw
    obtain ⟨⟨ob2, ms⟩, ha⟩ := World.add_total hinv hnn o ho hF
    refine ⟨ob2, ms, ha, ?_⟩
    intro a hin hne
    refine AddOrder_partly hinvA (le_refl _) ha a hin ?_ hne
    simp only []
    by_cases hau : a = w.next
    · subst hau
      rw [Function.update_same]
      exact hF
    · rw [Function.update_noteq hau]
      obtain ⟨e, he, rfl⟩ := hin
      have := (hinvA.addOrder (le_refl _) ha).bound e he
      exact hnn _ (by omega)

theorem C29_witness :
    ((resultC4.2.map fun m => (m.SellOrder, m.FillAmount)) = [(1, 100), (2, 100), (0, 50)] ∧
      (worldC4.ob.opp (decide (buyC4.Side = SideBuy))).length = 3 ∧
      (World.init fun _ => order0).run callsC4 = some worldC4) ∧
    resultC4.2.length ≤ (worldC4.ob.opp (decide (buyC4.Side = SideBuy))).length ∧
    (∀ i m, resultC4.2[i]? = some m → i + 1 < resultC4.2.length →
      (resultC4.1.orders (m.maker (decide (buyC4.Side = SideBuy)))).Status = OrderStatusFilled ∧
      ∀ e ∈ resultC4.1.buys ++ resultC4.1.sells,
        (resultC4.1.entries e).Order ≠ m.maker (decide (buyC4.Side = SideBuy))) ∧
    ∃ ob2 ms,
      AddOrder { worldC4.ob with orders := Function.update worldC4.ob.orders worldC4.next buyC4 }
        worldC4.next = some (ob2, ms) ∧
      ∀ a, (∃ e ∈ ob2.buys ++ ob2.sells, (ob2.entries e).Order = a) →
        (ob2.orders a).FilledBase ≠
          (Function.update worldC4.ob.orders worldC4.next buyC4 a).FilledBase →
        (ob2.orders a).Status = OrderStatusPartiallyFilled :=
  ⟨⟨by decide, by decide, eq_some_getD _ (by decide)⟩,
    ((C29_matching_loop_bounded (fun _ => order0) callsC4 worldC4 buyC4
      (eq_some_getD _ (by decide))).1 resultC4.1 resultC4.2
      (eq_some_getD (worldC4.ob, []) (by decide))).1,
    ((C29_matching_loop_bounded (fun _ => order0) callsC4 worldC4 buyC4
      (eq_some_getD _ (by decide))).1 resultC4.1 resultC4.2
      (eq_some_getD (worldC4.ob, []) (by decide))).2.1,
    (C29_matching_loop_bounded (fun _ => order0) callsC4 worldC4 buyC4
      (eq_some_getD _ (by decide))).2
      (by
        intro o ho
        simp only [callsC4, List.mem_cons, Call.add.injEq, List.mem_singleton,
          List.not_mem_nil, or_false] at ho
        rcases ho with rfl | rfl | rfl <;> decide)
      (by decide) (by decide)⟩

/-- C30: in a book reached from the empty book by calls that add orders with
`0 ≤ FilledBase`, every resting sell has `AmountSell > 0` and every resting buy has
`AmountBuy > 0`; and `AddOrder` of a new order with `AmountSell > 0`, `AmountBuy > 0` and
`0 ≤ FilledBase` returns, so that no `Quo` and no `Div` it evaluates panics, and in every
match it returns the buy order has `AmountBuy > 0` (the divisor of its `Price()`) and the
sell order has `AmountSell > 0` (the divisor of its `Price()` and of `QuoteAmount`). -/
theorem C30_division_safety (orders : Nat → Order) (cs : List Call) (w : World) (o : Order)
    (hcs : ∀ o1, Call.add o1 ∈ cs → 0 ≤ o1.FilledBase)
    (hw : (World.init orders).run cs = some w)
    (hAS : 0 < o.AmountSell) (hAB : 0 < o.AmountBuy) (hF : 0 ≤ o.FilledBase) :
    (∀ e ∈ w.ob.sells, 0 < (w.ob.orders (w.ob.entries e).Order).AmountSell) ∧
    (∀ e ∈ w.ob.buys, 0 < (w.ob.orders (w.ob.entries e).Order).AmountBuy) ∧
    ∃ ob2 ms,
      AddOrder { w.ob with orders := Function.update w.ob.orders w.next o } w.next =
        some (ob2, ms) ∧
      (∀ m ∈ ms, 0 < (ob2.orders m.BuyOrder).AmountBuy ∧ 0 < (ob2.orders m.SellOrder).AmountSell) ∧
      (∀ e ∈ ob2.sells, 0 < (ob2.orders (ob2.entries e).Order).AmountSell) ∧
      (∀ e ∈ ob2.buys, 0 < (ob2.orders (ob2.entries e).Order).AmountBuy) := by
  obtain ⟨hinv, hnn⟩ := World.reach_nonneg hcs hw
  obtain ⟨hs, hb⟩ := hinv.divisors hnn
  obtain ⟨⟨ob2, ms⟩, ha⟩ := World.add_total hinv hnn o (Or.inl (ne_of_gt hAS)) hF
  have hinvA := hinv.alloc o
  have hfro := (AddOrder_accounts hinvA (le_refl _) ha).1
  simp only [] at hfro
  have hold : ∀ a, a < w.next → Function.update w.ob.orders w.next o a = w.ob.orders a :=
    fun a ha => Function.update_noteq (by omega) _ _
  have hnn2 : ∀ a, a < w.next + 1 → 0 ≤ (ob2.orders a).FilledBase := by
    intro a ha1
    refine le_trans ?_ (AddOrder_filled_le ha a)
    simp only []
    by_cases hau : a = w.next
    · subst hau; rw [Function.update_same]; exact hF
    · rw [Function.update_noteq hau]; exact hnn a (by omega)
  obtain ⟨hs2, hb2⟩ := (hinvA.addOrder (le_refl _) ha).divisors hnn2
  refine ⟨hs, hb, ob2, ms, ha, ?_, hs2, hb2⟩
  intro m hm
  have href := AddOrder_refs hinvA (le_refl _) ha m hm
  simp only [Function.update_same] at href
  rw [(frozen_fields (hfro m.BuyOrder)).2.2.2.1, (frozen_fields (hfro m.SellOrder)).2.2.1]
  by_cases hside : o.Side = SideBuy
  · rw [if_pos hside] at href
    obtain ⟨h1, e, he, h2⟩ := href
    have hlt : (w.ob.entries e).Order < w.next := hinv.sells.bound e he
    rw [h1, ← h2, Function.update_same, hold _ hlt]
    exact ⟨hAB, hs e he⟩
  · rw [if_neg hside] at href
    obtain ⟨h1, e, he, h2⟩ := href
    have hlt : (w.ob.entries e).Order < w.next := hinv.buys.bound e he
    rw [h1, ← h2, Function.update_same, hold _ hlt]
    exact ⟨hb e he, hAS⟩

theorem C30_witness :
    (worldC7.ob.buys.length = 1 ∧ 0 < buyC4.AmountSell) ∧
    (∀ e ∈ worldC7.ob.sells, 0 < (worldC7.ob.orders (worldC7.ob.entries e).Order).AmountSell) ∧
    (∀ e ∈ worldC7.ob.buys, 0 < (worldC7.ob.orders (worldC7.ob.entries e).Order).AmountBuy) ∧
    ∃ ob2 ms,
      AddOrder { worldC7.ob with orders := Function.update worldC7.ob.orders worldC7.next buyC4 }
        worldC7.next = some (ob2, ms) ∧
      (∀ m ∈ ms, 0 < (ob2.orders m.BuyOrder).AmountBuy ∧ 0 < (ob2.orders m.SellOrder).AmountSell) ∧
      (∀ e ∈ ob2.sells, 0 < (ob2.orders (ob2.entries e).Order).AmountSell) ∧
      (∀ e ∈ ob2.buys, 0 < (ob2.orders (ob2.entries e).Order).AmountBuy) :=
  ⟨by decide,
    C30_division_safety (fun _ => order0) callsC7 worldC7 buyC4
      (by
        intro o ho
        simp only [callsC7, List.mem_cons, Call.add.injEq, List.mem_singleton,
          List.not_mem_nil, or_false] at ho
        rcases ho with rfl | rfl <;> decide)
      (eq_some_getD _ (by decide)) (by decide) (by decide) (by decide)⟩

end Nexus
